import Mathlib

/-!
# Ledger core of nano-node: block validation, application and rollback

A shallow embedding of `nano/secure/ledger.cpp`.

* 256-bit hashes and accounts, 128-bit amounts and 64-bit heights are natural
  numbers; 128-bit arithmetic is written with an explicit reduction modulo
  `2 ^ 128`.
* The block store, the block classes, the representative-weight cache and the
  cryptographic primitives are collaborators whose code lives outside
  `ledger.cpp`; they are modelled from the specification (section 6) and are
  marked as such.  Pure configuration (hash function, signature predicate,
  epoch table, clock) is a parameter, `Env`.
* `assert` is compiled out (release build); dereferencing a null block
  pointer, reading a variable that was never written, and a failed
  `release_assert` are faults: the embedded function returns `none`
  (respectively `Res.fault`).
-/

namespace nano

/-! ## Primitive types -/

abbrev Hash := Nat
abbrev Account := Nat
abbrev Amount := Nat
abbrev Signature := Nat

/-- The modulus of 128-bit amounts, `2 ^ 128`. -/
def two128 : Nat := 340282366920938463463374607431768211456

/-- Addition of `uint128_t` values. -/
def add128 (a b : Amount) : Amount := (a + b) % two128

/-- Subtraction of `uint128_t` values (wraps around below zero). -/
def sub128 (a b : Amount) : Amount := (a + (two128 - b % two128)) % two128

/-- Modelled from the spec: the enumeration `nano::epoch` (section 3, "small
enumeration, totally ordered"); the declaration is in `nano/secure/epoch.hpp`. -/
inductive epoch where
  | epoch_0
  | epoch_1
  | epoch_2
  deriving DecidableEq, Repr

/-- Position of an epoch in the enumeration. -/
def epoch.rank : epoch → Nat
  | .epoch_0 => 0
  | .epoch_1 => 1
  | .epoch_2 => 2

/-- The order `<` on epochs. -/
def epoch.lt (a b : epoch) : Bool := decide (a.rank < b.rank)

/-- The larger of two epochs, `std::max`. -/
def epoch.max (a b : epoch) : epoch := if a.lt b then b else a

/-- Modelled from the spec: `nano::block_type`, in declaration order (the
rollback code compares `type () < block_type::state`). -/
inductive block_type where
  | invalid
  | not_a_block
  | send
  | receive
  | open_
  | change
  | state
  deriving DecidableEq, Repr

/-- Numeric value of a block type. -/
def block_type.rank : block_type → Nat
  | .invalid => 0
  | .not_a_block => 1
  | .send => 2
  | .receive => 3
  | .open_ => 4
  | .change => 5
  | .state => 6

inductive process_result where
  | progress
  | bad_signature
  | old
  | negative_spend
  | fork
  | unreceivable
  | gap_previous
  | gap_source
  | opened_burn_account
  | balance_mismatch
  | representative_mismatch
  | block_position
  deriving DecidableEq, Repr

inductive signature_verification where
  | unknown
  | invalid
  | valid
  | valid_epoch
  deriving DecidableEq, Repr

/-! ## Blocks (modelled from the spec, section 3) -/

structure send_block where
  previous : Hash
  destination : Account
  balance : Amount
  signature : Signature
  deriving DecidableEq, Repr

structure receive_block where
  previous : Hash
  source : Hash
  signature : Signature
  deriving DecidableEq, Repr

structure open_block where
  source : Hash
  representative : Account
  account : Account
  signature : Signature
  deriving DecidableEq, Repr

structure change_block where
  previous : Hash
  representative : Account
  signature : Signature
  deriving DecidableEq, Repr

structure state_block where
  account : Account
  previous : Hash
  representative : Account
  balance : Amount
  link : Hash
  signature : Signature
  deriving DecidableEq, Repr

/-- The tagged variant `nano::block`. -/
inductive block where
  | send (b : send_block)
  | receive (b : receive_block)
  | open_ (b : open_block)
  | change (b : change_block)
  | state (b : state_block)
  deriving DecidableEq, Repr

/-- Modelled from the spec: `block::type ()`. -/
def block.type : block → block_type
  | .send _ => .send
  | .receive _ => .receive
  | .open_ _ => .open_
  | .change _ => .change
  | .state _ => .state

/-- Modelled from the spec: `block::previous ()`, zero for an open block. -/
def block.previous : block → Hash
  | .send b => b.previous
  | .receive b => b.previous
  | .open_ _ => 0
  | .change b => b.previous
  | .state b => b.previous

/-- Modelled from the spec: `block::source ()`, zero unless receive or open. -/
def block.source : block → Hash
  | .receive b => b.source
  | .open_ b => b.source
  | _ => 0

/-- Modelled from the spec: `block::representative ()`, zero for the variants
that carry none (send, receive). -/
def block.representative : block → Account
  | .open_ b => b.representative
  | .change b => b.representative
  | .state b => b.representative
  | _ => 0

/-- Modelled from the spec: `block::account ()`, zero unless open or state. -/
def block.account : block → Account
  | .open_ b => b.account
  | .state b => b.account
  | _ => 0

/-- Modelled from the spec: `valid_predecessor` of the legacy variants, "previous
must be a legacy variant" (section 4.1.1). -/
def valid_predecessor (previous : block) : Bool :=
  match previous.type with
  | .send => true
  | .receive => true
  | .open_ => true
  | .change => true
  | _ => false

/-! ## Store rows -/

structure block_sideband where
  type : block_type
  account : Account
  successor : Hash
  balance : Amount
  height : Nat
  timestamp : Nat
  deriving DecidableEq, Repr

/-- A default-constructed sideband. -/
def block_sideband.default : block_sideband :=
  { type := .invalid, account := 0, successor := 0, balance := 0, height := 0, timestamp := 0 }

structure account_info where
  head : Hash
  representative : Account
  open_block : Hash
  deriving DecidableEq, Repr

/-- A default-constructed `account_info`: all fields zero. -/
def account_info.default : account_info :=
  { head := 0, representative := 0, open_block := 0 }

structure pending_key where
  account : Account
  hash : Hash
  deriving DecidableEq, Repr

structure pending_info where
  source : Account
  amount : Amount
  epoch : epoch
  deriving DecidableEq, Repr

/-- The value part of a pending row; the epoch is the table the row lives in. -/
structure pending_row where
  source : Account
  amount : Amount
  deriving DecidableEq, Repr

/-- A row of the `blocks` table: serialized block, sideband and epoch tag. -/
structure block_row where
  block : block
  sideband : block_sideband
  epoch : epoch
  deriving DecidableEq, Repr

/-! ## Finite maps -/

/-- A finite table: a list of rows, the first row of a key is the live one. -/
abbrev Map (K V : Type) := List (K × V)

namespace Map

variable {K V : Type} [DecidableEq K]

/-- Look a key up. -/
def get : Map K V → K → Option V
  | [], _ => none
  | (k, v) :: m, x => if k = x then some v else get m x

/-- Remove every row of a key. -/
def del : Map K V → K → Map K V
  | [], _ => []
  | (k, v) :: m, x => if k = x then del m x else (k, v) :: del m x

/-- Write the row of a key, replacing an earlier one. -/
def put (m : Map K V) (k : K) (v : V) : Map K V := (k, v) :: del m k

/-- The keys that have a row, each once. -/
def keys (m : Map K V) : List K := (m.map Prod.fst).dedup

/-- Whether a key has a row. -/
def contains (m : Map K V) (k : K) : Bool := (get m k).isSome

end Map

/-! ## The block store (modelled from the spec, section 6) -/

/-- Modelled from the spec: the logical tables of the block store (section 6);
the store implementation is not part of `ledger.cpp`. -/
structure Store where
  blocks : Map Hash block_row
  accounts_v0 : Map Account account_info
  accounts_v1 : Map Account account_info
  pending_v0 : Map pending_key pending_row
  pending_v1 : Map pending_key pending_row
  frontiers : Map Hash Account
  confirmation_height : Map Account Nat
  deriving DecidableEq, Repr

namespace Store

/-- Modelled from the spec: `block_get`, the row of a hash if there is one. -/
def block_get (s : Store) (h : Hash) : Option block_row := s.blocks.get h

/-- Modelled from the spec: `block_exists (hash)`. -/
def block_exists (s : Store) (h : Hash) : Bool := (s.block_get h).isSome

/-- Modelled from the spec: `block_exists (type, hash)`, a block of that
variant is stored under the hash. -/
def block_exists_type (s : Store) (t : block_type) (h : Hash) : Bool :=
  match s.block_get h with
  | some r => decide (r.block.type = t)
  | none => false

/-- Modelled from the spec: `source_exists`, the hash is a stored send or
state block. -/
def source_exists (s : Store) (h : Hash) : Bool :=
  s.block_exists_type .state h || s.block_exists_type .send h

/-- Modelled from the spec: the successor of the predecessor row is filled in
when the child arrives (section 3, Sideband); an open block has no
predecessor, a state block only when `previous` is not zero. -/
def block_predecessor_set (blocks : Map Hash block_row) (hash : Hash) (b : block) :
    Map Hash block_row :=
  let fill := fun (p : Hash) =>
    match blocks.get p with
    | some r => blocks.put p { r with sideband := { r.sideband with successor := hash } }
    | none => blocks
  match b with
  | .open_ _ => blocks
  | .state sb => if sb.previous = 0 then blocks else fill sb.previous
  | _ => fill b.previous

/-- Modelled from the spec: `block_put`, write block, sideband and epoch tag,
then link the predecessor to the new block. -/
def block_put (s : Store) (hash : Hash) (b : block) (sideband : block_sideband)
    (e : epoch) : Store :=
  let row : block_row := { block := b, sideband := sideband, epoch := e }
  { s with blocks := block_predecessor_set (s.blocks.put hash row) hash b }

/-- Modelled from the spec: `block_del`. -/
def block_del (s : Store) (h : Hash) : Store := { s with blocks := s.blocks.del h }

/-- Modelled from the spec: `block_successor_clear`, reset the successor of a
stored block to zero. -/
def block_successor_clear (s : Store) (h : Hash) : Store :=
  match s.blocks.get h with
  | some r =>
    { s with blocks := s.blocks.put h { r with sideband := { r.sideband with successor := 0 } } }
  | none => s

/-- Modelled from the spec: `block_successor`, zero when missing. -/
def block_successor (s : Store) (h : Hash) : Hash :=
  match s.block_get h with
  | some r => r.sideband.successor
  | none => 0

/-- The balance a stored row stands for: inline for send and state blocks,
in the sideband for receive, open and change (the same case split as
`account_state::balance`). -/
def row_balance (r : block_row) : Amount :=
  match r.block with
  | .send b => b.balance
  | .receive _ => r.sideband.balance
  | .open_ _ => r.sideband.balance
  | .change _ => r.sideband.balance
  | .state b => b.balance

/-- Modelled from the spec: `block_balance`, zero when missing. -/
def block_balance (s : Store) (h : Hash) : Amount :=
  match s.block_get h with
  | some r => row_balance r
  | none => 0

/-- Modelled from the spec: `block_account`, "account-owner via sideband",
zero when missing. -/
def block_account (s : Store) (h : Hash) : Account :=
  match s.block_get h with
  | some r => r.sideband.account
  | none => 0

/-- Modelled from the spec: `block_account_height`, zero when missing. -/
def block_account_height (s : Store) (h : Hash) : Nat :=
  match s.block_get h with
  | some r => r.sideband.height
  | none => 0

/-- Modelled from the spec: `block_version`, the epoch tag of a stored block,
`epoch_0` when missing. -/
def block_version (s : Store) (h : Hash) : epoch :=
  match s.block_get h with
  | some r => r.epoch
  | none => .epoch_0

/-- Modelled from the spec: `block_count`, the number of stored blocks. -/
def block_count (s : Store) : Nat := s.blocks.keys.length

/-- Modelled from the spec: `account_get` over the two epoch-partitioned
tables, the upgraded table first. -/
def account_get (s : Store) (a : Account) : Option account_info :=
  match s.accounts_v1.get a with
  | some i => some i
  | none => s.accounts_v0.get a

/-- Modelled from the spec: `account_exists`. -/
def account_exists (s : Store) (a : Account) : Bool := (s.account_get a).isSome

/-- Modelled from the spec: `account_put` writes into the table of the given
epoch only (section 9, dual-epoch tables). -/
def account_put (s : Store) (a : Account) (i : account_info) (e : epoch) : Store :=
  if e = .epoch_0 then { s with accounts_v0 := s.accounts_v0.put a i }
  else { s with accounts_v1 := s.accounts_v1.put a i }

/-- Modelled from the spec: `account_del` removes the row `account_get` finds. -/
def account_del (s : Store) (a : Account) : Store :=
  if s.accounts_v1.contains a then { s with accounts_v1 := s.accounts_v1.del a }
  else { s with accounts_v0 := s.accounts_v0.del a }

/-- Modelled from the spec: `pending_get`, the upgraded table first; the
epoch of the entry is the table it was found in. -/
def pending_get (s : Store) (k : pending_key) : Option pending_info :=
  match s.pending_v1.get k with
  | some r => some { source := r.source, amount := r.amount, epoch := .epoch_1 }
  | none =>
    match s.pending_v0.get k with
    | some r => some { source := r.source, amount := r.amount, epoch := .epoch_0 }
    | none => none

/-- Modelled from the spec: `pending_exists`. -/
def pending_exists (s : Store) (k : pending_key) : Bool := (s.pending_get k).isSome

/-- Modelled from the spec: `pending_put` writes into the table of the
entry's epoch. -/
def pending_put (s : Store) (k : pending_key) (i : pending_info) : Store :=
  if i.epoch = .epoch_0 then
    { s with pending_v0 := s.pending_v0.put k { source := i.source, amount := i.amount } }
  else
    { s with pending_v1 := s.pending_v1.put k { source := i.source, amount := i.amount } }

/-- Modelled from the spec: `pending_del` removes the row `pending_get` finds. -/
def pending_del (s : Store) (k : pending_key) : Store :=
  if s.pending_v1.contains k then { s with pending_v1 := s.pending_v1.del k }
  else { s with pending_v0 := s.pending_v0.del k }

/-- Modelled from the spec: `frontier_get`, the zero account when missing. -/
def frontier_get (s : Store) (h : Hash) : Account := (s.frontiers.get h).getD 0

/-- Modelled from the spec: `frontier_put`. -/
def frontier_put (s : Store) (h : Hash) (a : Account) : Store :=
  { s with frontiers := s.frontiers.put h a }

/-- Modelled from the spec: `frontier_del`. -/
def frontier_del (s : Store) (h : Hash) : Store :=
  { s with frontiers := s.frontiers.del h }

/-- Modelled from the spec: `confirmation_height_get`. -/
def confirmation_height_get (s : Store) (a : Account) : Option Nat :=
  s.confirmation_height.get a

/-- Modelled from the spec: `confirmation_height_exists`. -/
def confirmation_height_exists (s : Store) (a : Account) : Bool :=
  (s.confirmation_height.get a).isSome

/-- Modelled from the spec: `confirmation_height_put`. -/
def confirmation_height_put (s : Store) (a : Account) (h : Nat) : Store :=
  { s with confirmation_height := s.confirmation_height.put a h }

/-- Modelled from the spec: `confirmation_height_del`. -/
def confirmation_height_del (s : Store) (a : Account) : Store :=
  { s with confirmation_height := s.confirmation_height.del a }

end Store

/-! ## Representative weights (modelled from the spec, section 4.4) -/

/-- Modelled from the spec: `rep_weights::representation_get`, zero when the
account has no entry. -/
def representation_get (w : Map Account Amount) (a : Account) : Amount := (w.get a).getD 0

/-- Modelled from the spec: `rep_weights::representation_add`, the only
mutator: the entry becomes the old value plus the delta, in 128 bits. -/
def representation_add (w : Map Account Amount) (a : Account) (amount : Amount) :
    Map Account Amount :=
  w.put a (add128 (representation_get w a) amount)

/-! ## Configuration and the ledger object -/

/-- Network parameters and external primitives used by the ledger: block
hashing, `validate_message` (which returns `true` when the signature is NOT
valid, as in the source), the epoch table, the clock and the bootstrap weights. -/
structure Env where
  hash : block → Hash
  validate_message : Account → Hash → Signature → Bool
  is_epoch_link : Hash → Bool
  epochs_epoch : Hash → epoch
  epochs_signer : epoch → Account
  epochs_link : epoch → Hash
  burn_account : Account
  genesis_account : Account
  genesis_amount : Amount
  seconds_since_epoch : Nat
  bootstrap_weights : Map Account Amount
  bootstrap_weight_max_blocks : Nat

/-- The mutable state of `nano::ledger`: the store under the caller's write
transaction, the representative weights and the bootstrap flag. -/
structure ledger where
  store : Store
  rep_weights : Map Account Amount
  check_bootstrap_weights : Bool
  deriving DecidableEq, Repr

/-- The view `nano::account_state`: the account row and, when it is stored,
the row of the head block (block, sideband and epoch). -/
structure account_state where
  info_m : account_info
  row : Option block_row
  deriving DecidableEq, Repr

namespace account_state

/-- A default-constructed state (`{}` in `open_block` of the rollback). -/
def default : account_state := { info_m := account_info.default, row := none }

def head (st : account_state) : Hash := st.info_m.head

def rep (st : account_state) : Account := st.info_m.representative

def open_ (st : account_state) : Hash := st.info_m.open_block

/-- The value `account_state::balance ()`: zero without a block, otherwise by variant. -/
def balance (st : account_state) : Amount :=
  match st.row with
  | none => 0
  | some r => Store.row_balance r

/-- The value `account_state::block_count ()`, the height in the sideband (zero when
the sideband was never filled). -/
def block_count (st : account_state) : Nat :=
  match st.row with
  | none => 0
  | some r => r.sideband.height

/-- The value `account_state::epoch ()`, `block_m->epoch ()`: a fault when there is
no block. -/
def epoch (st : account_state) : Option nano.epoch := st.row.map (fun r => r.epoch)

end account_state

namespace ledger

/-- `ledger::account_state (transaction, account)`. -/
def account_state (l : ledger) (a : Account) : nano.account_state :=
  match l.store.account_get a with
  | some i => { info_m := i, row := l.store.block_get i.head }
  | none => nano.account_state.default

/-- `ledger::balance`. -/
def balance (l : ledger) (h : Hash) : Amount :=
  if h = 0 then 0 else l.store.block_balance h

/-- `ledger::account_balance`. -/
def account_balance (l : ledger) (a : Account) : Amount :=
  let state := l.account_state a
  if state.head ≠ 0 then state.balance else 0

/-- `ledger::account`. -/
def account (l : ledger) (h : Hash) : Account := l.store.block_account h

/-- `ledger::latest`. -/
def latest (l : ledger) (a : Account) : Hash :=
  match l.store.account_get a with
  | some i => i.head
  | none => 0

/-- `ledger::latest_root`. -/
def latest_root (l : ledger) (a : Account) : Hash :=
  match l.store.account_get a with
  | some i => i.head
  | none => a

/-- `ledger::is_epoch_link`. -/
def is_epoch_link (env : Env) (link : Hash) : Bool := env.is_epoch_link link

/-- `ledger::signer`. -/
def signer (env : Env) (link : Hash) : Account := env.epochs_signer (env.epochs_epoch link)

/-- `ledger::link`: the argument is ignored, as in the source. -/
def link (env : Env) (_epoch_a : epoch) : Hash := env.epochs_link .epoch_1

/-- `ledger::is_send`. -/
def is_send (l : ledger) (block_a : state_block) : Bool :=
  if block_a.previous ≠ 0 then decide (block_a.balance < l.balance block_a.previous) else false

/-- `ledger::change_latest`, on the store. -/
def change_latest (s : Store) (account_a : Account) (old_a : nano.account_state)
    (new_a : account_info) (new_epoch : epoch) : Option Store :=
  if new_a.head ≠ 0 then
    let s1 :=
      if old_a.head = 0 ∧ new_a.open_block = new_a.head then
        s.confirmation_height_put account_a 0
      else s
    if old_a.head ≠ 0 then
      match old_a.epoch with
      | none => none
      | some e =>
        let s2 := if e ≠ new_epoch then s1.account_del account_a else s1
        some (s2.account_put account_a new_a new_epoch)
    else
      some (s1.account_put account_a new_a new_epoch)
  else
    some ((s.confirmation_height_del account_a).account_del account_a)

end ledger

/-! ## The validator: `ledger_processor` -/

structure process_return where
  code : process_result
  account : Account
  amount : Amount
  pending_account : Account
  state_is_send : Option Bool
  verified : signature_verification
  deriving DecidableEq, Repr

/-- The result object of a freshly constructed `ledger_processor`: only
`verified` is set by the constructor, the other fields are written by the
visitor before they are read. -/
def process_return.init (verification : signature_verification) : process_return :=
  { code := .progress, account := 0, amount := 0, pending_account := 0,
    state_is_send := none, verified := verification }

namespace ledger_processor

/-- `ledger_processor::send_block`. -/
def send_block (env : Env) (l : ledger) (result : process_return) (block_a : nano.send_block) :
    Option (process_return × ledger) :=
  let hash := env.hash (.send block_a)
  let existing := l.store.block_exists_type .send hash
  if existing then some ({ result with code := .old }, l) else
  match l.store.block_get block_a.previous with
  | none => some ({ result with code := .gap_previous }, l)
  | some previous =>
  if ¬ valid_predecessor previous.block then some ({ result with code := .block_position }, l) else
  let account := l.store.frontier_get block_a.previous
  if account = 0 then some ({ result with code := .fork }, l) else
  if result.verified ≠ .valid ∧ env.validate_message account hash block_a.signature = true then
    some ({ result with code := .bad_signature }, l) else
  let result := { result with verified := .valid }
  let state := l.account_state account
  if ¬ (state.balance ≥ block_a.balance) then some ({ result with code := .negative_spend }, l) else
  let amount := sub128 state.balance block_a.balance
  let rep_weights := representation_add l.rep_weights state.rep (sub128 0 amount)
  let sideband : block_sideband :=
    { type := .send, account := account, successor := 0, balance := block_a.balance,
      height := state.block_count + 1, timestamp := env.seconds_since_epoch }
  let store1 := l.store.block_put hash (.send block_a) sideband .epoch_0
  let new_info : account_info :=
    { head := hash, representative := state.rep, open_block := state.open_ }
  match ledger.change_latest store1 account state new_info .epoch_0 with
  | none => none
  | some store2 =>
    let store3 := store2.pending_put { account := block_a.destination, hash := hash }
      { source := account, amount := amount, epoch := .epoch_0 }
    let store4 := store3.frontier_del block_a.previous
    let store5 := store4.frontier_put hash account
    some ({ result with code := .progress, account := account, amount := amount,
                        pending_account := block_a.destination },
          { l with store := store5, rep_weights := rep_weights })

/-- `ledger_processor::receive_block`. -/
def receive_block (env : Env) (l : ledger) (result : process_return)
    (block_a : nano.receive_block) : Option (process_return × ledger) :=
  let hash := env.hash (.receive block_a)
  let existing := l.store.block_exists_type .receive hash
  if existing then some ({ result with code := .old }, l) else
  match l.store.block_get block_a.previous with
  | none => some ({ result with code := .gap_previous }, l)
  | some previous =>
  if ¬ valid_predecessor previous.block then some ({ result with code := .block_position }, l) else
  let account := l.store.frontier_get block_a.previous
  if account = 0 then
    some ({ result with
              code := if l.store.block_exists block_a.previous then .fork else .gap_previous }, l)
  else
  if result.verified ≠ .valid ∧ env.validate_message account hash block_a.signature = true then
    some ({ result with code := .bad_signature }, l) else
  let result := { result with verified := .valid }
  if ¬ l.store.source_exists block_a.source then some ({ result with code := .gap_source }, l) else
  let state := l.account_state account
  if ¬ (state.head = block_a.previous) then some ({ result with code := .gap_previous }, l) else
  let key : pending_key := { account := account, hash := block_a.source }
  match l.store.pending_get key with
  | none => some ({ result with code := .unreceivable }, l)
  | some pending =>
  if ¬ (pending.epoch = .epoch_0) then some ({ result with code := .unreceivable }, l) else
  let new_balance := add128 state.balance pending.amount
  let store1 := l.store.pending_del key
  let sideband : block_sideband :=
    { type := .receive, account := account, successor := 0, balance := new_balance,
      height := state.block_count + 1, timestamp := env.seconds_since_epoch }
  let store2 := store1.block_put hash (.receive block_a) sideband .epoch_0
  let new_info : account_info :=
    { head := hash, representative := state.rep, open_block := state.open_ }
  match ledger.change_latest store2 account state new_info .epoch_0 with
  | none => none
  | some store3 =>
    let rep_weights := representation_add l.rep_weights state.rep pending.amount
    let store4 := store3.frontier_del block_a.previous
    let store5 := store4.frontier_put hash account
    some ({ result with code := .progress, account := account, amount := pending.amount },
          { l with store := store5, rep_weights := rep_weights })

/-- `ledger_processor::open_block`. -/
def open_block (env : Env) (l : ledger) (result : process_return) (block_a : nano.open_block) :
    Option (process_return × ledger) :=
  let hash := env.hash (.open_ block_a)
  let existing := l.store.block_exists_type .open_ hash
  if existing then some ({ result with code := .old }, l) else
  if result.verified ≠ .valid ∧
      env.validate_message block_a.account hash block_a.signature = true then
    some ({ result with code := .bad_signature }, l) else
  let result := { result with verified := .valid }
  if ¬ l.store.source_exists block_a.source then some ({ result with code := .gap_source }, l) else
  let state := l.account_state block_a.account
  if ¬ (state.head = 0) then some ({ result with code := .fork }, l) else
  let key : pending_key := { account := block_a.account, hash := block_a.source }
  match l.store.pending_get key with
  | none => some ({ result with code := .unreceivable }, l)
  | some pending =>
  if block_a.account = env.burn_account then
    some ({ result with code := .opened_burn_account }, l) else
  if ¬ (pending.epoch = .epoch_0) then some ({ result with code := .unreceivable }, l) else
  let store1 := l.store.pending_del key
  let sideband : block_sideband :=
    { type := .open_, account := block_a.account, successor := 0, balance := pending.amount,
      height := 1, timestamp := env.seconds_since_epoch }
  let store2 := store1.block_put hash (.open_ block_a) sideband .epoch_0
  let new_info : account_info :=
    { head := hash, representative := block_a.representative, open_block := hash }
  match ledger.change_latest store2 block_a.account state new_info .epoch_0 with
  | none => none
  | some store3 =>
    let rep_weights := representation_add l.rep_weights block_a.representative pending.amount
    let store4 := store3.frontier_put hash block_a.account
    some ({ result with code := .progress, account := block_a.account, amount := pending.amount },
          { l with store := store4, rep_weights := rep_weights })

/-- `ledger_processor::change_block`. -/
def change_block (env : Env) (l : ledger) (result : process_return)
    (block_a : nano.change_block) : Option (process_return × ledger) :=
  let hash := env.hash (.change block_a)
  let existing := l.store.block_exists_type .change hash
  if existing then some ({ result with code := .old }, l) else
  match l.store.block_get block_a.previous with
  | none => some ({ result with code := .gap_previous }, l)
  | some previous =>
  if ¬ valid_predecessor previous.block then some ({ result with code := .block_position }, l) else
  let account := l.store.frontier_get block_a.previous
  if account = 0 then some ({ result with code := .fork }, l) else
  let state := l.account_state account
  if result.verified ≠ .valid ∧ env.validate_message account hash block_a.signature = true then
    some ({ result with code := .bad_signature }, l) else
  let result := { result with verified := .valid }
  let sideband : block_sideband :=
    { type := .change, account := account, successor := 0, balance := state.balance,
      height := state.block_count + 1, timestamp := env.seconds_since_epoch }
  let store1 := l.store.block_put hash (.change block_a) sideband .epoch_0
  let balance := ledger.balance { l with store := store1 } block_a.previous
  let rep_weights1 := representation_add l.rep_weights block_a.representative balance
  let rep_weights2 := representation_add rep_weights1 state.rep (sub128 0 balance)
  let new_info : account_info :=
    { head := hash, representative := block_a.representative, open_block := state.open_ }
  match ledger.change_latest store1 account state new_info .epoch_0 with
  | none => none
  | some store2 =>
    let store3 := store2.frontier_del block_a.previous
    let store4 := store3.frontier_put hash account
    some ({ result with code := .progress, account := account, amount := 0 },
          { l with store := store4, rep_weights := rep_weights2 })

/-- The mutations of `state_block_impl` once every check has passed (the body
of the last `if (result.code == progress)` of the function). -/
def state_block_apply (env : Env) (l : ledger) (result : process_return)
    (block_a : nano.state_block) (state : nano.account_state) (epoch : nano.epoch)
    (is_send : Bool) : Option (process_return × ledger) :=
  let hash := env.hash (.state block_a)
  let result := { result with state_is_send := some is_send }
  let sideband : block_sideband :=
    { type := .state, account := block_a.account, successor := 0, balance := 0,
      height := state.block_count + 1, timestamp := env.seconds_since_epoch }
  let store1 := l.store.block_put hash (.state block_a) sideband epoch
  let rep_weights1 :=
    if state.rep ≠ 0 then representation_add l.rep_weights state.rep (sub128 0 state.balance)
    else l.rep_weights
  match store1.block_get hash with
  | none => none
  | some block =>
    let representative := block.block.representative
    let rep_weights2 := representation_add rep_weights1 representative block_a.balance
    let store2 :=
      if is_send then
        store1.pending_put { account := block_a.link, hash := hash }
          { source := block_a.account, amount := result.amount, epoch := epoch }
      else if block_a.link ≠ 0 then
        store1.pending_del { account := block_a.account, hash := block_a.link }
      else store1
    let new_info : account_info :=
      { head := hash, representative := representative,
        open_block := if state.open_ = 0 then hash else state.open_ }
    match ledger.change_latest store2 block_a.account state new_info epoch with
    | none => none
    | some store3 =>
      let store4 :=
        if store3.frontier_get state.head ≠ 0 then store3.frontier_del state.head else store3
      some ({ result with code := .progress, account := block_a.account },
            { l with store := store4, rep_weights := rep_weights2 })

/-- The receive and representative-change checks of `state_block_impl` (the
block `if (!is_send)`), followed by the mutations. -/
def state_block_receive (env : Env) (l : ledger) (result : process_return)
    (block_a : nano.state_block) (state : nano.account_state) (epoch : nano.epoch)
    (is_send : Bool) : Option (process_return × ledger) :=
  if is_send then state_block_apply env l result block_a state epoch is_send else
  if block_a.link ≠ 0 then
    if ¬ l.store.source_exists block_a.link then some ({ result with code := .gap_source }, l) else
    match l.store.pending_get { account := block_a.account, hash := block_a.link } with
    | none => some ({ result with code := .unreceivable }, l)
    | some pending =>
      if ¬ (result.amount = pending.amount) then
        some ({ result with code := .balance_mismatch }, l)
      else state_block_apply env l result block_a state (epoch.max pending.epoch) is_send
  else
    if ¬ (result.amount = 0) then some ({ result with code := .balance_mismatch }, l)
    else state_block_apply env l result block_a state epoch is_send

/-- `ledger_processor::state_block_impl`. -/
def state_block_impl (env : Env) (l : ledger) (result : process_return)
    (block_a : nano.state_block) : Option (process_return × ledger) :=
  let hash := env.hash (.state block_a)
  let existing := l.store.block_exists_type .state hash
  if existing then some ({ result with code := .old }, l) else
  if result.verified ≠ .valid ∧
      env.validate_message block_a.account hash block_a.signature = true then
    some ({ result with code := .bad_signature }, l) else
  let result := { result with verified := .valid }
  if block_a.account = 0 then some ({ result with code := .opened_burn_account }, l) else
  let state := l.account_state block_a.account
  let result := { result with amount := block_a.balance }
  if state.head ≠ 0 then
    match state.epoch with
    | none => none
    | some epoch =>
      if block_a.previous = 0 then some ({ result with code := .fork }, l) else
      if ¬ l.store.block_exists block_a.previous then
        some ({ result with code := .gap_previous }, l) else
      let is_send := decide (block_a.balance < state.balance)
      let result :=
        { result with
            amount := if is_send then sub128 state.balance result.amount
                      else sub128 result.amount state.balance }
      if ¬ (block_a.previous = state.head) then some ({ result with code := .fork }, l) else
      state_block_receive env l result block_a state epoch is_send
  else
    if ¬ (block_a.previous = 0) then some ({ result with code := .gap_previous }, l) else
    if block_a.link = 0 then some ({ result with code := .gap_source }, l) else
    state_block_receive env l result block_a state .epoch_0 false

/-- The position checks of `epoch_block_impl` (fork and representative). -/
def epoch_block_position (block_a : nano.state_block) (state : nano.account_state) :
    process_result :=
  if state.head ≠ 0 then
    if block_a.previous = 0 then .fork
    else if ¬ (block_a.previous = state.head) then .fork
    else if block_a.representative = state.rep then .progress
    else .representative_mismatch
  else
    if block_a.representative = 0 then .progress else .representative_mismatch

/-- `ledger_processor::epoch_block_impl`. -/
def epoch_block_impl (env : Env) (l : ledger) (result : process_return)
    (block_a : nano.state_block) : Option (process_return × ledger) :=
  let hash := env.hash (.state block_a)
  let existing := l.store.block_exists_type .state hash
  if existing then some ({ result with code := .old }, l) else
  if result.verified ≠ .valid_epoch ∧
      env.validate_message (ledger.signer env block_a.link) hash block_a.signature = true then
    some ({ result with code := .bad_signature }, l) else
  let result := { result with verified := .valid_epoch }
  if block_a.account = 0 then some ({ result with code := .opened_burn_account }, l) else
  let state := l.account_state block_a.account
  let code := epoch_block_position block_a state
  if code ≠ .progress then some ({ result with code := code }, l) else
  match (if state.head = 0 then some nano.epoch.epoch_0 else state.epoch) with
  | none => none
  | some current =>
  if ¬ current.lt (env.epochs_epoch block_a.link) then
    some ({ result with code := .block_position }, l) else
  if ¬ (block_a.balance = state.balance) then
    some ({ result with code := .balance_mismatch }, l) else
  let sideband : block_sideband :=
    { type := .state, account := block_a.account, successor := 0, balance := 0,
      height := state.block_count + 1, timestamp := env.seconds_since_epoch }
  let store1 := l.store.block_put hash (.state block_a) sideband .epoch_1
  let new_info : account_info :=
    { head := hash, representative := block_a.representative,
      open_block := if state.open_ = 0 then hash else state.open_ }
  match ledger.change_latest store1 block_a.account state new_info .epoch_1 with
  | none => none
  | some store2 =>
    let store3 :=
      if store2.frontier_get state.head ≠ 0 then store2.frontier_del state.head else store2
    some ({ result with code := .progress, account := block_a.account, amount := 0 },
          { l with store := store3 })

/-- The epoch test at the top of `ledger_processor::state_block`: the code and
`verified` after the look-up of `previous`, and the balance of `previous`. -/
def state_block_prev (env : Env) (l : ledger) (result : process_return)
    (block_a : nano.state_block) : process_return × Amount :=
  let hash := env.hash (.state block_a)
  if block_a.previous ≠ 0 then
    if l.store.block_exists block_a.previous then
      ({ result with code := .progress }, l.balance block_a.previous)
    else if result.verified = .unknown then
      if env.validate_message block_a.account hash block_a.signature then
        if env.validate_message (ledger.signer env block_a.link) hash block_a.signature then
          ({ result with code := .bad_signature, verified := .invalid }, 0)
        else ({ result with code := .gap_previous, verified := .valid_epoch }, 0)
      else ({ result with code := .gap_previous, verified := .valid }, 0)
    else ({ result with code := .gap_previous }, 0)
  else ({ result with code := .progress }, 0)

/-- `ledger_processor::state_block`. -/
def state_block (env : Env) (l : ledger) (result : process_return)
    (block_a : nano.state_block) : Option (process_return × ledger) :=
  if ledger.is_epoch_link env block_a.link then
    let p := state_block_prev env l result block_a
    let is_epoch_block := decide (block_a.balance = p.2)
    if p.1.code = .progress then
      if is_epoch_block then epoch_block_impl env l p.1 block_a
      else state_block_impl env l p.1 block_a
    else some (p.1, l)
  else state_block_impl env l { result with code := .progress } block_a

end ledger_processor

namespace ledger

/-- `ledger::process`: dispatch on the block variant. -/
def process (env : Env) (l : ledger) (block_a : block)
    (verification : signature_verification) : Option (process_return × ledger) :=
  let result := process_return.init verification
  match block_a with
  | .send b => ledger_processor.send_block env l result b
  | .receive b => ledger_processor.receive_block env l result b
  | .open_ b => ledger_processor.open_block env l result b
  | .change b => ledger_processor.change_block env l result b
  | .state b => ledger_processor.state_block env l result b

end ledger

/-! ## The rollbacker: `rollback_visitor` and `ledger::rollback` -/

/-- Outcome of code that can loop or fault: a value, a fault (null block
pointer dereferenced, unwritten variable read, `release_assert` failed), or
the iteration budget of the embedding was used up. -/
inductive Res (α : Type) where
  | ok (a : α)
  | fault
  | out_of_fuel
  deriving DecidableEq, Repr

/-- What a rollback step hands back: the error flag, the ledger and the
caller's list of rolled back blocks. -/
abbrev rollback_state := Bool × ledger × List block

/-- Modelled from the spec: `representative_visitor::compute`, "walks back to
the nearest block whose variant carries an explicit representative (Open,
Change, State)"; the loop runs while the result is zero. -/
def representative_walk (env : Env) (s : Store) : Nat → Hash → Res Hash
  | 0, _ => .out_of_fuel
  | n + 1, current =>
    match s.block_get current with
    | none => .fault
    | some r =>
      match r.block with
      | .send b => representative_walk env s n b.previous
      | .receive b => representative_walk env s n b.previous
      | b => if env.hash b = 0 then representative_walk env s n current else .ok (env.hash b)

namespace ledger

/-- `ledger::representative`: a walk longer than the number of stored rows
has entered a cycle and never ends. -/
def representative (env : Env) (l : ledger) (hash_a : Hash) : Res Hash :=
  representative_walk env l.store (l.store.blocks.length + 1) hash_a

/-- `ledger::amount`. -/
def amount (env : Env) (l : ledger) (hash_a : Hash) : Option Amount :=
  if hash_a ≠ env.genesis_account then
    match l.store.block_get hash_a with
    | none => none
    | some block =>
      let block_balance := l.balance hash_a
      let previous_balance := l.balance block.block.previous
      some (if block_balance > previous_balance then sub128 block_balance previous_balance
            else sub128 previous_balance block_balance)
  else some env.genesis_amount

end ledger

namespace rollback_visitor

/-- The loop of `rollback_visitor::send_block`: while the pending row of the
send is missing, roll back the head of the destination account. -/
def send_loop (rb : ledger → Hash → List block → Res rollback_state) (key : pending_key)
    (destination : Account) :
    Nat → ledger → List block → Res (Bool × ledger × List block × Option pending_info)
  | 0, l, list =>
    match l.store.pending_get key with
    | some pending => .ok (false, l, list, some pending)
    | none => .out_of_fuel
  | n + 1, l, list =>
    match l.store.pending_get key with
    | some pending => .ok (false, l, list, some pending)
    | none =>
      match rb l (l.latest destination) list with
      | .ok (true, l1, list1) => .ok (true, l1, list1, none)
      | .ok (false, l1, list1) => send_loop rb key destination n l1 list1
      | .fault => .fault
      | .out_of_fuel => .out_of_fuel

/-- `rollback_visitor::send_block`. -/
def send_block (env : Env) (rb : ledger → Hash → List block → Res rollback_state) (fuel : Nat)
    (l : ledger) (list : List block) (block_a : nano.send_block) : Res rollback_state :=
  let hash := env.hash (.send block_a)
  let key : pending_key := { account := block_a.destination, hash := hash }
  match send_loop rb key block_a.destination fuel l list with
  | .fault => .fault
  | .out_of_fuel => .out_of_fuel
  | .ok (_, l1, list1, none) => .ok (true, l1, list1)
  | .ok (true, l1, list1, some _) => .ok (true, l1, list1)
  | .ok (false, l1, list1, some pending) =>
    let state := l1.account_state pending.source
    let store1 := l1.store.pending_del key
    let rep_weights := representation_add l1.rep_weights state.rep pending.amount
    let new_info : account_info :=
      { head := block_a.previous, representative := state.rep, open_block := state.open_ }
    match ledger.change_latest store1 pending.source state new_info .epoch_0 with
    | none => .fault
    | some store2 =>
      let store3 := store2.block_del hash
      let store4 := store3.frontier_del hash
      let store5 := store4.frontier_put block_a.previous pending.source
      let store6 := store5.block_successor_clear block_a.previous
      .ok (false, { l1 with store := store6, rep_weights := rep_weights }, list1)

/-- `rollback_visitor::receive_block`. -/
def receive_block (env : Env) (l : ledger) (list : List block) (block_a : nano.receive_block) :
    Res rollback_state :=
  let hash := env.hash (.receive block_a)
  match l.amount env block_a.source with
  | none => .fault
  | some amount =>
    let destination_account := l.account hash
    let source_account := l.account block_a.source
    let info := account_info.default
    let state := l.account_state destination_account
    let rep_weights := representation_add l.rep_weights state.rep (sub128 0 amount)
    let new_info : account_info :=
      { head := block_a.previous, representative := state.rep, open_block := info.open_block }
    match ledger.change_latest l.store destination_account state new_info .epoch_0 with
    | none => .fault
    | some store1 =>
      let store2 := store1.block_del hash
      let store3 := store2.pending_put { account := destination_account, hash := block_a.source }
        { source := source_account, amount := amount, epoch := .epoch_0 }
      let store4 := store3.frontier_del hash
      let store5 := store4.frontier_put block_a.previous destination_account
      let store6 := store5.block_successor_clear block_a.previous
      .ok (false, { l with store := store6, rep_weights := rep_weights }, list)

/-- `rollback_visitor::open_block`. -/
def open_block (env : Env) (l : ledger) (list : List block) (block_a : nano.open_block) :
    Res rollback_state :=
  let hash := env.hash (.open_ block_a)
  match l.amount env block_a.source with
  | none => .fault
  | some amount =>
    let destination_account := l.account hash
    let source_account := l.account block_a.source
    let rep_weights := representation_add l.rep_weights block_a.representative (sub128 0 amount)
    match ledger.change_latest l.store destination_account nano.account_state.default
        account_info.default .epoch_0 with
    | none => .fault
    | some store1 =>
      let store2 := store1.block_del hash
      let store3 := store2.pending_put { account := destination_account, hash := block_a.source }
        { source := source_account, amount := amount, epoch := .epoch_0 }
      let store4 := store3.frontier_del hash
      .ok (false, { l with store := store4, rep_weights := rep_weights }, list)

/-- `rollback_visitor::change_block`. -/
def change_block (env : Env) (l : ledger) (list : List block) (block_a : nano.change_block) :
    Res rollback_state :=
  let hash := env.hash (.change block_a)
  match l.representative env block_a.previous with
  | .fault => .fault
  | .out_of_fuel => .out_of_fuel
  | .ok rep_block =>
    let account := l.account block_a.previous
    let state := l.account_state account
    let balance := l.balance block_a.previous
    match l.store.block_get rep_block with
    | none => .fault
    | some block =>
      let representative := block.block.representative
      let rep_weights1 :=
        representation_add l.rep_weights block_a.representative (sub128 0 balance)
      let rep_weights2 := representation_add rep_weights1 representative balance
      let store1 := l.store.block_del hash
      let new_info : account_info :=
        { head := block_a.previous, representative := representative, open_block := state.open_ }
      match ledger.change_latest store1 account state new_info .epoch_0 with
      | none => .fault
      | some store2 =>
        let store3 := store2.frontier_del hash
        let store4 := store3.frontier_put block_a.previous account
        let store5 := store4.block_successor_clear block_a.previous
        .ok (false, { l with store := store5, rep_weights := rep_weights2 }, list)

/-- The loop of `rollback_visitor::state_block` for a state send: while the
pending row of the send is missing, roll back the head of the destination. -/
def state_loop (rb : ledger → Hash → List block → Res rollback_state) (key : pending_key)
    (destination : Account) : Nat → ledger → List block → Res rollback_state
  | fuel, l, list =>
    if l.store.pending_exists key then .ok (false, l, list) else
    match fuel with
    | 0 => .out_of_fuel
    | n + 1 =>
      match rb l (l.latest destination) list with
      | .ok (true, l1, list1) => .ok (true, l1, list1)
      | .ok (false, l1, list1) => state_loop rb key destination n l1 list1
      | .fault => .fault
      | .out_of_fuel => .out_of_fuel

/-- The end of `rollback_visitor::state_block`, from `block_version (previous)`
on: restore the account row, the successor and the frontier, delete the block. -/
def state_block_finish (env : Env) (l : ledger) (block_a : nano.state_block)
    (state : nano.account_state) (representative : Account) : Option Store :=
  let hash := env.hash (.state block_a)
  let previous_version := l.store.block_version block_a.previous
  let new_info : account_info :=
    { head := block_a.previous, representative := representative, open_block := state.open_ }
  match ledger.change_latest l.store block_a.account state new_info previous_version with
  | none => none
  | some store1 =>
    let store2 :=
      match store1.block_get block_a.previous with
      | some previous =>
        let store1a := store1.block_successor_clear block_a.previous
        if previous.block.type.rank < block_type.state.rank then
          store1a.frontier_put block_a.previous block_a.account
        else store1a
      | none => store1
    some (store2.block_del hash)

/-- `rollback_visitor::state_block`. -/
def state_block (env : Env) (rb : ledger → Hash → List block → Res rollback_state) (fuel : Nat)
    (l : ledger) (list : List block) (block_a : nano.state_block) : Res rollback_state :=
  let hash := env.hash (.state block_a)
  match (if block_a.previous ≠ 0 then l.representative env block_a.previous else Res.ok 0) with
  | .fault => .fault
  | .out_of_fuel => .out_of_fuel
  | .ok rep_block_hash =>
    let balance := l.balance block_a.previous
    let is_send := decide (block_a.balance < balance)
    let rep_weights1 :=
      representation_add l.rep_weights block_a.representative (sub128 0 block_a.balance)
    let moved : Option (Account × Map Account Amount) :=
      if rep_block_hash ≠ 0 then
        match l.store.block_get rep_block_hash with
        | none => none
        | some block =>
          some (block.block.representative,
                representation_add rep_weights1 block.block.representative balance)
      else some (0, rep_weights1)
    match moved with
    | none => .fault
    | some (representative, rep_weights2) =>
      let l1 : ledger := { l with rep_weights := rep_weights2 }
      let state := l1.account_state block_a.account
      let after_pending : Res rollback_state :=
        if is_send then
          let key : pending_key := { account := block_a.link, hash := hash }
          match state_loop rb key block_a.link fuel l1 list with
          | .ok (e, l2, list2) => .ok (e, { l2 with store := l2.store.pending_del key }, list2)
          | .fault => .fault
          | .out_of_fuel => .out_of_fuel
        else if block_a.link ≠ 0 ∧ ¬ ledger.is_epoch_link env block_a.link then
          let source_version := l1.store.block_version block_a.link
          let pending_info : nano.pending_info :=
            { source := l1.account block_a.link, amount := sub128 block_a.balance balance,
              epoch := source_version }
          let store1 := l1.store.pending_put
            { account := block_a.account, hash := block_a.link } pending_info
          .ok (false, { l1 with store := store1 }, list)
        else .ok (false, l1, list)
      match after_pending with
      | .fault => .fault
      | .out_of_fuel => .out_of_fuel
      | .ok (e, l3, list3) =>
        match state_block_finish env l3 block_a state representative with
        | none => .fault
        | some store => .ok (e, { l3 with store := store }, list3)

/-- The dispatch `block->visit (rollback)`. -/
def visit (env : Env) (rb : ledger → Hash → List block → Res rollback_state) (fuel : Nat)
    (l : ledger) (list : List block) : block → Res rollback_state
  | .send b => send_block env rb fuel l list b
  | .receive b => receive_block env l list b
  | .open_ b => open_block env l list b
  | .change b => change_block env l list b
  | .state b => state_block env rb fuel l list b

end rollback_visitor

namespace ledger

/-- The `while` loop of `ledger::rollback`; `info` is the variable
`account_info`, which keeps its value when `account_get` fails. -/
def rollback_while (visit : ledger → List block → block → Res rollback_state) (block_a : Hash)
    (account_l : Account) (block_account_height : Nat) :
    Nat → ledger → List block → account_info → Res rollback_state
  | fuel, l, list, info =>
    if ¬ l.store.block_exists block_a then .ok (false, l, list) else
    match fuel with
    | 0 => .out_of_fuel
    | n + 1 =>
      match l.store.confirmation_height_get account_l with
      | none => .fault
      | some confirmation_height =>
        if block_account_height > confirmation_height then
          let info1 := (l.store.account_get account_l).getD info
          match l.store.block_get info1.head with
          | none => .fault
          | some row =>
            match visit l (list ++ [row.block]) row.block with
            | .ok (true, l1, list1) => .ok (true, l1, list1)
            | .ok (false, l1, list1) =>
              rollback_while visit block_a account_l block_account_height n l1 list1 info1
            | .fault => .fault
            | .out_of_fuel => .out_of_fuel
        else .ok (true, l, list)

/-- `ledger::rollback (transaction, block, list)`: `fuel` bounds the depth of
nested rollbacks and the number of iterations of each loop. -/
def rollback (env : Env) : Nat → ledger → Hash → List block → Res rollback_state
  | 0, _, _, _ => .out_of_fuel
  | n + 1, l, block_a, list =>
    let account_l := l.account block_a
    let block_account_height := l.store.block_account_height block_a
    rollback_while (rollback_visitor.visit env (rollback env n) n) block_a account_l
      block_account_height n l list account_info.default

end ledger

/-! ## Queries of the facade -/

namespace ledger

/-- `block_fit_visitor` and `ledger::could_fit`. -/
def could_fit (env : Env) (l : ledger) (block_a : block) : Bool :=
  match block_a with
  | .send b => l.store.block_exists b.previous
  | .receive b => l.store.block_exists b.previous && l.store.block_exists b.source
  | .open_ b => l.store.block_exists b.source
  | .change b => l.store.block_exists b.previous
  | .state b =>
    let result := decide (b.previous = 0) || l.store.block_exists b.previous
    if result && !l.is_send b then
      result && (l.store.block_exists b.link || decide (b.link = 0) || ledger.is_epoch_link env b.link)
    else result

end ledger

namespace ledger

/-- `ledger::weight`: the vote weight of an account and the ledger with the
bootstrap flag as the call leaves it. -/
def weight (env : Env) (l : ledger) (account_a : Account) : Amount × ledger :=
  if l.check_bootstrap_weights then
    let blocks := l.store.block_count
    if blocks < env.bootstrap_weight_max_blocks then
      match env.bootstrap_weights.get account_a with
      | some w => (w, l)
      | none => (representation_get l.rep_weights account_a, l)
    else
      let l1 : ledger := { l with check_bootstrap_weights := false }
      (representation_get l1.rep_weights account_a, l1)
  else (representation_get l.rep_weights account_a, l)

end ledger

/-! ## Whose signature a block needs -/

namespace ledger_processor

/-- The local `is_epoch_block` of `ledger_processor::state_block`: the link is
an epoch link and the balance equals the balance of `previous` (zero when
`previous` is zero or not stored). -/
def is_epoch_block (env : Env) (l : ledger) (v : signature_verification)
    (block_a : nano.state_block) : Bool :=
  ledger.is_epoch_link env block_a.link &&
    decide (block_a.balance = (state_block_prev env l (process_return.init v) block_a).2)

end ledger_processor

/-- The signature field of a block. -/
def block.signature : block → Signature
  | .send b => b.signature
  | .receive b => b.signature
  | .open_ b => b.signature
  | .change b => b.signature
  | .state b => b.signature

/-- The account a block is validated for: the frontier account of `previous` for
send, receive and change, the `account` field for open and state blocks. -/
def ledger.owner (l : ledger) : block → Account
  | .send b => l.store.frontier_get b.previous
  | .receive b => l.store.frontier_get b.previous
  | .open_ b => b.account
  | .change b => l.store.frontier_get b.previous
  | .state b => b.account

/-- The account whose signature `process` asks for, and the hint that stands
in for it: the epoch signer of the link and `valid_epoch` for a state block
handled as an epoch block, the owning account and `valid` otherwise. -/
def ledger.required_signer (env : Env) (l : ledger) (v : signature_verification) :
    block → Account × signature_verification
  | .state b =>
    if ledger_processor.is_epoch_block env l v b then (ledger.signer env b.link, .valid_epoch)
    else (b.account, .valid)
  | b => (l.owner b, .valid)

/-! ## The order of the checks, as the specification states it -/

/-- Invariant 1 of the specification for one account: when the account has a
row with a non-zero head, the head block is stored. -/
def Store.head_stored (s : Store) (a : Account) : Bool :=
  match s.account_get a with
  | some i => decide (i.head = 0) || s.block_exists i.head
  | none => true

/-- The result code of a legacy send block in the words of section 4.1.1:
already stored, previous missing, previous not a legacy block, no frontier
account, signature (unless the hint is `valid`), balance, and else progress. -/
def send_code_spec (env : Env) (l : ledger) (b : send_block) (v : signature_verification) :
    process_result :=
  if l.store.block_exists_type .send (env.hash (.send b)) then .old
  else
    match l.store.block_get b.previous with
    | none => .gap_previous
    | some previous =>
      if ¬ valid_predecessor previous.block then .block_position
      else if l.store.frontier_get b.previous = 0 then .fork
      else if v ≠ .valid ∧
          env.validate_message (l.store.frontier_get b.previous) (env.hash (.send b))
            b.signature = true then .bad_signature
      else if (l.account_state (l.store.frontier_get b.previous)).balance < b.balance then
        .negative_spend
      else .progress

/-- The result code of a legacy receive block from the signature check on, in
the words of section 4.1.2, for the frontier account `a` of `previous`. -/
def receive_code_spec (env : Env) (l : ledger) (b : receive_block) (v : signature_verification)
    (a : Account) : process_result :=
  if v ≠ .valid ∧ env.validate_message a (env.hash (.receive b)) b.signature = true then
    .bad_signature
  else if ¬ l.store.source_exists b.source then .gap_source
  else if l.latest a ≠ b.previous then .gap_previous
  else
    match l.store.pending_get { account := a, hash := b.source } with
    | none => .unreceivable
    | some pending => if pending.epoch ≠ .epoch_0 then .unreceivable else .progress

/-- The result code of a legacy open block in the words of section 4.1.3:
already stored, signature (unless the hint is `valid`), source, the account
has a head, pending row, burn account, epoch of the pending row, and else
progress. -/
def open_code_spec (env : Env) (l : ledger) (b : open_block) (v : signature_verification) :
    process_result :=
  if l.store.block_exists_type .open_ (env.hash (.open_ b)) then .old
  else if v ≠ .valid ∧
      env.validate_message b.account (env.hash (.open_ b)) b.signature = true then
    .bad_signature
  else if ¬ l.store.source_exists b.source then .gap_source
  else if l.latest b.account ≠ 0 then .fork
  else
    match l.store.pending_get { account := b.account, hash := b.source } with
    | none => .unreceivable
    | some pending =>
      if b.account = env.burn_account then .opened_burn_account
      else if pending.epoch ≠ .epoch_0 then .unreceivable
      else .progress

/-- The position checks of a state block that is not an epoch block, in the
words of section 4.1.5: the code of the first check that fails, `none` when
the block passes them all and the receive and representative-change checks
are next. -/
def state_position_spec (env : Env) (l : ledger) (b : state_block) (v : signature_verification) :
    Option process_result :=
  if l.store.block_exists_type .state (env.hash (.state b)) then some .old
  else if v ≠ .valid ∧
      env.validate_message b.account (env.hash (.state b)) b.signature = true then
    some .bad_signature
  else if b.account = 0 then some .opened_burn_account
  else if l.latest b.account ≠ 0 then
    if b.previous = 0 then some .fork
    else if ¬ l.store.block_exists b.previous then some .gap_previous
    else if ¬ (b.previous = l.latest b.account) then some .fork
    else none
  else
    if ¬ (b.previous = 0) then some .gap_previous
    else if b.link = 0 then some .gap_source
    else none

/-- The current epoch of an account, as `epoch_block_impl` reads it: `epoch_0`
for an account without a head, the epoch tag of the head block otherwise
(a fault when the head block is not stored). -/
def ledger.current_epoch (l : ledger) (a : Account) : Option epoch :=
  if (l.account_state a).head = 0 then some .epoch_0 else (l.account_state a).epoch

/-- The receive and representative-change checks of a state block that is not
a send, in the words of section 4.1.5, `B` being the head balance of the
account (zero for a new account): with a link, the source, the pending row and
its amount; without a link, the balance must be `B`. -/
def state_receive_spec (l : ledger) (b : state_block) : process_result :=
  if b.link ≠ 0 then
    if ¬ l.store.source_exists b.link then .gap_source
    else
      match l.store.pending_get { account := b.account, hash := b.link } with
      | none => .unreceivable
      | some pending =>
        if ¬ (b.balance - l.account_balance b.account = pending.amount) then .balance_mismatch
        else .progress
  else if b.balance = l.account_balance b.account then .progress
  else .balance_mismatch

/-- The position checks of an epoch block in the words of section 4.1.6: with
a head, `fork` if the previous is zero or is not the head and
`representative_mismatch` if the representative is not the current one; without
a head, `representative_mismatch` if the representative is not zero; `none`
when the block passes. -/
def epoch_position_spec (l : ledger) (b : state_block) : Option process_result :=
  if l.latest b.account ≠ 0 then
    if b.previous = 0 ∨ ¬ (b.previous = l.latest b.account) then some .fork
    else if ¬ (b.representative = (l.account_state b.account).rep) then
      some .representative_mismatch
    else none
  else if ¬ (b.representative = 0) then some .representative_mismatch
  else none

/-- The result code of an epoch block in the words of section 4.1.6: already
stored, signature of the epoch signer of the link (unless the hint is
`valid_epoch`), zero account, position, epoch of the account (`epoch_0` when it
has no head) strictly below the epoch of the link, balance unchanged, and else
progress. -/
def epoch_code_spec (env : Env) (l : ledger) (b : state_block) (v : signature_verification) :
    process_result :=
  if l.store.block_exists_type .state (env.hash (.state b)) then .old
  else if v ≠ .valid_epoch ∧
      env.validate_message (ledger.signer env b.link) (env.hash (.state b)) b.signature
        = true then
    .bad_signature
  else if b.account = 0 then .opened_burn_account
  else
    match epoch_position_spec l b with
    | some c => c
    | none =>
      if ¬ (if l.latest b.account = 0 then epoch.epoch_0
            else l.store.block_version (l.latest b.account)).lt (env.epochs_epoch b.link) then
        .block_position
      else if ¬ (b.balance = (l.account_state b.account).balance) then .balance_mismatch
      else .progress

/-- The link of the state block is an epoch link and its previous is neither
zero nor stored: `ledger_processor::state_block` answers before any of the
two routines is called. -/
def state_previous_missing (env : Env) (l : ledger) (b : state_block) : Bool :=
  ledger.is_epoch_link env b.link && decide (b.previous ≠ 0) &&
    !l.store.block_exists b.previous

/-! ## What `could_fit` leaves open -/

namespace Store

/-- The hash is stored as a receive, open or change block: the block exists,
which is what `could_fit` asks, but nothing can be received from it, which is
what `source_exists` asks. -/
def block_not_source (s : Store) (h : Hash) : Bool :=
  s.block_exists_type .receive h || s.block_exists_type .open_ h ||
    s.block_exists_type .change h

end Store

namespace ledger

/-- The cases that `could_fit` does not test, in which `process` returns a gap
code for a block that could fit.

* An open block whose source is stored as a receive, open or change block.
* A receive block whose `previous` is a legacy block with a frontier account,
  when the source is stored as a receive, open or change block, or when the
  head of that account is not `previous`.
* A state block that is not an epoch block, for an account without a head,
  when `previous` is not zero or `link` is zero.
* A state block that is not an epoch block and not a send, whose `previous`
  is the head of its account (zero for an account without a head) and whose
  non-zero `link` is stored as a receive, open or change block, or is an epoch
  link that is not stored. -/
def fit_exception (env : Env) (l : ledger) (v : signature_verification) : block → Bool
  | .send _ => false
  | .change _ => false
  | .open_ b => l.store.block_not_source b.source
  | .receive b =>
    (match l.store.block_get b.previous with
      | some p => valid_predecessor p.block
      | none => false) &&
    decide (l.store.frontier_get b.previous ≠ 0) &&
    (l.store.block_not_source b.source ||
      decide (l.latest (l.store.frontier_get b.previous) ≠ b.previous))
  | .state b =>
    !ledger_processor.is_epoch_block env l v b &&
    ((decide (l.latest b.account = 0) && (decide (b.previous ≠ 0) || decide (b.link = 0))) ||
     (decide (b.previous = l.latest b.account) && !l.is_send b && decide (b.link ≠ 0) &&
       (l.store.block_not_source b.link ||
         (ledger.is_epoch_link env b.link && !l.store.block_exists b.link))))

end ledger

/-! ## Consistency of the store, and new pending rows -/

namespace Store

/-- The dual-table discipline for one account: when the account has a row in
the upgraded table, that row is its only row, its head is not zero and the
head block is stored with an upgraded epoch tag. -/
def account_row_consistent (s : Store) (a : Account) : Bool :=
  match s.accounts_v1.get a with
  | some i =>
    decide (i.head ≠ 0) && decide (s.block_version i.head ≠ .epoch_0) &&
      (s.accounts_v0.get a).isNone
  | none => true

/-- Some pending row, in either table, is keyed by the send hash `h`. -/
def pending_keyed_by (s : Store) (h : Hash) : Bool :=
  (s.pending_v0 ++ s.pending_v1).any (fun p => decide (p.1.hash = h))

/-- One of the two pending tables. -/
def pending_table (s : Store) : Bool → Map pending_key pending_row
  | true => s.pending_v1
  | false => s.pending_v0

end Store

/-- A pending row of `l1` (in the table `upgraded`, under `k`) that was not
there in `l`. -/
def new_pending_row (l l1 : ledger) (upgraded : Bool) (k : pending_key) (row : pending_row) :
    Prop :=
  (l1.store.pending_table upgraded).get k = some row ∧
    (l.store.pending_table upgraded).get k ≠ some row

/-- The block was applied as a send: a legacy send block, or a state block
whose result has `state_is_send` set to `true`. -/
def applied_as_send (b : block) (r : process_return) : Bool :=
  match b with
  | .send _ => true
  | .state _ => decide (r.state_is_send = some true)
  | _ => false

/-- Property 4 of section 8 for a block `b` accepted with result `r`, taking the
ledger from `l` to `l1`: the block is stored under its hash, it is the head of
the account of the result, and exactly one pending row is new when the block
was applied as a send, none otherwise. -/
def accepted_post (env : Env) (l l1 : ledger) (b : block) (r : process_return) : Prop :=
  (l1.store.block_get (env.hash b)).map block_row.block = some b ∧
  l1.latest r.account = env.hash b ∧
  (if applied_as_send b r = true then
    ∃ t k row, new_pending_row l l1 t k row ∧
      ∀ t1 k1 row1, new_pending_row l l1 t1 k1 row1 → t1 = t ∧ k1 = k ∧ row1 = row
  else ∀ t k row, ¬ new_pending_row l l1 t k row)

/-! ## Aggregates over the ledger -/

namespace Store

/-- Every account that has a row in one of the two account tables, once. -/
def accounts (s : Store) : List Account := (s.accounts_v1.keys ++ s.accounts_v0.keys).dedup

end Store

namespace ledger

/-- The sum of all representative weights. -/
def weight_sum (l : ledger) : Nat :=
  (l.rep_weights.keys.map (representation_get l.rep_weights)).sum

/-- The sum over all accounts of the head balance. -/
def balance_sum (l : ledger) : Nat := (l.store.accounts.map l.account_balance).sum

end ledger

/-! ## Value in the ledger: balances and pending amounts -/

namespace Store

/-- Every key that has a row in one of the two pending tables, once. -/
def pending_keys (s : Store) : List pending_key := (s.pending_v1.keys ++ s.pending_v0.keys).dedup

end Store

namespace ledger

/-- The amount of the pending entry of a key, zero when there is none. -/
def pending_amount (l : ledger) (k : pending_key) : Amount :=
  match l.store.pending_get k with
  | some p => p.amount
  | none => 0

/-- The sum of the amounts of all pending entries. -/
def pending_sum (l : ledger) : Nat := (l.store.pending_keys.map l.pending_amount).sum

/-- Modelled from the spec: the ledger "that contains only the genesis open
block" (scenario S1): the open block of the genesis account with the genesis
amount as balance, its account row, frontier, confirmation height and weight. -/
def genesis (env : Env) : ledger :=
  let b : nano.open_block :=
    { source := env.genesis_account, representative := env.genesis_account,
      account := env.genesis_account, signature := 0 }
  let h := env.hash (.open_ b)
  { store :=
      { blocks := [(h, { block := .open_ b,
                         sideband := { type := .open_, account := env.genesis_account,
                                       successor := 0, balance := env.genesis_amount, height := 1,
                                       timestamp := env.seconds_since_epoch },
                         epoch := .epoch_0 })]
        accounts_v0 := [(env.genesis_account,
          { head := h, representative := env.genesis_account, open_block := h })]
        accounts_v1 := []
        pending_v0 := []
        pending_v1 := []
        frontiers := [(h, env.genesis_account)]
        confirmation_height := [(env.genesis_account, 0)] }
    rep_weights := [(env.genesis_account, env.genesis_amount)]
    check_bootstrap_weights := true }

/-- A sequence of `process` calls, each with its own hint, that all return
`progress`: the ledger they lead to (`none` as soon as a call faults or
returns another code). -/
def process_all (env : Env) : ledger → List (block × signature_verification) → Option ledger
  | l, [] => some l
  | l, c :: cs =>
    match ledger.process env l c.1 c.2 with
    | some (r, l1) => if r.code = .progress then process_all env l1 cs else none
    | none => none

end ledger

/-- The balance field of a block, where the variant has one, is a 128-bit value. -/
def block.well_typed : block → Bool
  | .send b => decide (b.balance < two128)
  | .state b => decide (b.balance < two128)
  | _ => true

/-- The assumptions on the hash function and the genesis amount: no block
hashes to zero (zero means "none"), blocks of different variants have
different hashes, and the genesis amount is a 128-bit value. -/
structure Env.sound (env : Env) : Prop where
  hash_nonzero : ∀ b, env.hash b ≠ 0
  hash_typed : ∀ b1 b2, env.hash b1 = env.hash b2 → b1.type = b2.type
  genesis_128 : env.genesis_amount < two128

/-- What of a stored row the ledger reads for balances and epochs: the block,
the epoch tag and the balance in the sideband. -/
def block_row.content (r : block_row) : nano.block × nano.epoch × Amount :=
  (r.block, r.epoch, r.sideband.balance)

/-- The balance a row with the given content stands for (`Store.row_balance`). -/
def content_balance (c : nano.block × nano.epoch × Amount) : Amount :=
  match c.1 with
  | .send b => b.balance
  | .state b => b.balance
  | _ => c.2.2

/-- The consistency of a ledger that `process` maintains: rows of the block
table are keyed by the hash of their block; an account has at most one row,
with a non-zero head that is stored and tagged with the epoch of the table the
row is in; a pending key has at most one row and names a stored block; and
head balances plus pending amounts add up to the genesis amount. -/
structure ledger_consistent (env : Env) (l : ledger) : Prop where
  keyed : ∀ h row, l.store.blocks.get h = some row → env.hash row.block = h
  acc0 : ∀ a i, l.store.accounts_v0.get a = some i →
    l.store.accounts_v1.get a = none ∧ i.head ≠ 0 ∧
      (l.store.blocks.get i.head).map block_row.epoch = some .epoch_0
  acc1 : ∀ a i, l.store.accounts_v1.get a = some i →
    l.store.accounts_v0.get a = none ∧ i.head ≠ 0 ∧
      ∃ e, (l.store.blocks.get i.head).map block_row.epoch = some e ∧ e ≠ .epoch_0
  pend : ∀ u k r, (l.store.pending_table u).get k = some r →
    (l.store.blocks.get k.hash).isSome = true ∧ (l.store.pending_table (!u)).get k = none
  total : l.balance_sum + l.pending_sum = env.genesis_amount

/-- The sum of the amounts of the rows of one pending table. -/
def pending_table_sum (m : Map pending_key pending_row) : Nat :=
  (m.keys.map (fun k => match m.get k with
    | some r => r.amount
    | none => 0)).sum

/-- The sum over all rows of both pending tables of the amount (the loops of
`ledger::account_pending`, over every account). -/
def ledger.pending_rows_sum (l : ledger) : Nat :=
  pending_table_sum l.store.pending_v0 + pending_table_sum l.store.pending_v1

/-- Every row of the frontier table is keyed by a stored block of a legacy
variant (send, receive, open or change). -/
def frontier_legacy (l : ledger) : Prop :=
  ∀ h a, l.store.frontiers.get h = some a →
    (l.store.blocks.get h).map (fun r => valid_predecessor r.block) = some true

/-- Two stores hold the same rows: every look-up in every table gives the
same. -/
def Store.same (s t : Store) : Prop :=
  (∀ h, s.blocks.get h = t.blocks.get h) ∧
  (∀ a, s.accounts_v0.get a = t.accounts_v0.get a) ∧
  (∀ a, s.accounts_v1.get a = t.accounts_v1.get a) ∧
  (∀ k, s.pending_v0.get k = t.pending_v0.get k) ∧
  (∀ k, s.pending_v1.get k = t.pending_v1.get k) ∧
  (∀ h, s.frontiers.get h = t.frontiers.get h) ∧
  (∀ a, s.confirmation_height.get a = t.confirmation_height.get a)

/-- Two ledgers hold the same rows, the same weight of every representative
and the same bootstrap flag. -/
def ledger.same (l t : ledger) : Prop :=
  l.store.same t.store ∧
  (∀ a, representation_get l.rep_weights a = representation_get t.rep_weights a) ∧
  l.check_bootstrap_weights = t.check_bootstrap_weights

/-- How the tables of a ledger that only `process` has written hang together:
a frontier row of a non-zero account names the head of a row of that account
in the table of `epoch_0`; the head block of an account has no successor; two
accounts never share a head; weights are 128-bit values; and an account has a
confirmation height row, with height zero, exactly when it has an account row. -/
structure ledger_linked (l : ledger) : Prop where
  frontier_owner : ∀ h a, l.store.frontiers.get h = some a → a ≠ 0 →
    ∃ i, l.store.accounts_v0.get a = some i ∧ i.head = h
  head_last : ∀ a i, l.store.account_get a = some i →
    (l.store.blocks.get i.head).map (fun r => r.sideband.successor) = some 0
  head_unique : ∀ a c i j, l.store.account_get a = some i → l.store.account_get c = some j →
    i.head = j.head → a = c
  weight_128 : ∀ x, representation_get l.rep_weights x < two128
  unconfirmed : ∀ a, l.store.confirmation_height.get a
    = if (l.store.account_get a).isSome then some 0 else none

/-- Modelled from the spec: the implicit epoch of an account row, "determined
by which epoch-partitioned table the record lives in" (section 3, AccountInfo);
the upgraded table counts as `epoch_1`. -/
def Store.account_epoch (s : Store) (a : Account) : Option epoch :=
  match s.accounts_v1.get a with
  | some _ => some .epoch_1
  | none =>
    match s.accounts_v0.get a with
    | some _ => some .epoch_0
    | none => none

/-- The frontier invariant of the spec (section 3): the frontier table contains
the row `h -> a` exactly when the head of `a` is `h` and the head block is a
legacy (send, receive, open, change) block. -/
def frontier_exact (l : ledger) : Prop :=
  ∀ h a, l.store.frontiers.get h = some a ↔
    ((l.store.account_get a).map (fun i => i.head) = some h ∧
      (l.store.blocks.get h).map (fun r => valid_predecessor r.block) = some true)

/-- Rows of legacy blocks carry the tag `epoch_0` (the store has epoch tables
for state blocks only). -/
def legacy_untagged (l : ledger) : Prop :=
  ∀ h r, l.store.blocks.get h = some r → valid_predecessor r.block = true →
    r.epoch = .epoch_0

/-- What an accepted block `b` of account `a` changes in the tables: the row of
`b` is new, with epoch tag `e`; the row of `a` is `new`, in the table of `e`,
other account rows stay; a legacy block gets the frontier row `hash b -> a`,
the frontier row of `dropped` goes, other frontier rows stay. -/
structure accepted_step (env : Env) (l l1 : ledger) (a : Account) (b : block) (e : epoch)
    (bal : Amount) (new : account_info) (dropped : Option Hash) : Prop where
  fresh : l.store.blocks.get (env.hash b) = none
  head : new.head = env.hash b
  blocks : ∀ x, (l1.store.blocks.get x).map block_row.content
    = if x = env.hash b then some (b, e, bal)
      else (l.store.blocks.get x).map block_row.content
  off : ∀ x, x ≠ a → l1.store.accounts_v0.get x = l.store.accounts_v0.get x ∧
    l1.store.accounts_v1.get x = l.store.accounts_v1.get x
  at0 : e = .epoch_0 → l1.store.accounts_v0.get a = some new ∧
    l1.store.accounts_v1.get a = none
  at1 : ¬ e = .epoch_0 → l1.store.accounts_v1.get a = some new ∧
    l1.store.accounts_v0.get a = none
  frontier : ∀ x, l1.store.frontiers.get x
    = if valid_predecessor b = true ∧ env.hash b = x then some a
      else if dropped = some x then none else l.store.frontiers.get x
  legacy : valid_predecessor b = true →
    e = .epoch_0 ∧
    ((dropped = none ∧ (l.account_state a).head = 0) ∨
      (dropped = some b.previous ∧ l.store.frontier_get b.previous = a ∧ a ≠ 0 ∧
        (l.store.blocks.get b.previous).map (fun r => valid_predecessor r.block) = some true))
  state : valid_predecessor b = false →
    a ≠ 0 ∧
    dropped = (if l.store.frontier_get (l.account_state a).head ≠ 0
      then some (l.account_state a).head else none) ∧
    ((l.account_state a).head ≠ 0 →
      ∃ e0, (l.account_state a).epoch = some e0 ∧ e0.rank ≤ e.rank)

/-! ## The invariants of the rollback -/

/-- A block row without its successor link: the part of the row that a
rollback never changes. -/
def block_row.unlinked (r : block_row) : block_row :=
  { r with sideband := { r.sideband with successor := 0 } }

/-- The destination of a stored block that `rollback_visitor` inverts as a
send: a legacy send block, or a state block whose balance is below the balance
of its previous block (`is_send` of `rollback_visitor::state_block`). -/
def ledger.sent_to (l : ledger) (r : block_row) : Option Account :=
  match r.block with
  | .send b => some b.destination
  | .state b => if b.balance < l.balance b.previous then some b.link else none
  | _ => none

/-- The source of a stored block whose inversion by `rollback_visitor` puts a
pending row back: a legacy receive or open block, or a state block that is not
a send and whose link is neither zero nor an epoch link. -/
def ledger.received_from (env : Env) (l : ledger) (r : block_row) : Option Hash :=
  match r.block with
  | .receive b => some b.source
  | .open_ b => some b.source
  | .state b =>
    if b.balance < l.balance b.previous then none
    else if b.link ≠ 0 ∧ ¬ ledger.is_epoch_link env b.link then some b.link
    else none
  | _ => none

/-- The ledger invariants the rollback relies on, for a causal order `rank`
of the stored blocks bounded by `N`: rows are keyed by the hash of their
block; an account has one row, in the table of the epoch of its head, and the
head is a stored block of that account; the blocks of an account form one
chain on which heights increase by one from 1 with `previous`, with the head
on top; legacy blocks are tagged `epoch_0` and follow blocks tagged `epoch_0`;
a pending row names the account of its send; a send whose pending row is
missing has been received by a stored block of the destination, later in the
causal order; the order grows along each chain. -/
structure ledger_chained (env : Env) (rank : Hash → Nat) (N : Nat) (l : ledger) : Prop where
  keyed : ∀ h r, l.store.blocks.get h = some r → env.hash r.block = h
  acc0 : ∀ a i, l.store.accounts_v0.get a = some i →
    l.store.accounts_v1.get a = none ∧ i.head ≠ 0 ∧
      (l.store.blocks.get i.head).map block_row.epoch = some .epoch_0
  acc1 : ∀ a i, l.store.accounts_v1.get a = some i →
    l.store.accounts_v0.get a = none ∧ i.head ≠ 0 ∧
      ∃ e, (l.store.blocks.get i.head).map block_row.epoch = some e ∧ e ≠ .epoch_0
  owner : ∀ a i, l.store.account_get a = some i →
    (l.store.blocks.get i.head).map (fun r => r.sideband.account) = some a
  top : ∀ h r, l.store.blocks.get h = some r →
    ∃ i u, l.store.account_get r.sideband.account = some i ∧
      l.store.blocks.get i.head = some u ∧ r.sideband.height ≤ u.sideband.height
  inj : ∀ h k r q, l.store.blocks.get h = some r → l.store.blocks.get k = some q →
    r.sideband.account = q.sideband.account → r.sideband.height = q.sideband.height → h = k
  prev : ∀ h r, l.store.blocks.get h = some r → r.block.previous ≠ 0 →
    ∃ p, l.store.blocks.get r.block.previous = some p ∧
      p.sideband.account = r.sideband.account ∧
      p.sideband.height + 1 = r.sideband.height ∧
      (valid_predecessor r.block = true → p.epoch = .epoch_0)
  first : ∀ h r, l.store.blocks.get h = some r → r.block.previous = 0 →
    r.sideband.height = 1
  legacy : ∀ h r, l.store.blocks.get h = some r → valid_predecessor r.block = true →
    r.epoch = .epoch_0
  state_account : ∀ h r b, l.store.blocks.get h = some r → r.block = .state b →
    b.account = r.sideband.account
  pending_src : ∀ u k row r, (l.store.pending_table u).get k = some row →
    l.store.blocks.get k.hash = some r → row.source = r.sideband.account
  received : ∀ h r d, l.store.blocks.get h = some r → l.sent_to r = some d →
    l.store.pending_get { account := d, hash := h } = none →
    ∃ k q, l.store.blocks.get k = some q ∧ l.received_from env q = some h ∧
      q.sideband.account = d ∧ rank h < rank k
  rank_chain : ∀ h k r q, l.store.blocks.get h = some r → l.store.blocks.get k = some q →
    r.sideband.account = q.sideband.account → r.sideband.height ≤ q.sideband.height →
    rank h ≤ rank k
  bound : ∀ h r, l.store.blocks.get h = some r → rank h ≤ N

/-- What a rollback may have done to a ledger, for a threshold `k` in the
causal order: block rows are only deleted or have their successor cleared;
the confirmation height of the account of every remaining block is as it was;
no deleted block was at or below the confirmation height of its account; and
blocks below the threshold, and the rows of accounts whose head is below the
threshold, are as they were. -/
structure rolled (rank : Hash → Nat) (k : Nat) (l l1 : ledger) : Prop where
  kept : ∀ h, l1.store.blocks.get h = none ∨
    (l1.store.blocks.get h).map block_row.unlinked
      = (l.store.blocks.get h).map block_row.unlinked
  cemented : ∀ h r, l1.store.blocks.get h = some r →
    l1.store.confirmation_height.get r.sideband.account
      = l.store.confirmation_height.get r.sideband.account
  spared : ∀ h r ch, l.store.blocks.get h = some r → l1.store.blocks.get h = none →
    l.store.confirmation_height.get r.sideband.account = some ch → ch < r.sideband.height
  below : ∀ h r, l.store.blocks.get h = some r → rank h < k →
    (l1.store.blocks.get h).map block_row.unlinked = some r.unlinked
  rows : ∀ a i, l.store.account_get a = some i → rank i.head < k →
    l1.store.accounts_v0.get a = l.store.accounts_v0.get a ∧
      l1.store.accounts_v1.get a = l.store.accounts_v1.get a

/-- The inversion of the head block `u` (hash `x`) of account `a` by the
rollback visitor, as a relation between the ledger before and after: the row
of `x` is deleted and no other block row changes but for its successor; the
account row moves to `previous` (in the table of the epoch of that block) or
is deleted with its confirmation height when `previous` is zero; the pending
row of a received source is put back; no pending row keyed by another hash is
removed. -/
structure popped (env : Env) (l l1 : ledger) (a : Account) (x : Hash) (u : block_row) :
    Prop where
  blocks : ∀ y, (l1.store.blocks.get y).map block_row.unlinked
    = if y = x then none else (l.store.blocks.get y).map block_row.unlinked
  off : ∀ c, c ≠ a → l1.store.accounts_v0.get c = l.store.accounts_v0.get c ∧
    l1.store.accounts_v1.get c = l.store.accounts_v1.get c ∧
    l1.store.confirmation_height.get c = l.store.confirmation_height.get c
  gone : u.block.previous = 0 →
    l1.store.accounts_v0.get a = none ∧ l1.store.accounts_v1.get a = none
  moved : u.block.previous ≠ 0 →
    l1.store.confirmation_height.get a = l.store.confirmation_height.get a ∧
    ∃ i : account_info, i.head = u.block.previous ∧
      (l.store.block_version u.block.previous = .epoch_0 →
        l1.store.accounts_v0.get a = some i ∧ l1.store.accounts_v1.get a = none) ∧
      (l.store.block_version u.block.previous ≠ .epoch_0 →
        l1.store.accounts_v1.get a = some i ∧ l1.store.accounts_v0.get a = none)
  pend_rows : ∀ t k row, (l1.store.pending_table t).get k = some row → k.hash ≠ x →
    (l.store.pending_table t).get k = some row ∨
      (l.received_from env u = some k.hash ∧ k.account = a ∧ row.source = l.account k.hash)
  pend_keep : ∀ k, k.hash ≠ x → l.store.pending_get k ≠ none → l1.store.pending_get k ≠ none
  pend_put : ∀ src, l.received_from env u = some src →
    l1.store.pending_get { account := a, hash := src } ≠ none

/-- What the proof of the rollback assumes of the function that runs a nested
rollback with the budget `n`: from a ledger that satisfies the invariants, a
result is a ledger rolled back from the target on, which satisfies the
invariants and no longer holds the target when no error is returned; and the
budget only runs out when it is not above the number of stored blocks plus
the distance of the target from the top of the causal order. -/
def rollback_sound (env : Env) (rank : Hash → Nat) (N n : Nat)
    (rb : ledger → Hash → List block → Res rollback_state) : Prop :=
  ∀ l t list, ledger_chained env rank N l →
    (∀ e l1 list1, rb l t list = .ok (e, l1, list1) →
      rolled rank (rank t) l l1 ∧
        (e = false → ledger_chained env rank N l1 ∧ l1.store.blocks.get t = none)) ∧
    (rb l t list = .out_of_fuel → n ≤ l.store.block_count + (N - rank t))

/-- The checks of `ledger_chained` on one row of the block table. -/
def check_block (env : Env) (rank : Hash → Nat) (N : Nat) (l : ledger)
    (p : Hash × block_row) : Bool :=
  decide (env.hash p.2.block = p.1) &&
  (match l.store.account_get p.2.sideband.account with
    | some i =>
      match l.store.blocks.get i.head with
      | some u => decide (p.2.sideband.height ≤ u.sideband.height)
      | none => false
    | none => false) &&
  (if p.2.block.previous = 0 then decide (p.2.sideband.height = 1)
    else
      match l.store.blocks.get p.2.block.previous with
      | some q =>
        decide (q.sideband.account = p.2.sideband.account) &&
        decide (q.sideband.height + 1 = p.2.sideband.height) &&
        (!valid_predecessor p.2.block || decide (q.epoch = .epoch_0))
      | none => false) &&
  (!valid_predecessor p.2.block || decide (p.2.epoch = .epoch_0)) &&
  (match p.2.block with
    | .state b => decide (b.account = p.2.sideband.account)
    | _ => true) &&
  (match l.sent_to p.2 with
    | none => true
    | some d =>
      (l.store.pending_get { account := d, hash := p.1 }).isSome ||
      l.store.blocks.any (fun q =>
        decide (l.store.blocks.get q.1 = some q.2) &&
        decide (l.received_from env q.2 = some p.1) &&
        decide (q.2.sideband.account = d) && decide (rank p.1 < rank q.1))) &&
  decide (rank p.1 ≤ N)

/-- The checks of `ledger_chained` on two rows of the block table. -/
def check_pair (rank : Hash → Nat) (p q : Hash × block_row) : Bool :=
  (!(decide (p.2.sideband.account = q.2.sideband.account) &&
      decide (p.2.sideband.height = q.2.sideband.height)) || decide (p.1 = q.1)) &&
  (!(decide (p.2.sideband.account = q.2.sideband.account) &&
      decide (p.2.sideband.height ≤ q.2.sideband.height)) || decide (rank p.1 ≤ rank q.1))

/-- The checks of `ledger_chained` on one row of an account table; `upgraded`
tells the table. -/
def check_account (l : ledger) (upgraded : Bool) (p : Account × account_info) : Bool :=
  (if upgraded then (l.store.accounts_v0.get p.1).isNone
    else (l.store.accounts_v1.get p.1).isNone) &&
  decide (p.2.head ≠ 0) &&
  (match l.store.blocks.get p.2.head with
    | some u =>
      decide (u.sideband.account = p.1) &&
      (if upgraded then decide (u.epoch ≠ .epoch_0) else decide (u.epoch = .epoch_0))
    | none => false)

/-- The check of `ledger_chained` on one row of a pending table. -/
def check_pending (l : ledger) (p : pending_key × pending_row) : Bool :=
  match l.store.blocks.get p.1.hash with
  | some r => decide (p.2.source = r.sideband.account)
  | none => true

/-- The invariants `ledger_chained`, as a check over the rows of the tables. -/
def chained_check (env : Env) (rank : Hash → Nat) (N : Nat) (l : ledger) : Bool :=
  l.store.blocks.all (fun p =>
    check_block env rank N l p && l.store.blocks.all (fun q => check_pair rank p q)) &&
  l.store.accounts_v0.all (check_account l false) &&
  l.store.accounts_v1.all (check_account l true) &&
  l.store.pending_v0.all (check_pending l) &&
  l.store.pending_v1.all (check_pending l)

/-! ## A concrete network, used to run the embedding on explicit inputs -/

namespace example_net

/-- An injective block hash that ignores the signature and is never zero. -/
def hash : block → Hash
  | .send b => 5 * Nat.pair b.previous (Nat.pair b.destination b.balance) + 1
  | .receive b => 5 * Nat.pair b.previous b.source + 2
  | .open_ b => 5 * Nat.pair b.source (Nat.pair b.representative b.account) + 3
  | .change b => 5 * Nat.pair b.previous b.representative + 4
  | .state b =>
    5 * Nat.pair b.account
      (Nat.pair b.previous (Nat.pair b.representative (Nat.pair b.balance b.link))) + 5

/-- The link that marks an upgrade to `epoch_1`. -/
def epoch_1_link : Hash := 1000001

/-- The link that marks an upgrade to `epoch_2`. -/
def epoch_2_link : Hash := 1000002

/-- The account that signs epoch blocks. -/
def epoch_signer : Account := 77

/-- The genesis account. -/
def genesis : Account := 1

/-- The example network: a signature is valid for an account and a hash when
it is their sum (`validate_message` is `true` on failure). -/
def env : Env :=
  { hash := hash
    validate_message := fun a h s => decide (s ≠ a + h)
    is_epoch_link := fun x => decide (x = epoch_1_link) || decide (x = epoch_2_link)
    epochs_epoch := fun x => if x = epoch_2_link then .epoch_2 else .epoch_1
    epochs_signer := fun _ => epoch_signer
    epochs_link := fun e => if e = .epoch_2 then epoch_2_link else epoch_1_link
    burn_account := 0
    genesis_account := genesis
    genesis_amount := 1000
    seconds_since_epoch := 0
    bootstrap_weights := []
    bootstrap_weight_max_blocks := 0 }

/-- The open block of the genesis account. -/
def genesis_open : open_block :=
  { source := genesis, representative := genesis, account := genesis, signature := 0 }

/-- The ledger that holds the genesis open block only. -/
def genesis_ledger : ledger :=
  { store :=
      { blocks := [(hash (.open_ genesis_open),
          { block := .open_ genesis_open,
            sideband := { type := .open_, account := genesis, successor := 0, balance := 1000,
                          height := 1, timestamp := 0 },
            epoch := .epoch_0 })]
        accounts_v0 := [(genesis,
          { head := hash (.open_ genesis_open), representative := genesis,
            open_block := hash (.open_ genesis_open) })]
        accounts_v1 := []
        pending_v0 := []
        pending_v1 := []
        frontiers := [(hash (.open_ genesis_open), genesis)]
        confirmation_height := [(genesis, 0)] }
    rep_weights := [(genesis, 1000)]
    check_bootstrap_weights := true }

/-- Sign a block for an account in the example network. -/
def sign (a : Account) (b : block) : Signature := a + hash b

/-- A send block signed by its account. -/
def signed_send (a : Account) (previous : Hash) (destination : Account) (balance : Amount) :
    send_block :=
  { previous := previous, destination := destination, balance := balance,
    signature := sign a (.send { previous := previous, destination := destination,
                                 balance := balance, signature := 0 }) }

/-- A receive block signed by its account. -/
def signed_receive (a : Account) (previous source : Hash) : receive_block :=
  { previous := previous, source := source,
    signature := sign a (.receive { previous := previous, source := source, signature := 0 }) }

/-- An open block signed by its account. -/
def signed_open (source : Hash) (representative account : Account) : open_block :=
  { source := source, representative := representative, account := account,
    signature := sign account (.open_ { source := source, representative := representative,
                                        account := account, signature := 0 }) }

/-- A change block signed by its account. -/
def signed_change (a : Account) (previous : Hash) (representative : Account) : change_block :=
  { previous := previous, representative := representative,
    signature := sign a (.change { previous := previous, representative := representative,
                                   signature := 0 }) }

/-- A state block signed by `signer` (the account itself, or the epoch signer). -/
def signed_state (signer account : Account) (previous : Hash) (representative : Account)
    (balance : Amount) (link : Hash) : state_block :=
  { account := account, previous := previous, representative := representative,
    balance := balance, link := link,
    signature := sign signer (.state { account := account, previous := previous,
                                       representative := representative, balance := balance,
                                       link := link, signature := 0 }) }

/-- The ledger after a block was processed, unchanged when it faults. -/
def after (l : ledger) (b : block) : ledger :=
  match ledger.process env l b .unknown with
  | some (_, l1) => l1
  | none => l

/-- The result code of processing a block, if it returns. -/
def code_of (l : ledger) (b : block) (v : signature_verification) : Option process_result :=
  (ledger.process env l b v).map (fun p => p.1.code)

/-- The ledger after a successful rollback of a hash (`none` otherwise). -/
def rolled_back (l : ledger) (h : Hash) : Option ledger :=
  match ledger.rollback env 8 l h [] with
  | .ok (false, l1, _) => some l1
  | _ => none

/-- The hash of the genesis open block. -/
def genesis_hash : Hash := hash (.open_ genesis_open)

/-- Genesis delegates to the zero account, keeping its balance. -/
def to_zero_rep : state_block := signed_state genesis genesis genesis_hash 0 1000 0

/-- Genesis then delegates to account 5, keeping its balance. -/
def from_zero_rep : state_block :=
  signed_state genesis genesis (hash (.state to_zero_rep)) 5 1000 0

/-- The ledger in which the representative of genesis is the zero account. -/
def zero_rep_ledger : ledger := after genesis_ledger (.state to_zero_rep)

/-- Genesis sends 100 to account 2. -/
def send_1 : send_block := signed_send genesis genesis_hash 2 900

/-- Account 2 opens with the first send. -/
def open_2 : open_block := signed_open (hash (.send send_1)) 2 2

/-- Genesis sends another 50 to account 2. -/
def send_2 : send_block := signed_send genesis (hash (.send send_1)) 2 850

/-- Account 2 receives the second send with a legacy receive block. -/
def receive_2 : receive_block := signed_receive 2 (hash (.open_ open_2)) (hash (.send send_2))

/-- The row under which the open block of account 2 is stored. -/
def open_2_row : block_row :=
  { block := .open_ open_2,
    sideband := { type := .open_, account := 2, successor := 0, balance := 100, height := 1,
                  timestamp := 0 },
    epoch := .epoch_0 }

/-- Account 2 tries to receive from the genesis open block, which is stored
but is not a send. -/
def receive_from_open : receive_block := signed_receive 2 (hash (.open_ open_2)) genesis_hash

/-- The ledger after the first send. -/
def sent_ledger : ledger := after genesis_ledger (.send send_1)

/-- The ledger after account 2 was opened. -/
def opened_ledger : ledger := after sent_ledger (.open_ open_2)

/-- The ledger in which account 2 is open and has a second send to receive. -/
def receivable_ledger : ledger := after opened_ledger (.send send_2)

/-- The ledger after account 2 received the second send. -/
def received_ledger : ledger := after receivable_ledger (.receive receive_2)

/-- The pending entry that the first send left for account 2. -/
def pending_1 : pending_info := { source := genesis, amount := 100, epoch := .epoch_0 }

/-- The result of opening account 2. -/
def open_2_result : process_return :=
  { code := .progress, account := 2, amount := 100, pending_account := 0,
    state_is_send := none, verified := .valid }

/-- Genesis delegates to account 5 with a legacy change block. -/
def change_1 : change_block := signed_change genesis genesis_hash 5

/-- Genesis delegates to account 6 instead, from the same previous. -/
def change_2 : change_block := signed_change genesis genesis_hash 6

/-- The ledger after the first change block. -/
def changed_ledger : ledger := after genesis_ledger (.change change_1)

/-- The account row of genesis in the genesis ledger. -/
def genesis_info : account_info :=
  { head := genesis_hash, representative := genesis, open_block := genesis_hash }

/-- The result of the first change block. -/
def change_1_result : process_return :=
  { code := .progress, account := genesis, amount := 0, pending_account := 0,
    state_is_send := none, verified := .valid }

/-- A state block of genesis with the epoch link, a non-zero previous that is
not stored and a balance of 5, signed by the epoch signer. -/
def orphan_epoch_link_block : state_block :=
  signed_state epoch_signer genesis 999 genesis 5 epoch_1_link

/-- Genesis sends 100 to account 3 with a state block. -/
def state_send_1 : state_block := signed_state genesis genesis genesis_hash genesis 900 3

/-- The ledger after the state send. -/
def state_sent_ledger : ledger := after genesis_ledger (.state state_send_1)

/-- Account 3 opens with a state block that receives the state send. -/
def state_open_3 : state_block :=
  signed_state 3 3 0 3 100 (hash (.state state_send_1))

/-- The ledger after account 3 was opened. -/
def state_opened_ledger : ledger := after state_sent_ledger (.state state_open_3)

/-- The result of the state send of genesis. -/
def state_send_1_result : process_return :=
  { code := .progress, account := genesis, amount := 100, pending_account := 0,
    state_is_send := some true, verified := .valid }

/-- The epoch block that upgrades genesis to `epoch_1`, signed by the epoch signer. -/
def epoch_upgrade_1 : state_block :=
  signed_state epoch_signer genesis genesis_hash genesis 1000 epoch_1_link

/-- The epoch block of genesis whose link denotes `epoch_2`. -/
def epoch_upgrade_2 : state_block :=
  signed_state epoch_signer genesis genesis_hash genesis 1000 epoch_2_link

/-- The ledger after genesis was upgraded with the link of `epoch_1`. -/
def upgraded_ledger : ledger := after genesis_ledger (.state epoch_upgrade_1)

/-- The ledger after the epoch block with the link of `epoch_2` was processed. -/
def upgraded_2_ledger : ledger := after genesis_ledger (.state epoch_upgrade_2)

/-- The result of an epoch block of genesis. -/
def epoch_upgrade_result : process_return :=
  { code := .progress, account := genesis, amount := 0, pending_account := 0,
    state_is_send := none, verified := .valid_epoch }

/-- The genesis ledger with the genesis open block cemented (confirmation
height 1). -/
def cemented_ledger : ledger :=
  ledger.mk (genesis_ledger.store.confirmation_height_put genesis 1) genesis_ledger.rep_weights
    genesis_ledger.check_bootstrap_weights

/-- The ledger in which account 3 has received the state send of genesis and
its open block is cemented (confirmation height 1). -/
def cemented_3_ledger : ledger :=
  ledger.mk (state_opened_ledger.store.confirmation_height_put 3 1)
    state_opened_ledger.rep_weights state_opened_ledger.check_bootstrap_weights

/-- The outcome of `rollback` with an empty list: the error flag and the
ledger it leaves (`none` when it faults or does not end within the budget). -/
def rollback_outcome (l : ledger) (h : Hash) : Option (Bool × ledger) :=
  match ledger.rollback env 8 l h [] with
  | .ok (e, l1, _) => some (e, l1)
  | _ => none

/-- The outcome of the inversion of one block by the rollback visitor: the
error flag and the ledger it leaves. -/
def inversion_outcome (l : ledger) (b : block) : Option (Bool × ledger) :=
  match rollback_visitor.visit env (ledger.rollback env 8) 8 l [] b with
  | .ok (e, l1, _) => some (e, l1)
  | _ => none

/-- The ledger after the open block of account 2 was rolled back. -/
def unopened_ledger : ledger :=
  match rollback_outcome opened_ledger (hash (.open_ open_2)) with
  | some (_, l1) => l1
  | none => opened_ledger

/-- Genesis sends its whole balance to account 2. -/
def send_all : send_block := signed_send genesis genesis_hash 2 0

/-- The ledger after genesis has sent everything. -/
def emptied_ledger : ledger := after genesis_ledger (.send send_all)

/-- An epoch block for the unopened account 9 whose previous is the send block
of genesis. -/
def epoch_first_9 : state_block :=
  signed_state epoch_signer 9 (hash (.send send_all)) 0 0 epoch_1_link

/-- A legacy receive block of genesis on top of the genesis open block, which
is no longer the frontier after the first send. -/
def stale_receive : receive_block := signed_receive genesis genesis_hash (hash (.send send_1))

/-- The row of the genesis open block after the first send. -/
def genesis_row_after_send : block_row :=
  { block := .open_ genesis_open,
    sideband := { type := .open_, account := genesis, successor := hash (.send send_1),
                  balance := 1000, height := 1, timestamp := 0 },
    epoch := .epoch_0 }

/-- The ledger in which the head of genesis, its send block, has a successor:
the epoch block of account 9 was accepted on top of it. -/
def stray_ledger : ledger := after emptied_ledger (.state epoch_first_9)

/-- Genesis, with balance 0, sends nothing to account 3. -/
def send_zero : send_block := signed_send genesis (hash (.send send_all)) 3 0

/-- Account 3 opens with the empty send. -/
def open_3 : open_block := signed_open (hash (.send send_zero)) 3 3

/-- The ledger after the empty send and the open block of account 3. -/
def opened_3_ledger : ledger := after (after stray_ledger (.send send_zero)) (.open_ open_3)

/-- The ledger a rollback leaves, the ledger itself when the rollback faults. -/
def after_rollback (l : ledger) (h : Hash) : ledger :=
  match rollback_outcome l h with
  | some (_, l1) => l1
  | none => l

/-- A causal order of the blocks of `opened_ledger`: the genesis open block,
then the send of genesis, then the open block of account 2. -/
def order (h : Hash) : Nat :=
  if h = hash (.open_ open_2) then 2 else if h = hash (.send send_1) then 1 else 0

/-- The ledger in which account 2 has opened with the send of genesis and the
genesis open block is cemented (confirmation height 1). -/
def cemented_opened_ledger : ledger :=
  ledger.mk (opened_ledger.store.confirmation_height_put genesis 1)
    opened_ledger.rep_weights opened_ledger.check_bootstrap_weights

/-- The list of rolled back blocks a rollback with an empty list hands back. -/
def rolled_back_list (l : ledger) (h : Hash) : List block :=
  match ledger.rollback env 8 l h [] with
  | .ok (_, _, list) => list
  | _ => []

/-- A causal order of the blocks of `received_ledger`, the order in which
they were accepted. -/
def order_received (h : Hash) : Nat :=
  if h = example_net.hash (.receive receive_2) then 4
  else if h = example_net.hash (.send send_2) then 3
  else if h = example_net.hash (.open_ open_2) then 2
  else if h = example_net.hash (.send send_1) then 1 else 0

/-- A causal order of the blocks of `state_opened_ledger`. -/
def order_state (h : Hash) : Nat :=
  if h = example_net.hash (.state state_open_3) then 2
  else if h = example_net.hash (.state state_send_1) then 1 else 0

/-- A causal order of the blocks of `upgraded_ledger`. -/
def order_upgraded (h : Hash) : Nat :=
  if h = example_net.hash (.state epoch_upgrade_1) then 1 else 0

/-- A state block of the unopened account 9 that names the genesis open block
as its previous block. -/
def state_9_on_genesis : state_block := signed_state 9 9 genesis_hash 9 0 2

/-- A first state block of the unopened account 9 with a zero link. -/
def state_9_no_link : state_block := signed_state 9 9 0 9 0 0

/-- A state block of account 2 that raises its balance and names the genesis
open block, which is stored but is not a send, as its link. -/
def state_2_from_open : state_block :=
  signed_state 2 2 (hash (.open_ open_2)) 2 150 genesis_hash

/-- A state block of genesis, after its first send, that raises its balance
and carries the link of `epoch_1`: not an epoch block, because the balance
changes. -/
def state_raise_epoch_link : state_block :=
  signed_state genesis genesis (hash (.send send_1)) genesis 950 epoch_1_link

/-- An open block of account 9 that names the genesis open block as its source. -/
def open_9_from_open : open_block := signed_open genesis_hash 9 9

end example_net

end nano

namespace nano

/-! ## A rejected block leaves the ledger untouched -/

theorem send_block_unchanged (env : Env) (l : ledger) (res : process_return) (b : send_block)
    (r : process_return) (l1 : ledger)
    (h : ledger_processor.send_block env l res b = some (r, l1)) (hc : r.code ≠ .progress) :
    l1 = l := by
  unfold ledger_processor.send_block at h
  dsimp only at h
  repeat' split at h
  all_goals
    first
    | (simp only [Option.some.injEq, Prod.mk.injEq] at h
       obtain ⟨h1, h2⟩ := h
       first
       | exact h2.symm
       | (subst h1; exact absurd rfl hc))
    | exact Option.noConfusion h

theorem receive_block_unchanged (env : Env) (l : ledger) (res : process_return) (b : receive_block)
    (r : process_return) (l1 : ledger)
    (h : ledger_processor.receive_block env l res b = some (r, l1)) (hc : r.code ≠ .progress) :
    l1 = l := by
  unfold ledger_processor.receive_block at h
  dsimp only at h
  repeat' split at h
  all_goals
    first
    | (simp only [Option.some.injEq, Prod.mk.injEq] at h
       obtain ⟨h1, h2⟩ := h
       first
       | exact h2.symm
       | (subst h1; exact absurd rfl hc))
    | exact Option.noConfusion h

theorem open_block_unchanged (env : Env) (l : ledger) (res : process_return) (b : open_block)
    (r : process_return) (l1 : ledger)
    (h : ledger_processor.open_block env l res b = some (r, l1)) (hc : r.code ≠ .progress) :
    l1 = l := by
  unfold ledger_processor.open_block at h
  dsimp only at h
  repeat' split at h
  all_goals
    first
    | (simp only [Option.some.injEq, Prod.mk.injEq] at h
       obtain ⟨h1, h2⟩ := h
       first
       | exact h2.symm
       | (subst h1; exact absurd rfl hc))
    | exact Option.noConfusion h

theorem change_block_unchanged (env : Env) (l : ledger) (res : process_return) (b : change_block)
    (r : process_return) (l1 : ledger)
    (h : ledger_processor.change_block env l res b = some (r, l1)) (hc : r.code ≠ .progress) :
    l1 = l := by
  unfold ledger_processor.change_block at h
  dsimp only at h
  repeat' split at h
  all_goals
    first
    | (simp only [Option.some.injEq, Prod.mk.injEq] at h
       obtain ⟨h1, h2⟩ := h
       first
       | exact h2.symm
       | (subst h1; exact absurd rfl hc))
    | exact Option.noConfusion h

theorem state_block_apply_unchanged (env : Env) (l : ledger) (res : process_return)
    (b : state_block) (st : account_state) (e : epoch) (is_send : Bool)
    (r : process_return) (l1 : ledger)
    (h : ledger_processor.state_block_apply env l res b st e is_send = some (r, l1))
    (hc : r.code ≠ .progress) : l1 = l := by
  unfold ledger_processor.state_block_apply at h
  dsimp only at h
  repeat' split at h
  all_goals
    first
    | (simp only [Option.some.injEq, Prod.mk.injEq] at h
       obtain ⟨h1, h2⟩ := h
       first
       | exact h2.symm
       | (subst h1; exact absurd rfl hc))
    | exact Option.noConfusion h

theorem state_block_receive_unchanged (env : Env) (l : ledger) (res : process_return)
    (b : state_block) (st : account_state) (e : epoch) (is_send : Bool)
    (r : process_return) (l1 : ledger)
    (h : ledger_processor.state_block_receive env l res b st e is_send = some (r, l1))
    (hc : r.code ≠ .progress) : l1 = l := by
  unfold ledger_processor.state_block_receive at h
  repeat' split at h
  all_goals
    first
    | exact state_block_apply_unchanged _ _ _ _ _ _ _ _ _ h hc
    | (simp only [Option.some.injEq, Prod.mk.injEq] at h
       exact h.2.symm)

theorem state_block_impl_unchanged (env : Env) (l : ledger) (res : process_return)
    (b : state_block) (r : process_return) (l1 : ledger)
    (h : ledger_processor.state_block_impl env l res b = some (r, l1))
    (hc : r.code ≠ .progress) : l1 = l := by
  unfold ledger_processor.state_block_impl at h
  dsimp only at h
  repeat' split at h
  all_goals
    first
    | exact state_block_receive_unchanged _ _ _ _ _ _ _ _ _ h hc
    | (simp only [Option.some.injEq, Prod.mk.injEq] at h
       exact h.2.symm)
    | exact Option.noConfusion h

theorem epoch_block_impl_unchanged (env : Env) (l : ledger) (res : process_return)
    (b : state_block) (r : process_return) (l1 : ledger)
    (h : ledger_processor.epoch_block_impl env l res b = some (r, l1))
    (hc : r.code ≠ .progress) : l1 = l := by
  unfold ledger_processor.epoch_block_impl at h
  dsimp only at h
  repeat' split at h
  all_goals
    first
    | (simp only [Option.some.injEq, Prod.mk.injEq] at h
       obtain ⟨h1, h2⟩ := h
       first
       | exact h2.symm
       | (subst h1; exact absurd rfl hc))
    | exact Option.noConfusion h

theorem state_block_unchanged (env : Env) (l : ledger) (res : process_return)
    (b : state_block) (r : process_return) (l1 : ledger)
    (h : ledger_processor.state_block env l res b = some (r, l1))
    (hc : r.code ≠ .progress) : l1 = l := by
  unfold ledger_processor.state_block at h
  dsimp only at h
  repeat' split at h
  all_goals
    first
    | exact epoch_block_impl_unchanged _ _ _ _ _ _ h hc
    | exact state_block_impl_unchanged _ _ _ _ _ _ h hc
    | (simp only [Option.some.injEq, Prod.mk.injEq] at h
       exact h.2.symm)

/-- C1: whenever `process` returns a code other than `progress`, for a block of
any of the five variants, any store, any representative weights and any
signature hint, the ledger it leaves (every store table and the weights) is
the ledger it was given. -/
theorem process_rejected_leaves_ledger (env : Env) (l : ledger) (b : block)
    (v : signature_verification) (r : process_return) (l1 : ledger)
    (h : ledger.process env l b v = some (r, l1)) (hc : r.code ≠ .progress) : l1 = l := by
  unfold ledger.process at h
  cases b with
  | send b => exact send_block_unchanged _ _ _ _ _ _ h hc
  | receive b => exact receive_block_unchanged _ _ _ _ _ _ h hc
  | open_ b => exact open_block_unchanged _ _ _ _ _ _ h hc
  | change b => exact change_block_unchanged _ _ _ _ _ _ h hc
  | state b => exact state_block_unchanged _ _ _ _ _ _ h hc

theorem process_rejected_leaves_ledger_witness :
    ledger.process example_net.env example_net.genesis_ledger
        (.open_ example_net.genesis_open) .unknown
      = some ({ process_return.init .unknown with code := .old }, example_net.genesis_ledger) ∧
    example_net.genesis_ledger = example_net.genesis_ledger :=
  ⟨by decide,
   process_rejected_leaves_ledger example_net.env example_net.genesis_ledger
     (.open_ example_net.genesis_open) .unknown
     { process_return.init .unknown with code := .old } example_net.genesis_ledger
     (by decide) (by decide)⟩

end nano

namespace nano

/-! ## Weights and balances: the zero representative -/

/-- C2 (evaluation at the failing input): from the genesis ledger, genesis
delegates to the zero account by a state block (accepted; the sums of weights
and of balances are both 1000 afterwards). The next state block of genesis,
which delegates to account 5 and keeps the balance, is accepted with
`progress`, but the weight 1000 is added to account 5 without being taken
from the zero account: the weights then sum to 2000, the balances to 1000. -/
theorem zero_representative_state_block_inflates_weights :
    example_net.code_of example_net.genesis_ledger (.state example_net.to_zero_rep) .unknown
      = some .progress ∧
    example_net.zero_rep_ledger.weight_sum = example_net.zero_rep_ledger.balance_sum ∧
    (example_net.zero_rep_ledger.account_state example_net.genesis).rep = 0 ∧
    (ledger.process example_net.env example_net.zero_rep_ledger
        (.state example_net.from_zero_rep) .unknown).map
      (fun p => (p.1.code, p.2.weight_sum, p.2.balance_sum)) = some (.progress, 2000, 1000) := by
  decide

/-! ## Process followed by rollback: the legacy receive -/

/-- C3 (evaluation at the failing input): account 2 is open with its open block as
`open_block`; a legacy receive block is accepted with `progress`; its rollback
returns no error, but the account row it writes has `open_block` zero, not the
value the row had before the receive was processed. -/
theorem receive_rollback_loses_open_block :
    example_net.receivable_ledger.store.account_get 2
      = some { head := example_net.hash (.open_ example_net.open_2), representative := 2,
               open_block := example_net.hash (.open_ example_net.open_2) } ∧
    example_net.code_of example_net.receivable_ledger (.receive example_net.receive_2) .unknown
      = some .progress ∧
    ((example_net.rolled_back
        (example_net.after example_net.receivable_ledger (.receive example_net.receive_2))
        (example_net.hash (.receive example_net.receive_2))).map
      (fun l => l.store.account_get 2))
      = some (some { head := example_net.hash (.open_ example_net.open_2), representative := 2,
                     open_block := 0 }) := by
  decide

end nano

namespace nano

/-! ## An accepted block was signed, or vouched for by the matching hint -/

theorem sig_checked_of_not (env : Env) (a : Account) (h : Hash) (s : Signature)
    (v req : signature_verification)
    (hn : ¬ (v ≠ req ∧ env.validate_message a h s = true)) :
    env.validate_message a h s = false ∨ v = req := by
  by_cases hv : v = req
  · exact Or.inr hv
  · cases hval : env.validate_message a h s
    · exact Or.inl rfl
    · exact absurd ⟨hv, hval⟩ hn

theorem send_block_signed (env : Env) (l : ledger) (res : process_return) (b : send_block)
    (r : process_return) (l1 : ledger)
    (h : ledger_processor.send_block env l res b = some (r, l1)) (hc : r.code = .progress) :
    r.account = l.store.frontier_get b.previous ∧
    (env.validate_message (l.store.frontier_get b.previous) (env.hash (.send b)) b.signature = false ∨
      res.verified = .valid) := by
  unfold ledger_processor.send_block at h
  dsimp only at h
  repeat' split at h
  all_goals
    first
    | exact Option.noConfusion h
    | (simp only [Option.some.injEq, Prod.mk.injEq] at h
       obtain ⟨h1, h2⟩ := h
       subst h1
       first
       | (refine ⟨rfl, ?_⟩; apply sig_checked_of_not; assumption)
       | (exfalso; simp at hc))

theorem receive_block_signed (env : Env) (l : ledger) (res : process_return) (b : receive_block)
    (r : process_return) (l1 : ledger)
    (h : ledger_processor.receive_block env l res b = some (r, l1)) (hc : r.code = .progress) :
    r.account = l.store.frontier_get b.previous ∧
    (env.validate_message (l.store.frontier_get b.previous) (env.hash (.receive b)) b.signature = false ∨
      res.verified = .valid) := by
  unfold ledger_processor.receive_block at h
  dsimp only at h
  repeat' split at h
  all_goals
    first
    | exact Option.noConfusion h
    | (simp only [Option.some.injEq, Prod.mk.injEq] at h
       obtain ⟨h1, h2⟩ := h
       subst h1
       first
       | (refine ⟨rfl, ?_⟩; apply sig_checked_of_not; assumption)
       | (exfalso; simp at hc))

theorem open_block_signed (env : Env) (l : ledger) (res : process_return) (b : open_block)
    (r : process_return) (l1 : ledger)
    (h : ledger_processor.open_block env l res b = some (r, l1)) (hc : r.code = .progress) :
    r.account = b.account ∧
    (env.validate_message (b.account) (env.hash (.open_ b)) b.signature = false ∨
      res.verified = .valid) := by
  unfold ledger_processor.open_block at h
  dsimp only at h
  repeat' split at h
  all_goals
    first
    | exact Option.noConfusion h
    | (simp only [Option.some.injEq, Prod.mk.injEq] at h
       obtain ⟨h1, h2⟩ := h
       subst h1
       first
       | (refine ⟨rfl, ?_⟩; apply sig_checked_of_not; assumption)
       | (exfalso; simp at hc))

theorem change_block_signed (env : Env) (l : ledger) (res : process_return) (b : change_block)
    (r : process_return) (l1 : ledger)
    (h : ledger_processor.change_block env l res b = some (r, l1)) (hc : r.code = .progress) :
    r.account = l.store.frontier_get b.previous ∧
    (env.validate_message (l.store.frontier_get b.previous) (env.hash (.change b)) b.signature = false ∨
      res.verified = .valid) := by
  unfold ledger_processor.change_block at h
  dsimp only at h
  repeat' split at h
  all_goals
    first
    | exact Option.noConfusion h
    | (simp only [Option.some.injEq, Prod.mk.injEq] at h
       obtain ⟨h1, h2⟩ := h
       subst h1
       first
       | (refine ⟨rfl, ?_⟩; apply sig_checked_of_not; assumption)
       | (exfalso; simp at hc))

theorem state_block_apply_account (env : Env) (l : ledger) (res : process_return)
    (b : state_block) (st : account_state) (e : epoch) (is_send : Bool)
    (r : process_return) (l1 : ledger)
    (h : ledger_processor.state_block_apply env l res b st e is_send = some (r, l1)) :
    r.account = b.account := by
  unfold ledger_processor.state_block_apply at h
  dsimp only at h
  repeat' split at h
  all_goals
    first
    | exact Option.noConfusion h
    | (simp only [Option.some.injEq, Prod.mk.injEq] at h
       obtain ⟨h1, h2⟩ := h
       subst h1
       rfl)

theorem state_block_receive_account (env : Env) (l : ledger) (res : process_return)
    (b : state_block) (st : account_state) (e : epoch) (is_send : Bool)
    (r : process_return) (l1 : ledger)
    (h : ledger_processor.state_block_receive env l res b st e is_send = some (r, l1))
    (hc : r.code = .progress) : r.account = b.account := by
  unfold ledger_processor.state_block_receive at h
  repeat' split at h
  all_goals
    first
    | exact state_block_apply_account _ _ _ _ _ _ _ _ _ h
    | (simp only [Option.some.injEq, Prod.mk.injEq] at h
       obtain ⟨h1, h2⟩ := h
       subst h1
       exfalso; simp at hc)

theorem state_block_impl_signed (env : Env) (l : ledger) (res : process_return)
    (b : state_block) (r : process_return) (l1 : ledger)
    (h : ledger_processor.state_block_impl env l res b = some (r, l1))
    (hc : r.code = .progress) :
    r.account = b.account ∧
    (env.validate_message b.account (env.hash (.state b)) b.signature = false ∨
      res.verified = .valid) := by
  unfold ledger_processor.state_block_impl at h
  dsimp only at h
  repeat' split at h
  all_goals
    first
    | exact Option.noConfusion h
    | (refine ⟨state_block_receive_account _ _ _ _ _ _ _ _ _ h hc, ?_⟩
       apply sig_checked_of_not; assumption)
    | (simp only [Option.some.injEq, Prod.mk.injEq] at h
       obtain ⟨h1, h2⟩ := h
       subst h1
       exfalso; simp at hc)

theorem epoch_block_impl_signed (env : Env) (l : ledger) (res : process_return)
    (b : state_block) (r : process_return) (l1 : ledger)
    (h : ledger_processor.epoch_block_impl env l res b = some (r, l1))
    (hc : r.code = .progress) :
    r.account = b.account ∧
    (env.validate_message (ledger.signer env b.link) (env.hash (.state b)) b.signature = false ∨
      res.verified = .valid_epoch) := by
  unfold ledger_processor.epoch_block_impl at h
  dsimp only at h
  repeat' split at h
  all_goals
    first
    | exact Option.noConfusion h
    | (simp only [Option.some.injEq, Prod.mk.injEq] at h
       obtain ⟨h1, h2⟩ := h
       subst h1
       first
       | (refine ⟨rfl, ?_⟩; apply sig_checked_of_not; assumption)
       | (exfalso; simp only at hc; contradiction))

theorem state_block_prev_verified (env : Env) (l : ledger) (res : process_return)
    (b : state_block)
    (hc : (ledger_processor.state_block_prev env l res b).1.code = .progress) :
    (ledger_processor.state_block_prev env l res b).1.verified = res.verified := by
  unfold ledger_processor.state_block_prev at hc ⊢
  dsimp only at hc ⊢
  split_ifs at hc ⊢
  all_goals rfl

/-- C7: when `process` returns `progress`, the signature of the block validated
for the account that has to sign it (the owning account, or the epoch signer
of the link for a state block handled as an epoch block), or else the hint was
the one matching the kind of block (`valid`, respectively `valid_epoch`). So
`valid_epoch` never replaces the account signature of a non-epoch block, and
`valid` never replaces the epoch signature of an epoch block. The result names
the owning account. -/
theorem progress_needs_signature_or_matching_hint (env : Env) (l : ledger) (b : block)
    (v : signature_verification) (r : process_return) (l1 : ledger)
    (h : ledger.process env l b v = some (r, l1)) (hc : r.code = .progress) :
    r.account = l.owner b ∧
    (env.validate_message (l.required_signer env v b).1 (env.hash b) b.signature = false ∨
      v = (l.required_signer env v b).2) := by
  unfold ledger.process at h
  cases b with
  | send b => exact send_block_signed _ _ _ _ _ _ h hc
  | receive b => exact receive_block_signed _ _ _ _ _ _ h hc
  | open_ b => exact open_block_signed _ _ _ _ _ _ h hc
  | change b => exact change_block_signed _ _ _ _ _ _ h hc
  | state b =>
    dsimp only at h
    unfold ledger_processor.state_block at h
    dsimp only at h
    simp only [ledger.required_signer, ledger_processor.is_epoch_block, ledger.owner,
      block.signature]
    by_cases hl : ledger.is_epoch_link env b.link = true
    · rw [if_pos hl] at h
      by_cases hp : (ledger_processor.state_block_prev env l (process_return.init v) b).1.code
          = .progress
      · rw [if_pos hp] at h
        have hv := state_block_prev_verified env l (process_return.init v) b hp
        by_cases he : b.balance
            = (ledger_processor.state_block_prev env l (process_return.init v) b).2
        · rw [if_pos (by simpa using he)] at h
          have := epoch_block_impl_signed _ _ _ _ _ _ h hc
          rw [hv] at this
          simp only [process_return.init] at this
          simpa [hl, he] using this
        · rw [if_neg (by simpa using he)] at h
          have := state_block_impl_signed _ _ _ _ _ _ h hc
          rw [hv] at this
          simp only [process_return.init] at this
          simpa [hl, he] using this
      · rw [if_neg hp] at h
        simp only [Option.some.injEq, Prod.mk.injEq] at h
        exact absurd (h.1 ▸ hc) hp
    · rw [if_neg hl] at h
      have := state_block_impl_signed _ _ _ _ _ _ h hc
      simp only [process_return.init] at this
      simpa [hl] using this

theorem progress_needs_signature_or_matching_hint_witness :
    (example_net.env.validate_message
        (example_net.genesis_ledger.required_signer example_net.env .unknown
          (.send example_net.send_1)).1
        (example_net.env.hash (.send example_net.send_1))
        (block.signature (.send example_net.send_1)) = false ∨
      signature_verification.unknown
        = (example_net.genesis_ledger.required_signer example_net.env .unknown
            (.send example_net.send_1)).2) ∧
    (ledger.process example_net.env example_net.genesis_ledger (.send example_net.send_1)
        .unknown).isSome = true :=
  ⟨(progress_needs_signature_or_matching_hint example_net.env example_net.genesis_ledger
      (.send example_net.send_1) .unknown
      ((ledger.process example_net.env example_net.genesis_ledger (.send example_net.send_1)
          .unknown).get (by decide)).1
      ((ledger.process example_net.env example_net.genesis_ledger (.send example_net.send_1)
          .unknown).get (by decide)).2
      (by decide) (by decide)).2, by decide⟩

end nano

namespace nano

/-! ## Legacy send and receive: the order of the checks -/

theorem change_latest_isSome (s : Store) (a : Account) (old : account_state)
    (new : account_info) (e : epoch) (h : old.head ≠ 0 → old.row.isSome = true) :
    (ledger.change_latest s a old new e).isSome = true := by
  unfold ledger.change_latest
  dsimp only
  by_cases hn : new.head ≠ 0
  · rw [if_pos hn]
    by_cases ho : old.head ≠ 0
    · rw [if_pos ho]
      have hr := h ho
      unfold account_state.epoch
      cases hrow : old.row with
      | none => rw [hrow] at hr; exact absurd hr (by decide)
      | some r => rfl
    · rw [if_neg ho]; rfl
  · rw [if_neg hn]; rfl

theorem change_latest_ne_none (s : Store) (a : Account) (old : account_state)
    (new : account_info) (e : epoch) (h : old.head ≠ 0 → old.row.isSome = true) :
    ledger.change_latest s a old new e ≠ none := by
  intro hn
  have := change_latest_isSome s a old new e h
  rw [hn] at this
  exact absurd this (by decide)

theorem account_state_row_of_head_stored (l : ledger) (a : Account)
    (hh : l.store.head_stored a = true) :
    (l.account_state a).head ≠ 0 → (l.account_state a).row.isSome = true := by
  unfold Store.head_stored at hh
  unfold ledger.account_state
  cases hg : l.store.account_get a with
  | none => intro h; exact absurd rfl h
  | some i =>
    rw [hg] at hh
    intro h
    simp only [Bool.or_eq_true, decide_eq_true_eq] at hh
    rcases hh with hh | hh
    · exact absurd hh h
    · exact hh

theorem send_block_code (env : Env) (l : ledger) (res : process_return) (b : send_block)
    (r : process_return) (l1 : ledger)
    (h : ledger_processor.send_block env l res b = some (r, l1)) :
    r.code = send_code_spec env l b res.verified := by
  unfold ledger_processor.send_block at h
  unfold send_code_spec
  dsimp only at h
  repeat' split at h
  all_goals
    first
    | exact Option.noConfusion h
    | (simp only [Option.some.injEq, Prod.mk.injEq] at h
       obtain ⟨h1, h2⟩ := h
       subst h1
       subst h2
       simp only [ge_iff_le, not_le, not_lt, not_not] at *
       first
       | rfl
       | (have hlt := Nat.not_lt.mpr ‹b.balance ≤ _›
          simp [*])
       | simp [*])

theorem send_block_isSome (env : Env) (l : ledger) (res : process_return) (b : send_block)
    (hh : l.store.head_stored (l.store.frontier_get b.previous) = true) :
    (ledger_processor.send_block env l res b).isSome = true := by
  unfold ledger_processor.send_block
  dsimp only
  repeat' split
  all_goals
    first
    | rfl
    | (rename_i hcl
       exact absurd hcl
         (change_latest_ne_none _ _ _ _ _ (account_state_row_of_head_stored l _ hh)))

/-- C8: for a legacy send block whose frontier account has its head block
stored, `process` returns, and the code is the first failing check in the
order: `old`, `gap_previous`, `block_position`, `fork`, `bad_signature` (only
when the hint is not `valid`), `negative_spend`, and `progress` when every
check passes. -/
theorem legacy_send_result_code (env : Env) (l : ledger) (b : send_block)
    (v : signature_verification)
    (hh : l.store.head_stored (l.store.frontier_get b.previous) = true) :
    ∃ r l1, ledger.process env l (.send b) v = some (r, l1) ∧
      r.code = send_code_spec env l b v := by
  have hs := send_block_isSome env l (process_return.init v) b hh
  cases hp : ledger_processor.send_block env l (process_return.init v) b with
  | none => rw [hp] at hs; exact absurd hs (by decide)
  | some p =>
    obtain ⟨r, l1⟩ := p
    exact ⟨r, l1, hp, send_block_code env l (process_return.init v) b r l1 hp⟩

theorem legacy_send_result_code_witness :
    example_net.genesis_ledger.store.head_stored
        (example_net.genesis_ledger.store.frontier_get example_net.send_1.previous) = true ∧
    ∃ r l1, ledger.process example_net.env example_net.genesis_ledger
        (.send example_net.send_1) .unknown = some (r, l1) ∧
      r.code = send_code_spec example_net.env example_net.genesis_ledger example_net.send_1
        .unknown :=
  ⟨by decide,
   legacy_send_result_code example_net.env example_net.genesis_ledger example_net.send_1
     .unknown (by decide)⟩

end nano

namespace nano

/-! ## Legacy send: amount and pending row -/

theorem sub128_of_le (a b : Nat) (h : b ≤ a) (ha : a < two128) : sub128 a b = a - b := by
  unfold sub128
  have hb : b % two128 = b := Nat.mod_eq_of_lt (Nat.lt_of_le_of_lt h ha)
  have hm : b ≤ two128 := Nat.le_of_lt (Nat.lt_of_le_of_lt h ha)
  have hsum : a + (two128 - b) = (a - b) + two128 := by omega
  rw [hb, hsum, Nat.add_mod_right]
  exact Nat.mod_eq_of_lt (Nat.lt_of_le_of_lt (Nat.sub_le a b) ha)

theorem Map.get_put_self {K V : Type} [DecidableEq K] (m : Map K V) (k : K) (v : V) :
    (m.put k v).get k = some v := by
  simp [Map.put, Map.get]

theorem change_latest_frame (s s1 : Store) (a : Account) (old : account_state)
    (new : account_info) (e : epoch) (h : ledger.change_latest s a old new e = some s1) :
    s1.blocks = s.blocks ∧ s1.pending_v0 = s.pending_v0 ∧ s1.pending_v1 = s.pending_v1 ∧
      s1.frontiers = s.frontiers := by
  unfold ledger.change_latest at h
  dsimp only at h
  repeat' split at h
  all_goals
    first
    | exact Option.noConfusion h
    | (simp only [Option.some.injEq] at h
       subst h
       simp only [Store.account_put, Store.account_del, Store.confirmation_height_put,
         Store.confirmation_height_del]
       repeat' split
       all_goals exact ⟨rfl, rfl, rfl, rfl⟩)

theorem send_block_amount (env : Env) (l : ledger) (res : process_return) (b : send_block)
    (previous : block_row) (r : process_return) (l1 : ledger)
    (h : ledger_processor.send_block env l res b = some (r, l1))
    (hnew : l.store.block_exists_type .send (env.hash (.send b)) = false)
    (hprev : l.store.block_get b.previous = some previous)
    (hpos : valid_predecessor previous.block = true)
    (hfr : l.store.frontier_get b.previous ≠ 0)
    (hsig : res.verified = .valid ∨
      env.validate_message (l.store.frontier_get b.previous) (env.hash (.send b))
        b.signature = false)
    (hB : (l.account_state (l.store.frontier_get b.previous)).balance < two128) :
    (r.code = .negative_spend ∨ r.code = .progress) ∧
    (r.code = .negative_spend ↔
      (l.account_state (l.store.frontier_get b.previous)).balance < b.balance) ∧
    (r.code = .progress →
      r.amount + b.balance = (l.account_state (l.store.frontier_get b.previous)).balance ∧
      r.pending_account = b.destination ∧
      l1.store.pending_v0.get { account := b.destination, hash := env.hash (.send b) }
        = some { source := l.store.frontier_get b.previous,
                 amount := (l.account_state (l.store.frontier_get b.previous)).balance
                   - b.balance } ∧
      (l.store.pending_v1.get { account := b.destination, hash := env.hash (.send b) } = none →
        l1.store.pending_get { account := b.destination, hash := env.hash (.send b) }
          = some { source := l.store.frontier_get b.previous,
                   amount := (l.account_state (l.store.frontier_get b.previous)).balance
                     - b.balance,
                   epoch := .epoch_0 })) := by
  unfold ledger_processor.send_block at h
  dsimp only at h
  rw [hnew, hprev] at h
  simp only [Bool.false_eq_true, if_false, hpos, not_true_eq_false, hfr] at h
  have hsig1 : ¬ (res.verified ≠ .valid ∧
      env.validate_message (l.store.frontier_get b.previous) (env.hash (.send b))
        b.signature = true) := by
    rintro ⟨h1, h2⟩
    rcases hsig with h3 | h3
    · exact h1 h3
    · rw [h3] at h2; exact absurd h2 (by decide)
  rw [if_neg hsig1] at h
  by_cases hbal : (l.account_state (l.store.frontier_get b.previous)).balance ≥ b.balance
  · rw [if_neg (not_not.mpr hbal)] at h
    split at h
    · exact Option.noConfusion h
    · rename_i store2 hcl
      simp only [Option.some.injEq, Prod.mk.injEq] at h
      obtain ⟨h1, h2⟩ := h
      subst h1
      subst h2
      have hfrm := change_latest_frame _ _ _ _ _ _ hcl
      have hsub := sub128_of_le _ _ hbal hB
      refine ⟨Or.inr rfl, ⟨fun hc => by simp at hc, fun hc => absurd hbal (Nat.not_le.mpr hc)⟩,
        fun _ => ⟨?_, rfl, ?_, ?_⟩⟩
      · show sub128 _ _ + b.balance = _
        rw [hsub]
        exact Nat.sub_add_cancel hbal
      · show (Map.put _ _ _).get _ = _
        rw [Map.get_put_self, hsub]
      · intro hv1
        simp only [Store.pending_get, Store.frontier_put, Store.frontier_del, Store.pending_put,
          if_true, hfrm.2.1, hfrm.2.2.1, Store.block_put, hv1, Map.get_put_self, hsub]
  · rw [if_pos hbal] at h
    simp only [Option.some.injEq, Prod.mk.injEq] at h
    obtain ⟨h1, h2⟩ := h
    subst h1
    exact ⟨Or.inl rfl, ⟨fun _ => Nat.lt_of_not_le hbal, fun _ => rfl⟩,
      fun hc => by simp at hc⟩

/-- C9: a legacy send block that passes the checks before the balance check,
on an account `a` (the frontier account of `previous`) whose head balance `B`
is a 128-bit value: `process` returns `negative_spend` or `progress`, it is
`negative_spend` exactly when `b.balance > B`, and on `progress` the amount of
the result is `B - b.balance` without wrap-around (`amount + b.balance = B`),
`pending_account` is the destination, and the `epoch_0` pending table holds
the row `(destination, hash) -> (a, B - b.balance)`, which `pending_get`
returns when the upgraded table has no row of that key. -/
theorem legacy_send_amount_and_pending (env : Env) (l : ledger) (b : send_block)
    (v : signature_verification) (previous : block_row)
    (hnew : l.store.block_exists_type .send (env.hash (.send b)) = false)
    (hprev : l.store.block_get b.previous = some previous)
    (hpos : valid_predecessor previous.block = true)
    (hfr : l.store.frontier_get b.previous ≠ 0)
    (hsig : v = .valid ∨
      env.validate_message (l.store.frontier_get b.previous) (env.hash (.send b))
        b.signature = false)
    (hh : l.store.head_stored (l.store.frontier_get b.previous) = true)
    (hB : (l.account_state (l.store.frontier_get b.previous)).balance < two128) :
    ∃ r l1, ledger.process env l (.send b) v = some (r, l1) ∧
      (r.code = .negative_spend ∨ r.code = .progress) ∧
      (r.code = .negative_spend ↔
        (l.account_state (l.store.frontier_get b.previous)).balance < b.balance) ∧
      (r.code = .progress →
        r.amount + b.balance = (l.account_state (l.store.frontier_get b.previous)).balance ∧
        r.pending_account = b.destination ∧
        l1.store.pending_v0.get { account := b.destination, hash := env.hash (.send b) }
          = some { source := l.store.frontier_get b.previous,
                   amount := (l.account_state (l.store.frontier_get b.previous)).balance
                     - b.balance } ∧
        (l.store.pending_v1.get { account := b.destination, hash := env.hash (.send b) } = none →
          l1.store.pending_get { account := b.destination, hash := env.hash (.send b) }
            = some { source := l.store.frontier_get b.previous,
                     amount := (l.account_state (l.store.frontier_get b.previous)).balance
                       - b.balance,
                     epoch := .epoch_0 })) := by
  have hs := send_block_isSome env l (process_return.init v) b hh
  cases hp : ledger_processor.send_block env l (process_return.init v) b with
  | none => rw [hp] at hs; exact absurd hs (by decide)
  | some p =>
    obtain ⟨r, l1⟩ := p
    exact ⟨r, l1, hp,
      send_block_amount env l (process_return.init v) b previous r l1 hp hnew hprev hpos hfr
        hsig hB⟩

theorem legacy_send_amount_and_pending_witness :
    ∃ r l1, ledger.process example_net.env example_net.genesis_ledger
        (.send example_net.send_1) .unknown = some (r, l1) ∧
      (r.code = .negative_spend ∨ r.code = .progress) ∧
      (r.code = .negative_spend ↔
        (example_net.genesis_ledger.account_state
          (example_net.genesis_ledger.store.frontier_get example_net.send_1.previous)).balance
          < example_net.send_1.balance) ∧
      (r.code = .progress →
        r.amount + example_net.send_1.balance
          = (example_net.genesis_ledger.account_state
              (example_net.genesis_ledger.store.frontier_get
                example_net.send_1.previous)).balance ∧
        r.pending_account = example_net.send_1.destination ∧
        l1.store.pending_v0.get
            { account := example_net.send_1.destination,
              hash := example_net.env.hash (.send example_net.send_1) }
          = some { source := example_net.genesis_ledger.store.frontier_get
                     example_net.send_1.previous,
                   amount := (example_net.genesis_ledger.account_state
                       (example_net.genesis_ledger.store.frontier_get
                         example_net.send_1.previous)).balance
                     - example_net.send_1.balance } ∧
        (example_net.genesis_ledger.store.pending_v1.get
            { account := example_net.send_1.destination,
              hash := example_net.env.hash (.send example_net.send_1) } = none →
          l1.store.pending_get
              { account := example_net.send_1.destination,
                hash := example_net.env.hash (.send example_net.send_1) }
            = some { source := example_net.genesis_ledger.store.frontier_get
                       example_net.send_1.previous,
                     amount := (example_net.genesis_ledger.account_state
                         (example_net.genesis_ledger.store.frontier_get
                           example_net.send_1.previous)).balance
                       - example_net.send_1.balance,
                     epoch := .epoch_0 })) :=
  legacy_send_amount_and_pending example_net.env example_net.genesis_ledger example_net.send_1
    .unknown
    { block := .open_ example_net.genesis_open,
      sideband := { type := .open_, account := example_net.genesis, successor := 0,
                    balance := 1000, height := 1, timestamp := 0 },
      epoch := .epoch_0 }
    (by decide) (by decide) (by decide) (by decide) (Or.inr (by decide)) (by decide) (by decide)

end nano

namespace nano

/-! ## Legacy receive: the order of the checks -/

theorem account_state_head_eq_latest (l : ledger) (a : Account) :
    (l.account_state a).head = l.latest a := by
  unfold ledger.account_state ledger.latest account_state.head
  cases l.store.account_get a <;> rfl

theorem receive_block_code (env : Env) (l : ledger) (res : process_return) (b : receive_block)
    (previous : block_row) (r : process_return) (l1 : ledger)
    (h : ledger_processor.receive_block env l res b = some (r, l1))
    (hnew : l.store.block_exists_type .receive (env.hash (.receive b)) = false)
    (hprev : l.store.block_get b.previous = some previous)
    (hpos : valid_predecessor previous.block = true)
    (hfr : l.store.frontier_get b.previous ≠ 0) :
    r.code = receive_code_spec env l b res.verified (l.store.frontier_get b.previous) := by
  unfold ledger_processor.receive_block at h
  unfold receive_code_spec
  dsimp only at h
  rw [hnew, hprev] at h
  simp only [Bool.false_eq_true, if_false, hpos, not_true_eq_false, hfr] at h
  rw [← account_state_head_eq_latest]
  repeat' split at h
  all_goals
    first
    | exact Option.noConfusion h
    | (simp only [Option.some.injEq, Prod.mk.injEq] at h
       obtain ⟨h1, h2⟩ := h
       subst h1
       subst h2
       first
       | rfl
       | simp [*])

theorem receive_block_isSome (env : Env) (l : ledger) (res : process_return) (b : receive_block)
    (previous : block_row)
    (hprev : l.store.block_get b.previous = some previous) :
    (ledger_processor.receive_block env l res b).isSome = true := by
  unfold ledger_processor.receive_block
  dsimp only
  repeat' split
  all_goals
    first
    | rfl
    | (rename_i hcl
       refine absurd hcl (change_latest_ne_none _ _ _ _ _ ?_)
       intro hne
       have hhead1 : (l.account_state (l.store.frontier_get b.previous)).head = b.previous :=
         not_not.mp (by assumption)
       unfold ledger.account_state at hhead1 hne ⊢
       unfold account_state.head at hhead1 hne
       cases hg : l.store.account_get (l.store.frontier_get b.previous) with
       | none =>
         rw [hg] at hne
         exact absurd rfl hne
       | some i =>
         rw [hg] at hhead1
         simp only at hhead1 ⊢
         rw [hhead1, hprev]
         rfl)

/-- C10: for a legacy receive block that is not stored, whose previous is
stored and is a legacy block, and whose previous has the frontier account `a`:
`process` returns, and its code is `bad_signature` if the hint is not `valid`
and the signature does not validate for `a`; otherwise `gap_source` if the
source is not a stored send or state block; otherwise `gap_previous` if the
head of `a` is not `previous`; otherwise `unreceivable` if there is no pending
row `(a, source)` or its epoch is not `epoch_0`; otherwise `progress`. -/
theorem legacy_receive_result_code (env : Env) (l : ledger) (b : receive_block)
    (v : signature_verification) (previous : block_row)
    (hnew : l.store.block_exists_type .receive (env.hash (.receive b)) = false)
    (hprev : l.store.block_get b.previous = some previous)
    (hpos : valid_predecessor previous.block = true)
    (hfr : l.store.frontier_get b.previous ≠ 0) :
    ∃ r l1, ledger.process env l (.receive b) v = some (r, l1) ∧
      r.code = receive_code_spec env l b v (l.store.frontier_get b.previous) := by
  have hs := receive_block_isSome env l (process_return.init v) b previous hprev
  cases hp : ledger_processor.receive_block env l (process_return.init v) b with
  | none => rw [hp] at hs; exact absurd hs (by decide)
  | some p =>
    obtain ⟨r, l1⟩ := p
    exact ⟨r, l1, hp,
      receive_block_code env l (process_return.init v) b previous r l1 hp hnew hprev hpos hfr⟩

theorem legacy_receive_result_code_witness :
    ∃ r l1, ledger.process example_net.env example_net.receivable_ledger
        (.receive example_net.receive_2) .unknown = some (r, l1) ∧
      r.code = receive_code_spec example_net.env example_net.receivable_ledger
        example_net.receive_2 .unknown
        (example_net.receivable_ledger.store.frontier_get example_net.receive_2.previous) :=
  legacy_receive_result_code example_net.env example_net.receivable_ledger
    example_net.receive_2 .unknown
    example_net.open_2_row (by decide) (by decide) (by decide) (by decide)

end nano

namespace nano

/-! ## `could_fit` and the gap codes -/

/-- C6 (counterexample): blocks for which `could_fit` is `true` and `process`
returns a gap code. Account 2 is open; a receive block of account 2 names the
genesis open block as its source: both hashes it refers to are stored, but the
source is not a send (`gap_source`). The same for an open block of account 9
(`gap_source`). A state block of the unopened account 9 whose previous is the
stored genesis open block (`gap_previous`). A first state block of account 9
with a zero link (`gap_source`). A state block of account 2 that raises the
balance with the genesis open block as its link (`gap_source`). A state block
of genesis that raises the balance with an epoch link (`gap_source`). -/
theorem could_fit_but_gap :
    (ledger.could_fit example_net.env example_net.opened_ledger
        (.receive example_net.receive_from_open) = true ∧
      example_net.code_of example_net.opened_ledger (.receive example_net.receive_from_open)
        .unknown = some .gap_source) ∧
    (ledger.could_fit example_net.env example_net.genesis_ledger
        (.open_ example_net.open_9_from_open) = true ∧
      example_net.code_of example_net.genesis_ledger (.open_ example_net.open_9_from_open)
        .unknown = some .gap_source) ∧
    (ledger.could_fit example_net.env example_net.genesis_ledger
        (.state example_net.state_9_on_genesis) = true ∧
      example_net.code_of example_net.genesis_ledger (.state example_net.state_9_on_genesis)
        .unknown = some .gap_previous) ∧
    (ledger.could_fit example_net.env example_net.genesis_ledger
        (.state example_net.state_9_no_link) = true ∧
      example_net.code_of example_net.genesis_ledger (.state example_net.state_9_no_link)
        .unknown = some .gap_source) ∧
    (ledger.could_fit example_net.env example_net.opened_ledger
        (.state example_net.state_2_from_open) = true ∧
      example_net.code_of example_net.opened_ledger (.state example_net.state_2_from_open)
        .unknown = some .gap_source) ∧
    (ledger.could_fit example_net.env example_net.sent_ledger
        (.state example_net.state_raise_epoch_link) = true ∧
      example_net.code_of example_net.sent_ledger (.state example_net.state_raise_epoch_link)
        .unknown = some .gap_source) := by
  decide

theorem send_block_no_gap (env : Env) (l : ledger) (res : process_return) (b : send_block)
    (r : process_return) (l1 : ledger)
    (h : ledger_processor.send_block env l res b = some (r, l1))
    (hfit : l.store.block_exists b.previous = true) :
    r.code ≠ .gap_previous ∧ r.code ≠ .gap_source := by
  unfold ledger_processor.send_block at h
  dsimp only at h
  repeat' split at h
  all_goals
    first
    | exact Option.noConfusion h
    | (simp only [Option.some.injEq, Prod.mk.injEq] at h
       obtain ⟨h1, h2⟩ := h
       subst h1
       first
       | (exfalso; simp_all [Store.block_exists]; done)
       | (constructor <;> intro hc <;> simp at hc))

theorem change_block_no_gap (env : Env) (l : ledger) (res : process_return) (b : change_block)
    (r : process_return) (l1 : ledger)
    (h : ledger_processor.change_block env l res b = some (r, l1))
    (hfit : l.store.block_exists b.previous = true) :
    r.code ≠ .gap_previous ∧ r.code ≠ .gap_source := by
  unfold ledger_processor.change_block at h
  dsimp only at h
  repeat' split at h
  all_goals
    first
    | exact Option.noConfusion h
    | (simp only [Option.some.injEq, Prod.mk.injEq] at h
       obtain ⟨h1, h2⟩ := h
       subst h1
       first
       | (exfalso; simp_all [Store.block_exists]; done)
       | (constructor <;> intro hc <;> simp at hc))

/-- A stored block that is not a receive, open or change block is a send or
state block. -/
theorem source_exists_of_stored (s : Store) (h : Hash)
    (hx : s.block_exists h = true) (hn : s.block_not_source h = false) :
    s.source_exists h = true := by
  unfold Store.block_exists at hx
  unfold Store.block_not_source Store.block_exists_type at hn
  unfold Store.source_exists Store.block_exists_type
  cases hg : s.block_get h with
  | none =>
    rw [hg] at hx
    exact Bool.noConfusion hx
  | some r =>
    rw [hg] at hn
    simp only [Bool.or_eq_false_iff, decide_eq_false_iff_not] at hn
    simp only [Bool.or_eq_true, decide_eq_true_eq]
    cases hb : r.block with
    | send b => exact Or.inr rfl
    | state b => exact Or.inl rfl
    | receive b => exact absurd (by rw [hb]; rfl) hn.1.1
    | open_ b => exact absurd (by rw [hb]; rfl) hn.1.2
    | change b => exact absurd (by rw [hb]; rfl) hn.2

theorem open_block_no_gap (env : Env) (l : ledger) (res : process_return) (b : open_block)
    (r : process_return) (l1 : ledger)
    (h : ledger_processor.open_block env l res b = some (r, l1))
    (hsrc : l.store.source_exists b.source = true) :
    r.code ≠ .gap_previous ∧ r.code ≠ .gap_source := by
  unfold ledger_processor.open_block at h
  dsimp only at h
  repeat' split at h
  all_goals
    first
    | exact Option.noConfusion h
    | (simp only [Option.some.injEq, Prod.mk.injEq] at h
       obtain ⟨h1, h2⟩ := h
       subst h1
       first
       | (exfalso; simp_all [Store.block_exists]; done)
       | (constructor <;> intro hc <;> simp at hc))

theorem receive_block_no_gap (env : Env) (l : ledger) (res : process_return) (b : receive_block)
    (r : process_return) (l1 : ledger)
    (h : ledger_processor.receive_block env l res b = some (r, l1))
    (hfit : l.store.block_exists b.previous = true)
    (hx : ∀ p, l.store.block_get b.previous = some p → valid_predecessor p.block = true →
      l.store.frontier_get b.previous ≠ 0 →
      l.store.source_exists b.source = true ∧
        l.latest (l.store.frontier_get b.previous) = b.previous) :
    r.code ≠ .gap_previous ∧ r.code ≠ .gap_source := by
  unfold ledger_processor.receive_block at h
  dsimp only at h
  split at h
  · simp only [Option.some.injEq, Prod.mk.injEq] at h
    rw [← h.1]
    exact ⟨by simp, by simp⟩
  · split at h
    · rename_i hg
      unfold Store.block_exists at hfit
      rw [hg] at hfit
      exact Bool.noConfusion hfit
    · rename_i p hg
      split at h
      · simp only [Option.some.injEq, Prod.mk.injEq] at h
        rw [← h.1]
        exact ⟨by simp, by simp⟩
      · rename_i hv
        split at h
        · simp only [Option.some.injEq, Prod.mk.injEq] at h
          rw [← h.1]
          simp only [hfit, if_true]
          exact ⟨by simp, by simp⟩
        · rename_i hf
          obtain ⟨hsrc, hend⟩ := hx p hg (by simpa using hv) hf
          rw [← account_state_head_eq_latest] at hend
          repeat' split at h
          all_goals
            first
            | exact Option.noConfusion h
            | (simp only [Option.some.injEq, Prod.mk.injEq] at h
               obtain ⟨h1, h2⟩ := h
               subst h1
               first
               | (exfalso; simp_all [Store.block_exists]; done)
               | (constructor <;> intro hc <;> simp at hc))

theorem state_block_apply_code (env : Env) (l : ledger) (res : process_return)
    (b : state_block) (st : account_state) (e : epoch) (is_send : Bool)
    (r : process_return) (l1 : ledger)
    (h : ledger_processor.state_block_apply env l res b st e is_send = some (r, l1)) :
    r.code = .progress := by
  unfold ledger_processor.state_block_apply at h
  dsimp only at h
  repeat' split at h
  all_goals
    first
    | exact Option.noConfusion h
    | (simp only [Option.some.injEq, Prod.mk.injEq] at h
       obtain ⟨h1, h2⟩ := h
       subst h1
       rfl)

theorem state_block_receive_no_gap (env : Env) (l : ledger) (res : process_return)
    (b : state_block) (st : account_state) (e : epoch) (is_send : Bool)
    (r : process_return) (l1 : ledger)
    (h : ledger_processor.state_block_receive env l res b st e is_send = some (r, l1))
    (hsrc : is_send = true ∨ b.link = 0 ∨ l.store.source_exists b.link = true) :
    r.code ≠ .gap_previous ∧ r.code ≠ .gap_source := by
  unfold ledger_processor.state_block_receive at h
  repeat' split at h
  all_goals
    first
    | (have hp := state_block_apply_code _ _ _ _ _ _ _ _ _ h
       rw [hp]
       exact ⟨by decide, by decide⟩)
    | (exfalso; simp_all; done)
    | (simp only [Option.some.injEq, Prod.mk.injEq] at h
       obtain ⟨h1, h2⟩ := h
       subst h1
       constructor <;> intro hc <;> simp at hc)

theorem account_state_balance_eq (l : ledger) (a : Account)
    (hh : (l.account_state a).head ≠ 0) :
    (l.account_state a).balance = l.balance (l.account_state a).head := by
  unfold ledger.balance
  rw [if_neg hh]
  unfold ledger.account_state at hh ⊢
  cases hg : l.store.account_get a with
  | none => rw [hg] at hh; exact absurd rfl hh
  | some i =>
    simp only [account_state.balance, account_state.head, Store.block_balance]
    cases l.store.block_get i.head <;> rfl

theorem state_block_impl_no_gap (env : Env) (l : ledger) (res : process_return)
    (b : state_block) (r : process_return) (l1 : ledger)
    (h : ledger_processor.state_block_impl env l res b = some (r, l1))
    (hfit : b.previous = 0 ∨ l.store.block_exists b.previous = true)
    (hend : l.latest b.account = 0 → b.previous = 0 ∧ b.link ≠ 0)
    (hsrc : b.previous = l.latest b.account →
      l.is_send b = true ∨ b.link = 0 ∨ l.store.source_exists b.link = true) :
    r.code ≠ .gap_previous ∧ r.code ≠ .gap_source := by
  unfold ledger_processor.state_block_impl at h
  rw [← account_state_head_eq_latest] at hend hsrc
  dsimp only at h
  repeat' split at h
  all_goals
    first
    | exact Option.noConfusion h
    | (have hhead : (l.account_state b.account).head ≠ 0 := by assumption
       have hprev1 : b.previous = (l.account_state b.account).head := not_not.mp (by assumption)
       refine state_block_receive_no_gap _ _ _ _ _ _ _ _ _ h ?_
       have hbal := account_state_balance_eq l b.account hhead
       rcases hsrc hprev1 with hs | hs | hs
       · left
         unfold ledger.is_send at hs
         rw [if_pos (by rw [hprev1]; exact hhead), hprev1, ← hbal] at hs
         exact hs
       · exact Or.inr (Or.inl hs)
       · exact Or.inr (Or.inr hs))
    | (have hhead : (l.account_state b.account).head = 0 := not_not.mp (by assumption)
       have hprev1 : b.previous = 0 := not_not.mp (by assumption)
       have hlink : ¬ b.link = 0 := by assumption
       refine state_block_receive_no_gap _ _ _ _ _ _ _ _ _ h ?_
       rcases hsrc (by rw [hprev1, hhead]) with hs | hs | hs
       · unfold ledger.is_send at hs
         rw [if_neg (not_not.mpr hprev1)] at hs
         exact absurd hs (by decide)
       · exact absurd hs hlink
       · exact Or.inr (Or.inr hs))
    | (exfalso
       have hhead : (l.account_state b.account).head = 0 := not_not.mp (by assumption)
       have := hend hhead
       simp_all)
    | (exfalso; simp_all; done)
    | (simp only [Option.some.injEq, Prod.mk.injEq] at h
       obtain ⟨h1, h2⟩ := h
       subst h1
       constructor <;> intro hc <;> simp at hc)

theorem epoch_block_position_no_gap (b : state_block) (st : account_state) :
    ledger_processor.epoch_block_position b st ≠ .gap_previous ∧
      ledger_processor.epoch_block_position b st ≠ .gap_source := by
  unfold ledger_processor.epoch_block_position
  split_ifs <;> exact ⟨by decide, by decide⟩

theorem epoch_block_impl_no_gap (env : Env) (l : ledger) (res : process_return)
    (b : state_block) (r : process_return) (l1 : ledger)
    (h : ledger_processor.epoch_block_impl env l res b = some (r, l1)) :
    r.code ≠ .gap_previous ∧ r.code ≠ .gap_source := by
  unfold ledger_processor.epoch_block_impl at h
  dsimp only at h
  repeat' split at h
  all_goals
    first
    | exact Option.noConfusion h
    | (simp only [Option.some.injEq, Prod.mk.injEq] at h
       obtain ⟨h1, h2⟩ := h
       subst h1
       first
       | exact epoch_block_position_no_gap _ _
       | (constructor <;> intro hc <;> simp at hc))

theorem state_block_prev_gap (env : Env) (l : ledger) (res : process_return) (b : state_block)
    (hfit : b.previous = 0 ∨ l.store.block_exists b.previous = true) :
    (ledger_processor.state_block_prev env l res b).1.code = .progress := by
  unfold ledger_processor.state_block_prev
  dsimp only
  rcases hfit with hf | hf
  · rw [if_neg (not_not.mpr hf)]
  · by_cases hz : b.previous ≠ 0
    · rw [if_pos hz, if_pos hf]
    · rw [if_neg hz]

/-- The balance that the epoch test of `state_block` compares with does not
depend on the result object it is handed. -/
theorem state_block_prev_balance (env : Env) (l : ledger) (res res1 : process_return)
    (b : state_block)
    (hfit : b.previous = 0 ∨ l.store.block_exists b.previous = true) :
    (ledger_processor.state_block_prev env l res b).2
      = (ledger_processor.state_block_prev env l res1 b).2 := by
  unfold ledger_processor.state_block_prev
  dsimp only
  rcases hfit with hf | hf
  · rw [if_neg (not_not.mpr hf), if_neg (not_not.mpr hf)]
  · by_cases hz : b.previous ≠ 0
    · rw [if_pos hz, if_pos hf, if_pos hz, if_pos hf]
    · rw [if_neg hz, if_neg hz]

theorem state_block_no_gap (env : Env) (l : ledger) (v : signature_verification)
    (b : state_block) (r : process_return) (l1 : ledger)
    (h : ledger_processor.state_block env l (process_return.init v) b = some (r, l1))
    (hfit : b.previous = 0 ∨ l.store.block_exists b.previous = true)
    (hx : ledger_processor.is_epoch_block env l v b = false →
      (l.latest b.account = 0 → b.previous = 0 ∧ b.link ≠ 0) ∧
      (b.previous = l.latest b.account →
        l.is_send b = true ∨ b.link = 0 ∨ l.store.source_exists b.link = true)) :
    r.code ≠ .gap_previous ∧ r.code ≠ .gap_source := by
  unfold ledger_processor.state_block at h
  dsimp only at h
  have hp := state_block_prev_gap env l (process_return.init v) b hfit
  simp only [hp, if_true] at h
  split at h
  · rename_i hl
    split at h
    · exact epoch_block_impl_no_gap _ _ _ _ _ _ h
    · rename_i hb
      have hne : ledger_processor.is_epoch_block env l v b = false := by
        unfold ledger_processor.is_epoch_block
        rw [hl, Bool.true_and]
        simpa using hb
      exact state_block_impl_no_gap _ _ _ _ _ _ h hfit (hx hne).1 (hx hne).2
  · rename_i hl
    have hne : ledger_processor.is_epoch_block env l v b = false := by
      unfold ledger_processor.is_epoch_block
      simp only [Bool.not_eq_true] at hl
      rw [hl, Bool.false_and]
    exact state_block_impl_no_gap _ _ _ _ _ _ h hfit (hx hne).1 (hx hne).2

theorem could_fit_state_previous (env : Env) (l : ledger) (b : state_block)
    (hfit : l.could_fit env (.state b) = true) :
    b.previous = 0 ∨ l.store.block_exists b.previous = true := by
  unfold ledger.could_fit at hfit
  dsimp only at hfit
  split at hfit
  · rename_i hc
    simp only [Bool.and_eq_true, Bool.or_eq_true, decide_eq_true_eq] at hc
    exact hc.1
  · simpa only [Bool.or_eq_true, decide_eq_true_eq] using hfit

/-- What `could_fit` says about the link of a state block that is not a send:
it is stored, zero, or an epoch link. -/
theorem could_fit_state_link (env : Env) (l : ledger) (b : state_block)
    (hfit : l.could_fit env (.state b) = true) (hs : l.is_send b = false) :
    l.store.block_exists b.link = true ∨ b.link = 0 ∨ ledger.is_epoch_link env b.link = true := by
  unfold ledger.could_fit at hfit
  dsimp only at hfit
  split at hfit
  · simp only [Bool.and_eq_true, Bool.or_eq_true, decide_eq_true_eq] at hfit
    rcases hfit.2 with (h1 | h1) | h1
    · exact Or.inl h1
    · exact Or.inr (Or.inl h1)
    · exact Or.inr (Or.inr h1)
  · rename_i hc
    have hp := could_fit_state_previous env l b (by
      unfold ledger.could_fit
      dsimp only
      rw [if_neg hc]
      exact hfit)
    exfalso
    apply hc
    simp only [Bool.and_eq_true, Bool.or_eq_true, decide_eq_true_eq, Bool.not_eq_true', hs,
      and_true]
    exact hp

/-- C6 (amended): if `could_fit (b)` is `true` and `b` is in none of the cases
that `could_fit` does not test (`fit_exception`: a source stored as a receive,
open or change block; a receive block whose frontier account has another head;
a state block that is not an epoch block for an account without a head, with a
non-zero previous or a zero link, or that receives from a link stored as a
receive, open or change block or from an epoch link that is not stored), then
`process (b)`, when it returns, returns neither `gap_previous` nor
`gap_source`. For send and change blocks and for epoch blocks there is no such
case: `could_fit` alone is enough. -/
theorem could_fit_excludes_gaps (env : Env) (l : ledger) (b : block)
    (v : signature_verification) (r : process_return) (l1 : ledger)
    (hfit : l.could_fit env b = true) (hx : l.fit_exception env v b = false)
    (h : ledger.process env l b v = some (r, l1)) :
    r.code ≠ .gap_previous ∧ r.code ≠ .gap_source := by
  unfold ledger.process at h
  cases b with
  | send b => exact send_block_no_gap _ _ _ _ _ _ h hfit
  | change b => exact change_block_no_gap _ _ _ _ _ _ h hfit
  | open_ b =>
    exact open_block_no_gap _ _ _ _ _ _ h (source_exists_of_stored _ _ hfit hx)
  | receive b =>
    simp only [ledger.could_fit, Bool.and_eq_true] at hfit
    refine receive_block_no_gap _ _ _ _ _ _ h hfit.1 ?_
    intro p hg hv hf
    simp only [ledger.fit_exception, hg, hv, hf, ne_eq, not_false_eq_true, decide_True,
      Bool.and_self, Bool.true_and, Bool.or_eq_false_iff, decide_eq_false_iff_not, not_not]
      at hx
    exact ⟨source_exists_of_stored _ _ hfit.2 hx.1, hx.2⟩
  | state b =>
    have hprev := could_fit_state_previous env l b hfit
    refine state_block_no_gap _ _ _ _ _ _ h hprev ?_
    intro hne
    simp only [ledger.fit_exception, hne, Bool.not_false, Bool.true_and, Bool.or_eq_false_iff, Bool.and_eq_false_imp,
      decide_eq_true_eq, decide_eq_false_iff_not, not_not, Bool.not_eq_true',
      Bool.and_eq_true, Bool.not_eq_false', and_imp] at hx
    obtain ⟨hx1, hx2⟩ := hx
    constructor
    · intro hz
      have := hx1 hz
      exact ⟨this.1, this.2⟩
    · intro hpl
      cases hs : l.is_send b with
      | true => exact Or.inl rfl
      | false =>
        by_cases hl : b.link = 0
        · exact Or.inr (Or.inl hl)
        · right
          right
          have h3 := hx2 hpl hs hl
          rcases could_fit_state_link env l b hfit hs with h4 | h4 | h4
          · exact source_exists_of_stored _ _ h4 h3.1
          · exact absurd h4 hl
          · exact source_exists_of_stored _ _ (h3.2 h4) h3.1

theorem could_fit_excludes_gaps_witness :
    (ledger.could_fit example_net.env example_net.receivable_ledger
        (.receive example_net.receive_2) = true ∧
      ledger.fit_exception example_net.env example_net.receivable_ledger .unknown
        (.receive example_net.receive_2) = false ∧
      ((ledger.process example_net.env example_net.receivable_ledger
          (.receive example_net.receive_2) .unknown).get (by decide)).1.code ≠ .gap_previous ∧
      ((ledger.process example_net.env example_net.receivable_ledger
          (.receive example_net.receive_2) .unknown).get (by decide)).1.code ≠ .gap_source) ∧
    (ledger.could_fit example_net.env example_net.genesis_ledger
        (.state example_net.epoch_upgrade_1) = true ∧
      ledger.fit_exception example_net.env example_net.genesis_ledger .unknown
        (.state example_net.epoch_upgrade_1) = false ∧
      ((ledger.process example_net.env example_net.genesis_ledger
          (.state example_net.epoch_upgrade_1) .unknown).get (by decide)).1.code
        ≠ .gap_previous ∧
      ((ledger.process example_net.env example_net.genesis_ledger
          (.state example_net.epoch_upgrade_1) .unknown).get (by decide)).1.code
        ≠ .gap_source) :=
  ⟨⟨by decide, by decide,
    could_fit_excludes_gaps example_net.env example_net.receivable_ledger
      (.receive example_net.receive_2) .unknown
      ((ledger.process example_net.env example_net.receivable_ledger
         (.receive example_net.receive_2) .unknown).get (by decide)).1
      ((ledger.process example_net.env example_net.receivable_ledger
         (.receive example_net.receive_2) .unknown).get (by decide)).2
      (by decide) (by decide) (by simp)⟩,
   ⟨by decide, by decide,
    could_fit_excludes_gaps example_net.env example_net.genesis_ledger
      (.state example_net.epoch_upgrade_1) .unknown
      ((ledger.process example_net.env example_net.genesis_ledger
         (.state example_net.epoch_upgrade_1) .unknown).get (by decide)).1
      ((ledger.process example_net.env example_net.genesis_ledger
         (.state example_net.epoch_upgrade_1) .unknown).get (by decide)).2
      (by decide) (by decide) (by simp)⟩⟩

/-! ### The cases `could_fit` does not test do end in a gap code -/

theorem not_source_of_block_not_source (s : Store) (h : Hash)
    (hn : s.block_not_source h = true) : s.source_exists h = false := by
  unfold Store.block_not_source Store.block_exists_type at hn
  unfold Store.source_exists Store.block_exists_type
  cases hg : s.block_get h with
  | none => rfl
  | some r =>
    rw [hg] at hn
    simp only [Bool.or_eq_true, decide_eq_true_eq] at hn
    simp only [Bool.or_eq_false_iff, decide_eq_false_iff_not]
    rcases hn with (h1 | h1) | h1 <;> rw [h1] <;> exact ⟨by decide, by decide⟩

theorem not_source_of_not_stored (s : Store) (h : Hash)
    (hn : s.block_exists h = false) : s.source_exists h = false := by
  unfold Store.block_exists at hn
  unfold Store.source_exists Store.block_exists_type
  cases hg : s.block_get h with
  | none => rfl
  | some r =>
    rw [hg] at hn
    exact Bool.noConfusion hn

theorem open_block_gap (env : Env) (l : ledger) (res : process_return) (b : open_block)
    (r : process_return) (l1 : ledger)
    (h : ledger_processor.open_block env l res b = some (r, l1))
    (hsrc : l.store.source_exists b.source = false)
    (hold : r.code ≠ .old) (hsig : r.code ≠ .bad_signature) :
    r.code = .gap_source := by
  unfold ledger_processor.open_block at h
  dsimp only at h
  repeat' split at h
  all_goals
    first
    | exact Option.noConfusion h
    | (simp only [Option.some.injEq, Prod.mk.injEq] at h
       obtain ⟨h1, h2⟩ := h
       subst h1
       first
       | rfl
       | exact absurd rfl hold
       | exact absurd rfl hsig
       | (exfalso; simp_all))

theorem receive_block_gap (env : Env) (l : ledger) (res : process_return) (b : receive_block)
    (r : process_return) (l1 : ledger)
    (h : ledger_processor.receive_block env l res b = some (r, l1))
    (p : block_row) (hg : l.store.block_get b.previous = some p)
    (hv : valid_predecessor p.block = true)
    (hf : l.store.frontier_get b.previous ≠ 0)
    (hx : l.store.source_exists b.source = false ∨
      l.latest (l.store.frontier_get b.previous) ≠ b.previous)
    (hold : r.code ≠ .old) (hsig : r.code ≠ .bad_signature) :
    r.code = .gap_previous ∨ r.code = .gap_source := by
  unfold ledger_processor.receive_block at h
  rw [← account_state_head_eq_latest] at hx
  dsimp only at h
  split at h
  · simp only [Option.some.injEq, Prod.mk.injEq] at h
    exact absurd (by rw [← h.1]) hold
  rw [hg] at h
  dsimp only at h
  repeat' split at h
  all_goals
    first
    | exact Option.noConfusion h
    | (simp only [Option.some.injEq, Prod.mk.injEq] at h
       obtain ⟨h1, h2⟩ := h
       subst h1
       first
       | exact Or.inl rfl
       | exact Or.inr rfl
       | exact absurd rfl hold
       | exact absurd rfl hsig
       | (exfalso; simp_all))

theorem state_block_receive_gap (env : Env) (l : ledger) (res : process_return)
    (b : state_block) (st : account_state) (e : epoch) (is_send : Bool)
    (r : process_return) (l1 : ledger)
    (h : ledger_processor.state_block_receive env l res b st e is_send = some (r, l1))
    (hs : is_send = false) (hl : b.link ≠ 0) (hsrc : l.store.source_exists b.link = false) :
    r.code = .gap_source := by
  unfold ledger_processor.state_block_receive at h
  rw [hs, if_neg (by decide), if_pos hl, if_pos (by simp [hsrc])] at h
  simp only [Option.some.injEq, Prod.mk.injEq] at h
  rw [← h.1]

theorem state_block_impl_gap (env : Env) (l : ledger) (res : process_return)
    (b : state_block) (r : process_return) (l1 : ledger)
    (h : ledger_processor.state_block_impl env l res b = some (r, l1))
    (hx : (l.latest b.account = 0 ∧ (b.previous ≠ 0 ∨ b.link = 0)) ∨
      (b.previous = l.latest b.account ∧ l.is_send b = false ∧ b.link ≠ 0 ∧
        l.store.source_exists b.link = false))
    (hold : r.code ≠ .old) (hsig : r.code ≠ .bad_signature)
    (hburn : r.code ≠ .opened_burn_account) :
    r.code = .gap_previous ∨ r.code = .gap_source := by
  unfold ledger_processor.state_block_impl at h
  rw [← account_state_head_eq_latest] at hx
  dsimp only at h
  repeat' split at h
  all_goals
    first
    | exact Option.noConfusion h
    | (have hhead : (l.account_state b.account).head ≠ 0 := by assumption
       have hprev1 : b.previous = (l.account_state b.account).head := not_not.mp (by assumption)
       rcases hx with hx | hx
       · exact absurd hx.1 hhead
       · refine Or.inr (state_block_receive_gap _ _ _ _ _ _ _ _ _ h ?_ hx.2.2.1 hx.2.2.2)
         have hbal := account_state_balance_eq l b.account hhead
         have hs := hx.2.1
         unfold ledger.is_send at hs
         rw [if_pos (by rw [hprev1]; exact hhead), hprev1, ← hbal] at hs
         exact hs)
    | (have hprev1 : b.previous = 0 := not_not.mp (by assumption)
       have hlink : ¬ b.link = 0 := by assumption
       rcases hx with hx | hx
       · rcases hx.2 with h3 | h3
         · exact absurd hprev1 h3
         · exact absurd h3 hlink
       · exact Or.inr (state_block_receive_gap _ _ _ _ _ _ _ _ _ h rfl hx.2.2.1 hx.2.2.2))
    | (simp only [Option.some.injEq, Prod.mk.injEq] at h
       obtain ⟨h1, h2⟩ := h
       subst h1
       first
       | exact Or.inl rfl
       | exact Or.inr rfl
       | exact absurd rfl hold
       | exact absurd rfl hsig
       | exact absurd rfl hburn
       | (exfalso; simp_all))

theorem state_block_gap (env : Env) (l : ledger) (v : signature_verification)
    (b : state_block) (r : process_return) (l1 : ledger)
    (h : ledger_processor.state_block env l (process_return.init v) b = some (r, l1))
    (hfit : b.previous = 0 ∨ l.store.block_exists b.previous = true)
    (hne : ledger_processor.is_epoch_block env l v b = false)
    (hx : (l.latest b.account = 0 ∧ (b.previous ≠ 0 ∨ b.link = 0)) ∨
      (b.previous = l.latest b.account ∧ l.is_send b = false ∧ b.link ≠ 0 ∧
        l.store.source_exists b.link = false))
    (hold : r.code ≠ .old) (hsig : r.code ≠ .bad_signature)
    (hburn : r.code ≠ .opened_burn_account) :
    r.code = .gap_previous ∨ r.code = .gap_source := by
  unfold ledger_processor.state_block at h
  dsimp only at h
  have hp := state_block_prev_gap env l (process_return.init v) b hfit
  simp only [hp, if_true] at h
  split at h
  · rename_i hl
    split at h
    · rename_i hb
      exfalso
      unfold ledger_processor.is_epoch_block at hne
      rw [hl, Bool.true_and] at hne
      rw [hne] at hb
      exact Bool.noConfusion hb
    · exact state_block_impl_gap _ _ _ _ _ _ h hx hold hsig hburn
  · exact state_block_impl_gap _ _ _ _ _ _ h hx hold hsig hburn

/-- The cases of `fit_exception` are exactly what `could_fit` misses: for a
block that could fit and is in one of them, `process`, when it returns and
does not stop earlier at `old`, `bad_signature` or `opened_burn_account`,
returns `gap_previous` or `gap_source`. -/
theorem fit_exception_gap (env : Env) (l : ledger) (b : block)
    (v : signature_verification) (r : process_return) (l1 : ledger)
    (hfit : l.could_fit env b = true) (hx : l.fit_exception env v b = true)
    (h : ledger.process env l b v = some (r, l1))
    (hold : r.code ≠ .old) (hsig : r.code ≠ .bad_signature)
    (hburn : r.code ≠ .opened_burn_account) :
    r.code = .gap_previous ∨ r.code = .gap_source := by
  unfold ledger.process at h
  cases b with
  | send b => exact Bool.noConfusion hx
  | change b => exact Bool.noConfusion hx
  | open_ b =>
    exact Or.inr (open_block_gap _ _ _ _ _ _ h (not_source_of_block_not_source _ _ hx) hold hsig)
  | receive b =>
    cases hg : l.store.block_get b.previous with
    | none =>
      simp only [ledger.fit_exception, hg, Bool.false_and] at hx
      exact Bool.noConfusion hx
    | some p =>
      simp only [ledger.fit_exception, hg, Bool.and_eq_true, Bool.or_eq_true,
        decide_eq_true_eq] at hx
      refine receive_block_gap _ _ _ _ _ _ h p hg hx.1.1 hx.1.2 ?_ hold hsig
      rcases hx.2 with h3 | h3
      · exact Or.inl (not_source_of_block_not_source _ _ h3)
      · exact Or.inr h3
  | state b =>
    have hprev := could_fit_state_previous env l b hfit
    simp only [ledger.fit_exception, Bool.and_eq_true, Bool.or_eq_true, decide_eq_true_eq,
      Bool.not_eq_true'] at hx
    refine state_block_gap _ _ _ _ _ _ h hprev hx.1 ?_ hold hsig hburn
    rcases hx.2 with h3 | h3
    · exact Or.inl h3
    · refine Or.inr ⟨h3.1.1.1, h3.1.1.2, h3.1.2, ?_⟩
      rcases h3.2 with h4 | h4
      · exact not_source_of_block_not_source _ _ h4
      · exact not_source_of_not_stored _ _ h4.2

end nano

namespace nano

/-! ## Tables after the store operations -/

theorem Map.get_del {K V : Type} [DecidableEq K] (m : Map K V) (k x : K) :
    (m.del k).get x = if k = x then none else m.get x := by
  induction m with
  | nil =>
    simp only [Map.del, Map.get]
    split <;> rfl
  | cons p m ih =>
    obtain ⟨k1, v1⟩ := p
    by_cases h1 : k1 = k
    · rw [Map.del, if_pos h1, ih]
      by_cases h2 : k = x
      · rw [if_pos h2, if_pos h2]
      · rw [if_neg h2, if_neg h2, Map.get, if_neg (by rw [h1]; exact h2)]
    · rw [Map.del, if_neg h1, Map.get]
      by_cases h2 : k1 = x
      · rw [if_pos h2, if_neg (by rw [← h2]; exact fun h3 => h1 h3.symm), Map.get, if_pos h2]
      · rw [if_neg h2, ih, Map.get, if_neg h2]

theorem Map.get_put {K V : Type} [DecidableEq K] (m : Map K V) (k x : K) (v : V) :
    (m.put k v).get x = if k = x then some v else m.get x := by
  unfold Map.put
  rw [Map.get]
  by_cases hk : k = x
  · rw [if_pos hk, if_pos hk]
  · rw [if_neg hk, if_neg hk, Map.get_del, if_neg hk]

theorem Map.get_of_any_false {K V : Type} [DecidableEq K] (m : Map K V) (p : K → Bool)
    (h : m.any (fun q => p q.1) = false) (k : K) (hk : p k = true) : m.get k = none := by
  induction m with
  | nil => rfl
  | cons q m ih =>
    obtain ⟨k1, v1⟩ := q
    simp only [List.any_cons, Bool.or_eq_false_iff] at h
    have hne : k1 ≠ k := by
      intro he
      rw [he, hk] at h
      exact absurd h.1 (by decide)
    simp only [Map.get, if_neg hne]
    exact ih h.2

theorem account_get_after_put (s : Store) (a : Account) (new : account_info) (e : epoch)
    (h1 : e = .epoch_0 → s.accounts_v1.get a = none) :
    (s.account_put a new e).account_get a = some new := by
  unfold Store.account_put Store.account_get
  by_cases he : e = .epoch_0
  · rw [if_pos he]
    simp only [h1 he, Map.get_put, if_true]
  · rw [if_neg he]
    simp only [Map.get_put, if_true]

theorem account_del_v1_get (s : Store) (a : Account) :
    (s.account_del a).accounts_v1.get a = none := by
  unfold Store.account_del
  by_cases hc : s.accounts_v1.contains a = true
  · rw [if_pos hc]
    simp only [Map.get_del, if_true]
  · rw [if_neg hc]
    unfold Map.contains at hc
    cases hg : s.accounts_v1.get a with
    | none => rfl
    | some i => rw [hg] at hc; exact absurd rfl hc

theorem account_get_after_del (s : Store) (a : Account)
    (h1 : (s.accounts_v1.get a).isSome = true → s.accounts_v0.get a = none) :
    (s.account_del a).account_get a = none := by
  unfold Store.account_get
  rw [account_del_v1_get]
  unfold Store.account_del
  by_cases hc : s.accounts_v1.contains a = true
  · rw [if_pos hc]
    exact h1 hc
  · rw [if_neg hc]
    simp only [Map.get_del, if_true]

theorem change_latest_account_get (s s1 : Store) (a : Account) (old : account_state)
    (new : account_info) (e : epoch) (h : ledger.change_latest s a old new e = some s1)
    (hv1 : ∀ i, s.accounts_v1.get a = some i →
      s.accounts_v0.get a = none ∧ old.head ≠ 0 ∧ old.epoch ≠ some .epoch_0) :
    s1.account_get a = if new.head = 0 then none else some new := by
  unfold ledger.change_latest at h
  dsimp only at h
  by_cases hn : new.head ≠ 0
  · rw [if_pos hn] at h
    rw [if_neg hn]
    have hs : ∀ t : Store, t.accounts_v1 = s.accounts_v1 → t.accounts_v0 = s.accounts_v0 →
        ∀ i, t.accounts_v1.get a = some i →
          t.accounts_v0.get a = none ∧ old.head ≠ 0 ∧ old.epoch ≠ some .epoch_0 := by
      intro t h1 h0 i hi
      rw [h1] at hi
      rw [h0]
      exact hv1 i hi
    have hcp : ∀ i, (if old.head = 0 ∧ new.open_block = new.head
        then s.confirmation_height_put a 0 else s).accounts_v1.get a = some i →
          (if old.head = 0 ∧ new.open_block = new.head
            then s.confirmation_height_put a 0 else s).accounts_v0.get a = none ∧
          old.head ≠ 0 ∧ old.epoch ≠ some .epoch_0 := by
      apply hs <;> split <;> rfl
    generalize (if old.head = 0 ∧ new.open_block = new.head
        then s.confirmation_height_put a 0 else s) = t at h hcp
    by_cases ho : old.head ≠ 0
    · rw [if_pos ho] at h
      cases hep : old.epoch with
      | none => rw [hep] at h; exact Option.noConfusion h
      | some e0 =>
        rw [hep] at h
        simp only [Option.some.injEq] at h
        subst h
        apply account_get_after_put
        intro he
        by_cases hd : e0 ≠ e
        · rw [if_pos hd]
          exact account_del_v1_get t a
        · rw [if_neg hd]
          cases hg : t.accounts_v1.get a with
          | none => rfl
          | some i =>
            have := (hcp i hg).2.2
            rw [hep, not_not.mp hd, he] at this
            exact absurd rfl this
    · rw [if_neg ho] at h
      simp only [Option.some.injEq] at h
      subst h
      apply account_get_after_put
      intro _
      cases hg : t.accounts_v1.get a with
      | none => rfl
      | some i => exact absurd (hcp i hg).2.1 ho
  · rw [if_neg hn] at h
    rw [if_pos (not_not.mp hn)]
    simp only [Option.some.injEq] at h
    subst h
    apply account_get_after_del
    intro hsome
    show s.accounts_v0.get a = none
    have hsome1 : (s.accounts_v1.get a).isSome = true := hsome
    cases hg : s.accounts_v1.get a with
    | none => rw [hg] at hsome1; exact absurd hsome1 (by decide)
    | some i => exact (hv1 i hg).1

/-! Each store operation leaves the tables it does not write. -/

@[simp]
theorem Store.block_put_accounts_v0 (s : Store) (h : Hash) (b : block) (sb : block_sideband) (e : epoch) :
    (s.block_put h b sb e).accounts_v0 = s.accounts_v0 := by
  unfold Store.block_put
  rfl

@[simp]
theorem Store.block_put_accounts_v1 (s : Store) (h : Hash) (b : block) (sb : block_sideband) (e : epoch) :
    (s.block_put h b sb e).accounts_v1 = s.accounts_v1 := by
  unfold Store.block_put
  rfl

@[simp]
theorem Store.block_put_pending_v0 (s : Store) (h : Hash) (b : block) (sb : block_sideband) (e : epoch) :
    (s.block_put h b sb e).pending_v0 = s.pending_v0 := by
  unfold Store.block_put
  rfl

@[simp]
theorem Store.block_put_pending_v1 (s : Store) (h : Hash) (b : block) (sb : block_sideband) (e : epoch) :
    (s.block_put h b sb e).pending_v1 = s.pending_v1 := by
  unfold Store.block_put
  rfl

@[simp]
theorem Store.block_put_frontiers (s : Store) (h : Hash) (b : block) (sb : block_sideband) (e : epoch) :
    (s.block_put h b sb e).frontiers = s.frontiers := by
  unfold Store.block_put
  rfl

@[simp]
theorem Store.block_put_confirmation_height (s : Store) (h : Hash) (b : block) (sb : block_sideband) (e : epoch) :
    (s.block_put h b sb e).confirmation_height = s.confirmation_height := by
  unfold Store.block_put
  rfl

@[simp]
theorem Store.block_del_accounts_v0 (s : Store) (h : Hash) :
    (s.block_del h).accounts_v0 = s.accounts_v0 := by
  unfold Store.block_del
  rfl

@[simp]
theorem Store.block_del_accounts_v1 (s : Store) (h : Hash) :
    (s.block_del h).accounts_v1 = s.accounts_v1 := by
  unfold Store.block_del
  rfl

@[simp]
theorem Store.block_del_pending_v0 (s : Store) (h : Hash) :
    (s.block_del h).pending_v0 = s.pending_v0 := by
  unfold Store.block_del
  rfl

@[simp]
theorem Store.block_del_pending_v1 (s : Store) (h : Hash) :
    (s.block_del h).pending_v1 = s.pending_v1 := by
  unfold Store.block_del
  rfl

@[simp]
theorem Store.block_del_frontiers (s : Store) (h : Hash) :
    (s.block_del h).frontiers = s.frontiers := by
  unfold Store.block_del
  rfl

@[simp]
theorem Store.block_del_confirmation_height (s : Store) (h : Hash) :
    (s.block_del h).confirmation_height = s.confirmation_height := by
  unfold Store.block_del
  rfl

@[simp]
theorem Store.block_successor_clear_accounts_v0 (s : Store) (h : Hash) :
    (s.block_successor_clear h).accounts_v0 = s.accounts_v0 := by
  unfold Store.block_successor_clear
  split <;> rfl

@[simp]
theorem Store.block_successor_clear_accounts_v1 (s : Store) (h : Hash) :
    (s.block_successor_clear h).accounts_v1 = s.accounts_v1 := by
  unfold Store.block_successor_clear
  split <;> rfl

@[simp]
theorem Store.block_successor_clear_pending_v0 (s : Store) (h : Hash) :
    (s.block_successor_clear h).pending_v0 = s.pending_v0 := by
  unfold Store.block_successor_clear
  split <;> rfl

@[simp]
theorem Store.block_successor_clear_pending_v1 (s : Store) (h : Hash) :
    (s.block_successor_clear h).pending_v1 = s.pending_v1 := by
  unfold Store.block_successor_clear
  split <;> rfl

@[simp]
theorem Store.block_successor_clear_frontiers (s : Store) (h : Hash) :
    (s.block_successor_clear h).frontiers = s.frontiers := by
  unfold Store.block_successor_clear
  split <;> rfl

@[simp]
theorem Store.block_successor_clear_confirmation_height (s : Store) (h : Hash) :
    (s.block_successor_clear h).confirmation_height = s.confirmation_height := by
  unfold Store.block_successor_clear
  split <;> rfl

@[simp]
theorem Store.account_put_blocks (s : Store) (a : Account) (i : account_info) (e : epoch) :
    (s.account_put a i e).blocks = s.blocks := by
  unfold Store.account_put
  split <;> rfl

@[simp]
theorem Store.account_put_pending_v0 (s : Store) (a : Account) (i : account_info) (e : epoch) :
    (s.account_put a i e).pending_v0 = s.pending_v0 := by
  unfold Store.account_put
  split <;> rfl

@[simp]
theorem Store.account_put_pending_v1 (s : Store) (a : Account) (i : account_info) (e : epoch) :
    (s.account_put a i e).pending_v1 = s.pending_v1 := by
  unfold Store.account_put
  split <;> rfl

@[simp]
theorem Store.account_put_frontiers (s : Store) (a : Account) (i : account_info) (e : epoch) :
    (s.account_put a i e).frontiers = s.frontiers := by
  unfold Store.account_put
  split <;> rfl

@[simp]
theorem Store.account_put_confirmation_height (s : Store) (a : Account) (i : account_info) (e : epoch) :
    (s.account_put a i e).confirmation_height = s.confirmation_height := by
  unfold Store.account_put
  split <;> rfl

@[simp]
theorem Store.account_del_blocks (s : Store) (a : Account) :
    (s.account_del a).blocks = s.blocks := by
  unfold Store.account_del
  split <;> rfl

@[simp]
theorem Store.account_del_pending_v0 (s : Store) (a : Account) :
    (s.account_del a).pending_v0 = s.pending_v0 := by
  unfold Store.account_del
  split <;> rfl

@[simp]
theorem Store.account_del_pending_v1 (s : Store) (a : Account) :
    (s.account_del a).pending_v1 = s.pending_v1 := by
  unfold Store.account_del
  split <;> rfl

@[simp]
theorem Store.account_del_frontiers (s : Store) (a : Account) :
    (s.account_del a).frontiers = s.frontiers := by
  unfold Store.account_del
  split <;> rfl

@[simp]
theorem Store.account_del_confirmation_height (s : Store) (a : Account) :
    (s.account_del a).confirmation_height = s.confirmation_height := by
  unfold Store.account_del
  split <;> rfl

@[simp]
theorem Store.pending_put_blocks (s : Store) (k : pending_key) (i : pending_info) :
    (s.pending_put k i).blocks = s.blocks := by
  unfold Store.pending_put
  split <;> rfl

@[simp]
theorem Store.pending_put_accounts_v0 (s : Store) (k : pending_key) (i : pending_info) :
    (s.pending_put k i).accounts_v0 = s.accounts_v0 := by
  unfold Store.pending_put
  split <;> rfl

@[simp]
theorem Store.pending_put_accounts_v1 (s : Store) (k : pending_key) (i : pending_info) :
    (s.pending_put k i).accounts_v1 = s.accounts_v1 := by
  unfold Store.pending_put
  split <;> rfl

@[simp]
theorem Store.pending_put_frontiers (s : Store) (k : pending_key) (i : pending_info) :
    (s.pending_put k i).frontiers = s.frontiers := by
  unfold Store.pending_put
  split <;> rfl

@[simp]
theorem Store.pending_put_confirmation_height (s : Store) (k : pending_key) (i : pending_info) :
    (s.pending_put k i).confirmation_height = s.confirmation_height := by
  unfold Store.pending_put
  split <;> rfl

@[simp]
theorem Store.pending_del_blocks (s : Store) (k : pending_key) :
    (s.pending_del k).blocks = s.blocks := by
  unfold Store.pending_del
  split <;> rfl

@[simp]
theorem Store.pending_del_accounts_v0 (s : Store) (k : pending_key) :
    (s.pending_del k).accounts_v0 = s.accounts_v0 := by
  unfold Store.pending_del
  split <;> rfl

@[simp]
theorem Store.pending_del_accounts_v1 (s : Store) (k : pending_key) :
    (s.pending_del k).accounts_v1 = s.accounts_v1 := by
  unfold Store.pending_del
  split <;> rfl

@[simp]
theorem Store.pending_del_frontiers (s : Store) (k : pending_key) :
    (s.pending_del k).frontiers = s.frontiers := by
  unfold Store.pending_del
  split <;> rfl

@[simp]
theorem Store.pending_del_confirmation_height (s : Store) (k : pending_key) :
    (s.pending_del k).confirmation_height = s.confirmation_height := by
  unfold Store.pending_del
  split <;> rfl

@[simp]
theorem Store.frontier_put_blocks (s : Store) (h : Hash) (a : Account) :
    (s.frontier_put h a).blocks = s.blocks := by
  unfold Store.frontier_put
  rfl

@[simp]
theorem Store.frontier_put_accounts_v0 (s : Store) (h : Hash) (a : Account) :
    (s.frontier_put h a).accounts_v0 = s.accounts_v0 := by
  unfold Store.frontier_put
  rfl

@[simp]
theorem Store.frontier_put_accounts_v1 (s : Store) (h : Hash) (a : Account) :
    (s.frontier_put h a).accounts_v1 = s.accounts_v1 := by
  unfold Store.frontier_put
  rfl

@[simp]
theorem Store.frontier_put_pending_v0 (s : Store) (h : Hash) (a : Account) :
    (s.frontier_put h a).pending_v0 = s.pending_v0 := by
  unfold Store.frontier_put
  rfl

@[simp]
theorem Store.frontier_put_pending_v1 (s : Store) (h : Hash) (a : Account) :
    (s.frontier_put h a).pending_v1 = s.pending_v1 := by
  unfold Store.frontier_put
  rfl

@[simp]
theorem Store.frontier_put_confirmation_height (s : Store) (h : Hash) (a : Account) :
    (s.frontier_put h a).confirmation_height = s.confirmation_height := by
  unfold Store.frontier_put
  rfl

@[simp]
theorem Store.frontier_del_blocks (s : Store) (h : Hash) :
    (s.frontier_del h).blocks = s.blocks := by
  unfold Store.frontier_del
  rfl

@[simp]
theorem Store.frontier_del_accounts_v0 (s : Store) (h : Hash) :
    (s.frontier_del h).accounts_v0 = s.accounts_v0 := by
  unfold Store.frontier_del
  rfl

@[simp]
theorem Store.frontier_del_accounts_v1 (s : Store) (h : Hash) :
    (s.frontier_del h).accounts_v1 = s.accounts_v1 := by
  unfold Store.frontier_del
  rfl

@[simp]
theorem Store.frontier_del_pending_v0 (s : Store) (h : Hash) :
    (s.frontier_del h).pending_v0 = s.pending_v0 := by
  unfold Store.frontier_del
  rfl

@[simp]
theorem Store.frontier_del_pending_v1 (s : Store) (h : Hash) :
    (s.frontier_del h).pending_v1 = s.pending_v1 := by
  unfold Store.frontier_del
  rfl

@[simp]
theorem Store.frontier_del_confirmation_height (s : Store) (h : Hash) :
    (s.frontier_del h).confirmation_height = s.confirmation_height := by
  unfold Store.frontier_del
  rfl

@[simp]
theorem Store.confirmation_height_put_blocks (s : Store) (a : Account) (n : Nat) :
    (s.confirmation_height_put a n).blocks = s.blocks := by
  unfold Store.confirmation_height_put
  rfl

@[simp]
theorem Store.confirmation_height_put_accounts_v0 (s : Store) (a : Account) (n : Nat) :
    (s.confirmation_height_put a n).accounts_v0 = s.accounts_v0 := by
  unfold Store.confirmation_height_put
  rfl

@[simp]
theorem Store.confirmation_height_put_accounts_v1 (s : Store) (a : Account) (n : Nat) :
    (s.confirmation_height_put a n).accounts_v1 = s.accounts_v1 := by
  unfold Store.confirmation_height_put
  rfl

@[simp]
theorem Store.confirmation_height_put_pending_v0 (s : Store) (a : Account) (n : Nat) :
    (s.confirmation_height_put a n).pending_v0 = s.pending_v0 := by
  unfold Store.confirmation_height_put
  rfl

@[simp]
theorem Store.confirmation_height_put_pending_v1 (s : Store) (a : Account) (n : Nat) :
    (s.confirmation_height_put a n).pending_v1 = s.pending_v1 := by
  unfold Store.confirmation_height_put
  rfl

@[simp]
theorem Store.confirmation_height_put_frontiers (s : Store) (a : Account) (n : Nat) :
    (s.confirmation_height_put a n).frontiers = s.frontiers := by
  unfold Store.confirmation_height_put
  rfl

@[simp]
theorem Store.confirmation_height_del_blocks (s : Store) (a : Account) :
    (s.confirmation_height_del a).blocks = s.blocks := by
  unfold Store.confirmation_height_del
  rfl

@[simp]
theorem Store.confirmation_height_del_accounts_v0 (s : Store) (a : Account) :
    (s.confirmation_height_del a).accounts_v0 = s.accounts_v0 := by
  unfold Store.confirmation_height_del
  rfl

@[simp]
theorem Store.confirmation_height_del_accounts_v1 (s : Store) (a : Account) :
    (s.confirmation_height_del a).accounts_v1 = s.accounts_v1 := by
  unfold Store.confirmation_height_del
  rfl

@[simp]
theorem Store.confirmation_height_del_pending_v0 (s : Store) (a : Account) :
    (s.confirmation_height_del a).pending_v0 = s.pending_v0 := by
  unfold Store.confirmation_height_del
  rfl

@[simp]
theorem Store.confirmation_height_del_pending_v1 (s : Store) (a : Account) :
    (s.confirmation_height_del a).pending_v1 = s.pending_v1 := by
  unfold Store.confirmation_height_del
  rfl

@[simp]
theorem Store.confirmation_height_del_frontiers (s : Store) (a : Account) :
    (s.confirmation_height_del a).frontiers = s.frontiers := by
  unfold Store.confirmation_height_del
  rfl

theorem account_get_congr (s t : Store) (a : Account) (h0 : s.accounts_v0 = t.accounts_v0)
    (h1 : s.accounts_v1 = t.accounts_v1) : s.account_get a = t.account_get a := by
  unfold Store.account_get
  rw [h0, h1]

theorem consistent_row_upgraded (l : ledger) (a : Account)
    (hacc : l.store.account_row_consistent a = true) (s : Store)
    (h0 : s.accounts_v0 = l.store.accounts_v0) (h1 : s.accounts_v1 = l.store.accounts_v1) :
    ∀ i, s.accounts_v1.get a = some i →
      s.accounts_v0.get a = none ∧ (l.account_state a).head ≠ 0 ∧
        (l.account_state a).epoch ≠ some .epoch_0 := by
  intro i hi
  rw [h1] at hi
  rw [h0]
  unfold Store.account_row_consistent at hacc
  rw [hi] at hacc
  simp only [Bool.and_eq_true, decide_eq_true_eq, Option.isNone_iff_eq_none] at hacc
  obtain ⟨⟨hhead, hver⟩, hv0⟩ := hacc
  have hget : l.store.account_get a = some i := by
    unfold Store.account_get
    rw [hi]
  unfold ledger.account_state
  rw [hget]
  refine ⟨hv0, hhead, ?_⟩
  unfold Store.block_version at hver
  show Option.map (fun r => r.epoch) (l.store.block_get i.head) ≠ some .epoch_0
  cases hb : l.store.block_get i.head with
  | none => rw [hb] at hver; exact absurd rfl hver
  | some row =>
    rw [hb] at hver
    intro he
    simp only [Option.map_some', Option.some.injEq] at he
    exact hver he

theorem block_put_get_self (s : Store) (h : Hash) (b : block) (sb : block_sideband)
    (e : epoch) :
    ((s.block_put h b sb e).block_get h).map block_row.block = some b := by
  unfold Store.block_put Store.block_get Store.block_predecessor_set
  dsimp only
  have hself : (s.blocks.put h { block := b, sideband := sb, epoch := e }).get h
      = some { block := b, sideband := sb, epoch := e } := by
    rw [Map.get_put, if_pos rfl]
  have hfill : ∀ p : Hash,
      ((match (s.blocks.put h { block := b, sideband := sb, epoch := e }).get p with
        | some r => (s.blocks.put h { block := b, sideband := sb, epoch := e }).put p
            { r with sideband := { r.sideband with successor := h } }
        | none => s.blocks.put h { block := b, sideband := sb, epoch := e }).get h).map
        block_row.block = some b := by
    intro p
    cases hp : (s.blocks.put h { block := b, sideband := sb, epoch := e }).get p with
    | none => simp only [hself, Option.map_some']
    | some r =>
      simp only [Map.get_put]
      by_cases hph : p = h
      · rw [if_pos hph]
        rw [hph, hself] at hp
        simp only [Option.some.injEq] at hp
        rw [← hp]
        rfl
      · rw [if_neg hph]
        simp only [Map.get_put, if_true, Option.map_some']
  cases b with
  | open_ ob => simp only [hself, Option.map_some']
  | state sb1 =>
    simp only
    split
    · simp only [hself, Option.map_some']
    · exact hfill _
  | send b1 => exact hfill _
  | receive b1 => exact hfill _
  | change b1 => exact hfill _

end nano

namespace nano

/-! ## An accepted block is stored, is the head, and at most one pending row is new -/

theorem latest_after_change_latest (l : ledger) (a : Account) (s0 store2 : Store)
    (new : account_info) (e : epoch)
    (hacc : l.store.account_row_consistent a = true)
    (h0 : s0.accounts_v0 = l.store.accounts_v0) (h1 : s0.accounts_v1 = l.store.accounts_v1)
    (hcl : ledger.change_latest s0 a (l.account_state a) new e = some store2)
    (l1 : ledger) (g0 : l1.store.accounts_v0 = store2.accounts_v0)
    (g1 : l1.store.accounts_v1 = store2.accounts_v1) : l1.latest a = new.head := by
  unfold ledger.latest
  rw [account_get_congr l1.store store2 a g0 g1,
    change_latest_account_get s0 store2 a _ new e hcl (consistent_row_upgraded l a hacc s0 h0 h1)]
  by_cases hn : new.head = 0
  · rw [if_pos hn, hn]
  · rw [if_neg hn]

theorem pending_table_congr (s t : Store) (h0 : s.pending_v0 = t.pending_v0)
    (h1 : s.pending_v1 = t.pending_v1) (u : Bool) : s.pending_table u = t.pending_table u := by
  cases u
  · exact h0
  · exact h1

theorem same_pending_no_new_row (l l1 : ledger) (h0 : l1.store.pending_v0 = l.store.pending_v0)
    (h1 : l1.store.pending_v1 = l.store.pending_v1) :
    ∀ t k row, ¬ new_pending_row l l1 t k row := by
  intro t k row hn
  unfold new_pending_row at hn
  rw [pending_table_congr l1.store l.store h0 h1] at hn
  exact hn.2 hn.1

theorem pending_del_table_get (s : Store) (key : pending_key) (u : Bool) (k : pending_key)
    (row : pending_row) (h : ((s.pending_del key).pending_table u).get k = some row) :
    (s.pending_table u).get k = some row := by
  unfold Store.pending_del at h
  by_cases hc : s.pending_v1.contains key = true
  · rw [if_pos hc] at h
    cases u
    · exact h
    · change (s.pending_v1.del key).get k = some row at h
      rw [Map.get_del] at h
      split at h
      · exact Option.noConfusion h
      · exact h
  · rw [if_neg hc] at h
    cases u
    · change (s.pending_v0.del key).get k = some row at h
      rw [Map.get_del] at h
      split at h
      · exact Option.noConfusion h
      · exact h
    · exact h

theorem pending_del_no_new_row (l l1 : ledger) (s : Store) (key : pending_key)
    (hs0 : s.pending_v0 = l.store.pending_v0) (hs1 : s.pending_v1 = l.store.pending_v1)
    (h0 : l1.store.pending_v0 = (s.pending_del key).pending_v0)
    (h1 : l1.store.pending_v1 = (s.pending_del key).pending_v1) :
    ∀ t k row, ¬ new_pending_row l l1 t k row := by
  intro t k row hn
  unfold new_pending_row at hn
  rw [pending_table_congr l1.store (s.pending_del key) h0 h1,
    ← pending_table_congr s l.store hs0 hs1] at hn
  exact hn.2 (pending_del_table_get s key t k row hn.1)

theorem pending_put_table_get (s : Store) (key : pending_key) (info : pending_info) (u : Bool)
    (k : pending_key) :
    ((s.pending_put key info).pending_table u).get k
      = if u = decide (info.epoch ≠ .epoch_0) ∧ key = k then
          some { source := info.source, amount := info.amount }
        else (s.pending_table u).get k := by
  unfold Store.pending_put
  by_cases he : info.epoch = .epoch_0
  · rw [if_pos he]
    cases u
    · change (s.pending_v0.put key _).get k = _
      rw [Map.get_put]
      by_cases hk : key = k
      · simp [hk, he]
      · simp [hk]
        rfl
    · change s.pending_v1.get k = _
      simp [he]
      rfl
  · rw [if_neg he]
    cases u
    · change s.pending_v0.get k = _
      simp [he]
      rfl
    · change (s.pending_v1.put key _).get k = _
      rw [Map.get_put]
      by_cases hk : key = k
      · simp [hk, he]
      · simp [hk]
        rfl

theorem pending_put_one_new_row (l l1 : ledger) (s : Store) (key : pending_key)
    (info : pending_info)
    (hs0 : s.pending_v0 = l.store.pending_v0) (hs1 : s.pending_v1 = l.store.pending_v1)
    (h0 : l1.store.pending_v0 = (s.pending_put key info).pending_v0)
    (h1 : l1.store.pending_v1 = (s.pending_put key info).pending_v1)
    (hf0 : l.store.pending_v0.get key = none) (hf1 : l.store.pending_v1.get key = none) :
    ∃ t k row, new_pending_row l l1 t k row ∧
      ∀ t1 k1 row1, new_pending_row l l1 t1 k1 row1 → t1 = t ∧ k1 = k ∧ row1 = row := by
  have hfresh : ∀ u, (l.store.pending_table u).get key = none := by
    intro u
    cases u
    · exact hf0
    · exact hf1
  have hafter : ∀ u k, (l1.store.pending_table u).get k
      = if u = decide (info.epoch ≠ .epoch_0) ∧ key = k then
          some { source := info.source, amount := info.amount }
        else (l.store.pending_table u).get k := by
    intro u k
    rw [pending_table_congr l1.store (s.pending_put key info) h0 h1, pending_put_table_get,
      pending_table_congr s l.store hs0 hs1]
  refine ⟨decide (info.epoch ≠ .epoch_0), key,
    { source := info.source, amount := info.amount }, ⟨?_, ?_⟩, ?_⟩
  · rw [hafter, if_pos ⟨rfl, rfl⟩]
  · rw [hfresh]
    exact fun h => Option.noConfusion h
  · intro t1 k1 row1 hn
    obtain ⟨ha, hb⟩ := hn
    rw [hafter] at ha
    by_cases hc : t1 = decide (info.epoch ≠ .epoch_0) ∧ key = k1
    · rw [if_pos hc] at ha
      simp only [Option.some.injEq] at ha
      exact ⟨hc.1, hc.2.symm, ha.symm⟩
    · rw [if_neg hc] at ha
      exact absurd ha hb

theorem pending_fresh_of_not_keyed (s : Store) (h : Hash) (hp : s.pending_keyed_by h = false)
    (a : Account) :
    s.pending_v0.get { account := a, hash := h } = none ∧
      s.pending_v1.get { account := a, hash := h } = none := by
  unfold Store.pending_keyed_by at hp
  rw [List.any_append, Bool.or_eq_false_iff] at hp
  exact ⟨Map.get_of_any_false s.pending_v0 (fun k => decide (k.hash = h)) hp.1 _ (by simp),
    Map.get_of_any_false s.pending_v1 (fun k => decide (k.hash = h)) hp.2 _ (by simp)⟩

theorem send_block_post (env : Env) (l : ledger) (res : process_return) (b : send_block)
    (r : process_return) (l1 : ledger)
    (h : ledger_processor.send_block env l res b = some (r, l1)) (hc : r.code = .progress)
    (hacc : l.store.account_row_consistent (l.store.frontier_get b.previous) = true)
    (hpend : l.store.pending_keyed_by (env.hash (.send b)) = false) :
    accepted_post env l l1 (.send b) r := by
  unfold ledger_processor.send_block at h
  dsimp only at h
  repeat' split at h
  all_goals
    first
    | exact Option.noConfusion h
    | (simp only [Option.some.injEq, Prod.mk.injEq] at h
       obtain ⟨h1, h2⟩ := h
       subst h1
       subst h2
       first
       | (exfalso; simp at hc; done)
       | (rename_i store2 hcl
          have hfrm := change_latest_frame _ _ _ _ _ _ hcl
          have hfresh := pending_fresh_of_not_keyed l.store _ hpend b.destination
          refine ⟨?_, ?_, ?_⟩
          · simp only [Store.block_get, Store.frontier_put_blocks, Store.frontier_del_blocks,
              Store.pending_put_blocks, hfrm.1]
            exact block_put_get_self _ _ _ _ _
          · exact latest_after_change_latest l _ _ _ _ _ hacc (by simp) (by simp) hcl _
              (by simp) (by simp)
          · simp only [applied_as_send, if_true]
            exact pending_put_one_new_row l _ store2 _ _ (by simp [hfrm.2.1])
              (by simp [hfrm.2.2.1]) rfl rfl hfresh.1 hfresh.2))

theorem receive_block_post (env : Env) (l : ledger) (res : process_return)
    (b : receive_block) (r : process_return) (l1 : ledger)
    (h : ledger_processor.receive_block env l res b = some (r, l1)) (hc : r.code = .progress)
    (hacc : l.store.account_row_consistent (l.store.frontier_get b.previous) = true) :
    accepted_post env l l1 (.receive b) r := by
  unfold ledger_processor.receive_block at h
  dsimp only at h
  repeat' split at h
  all_goals
    first
    | exact Option.noConfusion h
    | (simp only [Option.some.injEq, Prod.mk.injEq] at h
       obtain ⟨h1, h2⟩ := h
       subst h1
       subst h2
       first
       | (exfalso; simp at hc; done)
       | (rename_i store3 hcl
          have hfrm := change_latest_frame _ _ _ _ _ _ hcl
          refine ⟨?_, ?_, ?_⟩
          · simp only [Store.block_get, Store.frontier_put_blocks, Store.frontier_del_blocks,
              hfrm.1]
            exact block_put_get_self _ _ _ _ _
          · exact latest_after_change_latest l _ _ _ _ _ hacc (by simp) (by simp) hcl _
              (by simp) (by simp)
          · simp only [applied_as_send, Bool.false_eq_true, if_false]
            exact pending_del_no_new_row l _ l.store
              { account := l.store.frontier_get b.previous, hash := b.source } rfl rfl
              (by simp [hfrm.2.1]) (by simp [hfrm.2.2.1])))

theorem open_block_post (env : Env) (l : ledger) (res : process_return)
    (b : open_block) (r : process_return) (l1 : ledger)
    (h : ledger_processor.open_block env l res b = some (r, l1)) (hc : r.code = .progress)
    (hacc : l.store.account_row_consistent b.account = true) :
    accepted_post env l l1 (.open_ b) r := by
  unfold ledger_processor.open_block at h
  dsimp only at h
  repeat' split at h
  all_goals
    first
    | exact Option.noConfusion h
    | (simp only [Option.some.injEq, Prod.mk.injEq] at h
       obtain ⟨h1, h2⟩ := h
       subst h1
       subst h2
       first
       | (exfalso; simp at hc; done)
       | (rename_i store3 hcl
          have hfrm := change_latest_frame _ _ _ _ _ _ hcl
          refine ⟨?_, ?_, ?_⟩
          · simp only [Store.block_get, Store.frontier_put_blocks, hfrm.1]
            exact block_put_get_self _ _ _ _ _
          · exact latest_after_change_latest l _ _ _ _ _ hacc (by simp) (by simp) hcl _
              (by simp) (by simp)
          · simp only [applied_as_send, Bool.false_eq_true, if_false]
            exact pending_del_no_new_row l _ l.store
              { account := b.account, hash := b.source } rfl rfl
              (by simp [hfrm.2.1]) (by simp [hfrm.2.2.1])))

theorem change_block_post (env : Env) (l : ledger) (res : process_return)
    (b : change_block) (r : process_return) (l1 : ledger)
    (h : ledger_processor.change_block env l res b = some (r, l1)) (hc : r.code = .progress)
    (hacc : l.store.account_row_consistent (l.store.frontier_get b.previous) = true) :
    accepted_post env l l1 (.change b) r := by
  unfold ledger_processor.change_block at h
  dsimp only at h
  repeat' split at h
  all_goals
    first
    | exact Option.noConfusion h
    | (simp only [Option.some.injEq, Prod.mk.injEq] at h
       obtain ⟨h1, h2⟩ := h
       subst h1
       subst h2
       first
       | (exfalso; simp at hc; done)
       | (rename_i store2 hcl
          have hfrm := change_latest_frame _ _ _ _ _ _ hcl
          refine ⟨?_, ?_, ?_⟩
          · simp only [Store.block_get, Store.frontier_put_blocks, Store.frontier_del_blocks,
              hfrm.1]
            exact block_put_get_self _ _ _ _ _
          · exact latest_after_change_latest l _ _ _ _ _ hacc (by simp) (by simp) hcl _
              (by simp) (by simp)
          · simp only [applied_as_send, Bool.false_eq_true, if_false]
            exact same_pending_no_new_row l _ (by simp [hfrm.2.1]) (by simp [hfrm.2.2.1])))

theorem state_block_apply_post (env : Env) (l : ledger) (res : process_return)
    (b : state_block) (is_send : Bool) (e : epoch) (r : process_return) (l1 : ledger)
    (h : ledger_processor.state_block_apply env l res b (l.account_state b.account) e is_send
      = some (r, l1))
    (hacc : l.store.account_row_consistent b.account = true)
    (hpend : l.store.pending_keyed_by (env.hash (.state b)) = false) :
    accepted_post env l l1 (.state b) r := by
  unfold ledger_processor.state_block_apply at h
  dsimp only at h
  cases is_send <;> by_cases hl : b.link = 0 <;>
    simp only [hl, Bool.false_eq_true, if_true, if_false, ne_eq, not_true_eq_false,
      not_false_eq_true] at h <;>
    (repeat' split at h)
  all_goals
    first
    | exact Option.noConfusion h
    | (simp only [Option.some.injEq, Prod.mk.injEq] at h
       obtain ⟨h1, h2⟩ := h
       subst h1
       subst h2
       rename_i store2 hcl _ _
       have hfrm := change_latest_frame _ _ _ _ _ _ hcl
       refine ⟨?_, ?_, ?_⟩
       · simp only [Store.block_get, Store.frontier_del_blocks, Store.pending_put_blocks,
           Store.pending_del_blocks, hfrm.1]
         exact block_put_get_self _ _ _ _ _
       · exact latest_after_change_latest l _ _ _ _ _ hacc (by simp) (by simp) hcl _
           (by simp) (by simp)
       · simp only [applied_as_send, decide_eq_true_eq, Option.some.injEq]
         split
         · first
           | contradiction
           | exact pending_put_one_new_row l _ _ _ _ (by simp) (by simp) hfrm.2.1 hfrm.2.2.1
               (pending_fresh_of_not_keyed l.store _ hpend _).1
               (pending_fresh_of_not_keyed l.store _ hpend _).2
         · first
           | contradiction
           | exact pending_del_no_new_row l _ _ _ (by simp) (by simp) hfrm.2.1 hfrm.2.2.1
           | exact same_pending_no_new_row l _ (by simp [hfrm.2.1]) (by simp [hfrm.2.2.1]))

theorem state_block_receive_post (env : Env) (l : ledger) (res : process_return)
    (b : state_block) (is_send : Bool) (e : epoch) (r : process_return) (l1 : ledger)
    (h : ledger_processor.state_block_receive env l res b (l.account_state b.account) e is_send
      = some (r, l1))
    (hc : r.code = .progress)
    (hacc : l.store.account_row_consistent b.account = true)
    (hpend : l.store.pending_keyed_by (env.hash (.state b)) = false) :
    accepted_post env l l1 (.state b) r := by
  unfold ledger_processor.state_block_receive at h
  repeat' split at h
  all_goals
    first
    | exact state_block_apply_post _ _ _ _ _ _ _ _ h hacc hpend
    | (simp only [Option.some.injEq, Prod.mk.injEq] at h
       obtain ⟨h1, h2⟩ := h
       subst h1
       exfalso
       simp at hc)

theorem state_block_impl_post (env : Env) (l : ledger) (res : process_return)
    (b : state_block) (r : process_return) (l1 : ledger)
    (h : ledger_processor.state_block_impl env l res b = some (r, l1))
    (hc : r.code = .progress)
    (hacc : l.store.account_row_consistent b.account = true)
    (hpend : l.store.pending_keyed_by (env.hash (.state b)) = false) :
    accepted_post env l l1 (.state b) r := by
  unfold ledger_processor.state_block_impl at h
  dsimp only at h
  repeat' split at h
  all_goals
    first
    | exact Option.noConfusion h
    | exact state_block_receive_post _ _ _ _ _ _ _ _ h hc hacc hpend
    | (simp only [Option.some.injEq, Prod.mk.injEq] at h
       obtain ⟨h1, h2⟩ := h
       subst h1
       exfalso
       simp at hc)

theorem epoch_block_impl_post (env : Env) (l : ledger) (res : process_return)
    (b : state_block) (r : process_return) (l1 : ledger)
    (h : ledger_processor.epoch_block_impl env l res b = some (r, l1))
    (hc : r.code = .progress) (hres : res.state_is_send = none)
    (hacc : l.store.account_row_consistent b.account = true) :
    accepted_post env l l1 (.state b) r := by
  unfold ledger_processor.epoch_block_impl at h
  dsimp only at h
  repeat' split at h
  all_goals
    first
    | exact Option.noConfusion h
    | (simp only [Option.some.injEq, Prod.mk.injEq] at h
       obtain ⟨h1, h2⟩ := h
       subst h1
       subst h2
       first
       | (exfalso; simp only at hc; contradiction)
       | (rename_i store2 hcl _
          have hfrm := change_latest_frame _ _ _ _ _ _ hcl
          refine ⟨?_, ?_, ?_⟩
          · simp only [Store.block_get, Store.frontier_del_blocks, hfrm.1]
            exact block_put_get_self _ _ _ _ _
          · exact latest_after_change_latest l _ _ _ _ _ hacc (by simp) (by simp) hcl _
              (by simp) (by simp)
          · simp only [applied_as_send, hres, decide_eq_true_eq, if_false]
            exact same_pending_no_new_row l _ (by simp [hfrm.2.1]) (by simp [hfrm.2.2.1])))

theorem state_block_prev_state_is_send (env : Env) (l : ledger) (res : process_return)
    (b : state_block) :
    (ledger_processor.state_block_prev env l res b).1.state_is_send = res.state_is_send := by
  unfold ledger_processor.state_block_prev
  dsimp only
  split_ifs <;> rfl

theorem state_block_post (env : Env) (l : ledger) (res : process_return)
    (b : state_block) (r : process_return) (l1 : ledger)
    (h : ledger_processor.state_block env l res b = some (r, l1))
    (hc : r.code = .progress) (hres : res.state_is_send = none)
    (hacc : l.store.account_row_consistent b.account = true)
    (hpend : l.store.pending_keyed_by (env.hash (.state b)) = false) :
    accepted_post env l l1 (.state b) r := by
  unfold ledger_processor.state_block at h
  dsimp only at h
  split at h
  · split at h
    · split at h
      · exact epoch_block_impl_post _ _ _ _ _ _ h hc
          (by rw [state_block_prev_state_is_send]; exact hres) hacc
      · exact state_block_impl_post _ _ _ _ _ _ h hc hacc hpend
    · rename_i hp
      simp only [Option.some.injEq, Prod.mk.injEq] at h
      exact absurd (h.1 ▸ hc) hp
  · exact state_block_impl_post _ _ _ _ _ _ h hc hacc hpend

/-- C5: a block accepted with `progress`, in a store where the row of the
owning account obeys the dual-table discipline and no pending row is keyed by
the hash of the block (invariant 4: pending rows name applied sends): the
block is stored under its hash, `latest` of the account of the result is that
hash, and the pending tables hold exactly one row that was not there before
when the block was applied as a send (legacy send, or state block with
`state_is_send`), and no new row for every other kind of block. -/
theorem accepted_block_stored_head_and_pending (env : Env) (l : ledger) (b : block)
    (v : signature_verification) (r : process_return) (l1 : ledger)
    (h : ledger.process env l b v = some (r, l1)) (hc : r.code = .progress)
    (hacc : l.store.account_row_consistent (l.owner b) = true)
    (hpend : l.store.pending_keyed_by (env.hash b) = false) :
    (l1.store.block_get (env.hash b)).map block_row.block = some b ∧
    l1.latest r.account = env.hash b ∧
    (if applied_as_send b r = true then
      ∃ t k row, new_pending_row l l1 t k row ∧
        ∀ t1 k1 row1, new_pending_row l l1 t1 k1 row1 → t1 = t ∧ k1 = k ∧ row1 = row
    else ∀ t k row, ¬ new_pending_row l l1 t k row) := by
  unfold ledger.process at h
  cases b with
  | send b => exact send_block_post _ _ _ _ _ _ h hc hacc hpend
  | receive b => exact receive_block_post _ _ _ _ _ _ h hc hacc
  | open_ b => exact open_block_post _ _ _ _ _ _ h hc hacc
  | change b => exact change_block_post _ _ _ _ _ _ h hc hacc
  | state b => exact state_block_post _ _ _ _ _ _ h hc rfl hacc hpend

theorem accepted_block_stored_head_and_pending_witness :
    (example_net.sent_ledger.store.block_get (example_net.env.hash (.send example_net.send_1))).map
        block_row.block = some (.send example_net.send_1) ∧
    example_net.sent_ledger.latest example_net.genesis
      = example_net.env.hash (.send example_net.send_1) ∧
    ∃ t k row, new_pending_row example_net.genesis_ledger example_net.sent_ledger t k row ∧
      ∀ t1 k1 row1, new_pending_row example_net.genesis_ledger example_net.sent_ledger t1 k1 row1 →
        t1 = t ∧ k1 = k ∧ row1 = row :=
  accepted_block_stored_head_and_pending example_net.env example_net.genesis_ledger
    (.send example_net.send_1) .unknown
    { code := .progress, account := example_net.genesis, amount := 100, pending_account := 2,
      state_is_send := none, verified := .valid }
    example_net.sent_ledger (by decide) (by decide) (by decide) (by decide)

end nano

namespace nano

/-! ## Sums over the rows of a table -/

theorem Map.mem_map_fst_iff {K V : Type} [DecidableEq K] (m : Map K V) (x : K) :
    x ∈ m.map Prod.fst ↔ (m.get x).isSome = true := by
  induction m with
  | nil => simp [Map.get]
  | cons p m ih =>
    obtain ⟨k, v⟩ := p
    by_cases hk : k = x
    · simp [Map.get, hk]
    · simp only [List.map_cons, List.mem_cons, Map.get, if_neg hk]
      constructor
      · rintro (h | h)
        · exact absurd h.symm hk
        · exact ih.mp h
      · intro h
        exact Or.inr (ih.mpr h)

theorem Map.mem_keys {K V : Type} [DecidableEq K] (m : Map K V) (x : K) :
    x ∈ m.keys ↔ (m.get x).isSome = true := by
  unfold Map.keys
  rw [List.mem_dedup]
  exact Map.mem_map_fst_iff m x

theorem Map.keys_nodup {K V : Type} [DecidableEq K] (m : Map K V) : m.keys.Nodup :=
  List.nodup_dedup _

theorem list_sum_eq_sum_superset {α : Type} [DecidableEq α] (L : List α) (hL : L.Nodup)
    (F : α → Nat) (U : Finset α) (hU : ∀ x ∈ L, x ∈ U) (hF : ∀ x, x ∉ L → F x = 0) :
    (L.map F).sum = ∑ x in U, F x := by
  rw [← List.sum_toFinset F hL]
  apply Finset.sum_subset
  · intro x hx
    exact hU x (List.mem_toFinset.mp hx)
  · intro x _ hx
    exact hF x (fun h => hx (List.mem_toFinset.mpr h))

theorem sum_point_update {α : Type} [DecidableEq α] (L L1 : List α) (hL : L.Nodup)
    (hL1 : L1.Nodup) (F F1 : α → Nat) (a : α) (hF : ∀ x, x ∉ L → F x = 0)
    (hF1 : ∀ x, x ∉ L1 → F1 x = 0) (hoff : ∀ x, x ≠ a → F1 x = F x) :
    (L1.map F1).sum + F a = (L.map F).sum + F1 a := by
  have hU : ∀ x ∈ L, x ∈ insert a (L.toFinset ∪ L1.toFinset) := by
    intro x hx
    exact Finset.mem_insert_of_mem (Finset.mem_union_left _ (List.mem_toFinset.mpr hx))
  have hU1 : ∀ x ∈ L1, x ∈ insert a (L.toFinset ∪ L1.toFinset) := by
    intro x hx
    exact Finset.mem_insert_of_mem (Finset.mem_union_right _ (List.mem_toFinset.mpr hx))
  rw [list_sum_eq_sum_superset L hL F _ hU hF, list_sum_eq_sum_superset L1 hL1 F1 _ hU1 hF1]
  have ha : a ∈ insert a (L.toFinset ∪ L1.toFinset) := Finset.mem_insert_self _ _
  rw [← Finset.add_sum_erase _ F ha, ← Finset.add_sum_erase _ F1 ha]
  have hrest : ∑ x in (insert a (L.toFinset ∪ L1.toFinset)).erase a, F1 x
      = ∑ x in (insert a (L.toFinset ∪ L1.toFinset)).erase a, F x := by
    apply Finset.sum_congr rfl
    intro x hx
    exact hoff x (Finset.ne_of_mem_erase hx)
  rw [hrest]
  omega

theorem sum_pointwise_eq {α : Type} [DecidableEq α] (L L1 : List α) (hL : L.Nodup)
    (hL1 : L1.Nodup) (F F1 : α → Nat) (hF : ∀ x, x ∉ L → F x = 0)
    (hF1 : ∀ x, x ∉ L1 → F1 x = 0) (heq : ∀ x, F1 x = F x) :
    (L1.map F1).sum = (L.map F).sum := by
  have hU : ∀ x ∈ L, x ∈ L.toFinset ∪ L1.toFinset := by
    intro x hx
    exact Finset.mem_union_left _ (List.mem_toFinset.mpr hx)
  have hU1 : ∀ x ∈ L1, x ∈ L.toFinset ∪ L1.toFinset := by
    intro x hx
    exact Finset.mem_union_right _ (List.mem_toFinset.mpr hx)
  rw [list_sum_eq_sum_superset L hL F _ hU hF, list_sum_eq_sum_superset L1 hL1 F1 _ hU1 hF1]
  exact Finset.sum_congr rfl (fun x _ => heq x)

theorem le_list_sum_of_mem {α : Type} (L : List α) (F : α → Nat) (a : α) (h : a ∈ L) :
    F a ≤ (L.map F).sum :=
  List.single_le_sum (fun _ _ => Nat.zero_le _) _ (List.mem_map_of_mem F h)

end nano

namespace nano

/-! ## The block table after `block_put`, up to successor fields -/

theorem row_balance_eq_content (r : block_row) :
    Store.row_balance r = content_balance r.content := by
  unfold Store.row_balance content_balance block_row.content
  cases r.block <;> rfl

theorem block_put_content (s : Store) (h : Hash) (b : block) (sb : block_sideband) (e : epoch)
    (x : Hash) :
    ((s.block_put h b sb e).blocks.get x).map block_row.content
      = if x = h then some (b, e, sb.balance) else (s.blocks.get x).map block_row.content := by
  have hm1 : ((s.blocks.put h { block := b, sideband := sb, epoch := e }).get x).map
      block_row.content
      = if x = h then some (b, e, sb.balance) else (s.blocks.get x).map block_row.content := by
    rw [Map.get_put]
    by_cases hx : h = x
    · rw [if_pos hx, if_pos hx.symm]
      rfl
    · rw [if_neg hx, if_neg (fun h1 => hx h1.symm)]
  have hfill : ∀ p : Hash,
      ((match (s.blocks.put h { block := b, sideband := sb, epoch := e }).get p with
        | some r => (s.blocks.put h { block := b, sideband := sb, epoch := e }).put p
            { r with sideband := { r.sideband with successor := h } }
        | none => s.blocks.put h { block := b, sideband := sb, epoch := e }).get x).map
        block_row.content
      = if x = h then some (b, e, sb.balance) else (s.blocks.get x).map block_row.content := by
    intro p
    cases hp : (s.blocks.put h { block := b, sideband := sb, epoch := e }).get p with
    | none => exact hm1
    | some r =>
      simp only
      rw [Map.get_put (s.blocks.put h { block := b, sideband := sb, epoch := e })]
      by_cases hpx : p = x
      · rw [if_pos hpx, ← hm1, ← hpx, hp]
        rfl
      · rw [if_neg hpx]
        exact hm1
  unfold Store.block_put Store.block_predecessor_set
  dsimp only
  cases b with
  | open_ ob => exact hm1
  | state sb1 =>
    simp only
    split
    · exact hm1
    · exact hfill _
  | send b1 => exact hfill _
  | receive b1 => exact hfill _
  | change b1 => exact hfill _

/-! ## Account balances read through the tables -/

theorem account_balance_of_none (l : ledger) (x : Account)
    (h : l.store.account_get x = none) : l.account_balance x = 0 := by
  unfold ledger.account_balance ledger.account_state
  rw [h]
  rfl

theorem account_balance_of_row (l : ledger) (x : Account) (i : account_info)
    (c : nano.block × nano.epoch × Amount)
    (h : l.store.account_get x = some i) (hh : i.head ≠ 0)
    (hc : (l.store.blocks.get i.head).map block_row.content = some c) :
    l.account_balance x = content_balance c := by
  unfold ledger.account_balance ledger.account_state
  rw [h]
  simp only [account_state.head, account_state.balance, Store.block_get]
  rw [if_pos hh]
  cases hr : l.store.blocks.get i.head with
  | none => rw [hr] at hc; exact Option.noConfusion hc
  | some r =>
    rw [hr] at hc
    simp only [Option.map_some', Option.some.injEq] at hc
    rw [← hc]
    exact row_balance_eq_content r

theorem state_balance_of_row (l : ledger) (x : Account) (i : account_info)
    (c : nano.block × nano.epoch × Amount)
    (h : l.store.account_get x = some i)
    (hc : (l.store.blocks.get i.head).map block_row.content = some c) :
    (l.account_state x).balance = content_balance c := by
  unfold ledger.account_state
  rw [h]
  simp only [account_state.balance, Store.block_get]
  cases hr : l.store.blocks.get i.head with
  | none => rw [hr] at hc; exact Option.noConfusion hc
  | some r =>
    rw [hr] at hc
    simp only [Option.map_some', Option.some.injEq] at hc
    rw [← hc]
    exact row_balance_eq_content r

theorem mem_accounts_iff (s : Store) (x : Account) :
    x ∈ s.accounts ↔ (s.account_get x).isSome = true := by
  unfold Store.accounts Store.account_get
  rw [List.mem_dedup, List.mem_append, Map.mem_keys, Map.mem_keys]
  cases h1 : s.accounts_v1.get x <;> simp

theorem account_balance_support (l : ledger) (x : Account) (h : x ∉ l.store.accounts) :
    l.account_balance x = 0 := by
  apply account_balance_of_none
  rw [mem_accounts_iff] at h
  cases hg : l.store.account_get x with
  | none => rfl
  | some i => rw [hg] at h; exact absurd rfl h

theorem mem_pending_keys_iff (s : Store) (k : pending_key) :
    k ∈ s.pending_keys ↔ (s.pending_get k).isSome = true := by
  unfold Store.pending_keys Store.pending_get
  rw [List.mem_dedup, List.mem_append, Map.mem_keys, Map.mem_keys]
  cases h1 : s.pending_v1.get k <;> cases h0 : s.pending_v0.get k <;> simp

theorem pending_amount_support (l : ledger) (k : pending_key) (h : k ∉ l.store.pending_keys) :
    l.pending_amount k = 0 := by
  rw [mem_pending_keys_iff] at h
  unfold ledger.pending_amount
  cases hg : l.store.pending_get k with
  | none => rfl
  | some i => rw [hg] at h; exact absurd rfl h

end nano

namespace nano

/-! ## What an accepted block did: the result and the ledger, per variant -/

theorem send_block_progress (env : Env) (l : ledger) (res : process_return) (b : send_block)
    (r : process_return) (l1 : ledger)
    (h : ledger_processor.send_block env l res b = some (r, l1)) (hc : r.code = .progress) :
    ∃ store2,
      b.balance ≤ (l.account_state (l.store.frontier_get b.previous)).balance ∧
      ledger.change_latest
        (l.store.block_put (env.hash (.send b)) (.send b)
          { type := .send, account := l.store.frontier_get b.previous, successor := 0,
            balance := b.balance,
            height := (l.account_state (l.store.frontier_get b.previous)).block_count + 1,
            timestamp := env.seconds_since_epoch } .epoch_0)
        (l.store.frontier_get b.previous) (l.account_state (l.store.frontier_get b.previous))
        { head := env.hash (.send b),
          representative := (l.account_state (l.store.frontier_get b.previous)).rep,
          open_block := (l.account_state (l.store.frontier_get b.previous)).open_ }
        .epoch_0 = some store2 ∧
      l1 = { l with
              store := ((store2.pending_put
                  { account := b.destination, hash := env.hash (.send b) }
                  { source := l.store.frontier_get b.previous,
                    amount := sub128 (l.account_state (l.store.frontier_get b.previous)).balance
                      b.balance,
                    epoch := .epoch_0 }).frontier_del b.previous).frontier_put
                  (env.hash (.send b)) (l.store.frontier_get b.previous),
              rep_weights := representation_add l.rep_weights
                (l.account_state (l.store.frontier_get b.previous)).rep
                (sub128 0 (sub128 (l.account_state (l.store.frontier_get b.previous)).balance
                  b.balance)) } ∧
      r = { res with code := .progress, verified := .valid,
                     account := l.store.frontier_get b.previous,
                     amount := sub128 (l.account_state (l.store.frontier_get b.previous)).balance
                       b.balance,
                     pending_account := b.destination } := by
  unfold ledger_processor.send_block at h
  dsimp only at h
  repeat' split at h
  all_goals
    first
    | exact Option.noConfusion h
    | (simp only [Option.some.injEq, Prod.mk.injEq] at h
       obtain ⟨h1, h2⟩ := h
       subst h1
       subst h2
       first
       | (exfalso; simp at hc; done)
       | exact ⟨_, not_not.mp (by assumption), by assumption, rfl, rfl⟩)

theorem receive_block_progress (env : Env) (l : ledger) (res : process_return)
    (b : receive_block) (r : process_return) (l1 : ledger)
    (h : ledger_processor.receive_block env l res b = some (r, l1)) (hc : r.code = .progress) :
    ∃ pending store3,
      l.store.pending_get { account := l.store.frontier_get b.previous, hash := b.source }
        = some pending ∧
      pending.epoch = .epoch_0 ∧
      (l.account_state (l.store.frontier_get b.previous)).head = b.previous ∧
      ledger.change_latest
        ((l.store.pending_del
            { account := l.store.frontier_get b.previous, hash := b.source }).block_put
          (env.hash (.receive b)) (.receive b)
          { type := .receive, account := l.store.frontier_get b.previous, successor := 0,
            balance := add128 (l.account_state (l.store.frontier_get b.previous)).balance
              pending.amount,
            height := (l.account_state (l.store.frontier_get b.previous)).block_count + 1,
            timestamp := env.seconds_since_epoch } .epoch_0)
        (l.store.frontier_get b.previous) (l.account_state (l.store.frontier_get b.previous))
        { head := env.hash (.receive b),
          representative := (l.account_state (l.store.frontier_get b.previous)).rep,
          open_block := (l.account_state (l.store.frontier_get b.previous)).open_ }
        .epoch_0 = some store3 ∧
      l1 = { l with
              store := (store3.frontier_del b.previous).frontier_put (env.hash (.receive b))
                (l.store.frontier_get b.previous),
              rep_weights := representation_add l.rep_weights
                (l.account_state (l.store.frontier_get b.previous)).rep pending.amount } ∧
      r = { res with code := .progress, verified := .valid,
                     account := l.store.frontier_get b.previous,
                     amount := pending.amount } := by
  unfold ledger_processor.receive_block at h
  dsimp only at h
  repeat' split at h
  all_goals
    first
    | exact Option.noConfusion h
    | (simp only [Option.some.injEq, Prod.mk.injEq] at h
       obtain ⟨h1, h2⟩ := h
       subst h1
       subst h2
       first
       | (exfalso; simp at hc; done)
       | exact ⟨_, _, by assumption, not_not.mp (by assumption), not_not.mp (by assumption),
           by assumption, rfl, rfl⟩)

theorem open_block_progress (env : Env) (l : ledger) (res : process_return)
    (b : open_block) (r : process_return) (l1 : ledger)
    (h : ledger_processor.open_block env l res b = some (r, l1)) (hc : r.code = .progress) :
    ∃ pending store3,
      l.store.pending_get { account := b.account, hash := b.source } = some pending ∧
      pending.epoch = .epoch_0 ∧
      (l.account_state b.account).head = 0 ∧
      ledger.change_latest
        ((l.store.pending_del { account := b.account, hash := b.source }).block_put
          (env.hash (.open_ b)) (.open_ b)
          { type := .open_, account := b.account, successor := 0, balance := pending.amount,
            height := 1, timestamp := env.seconds_since_epoch } .epoch_0)
        b.account (l.account_state b.account)
        { head := env.hash (.open_ b), representative := b.representative,
          open_block := env.hash (.open_ b) }
        .epoch_0 = some store3 ∧
      l1 = { l with
              store := store3.frontier_put (env.hash (.open_ b)) b.account,
              rep_weights := representation_add l.rep_weights b.representative
                pending.amount } ∧
      r = { res with code := .progress, verified := .valid, account := b.account,
                     amount := pending.amount } := by
  unfold ledger_processor.open_block at h
  dsimp only at h
  repeat' split at h
  all_goals
    first
    | exact Option.noConfusion h
    | (simp only [Option.some.injEq, Prod.mk.injEq] at h
       obtain ⟨h1, h2⟩ := h
       subst h1
       subst h2
       first
       | (exfalso; simp at hc; done)
       | exact ⟨_, _, by assumption, not_not.mp (by assumption), not_not.mp (by assumption),
           by assumption, rfl, rfl⟩)

theorem change_block_progress (env : Env) (l : ledger) (res : process_return)
    (b : change_block) (r : process_return) (l1 : ledger)
    (h : ledger_processor.change_block env l res b = some (r, l1)) (hc : r.code = .progress) :
    ∃ store2 bal,
      bal = ledger.balance
        (ledger.mk
          (l.store.block_put (env.hash (.change b)) (.change b)
            { type := .change, account := l.store.frontier_get b.previous, successor := 0,
              balance := (l.account_state (l.store.frontier_get b.previous)).balance,
              height := (l.account_state (l.store.frontier_get b.previous)).block_count + 1,
              timestamp := env.seconds_since_epoch } .epoch_0)
          l.rep_weights l.check_bootstrap_weights) b.previous ∧
      ledger.change_latest
        (l.store.block_put (env.hash (.change b)) (.change b)
          { type := .change, account := l.store.frontier_get b.previous, successor := 0,
            balance := (l.account_state (l.store.frontier_get b.previous)).balance,
            height := (l.account_state (l.store.frontier_get b.previous)).block_count + 1,
            timestamp := env.seconds_since_epoch } .epoch_0)
        (l.store.frontier_get b.previous) (l.account_state (l.store.frontier_get b.previous))
        { head := env.hash (.change b), representative := b.representative,
          open_block := (l.account_state (l.store.frontier_get b.previous)).open_ }
        .epoch_0 = some store2 ∧
      l1 = { l with
              store := (store2.frontier_del b.previous).frontier_put (env.hash (.change b))
                (l.store.frontier_get b.previous),
              rep_weights := representation_add
                (representation_add l.rep_weights b.representative
                  bal)
                (l.account_state (l.store.frontier_get b.previous)).rep
                (sub128 0 bal) } ∧
      r = { res with code := .progress, verified := .valid,
                     account := l.store.frontier_get b.previous, amount := 0 } := by
  unfold ledger_processor.change_block at h
  dsimp only at h
  repeat' split at h
  all_goals
    first
    | exact Option.noConfusion h
    | (simp only [Option.some.injEq, Prod.mk.injEq] at h
       obtain ⟨h1, h2⟩ := h
       subst h1
       subst h2
       first
       | (exfalso; simp at hc; done)
       | exact ⟨_, _, rfl, by assumption, rfl, rfl⟩)

/-! ## State blocks: which routine handles the block -/

theorem state_block_eq_impl (env : Env) (l : ledger) (v : signature_verification)
    (b : state_block)
    (hne : ledger_processor.is_epoch_block env l v b = false)
    (hreach : ledger.is_epoch_link env b.link = false ∨ b.previous = 0 ∨
      l.store.block_exists b.previous = true) :
    ledger.process env l (.state b) v
      = ledger_processor.state_block_impl env l (process_return.init v) b := by
  unfold ledger.process
  simp only
  unfold ledger_processor.state_block
  by_cases hl : ledger.is_epoch_link env b.link = true
  · rw [if_pos hl]
    unfold ledger_processor.is_epoch_block at hne
    rw [hl, Bool.true_and] at hne
    have hp : (ledger_processor.state_block_prev env l (process_return.init v) b).1
        = process_return.init v := by
      unfold ledger_processor.state_block_prev
      rcases hreach with h1 | h1 | h1
      · rw [h1] at hl
        exact Bool.noConfusion hl
      · simp only [h1, ne_eq, not_true_eq_false, if_false]
        rfl
      · by_cases h0 : b.previous = 0
        · simp only [h0, ne_eq, not_true_eq_false, if_false]
          rfl
        · simp only [h0, ne_eq, not_false_eq_true, if_true, h1]
          rfl
    simp only [hne, hp, Bool.false_eq_true, if_false]
    exact if_pos rfl
  · rw [if_neg hl]
    rfl

theorem state_block_eq_epoch_impl (env : Env) (l : ledger) (v : signature_verification)
    (b : state_block)
    (he : ledger_processor.is_epoch_block env l v b = true)
    (hreach : b.previous = 0 ∨ l.store.block_exists b.previous = true) :
    ledger.process env l (.state b) v
      = ledger_processor.epoch_block_impl env l (process_return.init v) b := by
  unfold ledger.process
  simp only
  unfold ledger_processor.state_block
  unfold ledger_processor.is_epoch_block at he
  rw [Bool.and_eq_true] at he
  have hp : (ledger_processor.state_block_prev env l (process_return.init v) b).1
      = process_return.init v := by
    unfold ledger_processor.state_block_prev
    rcases hreach with h1 | h1
    · simp only [h1, ne_eq, not_true_eq_false, if_false]
      rfl
    · by_cases h0 : b.previous = 0
      · simp only [h0, ne_eq, not_true_eq_false, if_false]
        rfl
      · simp only [h0, ne_eq, not_false_eq_true, if_true, h1]
        rfl
  rw [if_pos he.1]
  simp only [he.2, hp, if_true]
  exact if_pos rfl

theorem state_block_progress_reach (env : Env) (l : ledger) (v : signature_verification)
    (b : state_block) (r : process_return) (l1 : ledger)
    (h : ledger.process env l (.state b) v = some (r, l1)) (hc : r.code = .progress) :
    ledger.is_epoch_link env b.link = false ∨ b.previous = 0 ∨
      l.store.block_exists b.previous = true := by
  by_cases hl : ledger.is_epoch_link env b.link = true
  · by_cases h0 : b.previous = 0
    · exact Or.inr (Or.inl h0)
    · by_cases hx : l.store.block_exists b.previous = true
      · exact Or.inr (Or.inr hx)
      · exfalso
        have hcode : (ledger_processor.state_block_prev env l (process_return.init v) b).1.code
            ≠ .progress := by
          unfold ledger_processor.state_block_prev
          simp only [h0, hx, ne_eq, not_false_eq_true, if_true, Bool.false_eq_true, if_false]
          repeat' split
          all_goals exact fun hk => process_result.noConfusion hk
        unfold ledger.process at h
        simp only at h
        unfold ledger_processor.state_block at h
        rw [if_pos hl] at h
        simp only [hcode, if_false, Option.some.injEq, Prod.mk.injEq] at h
        obtain ⟨h1, h2⟩ := h
        rw [← h1] at hc
        exact hcode hc
  · left
    simpa using hl

/-! ## State blocks: what an accepted block did -/

theorem state_block_apply_shape (env : Env) (l : ledger) (res : process_return)
    (b : state_block) (st : account_state) (e : epoch) (is_send : Bool)
    (r : process_return) (l1 : ledger)
    (h : ledger_processor.state_block_apply env l res b st e is_send = some (r, l1)) :
    ∃ store3,
      ledger.change_latest
        (if is_send = true then
          (l.store.block_put (env.hash (.state b)) (.state b)
            { type := .state, account := b.account, successor := 0, balance := 0,
              height := st.block_count + 1, timestamp := env.seconds_since_epoch } e).pending_put
            { account := b.link, hash := env.hash (.state b) }
            { source := b.account, amount := res.amount, epoch := e }
        else if b.link ≠ 0 then
          (l.store.block_put (env.hash (.state b)) (.state b)
            { type := .state, account := b.account, successor := 0, balance := 0,
              height := st.block_count + 1, timestamp := env.seconds_since_epoch } e).pending_del
            { account := b.account, hash := b.link }
        else
          l.store.block_put (env.hash (.state b)) (.state b)
            { type := .state, account := b.account, successor := 0, balance := 0,
              height := st.block_count + 1, timestamp := env.seconds_since_epoch } e)
        b.account st
        { head := env.hash (.state b), representative := b.representative,
          open_block := if st.open_ = 0 then env.hash (.state b) else st.open_ }
        e = some store3 ∧
      l1 = ledger.mk
        (if store3.frontier_get st.head ≠ 0 then store3.frontier_del st.head else store3)
        (representation_add
          (if st.rep ≠ 0 then representation_add l.rep_weights st.rep (sub128 0 st.balance)
           else l.rep_weights)
          b.representative b.balance)
        l.check_bootstrap_weights ∧
      r = { res with state_is_send := some is_send, code := .progress, account := b.account } := by
  have hself := block_put_get_self l.store (env.hash (.state b)) (.state b)
    { type := .state, account := b.account, successor := 0, balance := 0,
      height := st.block_count + 1, timestamp := env.seconds_since_epoch } e
  cases hrow : (l.store.block_put (env.hash (.state b)) (.state b)
    { type := .state, account := b.account, successor := 0, balance := 0,
      height := st.block_count + 1, timestamp := env.seconds_since_epoch } e).block_get
      (env.hash (.state b)) with
  | none =>
    rw [hrow] at hself
    exact Option.noConfusion hself
  | some row =>
    rw [hrow] at hself
    simp only [Option.map_some', Option.some.injEq] at hself
    unfold ledger_processor.state_block_apply at h
    simp only [hrow, hself, block.representative] at h
    split at h
    · exact Option.noConfusion h
    · rename_i store3 hcl
      simp only [Option.some.injEq, Prod.mk.injEq] at h
      obtain ⟨h1, h2⟩ := h
      exact ⟨store3, hcl, h2.symm, h1.symm⟩

theorem state_block_receive_progress (env : Env) (l : ledger) (res : process_return)
    (b : state_block) (st : account_state) (e : epoch) (is_send : Bool)
    (r : process_return) (l1 : ledger)
    (h : ledger_processor.state_block_receive env l res b st e is_send = some (r, l1))
    (hc : r.code = .progress) :
    ∃ e1, ledger_processor.state_block_apply env l res b st e1 is_send = some (r, l1) ∧
      ((is_send = true ∧ e1 = e) ∨
       (is_send = false ∧ b.link ≠ 0 ∧ l.store.source_exists b.link = true ∧
          ∃ p, l.store.pending_get { account := b.account, hash := b.link } = some p ∧
            res.amount = p.amount ∧ e1 = e.max p.epoch) ∨
       (is_send = false ∧ b.link = 0 ∧ res.amount = 0 ∧ e1 = e)) := by
  unfold ledger_processor.state_block_receive at h
  cases is_send with
  | true =>
    simp only [if_true] at h
    exact ⟨e, h, Or.inl ⟨rfl, rfl⟩⟩
  | false =>
    simp only [Bool.false_eq_true, if_false] at h
    by_cases hl : b.link = 0
    · simp only [hl, ne_eq, not_true_eq_false, if_false] at h
      by_cases ha : res.amount = 0
      · simp only [ha, not_true_eq_false, if_false] at h
        exact ⟨e, h, Or.inr (Or.inr ⟨rfl, hl, ha, rfl⟩)⟩
      · exfalso
        simp only [ha, not_false_eq_true, if_true] at h
        cases h
        exact process_result.noConfusion hc
    · simp only [hl, ne_eq, not_false_eq_true, if_true] at h
      by_cases hs : l.store.source_exists b.link = true
      · simp only [hs, not_true_eq_false, if_false] at h
        cases hp : l.store.pending_get { account := b.account, hash := b.link } with
        | none =>
          exfalso
          simp only [hp] at h
          cases h
          exact process_result.noConfusion hc
        | some p =>
          simp only [hp] at h
          by_cases ha : res.amount = p.amount
          · rw [if_neg (not_not.mpr ha)] at h
            exact ⟨e.max p.epoch, h, Or.inr (Or.inl ⟨rfl, hl, hs, p, rfl, ha, rfl⟩)⟩
          · exfalso
            rw [if_pos ha] at h
            cases h
            exact process_result.noConfusion hc
      · exfalso
        simp only [hs, not_false_eq_true, if_true] at h
        cases h
        exact process_result.noConfusion hc

theorem state_block_impl_progress (env : Env) (l : ledger) (res : process_return)
    (b : state_block) (r : process_return) (l1 : ledger)
    (h : ledger_processor.state_block_impl env l res b = some (r, l1))
    (hc : r.code = .progress) :
    ∃ e is_send amount,
      ledger_processor.state_block_receive env l
          { res with verified := .valid, amount := amount } b (l.account_state b.account)
          e is_send = some (r, l1) ∧
      (((l.account_state b.account).head ≠ 0 ∧ (l.account_state b.account).epoch = some e ∧
          b.previous = (l.account_state b.account).head ∧
          is_send = decide (b.balance < (l.account_state b.account).balance) ∧
          amount = (if is_send = true then sub128 (l.account_state b.account).balance b.balance
                    else sub128 b.balance (l.account_state b.account).balance)) ∨
       ((l.account_state b.account).head = 0 ∧ e = .epoch_0 ∧ b.previous = 0 ∧ b.link ≠ 0 ∧
          is_send = false ∧ amount = b.balance)) := by
  unfold ledger_processor.state_block_impl at h
  dsimp only at h
  repeat' split at h
  all_goals
    first
    | exact Option.noConfusion h
    | (exfalso
       simp only [Option.some.injEq, Prod.mk.injEq] at h
       obtain ⟨h1, h2⟩ := h
       rw [← h1] at hc
       exact process_result.noConfusion hc)
    | exact ⟨_, _, _, h, Or.inl ⟨by assumption, by assumption, not_not.mp (by assumption),
        rfl, by first
                | exact (if_pos (by assumption)).symm
                | exact (if_neg (by assumption)).symm⟩⟩
    | exact ⟨_, _, _, h, Or.inr ⟨not_not.mp (by assumption), rfl, not_not.mp (by assumption),
        by assumption, rfl, rfl⟩⟩

theorem epoch_block_impl_progress (env : Env) (l : ledger) (res : process_return)
    (b : state_block) (r : process_return) (l1 : ledger)
    (h : ledger_processor.epoch_block_impl env l res b = some (r, l1))
    (hc : r.code = .progress) :
    ∃ store2,
      ledger_processor.epoch_block_position b (l.account_state b.account) = .progress ∧
      b.balance = (l.account_state b.account).balance ∧
      ledger.change_latest
        (l.store.block_put (env.hash (.state b)) (.state b)
          { type := .state, account := b.account, successor := 0, balance := 0,
            height := (l.account_state b.account).block_count + 1,
            timestamp := env.seconds_since_epoch } .epoch_1)
        b.account (l.account_state b.account)
        { head := env.hash (.state b), representative := b.representative,
          open_block := if (l.account_state b.account).open_ = 0 then env.hash (.state b)
                        else (l.account_state b.account).open_ }
        .epoch_1 = some store2 ∧
      l1 = ledger.mk
        (if store2.frontier_get (l.account_state b.account).head ≠ 0
          then store2.frontier_del (l.account_state b.account).head else store2)
        l.rep_weights l.check_bootstrap_weights ∧
      r = { res with verified := .valid_epoch, code := .progress, account := b.account,
                     amount := 0 } := by
  unfold ledger_processor.epoch_block_impl at h
  dsimp only at h
  repeat' split at h
  all_goals
    first
    | exact Option.noConfusion h
    | (simp only [Option.some.injEq, Prod.mk.injEq] at h
       obtain ⟨h1, h2⟩ := h
       subst h1
       subst h2
       first
       | (exfalso; simp at hc; done)
       | (exfalso; simp only at hc; contradiction)
       | (refine ⟨_, not_not.mp (by assumption), not_not.mp (by assumption), by assumption,
            ?_, rfl⟩
          split <;> first | rfl | contradiction))

end nano

namespace nano

/-! ## Reading the tables after a write -/

theorem block_put_get_map {α : Type} (f : block_row → α)
    (hf : ∀ (r : block_row) (succ : Hash),
      f { r with sideband := { r.sideband with successor := succ } } = f r)
    (s : Store) (h : Hash) (b : block) (sb : block_sideband) (e : epoch) (x : Hash) :
    ((s.block_put h b sb e).blocks.get x).map f
      = if x = h then some (f { block := b, sideband := sb, epoch := e })
        else (s.blocks.get x).map f := by
  have hm1 : ((s.blocks.put h { block := b, sideband := sb, epoch := e }).get x).map f
      = if x = h then some (f { block := b, sideband := sb, epoch := e })
        else (s.blocks.get x).map f := by
    rw [Map.get_put]
    by_cases hx : h = x
    · rw [if_pos hx, if_pos hx.symm]
      rfl
    · rw [if_neg hx, if_neg (fun h1 => hx h1.symm)]
  have hfill : ∀ p : Hash,
      ((match (s.blocks.put h { block := b, sideband := sb, epoch := e }).get p with
        | some r => (s.blocks.put h { block := b, sideband := sb, epoch := e }).put p
            { r with sideband := { r.sideband with successor := h } }
        | none => s.blocks.put h { block := b, sideband := sb, epoch := e }).get x).map f
      = if x = h then some (f { block := b, sideband := sb, epoch := e })
        else (s.blocks.get x).map f := by
    intro p
    cases hp : (s.blocks.put h { block := b, sideband := sb, epoch := e }).get p with
    | none => exact hm1
    | some r =>
      simp only
      rw [Map.get_put (s.blocks.put h { block := b, sideband := sb, epoch := e })]
      by_cases hpx : p = x
      · rw [if_pos hpx, ← hm1, ← hpx, hp]
        simp only [Option.map_some', Option.some.injEq]
        exact hf r h
      · rw [if_neg hpx]
        exact hm1
  unfold Store.block_put Store.block_predecessor_set
  dsimp only
  cases b with
  | open_ ob => exact hm1
  | state sb1 =>
    simp only
    split
    · exact hm1
    · exact hfill _
  | send b1 => exact hfill _
  | receive b1 => exact hfill _
  | change b1 => exact hfill _

theorem block_put_exists_type (s : Store) (h : Hash) (b : block) (sb : block_sideband)
    (e : epoch) (t : block_type) (x : Hash) :
    (s.block_put h b sb e).block_exists_type t x
      = if x = h then decide (b.type = t) else s.block_exists_type t x := by
  have hm := block_put_get_map block_row.block (fun _ _ => rfl) s h b sb e x
  unfold Store.block_exists_type Store.block_get
  by_cases hx : x = h
  · rw [if_pos hx] at hm
    rw [if_pos hx]
    cases hr : (s.block_put h b sb e).blocks.get x with
    | none => rw [hr] at hm; exact Option.noConfusion hm
    | some r =>
      rw [hr] at hm
      simp only [Option.map_some', Option.some.injEq] at hm
      simp only [hm]
  · rw [if_neg hx] at hm
    rw [if_neg hx]
    cases hr : (s.block_put h b sb e).blocks.get x with
    | none =>
      rw [hr] at hm
      cases hr0 : s.blocks.get x with
      | none => rfl
      | some r0 => rw [hr0] at hm; exact Option.noConfusion hm
    | some r =>
      rw [hr] at hm
      cases hr0 : s.blocks.get x with
      | none => rw [hr0] at hm; exact Option.noConfusion hm
      | some r0 =>
        rw [hr0] at hm
        simp only [Option.map_some', Option.some.injEq] at hm
        simp only [hm]

theorem block_put_exists (s : Store) (h : Hash) (b : block) (sb : block_sideband)
    (e : epoch) (x : Hash) :
    (s.block_put h b sb e).block_exists x = if x = h then true else s.block_exists x := by
  have hm := block_put_get_map (fun _ => ()) (fun _ _ => rfl) s h b sb e x
  unfold Store.block_exists Store.block_get
  by_cases hx : x = h
  · rw [if_pos hx] at hm
    rw [if_pos hx]
    cases hr : (s.block_put h b sb e).blocks.get x with
    | none => rw [hr] at hm; exact Option.noConfusion hm
    | some r => rfl
  · rw [if_neg hx] at hm
    rw [if_neg hx]
    cases hr : (s.block_put h b sb e).blocks.get x with
    | none =>
      rw [hr] at hm
      cases hr0 : s.blocks.get x with
      | none => rfl
      | some r0 => rw [hr0] at hm; exact Option.noConfusion hm
    | some r =>
      rw [hr] at hm
      cases hr0 : s.blocks.get x with
      | none => rw [hr0] at hm; exact Option.noConfusion hm
      | some r0 => rfl

theorem pending_get_epoch_0 (s : Store) (k : pending_key) (p : pending_info)
    (h : s.pending_get k = some p) (he : p.epoch = .epoch_0) :
    s.pending_v1.get k = none ∧
      s.pending_v0.get k = some { source := p.source, amount := p.amount } := by
  unfold Store.pending_get at h
  cases h1 : s.pending_v1.get k with
  | some r =>
    rw [h1] at h
    simp only [Option.some.injEq] at h
    rw [← h] at he
    exact epoch.noConfusion he
  | none =>
    rw [h1] at h
    refine ⟨rfl, ?_⟩
    cases h0 : s.pending_v0.get k with
    | none => rw [h0] at h; exact Option.noConfusion h
    | some r =>
      rw [h0] at h
      simp only [Option.some.injEq] at h
      rw [← h]

theorem pending_del_get_none (s : Store) (k : pending_key)
    (h : s.pending_v1.get k = none ∨ s.pending_v0.get k = none) :
    (s.pending_del k).pending_get k = none := by
  unfold Store.pending_del Map.contains
  cases h1 : s.pending_v1.get k with
  | none =>
    simp only [Option.isSome_none, Bool.false_eq_true, if_false]
    unfold Store.pending_get
    simp only [h1, Map.get_del, if_true]
  | some r =>
    simp only [Option.isSome_some, if_true]
    unfold Store.pending_get
    have h0 : s.pending_v0.get k = none := by
      rcases h with h | h
      · rw [h1] at h; exact Option.noConfusion h
      · exact h
    simp only [h0, Map.get_del, if_true]

theorem pending_get_congr (s t : Store) (k : pending_key) (h0 : s.pending_v0 = t.pending_v0)
    (h1 : s.pending_v1 = t.pending_v1) : s.pending_get k = t.pending_get k := by
  unfold Store.pending_get
  rw [h0, h1]

theorem representation_get_add (w : Map Account Amount) (a : Account) (x : Amount)
    (y : Account) :
    representation_get (representation_add w a x) y
      = if a = y then add128 (representation_get w a) x else representation_get w y := by
  unfold representation_add
  show ((w.put a (add128 (representation_get w a) x)).get y).getD 0 = _
  rw [Map.get_put]
  by_cases h : a = y
  · rw [if_pos h, if_pos h]
    rfl
  · rw [if_neg h, if_neg h]
    rfl

theorem add128_sub128_zero (x y : Amount) : add128 x (sub128 0 y) = sub128 x y := by
  unfold add128 sub128
  rw [Nat.zero_add, Nat.add_mod_mod]

theorem add128_sub128_cancel (x y : Amount) (hx : x < two128) :
    add128 (add128 x y) (sub128 0 y) = x := by
  unfold add128 sub128
  rw [Nat.zero_add, Nat.add_mod_mod, Nat.mod_add_mod]
  have hy : y % two128 ≤ two128 := Nat.le_of_lt (Nat.mod_lt _ (by decide))
  have h1 : x + y + (two128 - y % two128) = x + (y / two128 + 1) * two128 := by
    have := Nat.div_add_mod y two128
    have h2 : y % two128 + (two128 - y % two128) = two128 := Nat.add_sub_cancel' hy
    calc x + y + (two128 - y % two128)
        = x + (two128 * (y / two128) + y % two128) + (two128 - y % two128) := by rw [this]
      _ = x + (two128 * (y / two128) + (y % two128 + (two128 - y % two128))) := by
          simp only [Nat.add_assoc]
      _ = x + (two128 * (y / two128) + two128) := by rw [h2]
      _ = x + (y / two128 + 1) * two128 := by
          rw [Nat.add_mul, Nat.one_mul, Nat.mul_comm]
  rw [h1, Nat.add_mul_mod_self_right, Nat.mod_eq_of_lt hx]

theorem add128_of_lt (x y : Amount) (h : x + y < two128) : add128 x y = x + y := by
  unfold add128
  exact Nat.mod_eq_of_lt h

end nano

namespace nano

/-! ## Legacy open: the order of the checks -/

theorem open_block_code (env : Env) (l : ledger) (res : process_return) (b : open_block)
    (r : process_return) (l1 : ledger)
    (h : ledger_processor.open_block env l res b = some (r, l1)) :
    r.code = open_code_spec env l b res.verified := by
  unfold ledger_processor.open_block at h
  unfold open_code_spec
  dsimp only at h
  rw [← account_state_head_eq_latest]
  repeat' split at h
  all_goals
    first
    | exact Option.noConfusion h
    | (simp only [Option.some.injEq, Prod.mk.injEq] at h
       obtain ⟨h1, h2⟩ := h
       subst h1
       subst h2
       repeat' split
       all_goals
         first
         | rfl
         | contradiction)

theorem open_block_isSome (env : Env) (l : ledger) (res : process_return) (b : open_block) :
    (ledger_processor.open_block env l res b).isSome = true := by
  unfold ledger_processor.open_block
  dsimp only
  repeat' split
  all_goals
    first
    | rfl
    | (rename_i hcl
       refine absurd hcl (change_latest_ne_none _ _ _ _ _ ?_)
       intro hne
       exact absurd (not_not.mp (by assumption)) hne)

/-- C12: for every legacy open block, `process` returns, and its code is
`old` if the block is stored; otherwise `bad_signature` if the hint is not
`valid` and the signature does not validate for the account of the block;
otherwise `gap_source` if the source is not a stored send or state block;
otherwise `fork` if the account has a head; otherwise `unreceivable` if there
is no pending row `(account, source)`; otherwise `opened_burn_account` if the
account is the burn account; otherwise `unreceivable` if the epoch of the
pending row is not `epoch_0`; otherwise `progress`. -/
theorem legacy_open_result_code (env : Env) (l : ledger) (b : open_block)
    (v : signature_verification) :
    ∃ r l1, ledger.process env l (.open_ b) v = some (r, l1) ∧
      r.code = open_code_spec env l b v := by
  have hs := open_block_isSome env l (process_return.init v) b
  cases hp : ledger_processor.open_block env l (process_return.init v) b with
  | none => rw [hp] at hs; exact absurd hs (by decide)
  | some p =>
    obtain ⟨r, l1⟩ := p
    exact ⟨r, l1, hp, open_block_code env l (process_return.init v) b r l1 hp⟩

end nano

namespace nano

/-! ## Legacy receive and open: the state after an accepted block -/

theorem account_state_of_row (l : ledger) (a : Account) (i : account_info)
    (h : l.store.account_get a = some i) :
    (l.account_state a).rep = i.representative ∧ (l.account_state a).open_ = i.open_block ∧
      (l.account_state a).head = i.head := by
  unfold ledger.account_state
  rw [h]
  exact ⟨rfl, rfl, rfl⟩

theorem sideband_balance_after_put (s : Store) (h : Hash) (b : block) (sb : block_sideband)
    (e : epoch) :
    ((s.block_put h b sb e).blocks.get h).map (fun row => row.sideband.balance)
      = some sb.balance := by
  rw [block_put_get_map (fun row => row.sideband.balance) (fun _ _ => rfl), if_pos rfl]

theorem sideband_height_after_put (s : Store) (h : Hash) (b : block) (sb : block_sideband)
    (e : epoch) :
    ((s.block_put h b sb e).blocks.get h).map (fun row => row.sideband.height)
      = some sb.height := by
  rw [block_put_get_map (fun row => row.sideband.height) (fun _ _ => rfl), if_pos rfl]

theorem epoch_after_put (s : Store) (h : Hash) (b : block) (sb : block_sideband)
    (e : epoch) :
    ((s.block_put h b sb e).blocks.get h).map block_row.epoch = some e := by
  rw [block_put_get_map block_row.epoch (fun _ _ => rfl), if_pos rfl]

/-- C11: for a legacy receive block accepted with `progress` on the frontier
account `a` of its previous, with account row `i`, head balance `B` and pending
entry `p` under `(a, source)`, in a store where the row of `a` obeys the
dual-table discipline and the hash of the block is not zero: the pending entry
has epoch `epoch_0` and is gone afterwards, the sideband of the stored block
holds the balance `B + p.amount` (128-bit addition, the plain sum whenever that
fits 128 bits), `result.amount` is `p.amount`, the weight of the representative
of `a` has grown by `p.amount`, and the row of `a` is the hash of the block with
the representative and the open block it had before. -/
theorem legacy_receive_effects (env : Env) (l : ledger) (b : receive_block)
    (v : signature_verification) (r : process_return) (l1 : ledger)
    (i : account_info) (p : pending_info)
    (h : ledger.process env l (.receive b) v = some (r, l1)) (hc : r.code = .progress)
    (hi : l.store.account_get (l.store.frontier_get b.previous) = some i)
    (hp : l.store.pending_get
      { account := l.store.frontier_get b.previous, hash := b.source } = some p)
    (hacc : l.store.account_row_consistent (l.store.frontier_get b.previous) = true)
    (hhash : env.hash (.receive b) ≠ 0) :
    p.epoch = .epoch_0 ∧
    l1.store.pending_get { account := l.store.frontier_get b.previous, hash := b.source }
      = none ∧
    (l1.store.block_get (env.hash (.receive b))).map (fun row => row.sideband.balance)
      = some (add128 (l.account_state (l.store.frontier_get b.previous)).balance p.amount) ∧
    ((l.account_state (l.store.frontier_get b.previous)).balance + p.amount < two128 →
      (l1.store.block_get (env.hash (.receive b))).map (fun row => row.sideband.balance)
        = some ((l.account_state (l.store.frontier_get b.previous)).balance + p.amount)) ∧
    r.amount = p.amount ∧
    representation_get l1.rep_weights i.representative
      = add128 (representation_get l.rep_weights i.representative) p.amount ∧
    l1.store.account_get (l.store.frontier_get b.previous)
      = some { head := env.hash (.receive b), representative := i.representative,
               open_block := i.open_block } := by
  obtain ⟨p1, store3, hpg, hpe, _, hcl, hl1, hr⟩ :=
    receive_block_progress env l (process_return.init v) b r l1 h hc
  rw [hp] at hpg
  simp only [Option.some.injEq] at hpg
  subst hpg
  have hst := account_state_of_row l _ i hi
  have hfrm := change_latest_frame _ _ _ _ _ _ hcl
  have hbal : (l1.store.block_get (env.hash (.receive b))).map
      (fun row => row.sideband.balance)
      = some (add128 (l.account_state (l.store.frontier_get b.previous)).balance p.amount) := by
    rw [hl1]
    simp only [Store.block_get, Store.frontier_put_blocks, Store.frontier_del_blocks, hfrm.1]
    exact sideband_balance_after_put _ _ _ _ _
  refine ⟨hpe, ?_, hbal, ?_, ?_, ?_, ?_⟩
  · rw [hl1]
    have hdel := pending_del_get_none l.store
      { account := l.store.frontier_get b.previous, hash := b.source }
      (Or.inl (pending_get_epoch_0 _ _ _ hp hpe).1)
    rw [← hdel]
    apply pending_get_congr
    · simp only [Store.frontier_put_pending_v0, Store.frontier_del_pending_v0, hfrm.2.1,
        Store.block_put_pending_v0]
    · simp only [Store.frontier_put_pending_v1, Store.frontier_del_pending_v1, hfrm.2.2.1,
        Store.block_put_pending_v1]
  · intro hlt
    rw [hbal, add128_of_lt _ _ hlt]
  · rw [hr]
  · rw [hl1]
    simp only [hst.1]
    rw [representation_get_add, if_pos rfl]
  · rw [hl1]
    have hget := change_latest_account_get _ store3 _ _ _ _ hcl
      (consistent_row_upgraded l _ hacc _ (by simp) (by simp))
    rw [if_neg hhash, hst.1, hst.2.1] at hget
    rw [← hget]
    apply account_get_congr
    · simp only [Store.frontier_put_accounts_v0, Store.frontier_del_accounts_v0]
    · simp only [Store.frontier_put_accounts_v1, Store.frontier_del_accounts_v1]

theorem legacy_receive_effects_witness :
    (⟨1, 50, .epoch_0⟩ : pending_info).epoch = .epoch_0 ∧
    example_net.received_ledger.store.pending_get
      { account := example_net.receivable_ledger.store.frontier_get
          example_net.receive_2.previous,
        hash := example_net.receive_2.source } = none ∧
    (example_net.received_ledger.store.block_get
        (example_net.env.hash (.receive example_net.receive_2))).map
        (fun row => row.sideband.balance)
      = some (add128 (example_net.receivable_ledger.account_state
          (example_net.receivable_ledger.store.frontier_get
            example_net.receive_2.previous)).balance
          (⟨1, 50, .epoch_0⟩ : pending_info).amount) ∧
    ((example_net.receivable_ledger.account_state
          (example_net.receivable_ledger.store.frontier_get
            example_net.receive_2.previous)).balance
        + (⟨1, 50, .epoch_0⟩ : pending_info).amount < two128 →
      (example_net.received_ledger.store.block_get
          (example_net.env.hash (.receive example_net.receive_2))).map
          (fun row => row.sideband.balance)
        = some ((example_net.receivable_ledger.account_state
            (example_net.receivable_ledger.store.frontier_get
              example_net.receive_2.previous)).balance
            + (⟨1, 50, .epoch_0⟩ : pending_info).amount)) ∧
    (⟨.progress, 2, 50, 0, none, .valid⟩ : process_return).amount
      = (⟨1, 50, .epoch_0⟩ : pending_info).amount ∧
    representation_get example_net.received_ledger.rep_weights
        (⟨example_net.hash (.open_ example_net.open_2), 2,
          example_net.hash (.open_ example_net.open_2)⟩ : account_info).representative
      = add128 (representation_get example_net.receivable_ledger.rep_weights
          (⟨example_net.hash (.open_ example_net.open_2), 2,
            example_net.hash (.open_ example_net.open_2)⟩ : account_info).representative)
          (⟨1, 50, .epoch_0⟩ : pending_info).amount ∧
    example_net.received_ledger.store.account_get
        (example_net.receivable_ledger.store.frontier_get example_net.receive_2.previous)
      = some { head := example_net.env.hash (.receive example_net.receive_2),
               representative :=
                 (⟨example_net.hash (.open_ example_net.open_2), 2,
                   example_net.hash (.open_ example_net.open_2)⟩ : account_info).representative,
               open_block :=
                 (⟨example_net.hash (.open_ example_net.open_2), 2,
                   example_net.hash (.open_ example_net.open_2)⟩ : account_info).open_block } :=
  legacy_receive_effects example_net.env example_net.receivable_ledger example_net.receive_2
    .unknown ⟨.progress, 2, 50, 0, none, .valid⟩ example_net.received_ledger
    ⟨example_net.hash (.open_ example_net.open_2), 2,
      example_net.hash (.open_ example_net.open_2)⟩
    ⟨1, 50, .epoch_0⟩
    (by decide) (by decide) (by decide) (by decide) (by decide) (by decide)

end nano

namespace nano

theorem change_latest_new_account (s : Store) (a : Account) (old : account_state)
    (new : account_info) (e : epoch) (hold : old.head = 0) (hnew : new.head ≠ 0) :
    ledger.change_latest s a old new e
      = some ((if new.open_block = new.head then s.confirmation_height_put a 0
               else s).account_put a new e) := by
  unfold ledger.change_latest
  simp only [hold, hnew, ne_eq, not_false_eq_true, not_true_eq_false, if_true, if_false,
    true_and]

theorem account_put_table_get (s : Store) (a : Account) (new : account_info) (e : epoch) :
    (if e = .epoch_0 then (s.account_put a new e).accounts_v0
      else (s.account_put a new e).accounts_v1).get a = some new := by
  unfold Store.account_put
  by_cases he : e = .epoch_0
  · simp only [he, if_true]
    exact Map.get_put_self _ _ _
  · simp only [he, if_false]
    exact Map.get_put_self _ _ _

theorem frontier_put_get_self (s : Store) (h : Hash) (a : Account) :
    (s.frontier_put h a).frontier_get h = a := by
  unfold Store.frontier_put Store.frontier_get
  simp only [Map.get_put_self]
  rfl

theorem no_upgraded_row_of_no_head (l : ledger) (a : Account)
    (hacc : l.store.account_row_consistent a = true) (hh : (l.account_state a).head = 0) :
    l.store.accounts_v1.get a = none := by
  cases hv : l.store.accounts_v1.get a with
  | none => rfl
  | some i =>
    exfalso
    have hc := consistent_row_upgraded l a hacc l.store rfl rfl i hv
    exact hc.2.1 hh

/-- C13: for a legacy open block accepted with `progress`, with pending entry
`p` under `(account, source)`, in a store where the row of the account obeys
the dual-table discipline and the hash of the block is not zero: the pending
entry has epoch `epoch_0` and is gone afterwards; the row of the account, in
the `epoch_0` account table and as `account_get` reads it, is (hash of the
block, representative of the block, hash of the block); the frontier maps the
hash to the account; the confirmation height of the account is 0; the sideband
of the stored block has height 1 and balance `p.amount`; `result.amount` is
`p.amount`; and the weight of the representative of the block has grown by
`p.amount`. -/
theorem legacy_open_effects (env : Env) (l : ledger) (b : open_block)
    (v : signature_verification) (r : process_return) (l1 : ledger) (p : pending_info)
    (h : ledger.process env l (.open_ b) v = some (r, l1)) (hc : r.code = .progress)
    (hp : l.store.pending_get { account := b.account, hash := b.source } = some p)
    (hacc : l.store.account_row_consistent b.account = true)
    (hhash : env.hash (.open_ b) ≠ 0) :
    p.epoch = .epoch_0 ∧
    l1.store.pending_get { account := b.account, hash := b.source } = none ∧
    l1.store.accounts_v0.get b.account
      = some { head := env.hash (.open_ b), representative := b.representative,
               open_block := env.hash (.open_ b) } ∧
    l1.store.account_get b.account
      = some { head := env.hash (.open_ b), representative := b.representative,
               open_block := env.hash (.open_ b) } ∧
    l1.store.frontier_get (env.hash (.open_ b)) = b.account ∧
    l1.store.confirmation_height_get b.account = some 0 ∧
    (l1.store.block_get (env.hash (.open_ b))).map (fun row => row.sideband.height) = some 1 ∧
    (l1.store.block_get (env.hash (.open_ b))).map (fun row => row.sideband.balance)
      = some p.amount ∧
    r.amount = p.amount ∧
    representation_get l1.rep_weights b.representative
      = add128 (representation_get l.rep_weights b.representative) p.amount := by
  obtain ⟨p1, store3, hpg, hpe, hhead, hcl, hl1, hr⟩ :=
    open_block_progress env l (process_return.init v) b r l1 h hc
  rw [hp] at hpg
  simp only [Option.some.injEq] at hpg
  subst hpg
  have hfrm := change_latest_frame _ _ _ _ _ _ hcl
  have hcl2 := hcl
  rw [change_latest_new_account _ _ _ _ _ hhead hhash] at hcl2
  simp only [if_true, Option.some.injEq] at hcl2
  have hv0 : l1.store.accounts_v0.get b.account
      = some { head := env.hash (.open_ b), representative := b.representative,
               open_block := env.hash (.open_ b) } := by
    rw [hl1, ← hcl2]
    simp only [Store.frontier_put_accounts_v0]
    exact account_put_table_get _ b.account _ .epoch_0
  have hv1 : l1.store.accounts_v1.get b.account = none := by
    rw [hl1, ← hcl2]
    simp only [Store.frontier_put_accounts_v1]
    unfold Store.account_put
    simp only [if_true, Store.confirmation_height_put_accounts_v1, Store.block_put_accounts_v1,
      Store.pending_del_accounts_v1]
    exact no_upgraded_row_of_no_head l b.account hacc hhead
  refine ⟨hpe, ?_, hv0, ?_, ?_, ?_, ?_, ?_, ?_, ?_⟩
  · rw [hl1]
    have hdel := pending_del_get_none l.store { account := b.account, hash := b.source }
      (Or.inl (pending_get_epoch_0 _ _ _ hp hpe).1)
    rw [← hdel]
    apply pending_get_congr
    · simp only [Store.frontier_put_pending_v0, hfrm.2.1, Store.block_put_pending_v0]
    · simp only [Store.frontier_put_pending_v1, hfrm.2.2.1, Store.block_put_pending_v1]
  · unfold Store.account_get
    rw [hv1, hv0]
  · rw [hl1]
    exact frontier_put_get_self _ _ _
  · rw [hl1, ← hcl2]
    unfold Store.confirmation_height_get
    simp only [Store.frontier_put_confirmation_height, Store.account_put_confirmation_height]
    unfold Store.confirmation_height_put
    exact Map.get_put_self _ _ _
  · rw [hl1]
    simp only [Store.block_get, Store.frontier_put_blocks, hfrm.1]
    exact sideband_height_after_put _ _ _ _ _
  · rw [hl1]
    simp only [Store.block_get, Store.frontier_put_blocks, hfrm.1]
    exact sideband_balance_after_put _ _ _ _ _
  · rw [hr]
  · rw [hl1]
    simp only []
    rw [representation_get_add, if_pos rfl]

theorem legacy_open_effects_witness :
    example_net.pending_1.epoch = .epoch_0 ∧
    example_net.opened_ledger.store.pending_get
      { account := example_net.open_2.account, hash := example_net.open_2.source } = none ∧
    example_net.opened_ledger.store.accounts_v0.get example_net.open_2.account
      = some { head := example_net.env.hash (.open_ example_net.open_2),
               representative := example_net.open_2.representative,
               open_block := example_net.env.hash (.open_ example_net.open_2) } ∧
    example_net.opened_ledger.store.account_get example_net.open_2.account
      = some { head := example_net.env.hash (.open_ example_net.open_2),
               representative := example_net.open_2.representative,
               open_block := example_net.env.hash (.open_ example_net.open_2) } ∧
    example_net.opened_ledger.store.frontier_get
      (example_net.env.hash (.open_ example_net.open_2)) = example_net.open_2.account ∧
    example_net.opened_ledger.store.confirmation_height_get example_net.open_2.account
      = some 0 ∧
    (example_net.opened_ledger.store.block_get
        (example_net.env.hash (.open_ example_net.open_2))).map
        (fun row => row.sideband.height) = some 1 ∧
    (example_net.opened_ledger.store.block_get
        (example_net.env.hash (.open_ example_net.open_2))).map
        (fun row => row.sideband.balance) = some example_net.pending_1.amount ∧
    example_net.open_2_result.amount = example_net.pending_1.amount ∧
    representation_get example_net.opened_ledger.rep_weights example_net.open_2.representative
      = add128 (representation_get example_net.sent_ledger.rep_weights
          example_net.open_2.representative) example_net.pending_1.amount :=
  legacy_open_effects example_net.env example_net.sent_ledger example_net.open_2 .unknown
    example_net.open_2_result example_net.opened_ledger example_net.pending_1
    (by decide) (by decide) (by decide) (by decide) (by decide)

end nano

namespace nano

/-! ## Legacy change: weights, account row and sideband -/

theorem row_balance_successor (r : block_row) (succ : Hash) :
    Store.row_balance { r with sideband := { r.sideband with successor := succ } }
      = Store.row_balance r := by
  unfold Store.row_balance
  cases r.block <;> rfl

theorem block_balance_eq_map (s : Store) (h : Hash) :
    s.block_balance h = ((s.blocks.get h).map Store.row_balance).getD 0 := by
  unfold Store.block_balance Store.block_get
  cases s.blocks.get h <;> rfl

theorem state_balance_eq_map (l : ledger) (a : Account) (i : account_info)
    (h : l.store.account_get a = some i) :
    (l.account_state a).balance = ((l.store.blocks.get i.head).map Store.row_balance).getD 0 := by
  unfold ledger.account_state
  rw [h]
  unfold account_state.balance Store.block_get
  simp only
  cases l.store.blocks.get i.head <;> rfl

theorem balance_of_previous_after_put (l : ledger) (a : Account) (i : account_info)
    (hi : l.store.account_get a = some i) (h : Hash) (b : block) (sb : block_sideband)
    (e : epoch) (hsb : b.type ≠ .send ∧ b.type ≠ .state)
    (hbal : sb.balance = (l.account_state a).balance) (hne : i.head ≠ 0) :
    ledger.balance (ledger.mk (l.store.block_put h b sb e) l.rep_weights
      l.check_bootstrap_weights) i.head = (l.account_state a).balance := by
  unfold ledger.balance
  rw [if_neg hne, block_balance_eq_map,
    block_put_get_map Store.row_balance row_balance_successor]
  by_cases hx : i.head = h
  · rw [if_pos hx]
    simp only [Option.getD_some]
    rw [← hbal]
    unfold Store.row_balance
    cases b with
    | send _ => exact absurd rfl hsb.1
    | state _ => exact absurd rfl hsb.2
    | receive _ => rfl
    | open_ _ => rfl
    | change _ => rfl
  · rw [if_neg hx]
    exact (state_balance_eq_map l a i hi).symm

theorem change_weights (w : Map Account Amount) (r br : Account) (B : Amount) (x : Account)
    (hw : representation_get w r < two128) :
    representation_get (representation_add (representation_add w br B) r (sub128 0 B)) x
      = if r = br then representation_get w x
        else if x = r then sub128 (representation_get w x) B
        else if x = br then add128 (representation_get w x) B
        else representation_get w x := by
  simp only [representation_get_add]
  by_cases hrep : r = br
  · subst hrep
    simp only [if_true]
    by_cases hx : r = x
    · subst hx
      simp only [if_true]
      exact add128_sub128_cancel _ _ hw
    · simp only [hx, if_false]
  · have hrep2 : ¬ br = r := fun hk => hrep hk.symm
    simp only [hrep, hrep2, if_false]
    by_cases hx : r = x
    · subst hx
      simp only [if_true]
      exact add128_sub128_zero _ _
    · have hx2 : ¬ x = r := fun hk => hx hk.symm
      simp only [hx, hx2, if_false]
      by_cases hy : br = x
      · subst hy
        simp only [if_true]
      · have hy2 : ¬ x = br := fun hk => hy hk.symm
        simp only [hy, hy2, if_false]

/-- C14: for a legacy change block accepted with `progress` on the frontier
account `a` of its previous, with account row `i` whose head is that previous
(not zero), head balance `B` and current representative `i.representative` of
a 128-bit weight, in a store where the row of `a` obeys the dual-table
discipline and the hash of the block is not zero: every weight is as before
when the representative of the block is the current one; otherwise the weight
of the current representative is the old one minus `B`, the weight of the
representative of the block the old one plus `B` (both modulo `2 ^ 128`), and
every other weight is unchanged; the row of `a` is (hash of the block,
representative of the block, open block as before); the sideband of the stored
block holds the balance `B`; and `result.amount` is zero. -/
theorem legacy_change_effects (env : Env) (l : ledger) (b : change_block)
    (v : signature_verification) (r : process_return) (l1 : ledger) (i : account_info)
    (h : ledger.process env l (.change b) v = some (r, l1)) (hc : r.code = .progress)
    (hi : l.store.account_get (l.store.frontier_get b.previous) = some i)
    (hhead : i.head = b.previous) (hprev : b.previous ≠ 0)
    (hacc : l.store.account_row_consistent (l.store.frontier_get b.previous) = true)
    (hhash : env.hash (.change b) ≠ 0)
    (hw : representation_get l.rep_weights i.representative < two128) :
    (∀ x, representation_get l1.rep_weights x =
      if i.representative = b.representative then representation_get l.rep_weights x
      else if x = i.representative then
        sub128 (representation_get l.rep_weights x)
          (l.account_state (l.store.frontier_get b.previous)).balance
      else if x = b.representative then
        add128 (representation_get l.rep_weights x)
          (l.account_state (l.store.frontier_get b.previous)).balance
      else representation_get l.rep_weights x) ∧
    l1.store.account_get (l.store.frontier_get b.previous)
      = some { head := env.hash (.change b), representative := b.representative,
               open_block := i.open_block } ∧
    (l1.store.block_get (env.hash (.change b))).map (fun row => row.sideband.balance)
      = some (l.account_state (l.store.frontier_get b.previous)).balance ∧
    r.amount = 0 := by
  obtain ⟨store2, bal, hbal, hcl, hl1, hr⟩ :=
    change_block_progress env l (process_return.init v) b r l1 h hc
  have hst := account_state_of_row l _ i hi
  have hfrm := change_latest_frame _ _ _ _ _ _ hcl
  have hb2 := balance_of_previous_after_put l (l.store.frontier_get b.previous) i hi
    (env.hash (.change b)) (.change b)
    { type := .change, account := l.store.frontier_get b.previous, successor := 0,
      balance := (l.account_state (l.store.frontier_get b.previous)).balance,
      height := (l.account_state (l.store.frontier_get b.previous)).block_count + 1,
      timestamp := env.seconds_since_epoch } .epoch_0
    ⟨fun hk => block_type.noConfusion hk, fun hk => block_type.noConfusion hk⟩ rfl
    (by rw [hhead]; exact hprev)
  rw [hhead] at hb2
  rw [hb2] at hbal
  subst hbal
  refine ⟨?_, ?_, ?_, ?_⟩
  · intro x
    rw [hl1]
    simp only [hst.1]
    exact change_weights _ _ _ _ _ hw
  · rw [hl1]
    have hget := change_latest_account_get _ store2 _ _ _ _ hcl
      (consistent_row_upgraded l _ hacc _ (by simp) (by simp))
    rw [if_neg hhash, hst.2.1] at hget
    rw [← hget]
    apply account_get_congr
    · simp only [Store.frontier_put_accounts_v0, Store.frontier_del_accounts_v0]
    · simp only [Store.frontier_put_accounts_v1, Store.frontier_del_accounts_v1]
  · rw [hl1]
    simp only [Store.block_get, Store.frontier_put_blocks, Store.frontier_del_blocks, hfrm.1]
    exact sideband_balance_after_put _ _ _ _ _
  · rw [hr]

theorem legacy_change_effects_witness :
    (∀ x, representation_get example_net.changed_ledger.rep_weights x =
      if example_net.genesis_info.representative = example_net.change_1.representative then
        representation_get example_net.genesis_ledger.rep_weights x
      else if x = example_net.genesis_info.representative then
        sub128 (representation_get example_net.genesis_ledger.rep_weights x)
          (example_net.genesis_ledger.account_state
            (example_net.genesis_ledger.store.frontier_get
              example_net.change_1.previous)).balance
      else if x = example_net.change_1.representative then
        add128 (representation_get example_net.genesis_ledger.rep_weights x)
          (example_net.genesis_ledger.account_state
            (example_net.genesis_ledger.store.frontier_get
              example_net.change_1.previous)).balance
      else representation_get example_net.genesis_ledger.rep_weights x) ∧
    example_net.changed_ledger.store.account_get
        (example_net.genesis_ledger.store.frontier_get example_net.change_1.previous)
      = some { head := example_net.env.hash (.change example_net.change_1),
               representative := example_net.change_1.representative,
               open_block := example_net.genesis_info.open_block } ∧
    (example_net.changed_ledger.store.block_get
        (example_net.env.hash (.change example_net.change_1))).map
        (fun row => row.sideband.balance)
      = some (example_net.genesis_ledger.account_state
          (example_net.genesis_ledger.store.frontier_get
            example_net.change_1.previous)).balance ∧
    example_net.change_1_result.amount = 0 :=
  legacy_change_effects example_net.env example_net.genesis_ledger example_net.change_1
    .unknown example_net.change_1_result example_net.changed_ledger example_net.genesis_info
    (by decide) (by decide) (by decide) (by decide) (by decide) (by decide) (by decide)
    (by decide)

end nano

namespace nano

/-! ## A second block on the same previous -/

theorem change_block_progress_previous (env : Env) (l : ledger) (res : process_return)
    (b : change_block) (r : process_return) (l1 : ledger)
    (h : ledger_processor.change_block env l res b = some (r, l1)) (hc : r.code = .progress) :
    ∃ prev, l.store.block_get b.previous = some prev ∧
      valid_predecessor prev.block = true := by
  unfold ledger_processor.change_block at h
  dsimp only at h
  repeat' split at h
  all_goals
    first
    | exact Option.noConfusion h
    | (simp only [Option.some.injEq, Prod.mk.injEq] at h
       obtain ⟨h1, h2⟩ := h
       subst h1
       subst h2
       first
       | (exfalso; simp at hc; done)
       | exact ⟨_, by assumption, not_not.mp (by assumption)⟩)

theorem block_exists_type_congr (s t : Store) (h : s.blocks = t.blocks) (ty : block_type)
    (x : Hash) : s.block_exists_type ty x = t.block_exists_type ty x := by
  unfold Store.block_exists_type Store.block_get
  rw [h]

theorem frontier_moved_get (s : Store) (p h : Hash) (a : Account) (hne : h ≠ p) :
    ((s.frontier_del p).frontier_put h a).frontier_get p = 0 := by
  unfold Store.frontier_put Store.frontier_del Store.frontier_get
  simp only [Map.get_put, Map.get_del, if_neg hne, if_true]
  rfl

theorem previous_after_put (s : Store) (h : Hash) (b : block) (sb : block_sideband) (e : epoch)
    (p : Hash) (prev : block_row) (hne : h ≠ p) (hp : s.block_get p = some prev) :
    ∃ row, (s.block_put h b sb e).block_get p = some row ∧ row.block = prev.block := by
  have hm := block_put_get_map block_row.block (fun _ _ => rfl) s h b sb e p
  rw [if_neg (fun hk => hne hk.symm)] at hm
  unfold Store.block_get at hp ⊢
  rw [hp] at hm
  cases hr : (s.block_put h b sb e).blocks.get p with
  | none => rw [hr] at hm; exact Option.noConfusion hm
  | some row =>
    rw [hr] at hm
    simp only [Option.map_some', Option.some.injEq] at hm
    exact ⟨row, rfl, hm⟩

/-- C15: when a legacy change block `c1` was accepted with `progress` (its
hash differs from its previous), a legacy change block `c2` with the same
previous and another hash that was not stored before, and a legacy send block
`s2` with the same previous that was not stored before, are each answered with
`fork`, and the ledger stays as `c1` left it. -/
theorem second_block_on_previous_forks (env : Env) (l : ledger) (c1 : change_block)
    (v1 : signature_verification) (r1 : process_return) (l1 : ledger)
    (c2 : change_block) (s2 : send_block) (v2 v3 : signature_verification)
    (h : ledger.process env l (.change c1) v1 = some (r1, l1)) (hc : r1.code = .progress)
    (hself : env.hash (.change c1) ≠ c1.previous)
    (hp2 : c2.previous = c1.previous)
    (hne2 : env.hash (.change c2) ≠ env.hash (.change c1))
    (hnew2 : l.store.block_exists_type .change (env.hash (.change c2)) = false)
    (hp3 : s2.previous = c1.previous)
    (hnew3 : l.store.block_exists_type .send (env.hash (.send s2)) = false) :
    (∃ r2, ledger.process env l1 (.change c2) v2 = some (r2, l1) ∧ r2.code = .fork) ∧
    (∃ r3, ledger.process env l1 (.send s2) v3 = some (r3, l1) ∧ r3.code = .fork) := by
  obtain ⟨store2, bal, _, hcl, hl1, _⟩ :=
    change_block_progress env l (process_return.init v1) c1 r1 l1 h hc
  obtain ⟨prev, hprev, hvalid⟩ :=
    change_block_progress_previous env l (process_return.init v1) c1 r1 l1 h hc
  have hfrm := change_latest_frame _ _ _ _ _ _ hcl
  have hblocks : l1.store.blocks
      = (l.store.block_put (env.hash (.change c1)) (.change c1)
          { type := .change, account := l.store.frontier_get c1.previous, successor := 0,
            balance := (l.account_state (l.store.frontier_get c1.previous)).balance,
            height := (l.account_state (l.store.frontier_get c1.previous)).block_count + 1,
            timestamp := env.seconds_since_epoch } .epoch_0).blocks := by
    rw [hl1]
    simp only [Store.frontier_put_blocks, Store.frontier_del_blocks, hfrm.1]
  have hfr : l1.store.frontier_get c1.previous = 0 := by
    rw [hl1]
    exact frontier_moved_get _ _ _ _ hself
  obtain ⟨row, hrow, hrowb⟩ := previous_after_put l.store (env.hash (.change c1)) (.change c1)
    { type := .change, account := l.store.frontier_get c1.previous, successor := 0,
      balance := (l.account_state (l.store.frontier_get c1.previous)).balance,
      height := (l.account_state (l.store.frontier_get c1.previous)).block_count + 1,
      timestamp := env.seconds_since_epoch } .epoch_0 c1.previous prev hself hprev
  have hrow1 : l1.store.block_get c1.previous = some row := by
    unfold Store.block_get at hrow ⊢
    rw [hblocks]
    exact hrow
  have hvalid1 : valid_predecessor row.block = true := by rw [hrowb]; exact hvalid
  constructor
  · have hex : l1.store.block_exists_type .change (env.hash (.change c2)) = false := by
      rw [block_exists_type_congr _ _ hblocks, block_put_exists_type, if_neg hne2]
      exact hnew2
    refine ⟨{ process_return.init v2 with code := .fork }, ?_, rfl⟩
    unfold ledger.process
    simp only
    unfold ledger_processor.change_block
    simp only [hex, hp2, hrow1, hvalid1, hfr, Bool.false_eq_true, if_false, if_true,
      not_true_eq_false]
  · have hex : l1.store.block_exists_type .send (env.hash (.send s2)) = false := by
      rw [block_exists_type_congr _ _ hblocks, block_put_exists_type]
      by_cases hk : env.hash (.send s2) = env.hash (.change c1)
      · rw [if_pos hk]
        rfl
      · rw [if_neg hk]
        exact hnew3
    refine ⟨{ process_return.init v3 with code := .fork }, ?_, rfl⟩
    unfold ledger.process
    simp only
    unfold ledger_processor.send_block
    simp only [hex, hp3, hrow1, hvalid1, hfr, Bool.false_eq_true, if_false, if_true,
      not_true_eq_false]

theorem second_block_on_previous_forks_witness :
    (∃ r2, ledger.process example_net.env example_net.changed_ledger
        (.change example_net.change_2) .unknown = some (r2, example_net.changed_ledger) ∧
      r2.code = .fork) ∧
    (∃ r3, ledger.process example_net.env example_net.changed_ledger
        (.send example_net.send_1) .unknown = some (r3, example_net.changed_ledger) ∧
      r3.code = .fork) :=
  second_block_on_previous_forks example_net.env example_net.genesis_ledger
    example_net.change_1 .unknown example_net.change_1_result example_net.changed_ledger
    example_net.change_2 example_net.send_1 .unknown .unknown
    (by decide) (by decide) (by decide) (by decide) (by decide) (by decide) (by decide)
    (by decide)

end nano

namespace nano

/-! ## State blocks: the routines return -/

theorem state_block_apply_isSome (env : Env) (l : ledger) (res : process_return)
    (b : state_block) (st : account_state) (e : epoch) (is_send : Bool)
    (hrow : st.head ≠ 0 → st.row.isSome = true) :
    (ledger_processor.state_block_apply env l res b st e is_send).isSome = true := by
  have hself := block_put_get_self l.store (env.hash (.state b)) (.state b)
    { type := .state, account := b.account, successor := 0, balance := 0,
      height := st.block_count + 1, timestamp := env.seconds_since_epoch } e
  unfold ledger_processor.state_block_apply
  dsimp only
  split
  · rename_i hnone
    rw [hnone] at hself
    exact Option.noConfusion hself
  · split
    · rename_i hcl
      exact absurd hcl (change_latest_ne_none _ _ _ _ _ hrow)
    · rfl

theorem state_block_receive_isSome (env : Env) (l : ledger) (res : process_return)
    (b : state_block) (st : account_state) (e : epoch) (is_send : Bool)
    (hrow : st.head ≠ 0 → st.row.isSome = true) :
    (ledger_processor.state_block_receive env l res b st e is_send).isSome = true := by
  unfold ledger_processor.state_block_receive
  repeat' split
  all_goals
    first
    | rfl
    | exact state_block_apply_isSome _ _ _ _ _ _ _ hrow

theorem state_block_impl_isSome (env : Env) (l : ledger) (res : process_return)
    (b : state_block) (hstored : l.store.head_stored b.account = true) :
    (ledger_processor.state_block_impl env l res b).isSome = true := by
  have hrow := account_state_row_of_head_stored l b.account hstored
  unfold ledger_processor.state_block_impl
  dsimp only
  repeat' split
  all_goals
    first
    | rfl
    | exact state_block_receive_isSome _ _ _ _ _ _ _ hrow
    | (exfalso
       rename_i hh _ hnone
       have := hrow hh
       unfold account_state.epoch at hnone
       cases hr : (l.account_state b.account).row with
       | none => rw [hr] at this; exact Bool.noConfusion this
       | some row => rw [hr] at hnone; exact Option.noConfusion hnone)

theorem epoch_block_impl_isSome (env : Env) (l : ledger) (res : process_return)
    (b : state_block) (hstored : l.store.head_stored b.account = true) :
    (ledger_processor.epoch_block_impl env l res b).isSome = true := by
  have hrow := account_state_row_of_head_stored l b.account hstored
  have hep : (l.account_state b.account).head ≠ 0 →
      (l.account_state b.account).epoch ≠ none := by
    intro hh hnone
    have := hrow hh
    unfold account_state.epoch at hnone
    cases hr : (l.account_state b.account).row with
    | none => rw [hr] at this; exact Bool.noConfusion this
    | some row => rw [hr] at hnone; exact Option.noConfusion hnone
  unfold ledger_processor.epoch_block_impl
  dsimp only
  repeat' split
  all_goals
    first
    | rfl
    | (rename_i hcl
       exact absurd hcl (change_latest_ne_none _ _ _ _ _ hrow))
    | (exfalso
       rename_i hnone
       by_cases hh : (l.account_state b.account).head = 0
       · rw [if_pos hh] at hnone
         exact Option.noConfusion hnone
       · rw [if_neg hh] at hnone
         exact hep hh hnone)

/-! ## State blocks: the position checks -/

theorem state_block_receive_codes (env : Env) (l : ledger) (res : process_return)
    (b : state_block) (st : account_state) (e : epoch) (is_send : Bool)
    (r : process_return) (l1 : ledger)
    (h : ledger_processor.state_block_receive env l res b st e is_send = some (r, l1)) :
    r.code = .gap_source ∨ r.code = .unreceivable ∨ r.code = .balance_mismatch ∨
      r.code = .progress := by
  unfold ledger_processor.state_block_receive at h
  repeat' split at h
  all_goals
    first
    | exact Or.inr (Or.inr (Or.inr (state_block_apply_code _ _ _ _ _ _ _ _ _ h)))
    | (cases h
       first
       | exact Or.inl rfl
       | exact Or.inr (Or.inl rfl)
       | exact Or.inr (Or.inr (Or.inl rfl)))

theorem state_block_impl_position (env : Env) (l : ledger) (res : process_return)
    (b : state_block) (r : process_return) (l1 : ledger)
    (h : ledger_processor.state_block_impl env l res b = some (r, l1)) :
    (∀ c, state_position_spec env l b res.verified = some c → r.code = c) ∧
    (state_position_spec env l b res.verified = none →
      r.code = .gap_source ∨ r.code = .unreceivable ∨ r.code = .balance_mismatch ∨
        r.code = .progress) := by
  unfold ledger_processor.state_block_impl at h
  dsimp only at h
  unfold state_position_spec
  rw [← account_state_head_eq_latest]
  by_cases c1 : l.store.block_exists_type .state (env.hash (.state b)) = true
  · simp only [c1, if_true] at h ⊢
    cases h
    exact ⟨fun c hs => by cases hs; rfl, fun hs => by cases hs⟩
  simp only [c1, Bool.false_eq_true, if_false] at h ⊢
  by_cases c2 : res.verified ≠ .valid ∧
      env.validate_message b.account (env.hash (.state b)) b.signature = true
  · rw [if_pos c2] at h
    rw [if_pos c2]
    cases h
    exact ⟨fun c hs => by cases hs; rfl, fun hs => by cases hs⟩
  rw [if_neg c2] at h
  rw [if_neg c2]
  by_cases c3 : b.account = 0
  · simp only [c3, if_true] at h ⊢
    cases h
    exact ⟨fun c hs => by cases hs; rfl, fun hs => by cases hs⟩
  simp only [c3, if_false] at h ⊢
  by_cases c4 : (l.account_state b.account).head = 0
  · simp only [c4, ne_eq, not_true_eq_false, if_false] at h ⊢
    by_cases c8 : b.previous = 0
    · simp only [c8, not_true_eq_false, if_false] at h ⊢
      by_cases c9 : b.link = 0
      · simp only [c9, if_true] at h ⊢
        cases h
        exact ⟨fun c hs => by cases hs; rfl, fun hs => by cases hs⟩
      · simp only [c9, if_false] at h ⊢
        exact ⟨fun c hs => Option.noConfusion hs,
          fun _ => state_block_receive_codes _ _ _ _ _ _ _ _ _ h⟩
    · simp only [c8, not_false_eq_true, if_true] at h ⊢
      cases h
      exact ⟨fun c hs => by cases hs; rfl, fun hs => by cases hs⟩
  · simp only [c4, ne_eq, not_false_eq_true, if_true] at h ⊢
    cases hep : (l.account_state b.account).epoch with
    | none =>
      rw [hep] at h
      exact Option.noConfusion h
    | some e =>
      rw [hep] at h
      simp only at h
      by_cases c5 : b.previous = 0
      · simp only [c5, if_true] at h ⊢
        cases h
        exact ⟨fun c hs => by cases hs; rfl, fun hs => by cases hs⟩
      simp only [c5, if_false] at h ⊢
      by_cases c6 : l.store.block_exists b.previous = true
      · simp only [c6, not_true_eq_false, if_false] at h ⊢
        by_cases c7 : b.previous = (l.account_state b.account).head
        · simp only [c7, not_true_eq_false, if_false] at h ⊢
          exact ⟨fun c hs => Option.noConfusion hs,
            fun _ => state_block_receive_codes _ _ _ _ _ _ _ _ _ h⟩
        · simp only [c7, not_false_eq_true, if_true] at h ⊢
          cases h
          exact ⟨fun c hs => by cases hs; rfl, fun hs => by cases hs⟩
      · simp only [c6, not_false_eq_true, if_true] at h ⊢
        cases h
        exact ⟨fun c hs => by cases hs; rfl, fun hs => by cases hs⟩

theorem state_block_previous_missing_code (env : Env) (l : ledger) (v : signature_verification)
    (b : state_block) (hm : state_previous_missing env l b = true) :
    ∃ r, ledger.process env l (.state b) v = some (r, l) ∧
      r.code = if v = .unknown ∧
          env.validate_message b.account (env.hash (.state b)) b.signature = true ∧
          env.validate_message (ledger.signer env b.link) (env.hash (.state b)) b.signature
            = true
        then .bad_signature else .gap_previous := by
  unfold state_previous_missing at hm
  simp only [Bool.and_eq_true, decide_eq_true_eq, Bool.not_eq_true', ne_eq] at hm
  obtain ⟨⟨hl, h0⟩, hx⟩ := hm
  have hcode : (ledger_processor.state_block_prev env l (process_return.init v) b).1.code
      = if v = .unknown ∧
          env.validate_message b.account (env.hash (.state b)) b.signature = true ∧
          env.validate_message (ledger.signer env b.link) (env.hash (.state b)) b.signature
            = true
        then .bad_signature else .gap_previous := by
    unfold ledger_processor.state_block_prev
    simp only [h0, hx, ne_eq, not_false_eq_true, if_true, Bool.false_eq_true, if_false]
    have hv : (process_return.init v).verified = v := rfl
    rw [hv]
    by_cases h1 : v = .unknown
    · by_cases h2 : env.validate_message b.account (env.hash (.state b)) b.signature = true
      · by_cases h3 : env.validate_message (ledger.signer env b.link) (env.hash (.state b))
            b.signature = true
        · simp only [h1, h2, h3, if_true, and_self]
        · simp only [h1, h2, h3, if_true, if_false, and_false, and_true, Bool.false_eq_true]
      · simp only [h1, h2, if_true, if_false, and_false, false_and, and_true,
          Bool.false_eq_true]
    · simp only [h1, if_false, false_and]
  have hne : (ledger_processor.state_block_prev env l (process_return.init v) b).1.code
      ≠ .progress := by
    rw [hcode]
    split <;> exact fun hk => process_result.noConfusion hk
  refine ⟨(ledger_processor.state_block_prev env l (process_return.init v) b).1, ?_, hcode⟩
  unfold ledger.process
  simp only
  unfold ledger_processor.state_block
  rw [if_pos hl]
  simp only [hne, if_false]

/-- C16 (counterexample): in the genesis ledger, a state block of the genesis
account with the epoch link, a previous that is not zero and not stored, and
balance 5, signed by the epoch signer. Its balance is not the balance of its
previous, so it is not an epoch block; it is not stored and its signature does
not validate for its account, so the order of checks of section 4.1.5 gives
`bad_signature`; `process` returns `gap_previous`. -/
theorem epoch_link_missing_previous_skips_checks :
    ledger_processor.is_epoch_block example_net.env example_net.genesis_ledger .unknown
        example_net.orphan_epoch_link_block = false ∧
    state_position_spec example_net.env example_net.genesis_ledger
        example_net.orphan_epoch_link_block .unknown = some .bad_signature ∧
    example_net.code_of example_net.genesis_ledger
        (.state example_net.orphan_epoch_link_block) .unknown = some .gap_previous := by
  decide

/-- C16: for a state block that is not an epoch block, on an account whose
head (if any) is stored, `process` returns. When the link is an epoch link and
the previous is neither zero nor stored, the code is `bad_signature` if the hint
is `unknown` and the signature validates neither for the account nor for the
epoch signer, and `gap_previous` otherwise. In every other case the code is
`old` if the block is stored; otherwise `bad_signature` if the hint is not
`valid` and the signature does not validate for the account; otherwise
`opened_burn_account` if the account is zero; otherwise, for an account with a
head, `fork` if the previous is zero, `gap_previous` if it is not stored, `fork`
if it is not the head; for an account without a head, `gap_previous` if the
previous is not zero, `gap_source` if the link is zero; and when none of these
applies the code is one of the receive and representative-change checks
(`gap_source`, `unreceivable`, `balance_mismatch`) or `progress`. -/
theorem state_block_position_checks (env : Env) (l : ledger) (b : state_block)
    (v : signature_verification)
    (hne : ledger_processor.is_epoch_block env l v b = false)
    (hstored : l.store.head_stored b.account = true) :
    ∃ r l1, ledger.process env l (.state b) v = some (r, l1) ∧
      (state_previous_missing env l b = true →
        l1 = l ∧
        r.code = if v = .unknown ∧
            env.validate_message b.account (env.hash (.state b)) b.signature = true ∧
            env.validate_message (ledger.signer env b.link) (env.hash (.state b)) b.signature
              = true
          then .bad_signature else .gap_previous) ∧
      (state_previous_missing env l b = false →
        (∀ c, state_position_spec env l b v = some c → r.code = c) ∧
        (state_position_spec env l b v = none →
          r.code = .gap_source ∨ r.code = .unreceivable ∨ r.code = .balance_mismatch ∨
            r.code = .progress)) := by
  by_cases hm : state_previous_missing env l b = true
  · obtain ⟨r, hr, hcode⟩ := state_block_previous_missing_code env l v b hm
    exact ⟨r, l, hr, fun _ => ⟨rfl, hcode⟩, fun hk => by rw [hm] at hk; exact Bool.noConfusion hk⟩
  · have hreach : ledger.is_epoch_link env b.link = false ∨ b.previous = 0 ∨
        l.store.block_exists b.previous = true := by
      unfold state_previous_missing at hm
      by_cases h1 : ledger.is_epoch_link env b.link = true
      · by_cases h2 : b.previous = 0
        · exact Or.inr (Or.inl h2)
        · by_cases h3 : l.store.block_exists b.previous = true
          · exact Or.inr (Or.inr h3)
          · exfalso
            apply hm
            simp only [h1, h2, h3, ne_eq, not_false_eq_true, decide_True, Bool.and_self,
              Bool.not_false]
      · left
        simpa using h1
    have heq := state_block_eq_impl env l v b hne hreach
    have hs := state_block_impl_isSome env l (process_return.init v) b hstored
    cases hp : ledger_processor.state_block_impl env l (process_return.init v) b with
    | none => rw [hp] at hs; exact Bool.noConfusion hs
    | some p =>
      obtain ⟨r, l1⟩ := p
      refine ⟨r, l1, by rw [heq, hp], fun hk => absurd hk hm, fun _ => ?_⟩
      exact state_block_impl_position env l (process_return.init v) b r l1 hp

theorem state_block_position_checks_witness :
    ∃ r l1, ledger.process example_net.env example_net.genesis_ledger
        (.state example_net.to_zero_rep) .unknown = some (r, l1) ∧
      (state_previous_missing example_net.env example_net.genesis_ledger
          example_net.to_zero_rep = true →
        l1 = example_net.genesis_ledger ∧
        r.code = if signature_verification.unknown = .unknown ∧
            example_net.env.validate_message example_net.to_zero_rep.account
              (example_net.env.hash (.state example_net.to_zero_rep))
              example_net.to_zero_rep.signature = true ∧
            example_net.env.validate_message
              (ledger.signer example_net.env example_net.to_zero_rep.link)
              (example_net.env.hash (.state example_net.to_zero_rep))
              example_net.to_zero_rep.signature = true
          then .bad_signature else .gap_previous) ∧
      (state_previous_missing example_net.env example_net.genesis_ledger
          example_net.to_zero_rep = false →
        (∀ c, state_position_spec example_net.env example_net.genesis_ledger
            example_net.to_zero_rep .unknown = some c → r.code = c) ∧
        (state_position_spec example_net.env example_net.genesis_ledger
            example_net.to_zero_rep .unknown = none →
          r.code = .gap_source ∨ r.code = .unreceivable ∨ r.code = .balance_mismatch ∨
            r.code = .progress)) :=
  state_block_position_checks example_net.env example_net.genesis_ledger
    example_net.to_zero_rep .unknown (by decide) (by decide)

end nano

namespace nano

/-! ## State blocks: the receive and representative-change checks -/

theorem state_position_none (env : Env) (l : ledger) (b : state_block)
    (v : signature_verification) (hpos : state_position_spec env l b v = none) :
    l.store.block_exists_type .state (env.hash (.state b)) = false ∧
    ¬ (v ≠ .valid ∧ env.validate_message b.account (env.hash (.state b)) b.signature = true) ∧
    b.account ≠ 0 ∧
    (((l.account_state b.account).head ≠ 0 ∧ b.previous ≠ 0 ∧
        l.store.block_exists b.previous = true ∧
        b.previous = (l.account_state b.account).head) ∨
     ((l.account_state b.account).head = 0 ∧ b.previous = 0 ∧ b.link ≠ 0)) := by
  unfold state_position_spec at hpos
  rw [← account_state_head_eq_latest] at hpos
  repeat' split at hpos
  all_goals
    first
    | exact Option.noConfusion hpos
    | exact ⟨by simpa using (by assumption : ¬ _ = true), by assumption, by assumption,
        Or.inl ⟨by assumption, by assumption, not_not.mp (by assumption),
          not_not.mp (by assumption)⟩⟩
    | exact ⟨by simpa using (by assumption : ¬ _ = true), by assumption, by assumption,
        Or.inr ⟨not_not.mp (by assumption), not_not.mp (by assumption), by assumption⟩⟩

theorem position_none_not_missing (env : Env) (l : ledger) (b : state_block)
    (v : signature_verification) (hpos : state_position_spec env l b v = none) :
    ledger.is_epoch_link env b.link = false ∨ b.previous = 0 ∨
      l.store.block_exists b.previous = true := by
  obtain ⟨_, _, _, hcase⟩ := state_position_none env l b v hpos
  rcases hcase with ⟨_, _, hx, _⟩ | ⟨_, h0, _⟩
  · exact Or.inr (Or.inr hx)
  · exact Or.inr (Or.inl h0)

theorem account_balance_eq (l : ledger) (a : Account) :
    l.account_balance a
      = if (l.account_state a).head ≠ 0 then (l.account_state a).balance else 0 := rfl

theorem state_block_impl_not_send (env : Env) (l : ledger) (res : process_return)
    (b : state_block) (hpos : state_position_spec env l b res.verified = none)
    (hstored : l.store.head_stored b.account = true)
    (hty : b.balance < two128) (hge : l.account_balance b.account ≤ b.balance) :
    ∃ cur, l.current_epoch b.account = some cur ∧
      ledger_processor.state_block_impl env l res b
        = ledger_processor.state_block_receive env l
            { res with verified := .valid, amount := b.balance - l.account_balance b.account }
            b (l.account_state b.account) cur false := by
  obtain ⟨c1, c2, c3, hcase⟩ := state_position_none env l b res.verified hpos
  have hrow := account_state_row_of_head_stored l b.account hstored
  unfold ledger_processor.state_block_impl
  dsimp only
  rw [if_neg (by rw [c1]; exact Bool.noConfusion), if_neg c2, if_neg c3]
  rw [account_balance_eq] at hge ⊢
  unfold ledger.current_epoch
  rcases hcase with ⟨hh, hp0, hx, hph⟩ | ⟨hh, hp0, hl⟩
  · rw [if_pos hh] at hge ⊢
    rw [if_pos hh, if_neg hh]
    have hsome := hrow hh
    cases hr : (l.account_state b.account).row with
    | none => rw [hr] at hsome; exact Bool.noConfusion hsome
    | some row =>
      have hep : (l.account_state b.account).epoch = some row.epoch := by
        unfold account_state.epoch
        rw [hr]
        rfl
      refine ⟨row.epoch, hep, ?_⟩
      rw [hep]
      simp only
      rw [if_neg hp0, if_neg (not_not.mpr hx), if_neg (not_not.mpr hph)]
      have hns : decide (b.balance < (l.account_state b.account).balance) = false := by
        rw [decide_eq_false_iff_not]
        exact Nat.not_lt.mpr hge
      rw [hns]
      simp only [Bool.false_eq_true, if_false]
      rw [sub128_of_le _ _ hge hty]
  · have hh2 : ¬ (l.account_state b.account).head ≠ 0 := not_not.mpr hh
    rw [if_neg hh2, if_pos hh]
    refine ⟨.epoch_0, rfl, ?_⟩
    rw [if_neg hh2, if_neg (not_not.mpr hp0), if_neg hl]
    rfl

theorem change_latest_table_get (s s1 : Store) (a : Account) (old : account_state)
    (new : account_info) (e : epoch) (h : ledger.change_latest s a old new e = some s1)
    (hnew : new.head ≠ 0) :
    (if e = .epoch_0 then s1.accounts_v0 else s1.accounts_v1).get a = some new := by
  unfold ledger.change_latest at h
  rw [if_pos hnew] at h
  dsimp only at h
  repeat' split at h
  all_goals
    first
    | exact Option.noConfusion h
    | (simp only [Option.some.injEq] at h
       rw [← h]
       exact account_put_table_get _ _ _ _)

theorem state_block_apply_stored (env : Env) (l : ledger) (res : process_return)
    (b : state_block) (st : account_state) (e : epoch) (is_send : Bool)
    (r : process_return) (l1 : ledger)
    (h : ledger_processor.state_block_apply env l res b st e is_send = some (r, l1))
    (hhash : env.hash (.state b) ≠ 0) :
    (l1.store.block_get (env.hash (.state b))).map block_row.epoch = some e ∧
    (if e = .epoch_0 then l1.store.accounts_v0 else l1.store.accounts_v1).get b.account
      = some { head := env.hash (.state b), representative := b.representative,
               open_block := if st.open_ = 0 then env.hash (.state b) else st.open_ } := by
  obtain ⟨store3, hcl, hl1, _⟩ := state_block_apply_shape env l res b st e is_send r l1 h
  have hfrm := change_latest_frame _ _ _ _ _ _ hcl
  have htab := change_latest_table_get _ _ _ _ _ _ hcl hhash
  have hblocks : l1.store.blocks
      = (l.store.block_put (env.hash (.state b)) (.state b)
          { type := .state, account := b.account, successor := 0, balance := 0,
            height := st.block_count + 1, timestamp := env.seconds_since_epoch } e).blocks := by
    rw [hl1]
    simp only
    have h3 : (if store3.frontier_get st.head ≠ 0 then store3.frontier_del st.head
        else store3).blocks = store3.blocks := by
      split
      · rfl
      · rfl
    rw [h3, hfrm.1]
    cases is_send
    · by_cases hl : b.link = 0
      · simp only [hl, Bool.false_eq_true, if_false, ne_eq, not_true_eq_false]
      · simp only [hl, Bool.false_eq_true, if_false, ne_eq, not_false_eq_true, if_true,
          Store.pending_del_blocks]
    · simp only [if_true, Store.pending_put_blocks]
  constructor
  · unfold Store.block_get
    rw [hblocks]
    exact epoch_after_put _ _ _ _ _
  · rw [hl1]
    simp only
    have h0 : (if store3.frontier_get st.head ≠ 0 then store3.frontier_del st.head
        else store3).accounts_v0 = store3.accounts_v0 := by
      split
      · rfl
      · rfl
    have h1 : (if store3.frontier_get st.head ≠ 0 then store3.frontier_del st.head
        else store3).accounts_v1 = store3.accounts_v1 := by
      split
      · rfl
      · rfl
    rw [h0, h1]
    exact htab

theorem state_block_receive_not_send (env : Env) (l : ledger) (res : process_return)
    (b : state_block) (st : account_state) (e : epoch)
    (hrow : st.head ≠ 0 → st.row.isSome = true)
    (hamt : res.amount = b.balance - l.account_balance b.account)
    (hge : l.account_balance b.account ≤ b.balance) :
    ∃ r l1, ledger_processor.state_block_receive env l res b st e false = some (r, l1) ∧
      r.code = state_receive_spec l b ∧
      (r.code = .progress →
        (b.link ≠ 0 → ∃ p, l.store.pending_get { account := b.account, hash := b.link } = some p ∧
          ledger_processor.state_block_apply env l res b st (e.max p.epoch) false
            = some (r, l1)) ∧
        (b.link = 0 → ledger_processor.state_block_apply env l res b st e false
            = some (r, l1))) := by
  have hap : ∀ e1, ∃ r l1,
      ledger_processor.state_block_apply env l res b st e1 false = some (r, l1) ∧
        r.code = .progress := by
    intro e1
    have hs := state_block_apply_isSome env l res b st e1 false hrow
    cases hp : ledger_processor.state_block_apply env l res b st e1 false with
    | none => rw [hp] at hs; exact Bool.noConfusion hs
    | some q =>
      obtain ⟨r, l1⟩ := q
      exact ⟨r, l1, rfl, state_block_apply_code _ _ _ _ _ _ _ _ _ hp⟩
  unfold ledger_processor.state_block_receive state_receive_spec
  simp only [Bool.false_eq_true, if_false]
  by_cases hl : b.link = 0
  · simp only [hl, ne_eq, not_true_eq_false, if_false]
    by_cases ha : res.amount = 0
    · obtain ⟨r, l1, hr, hcode⟩ := hap e
      have hbal : b.balance = l.account_balance b.account := by
        rw [hamt] at ha
        exact Nat.le_antisymm (Nat.sub_eq_zero_iff_le.mp ha) hge
      rw [if_neg (not_not.mpr ha), if_pos hbal]
      exact ⟨r, l1, hr, hcode, fun _ => ⟨fun hk => hk.elim, fun _ => hr⟩⟩
    · have hbal : ¬ b.balance = l.account_balance b.account := by
        intro hk
        apply ha
        rw [hamt, hk, Nat.sub_self]
      rw [if_pos ha, if_neg hbal]
      exact ⟨_, l, rfl, rfl, fun hk => process_result.noConfusion hk⟩
  · simp only [hl, ne_eq, not_false_eq_true, if_true]
    by_cases hs : l.store.source_exists b.link = true
    · rw [if_neg (not_not.mpr hs), if_neg (not_not.mpr hs)]
      cases hp : l.store.pending_get { account := b.account, hash := b.link } with
      | none => exact ⟨_, l, rfl, rfl, fun hk => process_result.noConfusion hk⟩
      | some p =>
        simp only
        by_cases ha : res.amount = p.amount
        · obtain ⟨r, l1, hr, hcode⟩ := hap (e.max p.epoch)
          rw [if_neg (not_not.mpr ha), if_neg (not_not.mpr (by rw [← hamt]; exact ha))]
          exact ⟨r, l1, hr, hcode, fun _ => ⟨fun _ => ⟨p, rfl, hr⟩, fun hk => hk.elim⟩⟩
        · rw [if_pos ha, if_pos (by rw [← hamt]; exact ha)]
          exact ⟨_, l, rfl, rfl, fun hk => process_result.noConfusion hk⟩
    · rw [if_pos hs, if_pos hs]
      exact ⟨_, l, rfl, rfl, fun hk => process_result.noConfusion hk⟩

/-- C17: for a state block that is not an epoch block, passes the position
checks, has a 128-bit balance not below the head balance `B` of its account
(zero for a new account) and a non-zero hash, on an account whose head (if
any) is stored: `process` returns. With a non-zero link the code is
`gap_source` when the link is not a stored send or state block, `unreceivable`
when there is no pending row `(account, link)`, `balance_mismatch` when the
pending amount is not `balance - B`, and otherwise `progress`, and then the
block is stored with the epoch `max (current epoch of the account, epoch of the
pending row)` and the account row, with the hash of the block as head, is in
the account table of that epoch, whatever the epoch of the pending row. With a
zero link the code is `progress` when the balance is `B` and `balance_mismatch`
otherwise. -/
theorem state_receive_checks (env : Env) (l : ledger) (b : state_block)
    (v : signature_verification)
    (hne : ledger_processor.is_epoch_block env l v b = false)
    (hpos : state_position_spec env l b v = none)
    (hstored : l.store.head_stored b.account = true)
    (hty : b.balance < two128)
    (hge : l.account_balance b.account ≤ b.balance)
    (hhash : env.hash (.state b) ≠ 0) :
    ∃ r l1 cur, ledger.process env l (.state b) v = some (r, l1) ∧
      l.current_epoch b.account = some cur ∧
      r.code = state_receive_spec l b ∧
      (r.code = .progress → b.link ≠ 0 →
        ∃ p, l.store.pending_get { account := b.account, hash := b.link } = some p ∧
          (l1.store.block_get (env.hash (.state b))).map block_row.epoch
            = some (cur.max p.epoch) ∧
          ((if cur.max p.epoch = .epoch_0 then l1.store.accounts_v0
            else l1.store.accounts_v1).get b.account).map account_info.head
            = some (env.hash (.state b))) := by
  have heq := state_block_eq_impl env l v b hne (position_none_not_missing env l b v hpos)
  obtain ⟨cur, hcur, himpl⟩ :=
    state_block_impl_not_send env l (process_return.init v) b hpos hstored hty hge
  obtain ⟨r, l1, hr, hcode, hprog⟩ := state_block_receive_not_send env l
    { process_return.init v with verified := .valid,
                                 amount := b.balance - l.account_balance b.account }
    b (l.account_state b.account) cur
    (account_state_row_of_head_stored l b.account hstored) rfl hge
  refine ⟨r, l1, cur, by rw [heq, himpl, hr], hcur, hcode, ?_⟩
  intro hp hl
  obtain ⟨p, hpg, hap⟩ := (hprog hp).1 hl
  have hst := state_block_apply_stored env l _ b _ _ false r l1 hap hhash
  refine ⟨p, hpg, hst.1, ?_⟩
  rw [hst.2]
  rfl

theorem state_receive_checks_witness :
    ∃ r l1 cur, ledger.process example_net.env example_net.state_sent_ledger
        (.state example_net.state_open_3) .unknown = some (r, l1) ∧
      example_net.state_sent_ledger.current_epoch example_net.state_open_3.account
        = some cur ∧
      r.code = state_receive_spec example_net.state_sent_ledger example_net.state_open_3 ∧
      (r.code = .progress → example_net.state_open_3.link ≠ 0 →
        ∃ p, example_net.state_sent_ledger.store.pending_get
            { account := example_net.state_open_3.account,
              hash := example_net.state_open_3.link } = some p ∧
          (l1.store.block_get (example_net.env.hash (.state example_net.state_open_3))).map
            block_row.epoch = some (cur.max p.epoch) ∧
          ((if cur.max p.epoch = .epoch_0 then l1.store.accounts_v0
            else l1.store.accounts_v1).get example_net.state_open_3.account).map
            account_info.head
            = some (example_net.env.hash (.state example_net.state_open_3))) :=
  state_receive_checks example_net.env example_net.state_sent_ledger
    example_net.state_open_3 .unknown (by decide) (by decide) (by decide) (by decide)
    (by decide) (by decide)

end nano

namespace nano

/-! ## State blocks: `state_is_send` and the pending tables -/

theorem pending_del_other (s : Store) (key : pending_key) (u : Bool) (k : pending_key)
    (hk : k ≠ key) :
    ((s.pending_del key).pending_table u).get k = (s.pending_table u).get k := by
  unfold Store.pending_del
  by_cases hc : s.pending_v1.contains key = true
  · rw [if_pos hc]
    cases u
    · rfl
    · change (s.pending_v1.del key).get k = s.pending_v1.get k
      rw [Map.get_del, if_neg (fun h => hk h.symm)]
  · rw [if_neg hc]
    cases u
    · change (s.pending_v0.del key).get k = s.pending_v0.get k
      rw [Map.get_del, if_neg (fun h => hk h.symm)]
    · rfl

theorem pending_table_block_put (s : Store) (h : Hash) (b : block) (sb : block_sideband)
    (e : epoch) (u : Bool) : (s.block_put h b sb e).pending_table u = s.pending_table u := by
  cases u <;> rfl

theorem pending_table_pending_put_block_put (s : Store) (h : Hash) (b : block)
    (sb : block_sideband) (e : epoch) (k : pending_key) (i : pending_info) (u : Bool) :
    ((s.block_put h b sb e).pending_put k i).pending_table u
      = (s.pending_put k i).pending_table u := by
  unfold Store.pending_put
  split <;> cases u <;> rfl

theorem pending_table_pending_del_block_put (s : Store) (h : Hash) (b : block)
    (sb : block_sideband) (e : epoch) (k : pending_key) (u : Bool) :
    ((s.block_put h b sb e).pending_del k).pending_table u
      = (s.pending_del k).pending_table u := by
  unfold Store.pending_del
  rw [Store.block_put_pending_v1]
  split <;> cases u <;> rfl

theorem state_block_apply_pending (env : Env) (l : ledger) (res : process_return)
    (b : state_block) (st : account_state) (e : epoch) (is_send : Bool)
    (r : process_return) (l1 : ledger)
    (h : ledger_processor.state_block_apply env l res b st e is_send = some (r, l1))
    (u : Bool) :
    l1.store.pending_table u
      = (if is_send = true then
          l.store.pending_put { account := b.link, hash := env.hash (.state b) }
            { source := b.account, amount := res.amount, epoch := e }
         else if b.link ≠ 0 then l.store.pending_del { account := b.account, hash := b.link }
         else l.store).pending_table u := by
  obtain ⟨store3, hcl, hl1, _⟩ := state_block_apply_shape env l res b st e is_send r l1 h
  have hfrm := change_latest_frame _ _ _ _ _ _ hcl
  have h3 : (if store3.frontier_get st.head ≠ 0 then store3.frontier_del st.head
      else store3).pending_table u = store3.pending_table u := by
    split
    · cases u <;> rfl
    · rfl
  rw [hl1]
  simp only
  rw [h3, pending_table_congr store3 _ hfrm.2.1 hfrm.2.2.1]
  cases is_send
  · by_cases hl : b.link = 0
    · simp only [hl, Bool.false_eq_true, if_false, ne_eq, not_true_eq_false]
      exact pending_table_block_put _ _ _ _ _ _
    · simp only [hl, Bool.false_eq_true, if_false, ne_eq, not_false_eq_true, if_true]
      exact pending_table_pending_del_block_put _ _ _ _ _ _ _
  · simp only [if_true]
    exact pending_table_pending_put_block_put _ _ _ _ _ _ _ _

theorem state_block_apply_epoch (env : Env) (l : ledger) (res : process_return)
    (b : state_block) (st : account_state) (e : epoch) (is_send : Bool)
    (r : process_return) (l1 : ledger)
    (h : ledger_processor.state_block_apply env l res b st e is_send = some (r, l1)) :
    (l1.store.block_get (env.hash (.state b))).map block_row.epoch = some e := by
  obtain ⟨store3, hcl, hl1, _⟩ := state_block_apply_shape env l res b st e is_send r l1 h
  have hfrm := change_latest_frame _ _ _ _ _ _ hcl
  have h3 : (if store3.frontier_get st.head ≠ 0 then store3.frontier_del st.head
      else store3).blocks = store3.blocks := by
    split
    · rfl
    · rfl
  unfold Store.block_get
  rw [hl1]
  simp only
  rw [h3, hfrm.1]
  cases is_send
  · by_cases hl : b.link = 0
    · simp only [hl, Bool.false_eq_true, if_false, ne_eq, not_true_eq_false]
      exact epoch_after_put _ _ _ _ _
    · simp only [hl, Bool.false_eq_true, if_false, ne_eq, not_false_eq_true, if_true,
        Store.pending_del_blocks]
      exact epoch_after_put _ _ _ _ _
  · simp only [if_true, Store.pending_put_blocks]
    exact epoch_after_put _ _ _ _ _

/-- C18: for a state block that is not an epoch block and is accepted with
`progress`, on an account with 128-bit head balance `B` (zero for a new
account) whose key `(account, link)` has a row in at most one pending table:
`result.state_is_send` is `true` exactly when the account had a head and the
balance of the block is below `B`. When it is `true`, the row
`(link, hash) -> (account, B - balance)` is in the pending table of the epoch
with which the block was stored, and every other place of the two pending
tables is as before. When it is `false` and the link is not zero, no pending
row `(account, link)` is left and every other key is as before in both tables.
When it is `false` and the link is zero, the pending tables are unchanged. -/
theorem state_block_send_and_pending (env : Env) (l : ledger) (b : state_block)
    (v : signature_verification) (r : process_return) (l1 : ledger)
    (h : ledger.process env l (.state b) v = some (r, l1)) (hc : r.code = .progress)
    (hne : ledger_processor.is_epoch_block env l v b = false)
    (hB : l.account_balance b.account < two128)
    (hdis : l.store.pending_v1.get { account := b.account, hash := b.link } = none ∨
      l.store.pending_v0.get { account := b.account, hash := b.link } = none) :
    ∃ e, (l1.store.block_get (env.hash (.state b))).map block_row.epoch = some e ∧
      r.state_is_send = some (decide ((l.account_state b.account).head ≠ 0 ∧
        b.balance < l.account_balance b.account)) ∧
      (r.state_is_send = some true →
        (l1.store.pending_table (decide (e ≠ .epoch_0))).get
            { account := b.link, hash := env.hash (.state b) }
          = some { source := b.account, amount := l.account_balance b.account - b.balance } ∧
        ∀ u k, ¬ (u = decide (e ≠ .epoch_0) ∧
              k = { account := b.link, hash := env.hash (.state b) }) →
          (l1.store.pending_table u).get k = (l.store.pending_table u).get k) ∧
      (r.state_is_send = some false → b.link ≠ 0 →
        l1.store.pending_get { account := b.account, hash := b.link } = none ∧
        ∀ u k, k ≠ { account := b.account, hash := b.link } →
          (l1.store.pending_table u).get k = (l.store.pending_table u).get k) ∧
      (r.state_is_send = some false → b.link = 0 →
        l1.store.pending_v0 = l.store.pending_v0 ∧ l1.store.pending_v1 = l.store.pending_v1) := by
  have hreach := state_block_progress_reach env l v b r l1 h hc
  rw [state_block_eq_impl env l v b hne hreach] at h
  obtain ⟨e0, is_send, amount, hrecv, hcase⟩ :=
    state_block_impl_progress env l (process_return.init v) b r l1 h hc
  obtain ⟨e, hap, hcase2⟩ := state_block_receive_progress env l _ b _ e0 is_send r l1 hrecv hc
  obtain ⟨store3, _, _, hr⟩ := state_block_apply_shape env l _ b _ e is_send r l1 hap
  have hpend := state_block_apply_pending env l _ b _ e is_send r l1 hap
  have hsend : r.state_is_send = some is_send := by rw [hr]
  have his : is_send = decide ((l.account_state b.account).head ≠ 0 ∧
      b.balance < l.account_balance b.account) := by
    rw [account_balance_eq]
    rcases hcase with ⟨hh, _, _, hi, _⟩ | ⟨hh, _, _, _, hi, _⟩
    · rw [hi, if_pos hh]
      simp only [hh, ne_eq, not_false_eq_true, true_and]
    · rw [hi, if_neg (not_not.mpr hh)]
      simp only [hh, ne_eq, not_true_eq_false, false_and, decide_False]
  refine ⟨e, state_block_apply_epoch env l _ b _ e is_send r l1 hap, ?_, ?_, ?_, ?_⟩
  · rw [hsend, his]
  · intro hs
    rw [hsend] at hs
    simp only [Option.some.injEq] at hs
    have hamt : amount = l.account_balance b.account - b.balance := by
      rw [account_balance_eq] at hB ⊢
      rcases hcase with ⟨hh, _, _, hi, ha⟩ | ⟨_, _, _, _, hi, _⟩
      · rw [if_pos hh] at hB ⊢
        rw [ha, hs, if_pos rfl]
        rw [hs] at hi
        have hlt : b.balance < (l.account_state b.account).balance := by
          simpa using hi.symm
        exact sub128_of_le _ _ (Nat.le_of_lt hlt) hB
      · rw [hs] at hi
        exact Bool.noConfusion hi
    constructor
    · rw [hpend, hs, if_pos rfl, pending_put_table_get]
      simp only [and_self, if_true, hamt]
    · intro u k hk
      rw [hpend, hs, if_pos rfl, pending_put_table_get]
      rw [if_neg]
      intro hk2
      exact hk ⟨hk2.1, hk2.2.symm⟩
  · intro hs hl
    rw [hsend] at hs
    simp only [Option.some.injEq] at hs
    constructor
    · have hdel := pending_del_get_none l.store { account := b.account, hash := b.link } hdis
      rw [← hdel]
      apply pending_get_congr
      · have := hpend false
        rw [hs] at this
        simp only [Bool.false_eq_true, if_false, hl, ne_eq, not_false_eq_true, if_true] at this
        exact this
      · have := hpend true
        rw [hs] at this
        simp only [Bool.false_eq_true, if_false, hl, ne_eq, not_false_eq_true, if_true] at this
        exact this
    · intro u k hk
      rw [hpend, hs]
      simp only [Bool.false_eq_true, if_false, hl, ne_eq, not_false_eq_true, if_true]
      exact pending_del_other _ _ _ _ hk
  · intro hs hl
    rw [hsend] at hs
    simp only [Option.some.injEq] at hs
    constructor
    · have := hpend false
      rw [hs] at this
      simp only [Bool.false_eq_true, if_false, hl, ne_eq, not_true_eq_false] at this
      exact this
    · have := hpend true
      rw [hs] at this
      simp only [Bool.false_eq_true, if_false, hl, ne_eq, not_true_eq_false] at this
      exact this

theorem state_block_send_and_pending_witness :
    ∃ e, (example_net.state_sent_ledger.store.block_get
        (example_net.env.hash (.state example_net.state_send_1))).map block_row.epoch = some e ∧
      example_net.state_send_1_result.state_is_send
        = some (decide ((example_net.genesis_ledger.account_state
            example_net.state_send_1.account).head ≠ 0 ∧
          example_net.state_send_1.balance
            < example_net.genesis_ledger.account_balance example_net.state_send_1.account)) ∧
      (example_net.state_send_1_result.state_is_send = some true →
        (example_net.state_sent_ledger.store.pending_table (decide (e ≠ .epoch_0))).get
            { account := example_net.state_send_1.link,
              hash := example_net.env.hash (.state example_net.state_send_1) }
          = some { source := example_net.state_send_1.account,
                   amount := example_net.genesis_ledger.account_balance
                     example_net.state_send_1.account - example_net.state_send_1.balance } ∧
        ∀ u k, ¬ (u = decide (e ≠ .epoch_0) ∧
              k = { account := example_net.state_send_1.link,
                    hash := example_net.env.hash (.state example_net.state_send_1) }) →
          (example_net.state_sent_ledger.store.pending_table u).get k
            = (example_net.genesis_ledger.store.pending_table u).get k) ∧
      (example_net.state_send_1_result.state_is_send = some false →
        example_net.state_send_1.link ≠ 0 →
        example_net.state_sent_ledger.store.pending_get
          { account := example_net.state_send_1.account,
            hash := example_net.state_send_1.link } = none ∧
        ∀ u k, k ≠ { account := example_net.state_send_1.account,
                     hash := example_net.state_send_1.link } →
          (example_net.state_sent_ledger.store.pending_table u).get k
            = (example_net.genesis_ledger.store.pending_table u).get k) ∧
      (example_net.state_send_1_result.state_is_send = some false →
        example_net.state_send_1.link = 0 →
        example_net.state_sent_ledger.store.pending_v0
          = example_net.genesis_ledger.store.pending_v0 ∧
        example_net.state_sent_ledger.store.pending_v1
          = example_net.genesis_ledger.store.pending_v1) :=
  state_block_send_and_pending example_net.env example_net.genesis_ledger
    example_net.state_send_1 .unknown example_net.state_send_1_result
    example_net.state_sent_ledger (by decide) (by decide) (by decide) (by decide)
    (Or.inl (by decide))

end nano

namespace nano

/-! ## Epoch blocks: the order of the checks -/

theorem epoch_block_position_spec (l : ledger) (b : state_block) :
    ledger_processor.epoch_block_position b (l.account_state b.account)
      = match epoch_position_spec l b with
        | some c => c
        | none => .progress := by
  unfold ledger_processor.epoch_block_position epoch_position_spec
  rw [← account_state_head_eq_latest]
  by_cases c1 : (l.account_state b.account).head = 0
  · simp only [c1, ne_eq, not_true_eq_false, if_false]
    by_cases c2 : b.representative = 0
    · simp only [c2, if_true, not_true_eq_false, if_false]
    · simp only [c2, if_false, not_false_eq_true, if_true]
  · simp only [c1, ne_eq, not_false_eq_true, if_true]
    by_cases c3 : b.previous = 0
    · simp only [c3, if_true, true_or]
    · simp only [c3, if_false, false_or]
      by_cases c4 : b.previous = (l.account_state b.account).head
      · simp only [c4, not_true_eq_false, if_false]
        by_cases c5 : b.representative = (l.account_state b.account).rep
        · simp only [c5, if_true, not_true_eq_false, if_false]
        · simp only [c5, if_false, not_false_eq_true, if_true]
      · simp only [c4, not_false_eq_true, if_true]

theorem current_epoch_of_head_stored (l : ledger) (a : Account)
    (hstored : l.store.head_stored a = true) :
    (if (l.account_state a).head = 0 then some epoch.epoch_0 else (l.account_state a).epoch)
      = some (if l.latest a = 0 then epoch.epoch_0 else l.store.block_version (l.latest a)) := by
  rw [← account_state_head_eq_latest]
  by_cases hh : (l.account_state a).head = 0
  · rw [if_pos hh, if_pos hh]
  · rw [if_neg hh, if_neg hh]
    have hrow := account_state_row_of_head_stored l a hstored hh
    unfold ledger.account_state at hrow hh ⊢
    unfold account_state.epoch account_state.head Store.block_version
    cases hg : l.store.account_get a with
    | none =>
      rw [hg] at hh
      exact absurd rfl hh
    | some i =>
      rw [hg] at hrow
      simp only at hrow ⊢
      cases hr : l.store.block_get i.head with
      | none => rw [hr] at hrow; exact Bool.noConfusion hrow
      | some row => rfl

theorem epoch_block_impl_code (env : Env) (l : ledger) (res : process_return)
    (b : state_block) (r : process_return) (l1 : ledger)
    (hstored : l.store.head_stored b.account = true)
    (h : ledger_processor.epoch_block_impl env l res b = some (r, l1)) :
    r.code = epoch_code_spec env l b res.verified := by
  unfold ledger_processor.epoch_block_impl at h
  dsimp only at h
  unfold epoch_code_spec
  rw [epoch_block_position_spec, current_epoch_of_head_stored l b.account hstored] at h
  by_cases c1 : l.store.block_exists_type .state (env.hash (.state b)) = true
  · simp only [c1, if_true] at h ⊢
    cases h
    rfl
  simp only [c1, Bool.false_eq_true, if_false] at h ⊢
  by_cases c2 : res.verified ≠ .valid_epoch ∧
      env.validate_message (ledger.signer env b.link) (env.hash (.state b)) b.signature = true
  · rw [if_pos c2] at h
    rw [if_pos c2]
    cases h
    rfl
  rw [if_neg c2] at h
  rw [if_neg c2]
  by_cases c3 : b.account = 0
  · simp only [c3, if_true] at h ⊢
    cases h
    rfl
  simp only [c3, if_false] at h ⊢
  cases hpos : epoch_position_spec l b with
  | some c =>
    rw [hpos] at h
    simp only at h ⊢
    by_cases hcp : c = .progress
    · exfalso
      unfold epoch_position_spec at hpos
      rw [hcp] at hpos
      repeat' split at hpos
      all_goals
        first
        | exact Option.noConfusion hpos
        | (simp only [Option.some.injEq] at hpos
           exact process_result.noConfusion hpos)
    · rw [if_pos hcp] at h
      cases h
      rfl
  | none =>
    rw [hpos] at h
    simp only [ne_eq, not_true_eq_false, if_false] at h ⊢
    by_cases c4 : (if l.latest b.account = 0 then epoch.epoch_0
        else l.store.block_version (l.latest b.account)).lt (env.epochs_epoch b.link) = true
    · rw [if_neg (not_not.mpr c4)] at h
      rw [if_neg (not_not.mpr c4)]
      by_cases c5 : b.balance = (l.account_state b.account).balance
      · rw [if_neg (not_not.mpr c5)] at h
        rw [if_neg (not_not.mpr c5)]
        split at h
        · exact Option.noConfusion h
        · cases h
          rfl
      · rw [if_pos c5] at h
        rw [if_pos c5]
        cases h
        rfl
    · rw [if_pos c4] at h
      rw [if_pos c4]
      cases h
      rfl

theorem is_epoch_block_of_balance (env : Env) (l : ledger) (v : signature_verification)
    (b : state_block) (hl : ledger.is_epoch_link env b.link = true)
    (hprev : b.previous = 0 ∨ l.store.block_exists b.previous = true)
    (hbal : b.balance = l.balance b.previous) :
    ledger_processor.is_epoch_block env l v b = true := by
  unfold ledger_processor.is_epoch_block
  rw [hl, Bool.true_and, decide_eq_true_eq, hbal]
  unfold ledger_processor.state_block_prev
  by_cases h0 : b.previous = 0
  · simp only [h0, ne_eq, not_true_eq_false, if_false]
    rfl
  · rcases hprev with h1 | h1
    · exact absurd h1 h0
    · simp only [h0, ne_eq, not_false_eq_true, if_true, h1]

/-- C19: for a state block with an epoch link, a previous that is zero or
stored, and the balance of that previous (zero when the previous is zero), on
an account whose head (if any) is stored: `process` returns, and its code is
`old` if the block is stored; otherwise `bad_signature` if the hint is not
`valid_epoch` and the signature does not validate for the epoch signer of the
link; otherwise `opened_burn_account` if the account is zero; otherwise, for an
account with a head, `fork` if the previous is zero or is not the head and
`representative_mismatch` if the representative is not the current one; for an
account without a head, `representative_mismatch` if the representative is not
zero; otherwise `block_position` unless the epoch of the account (`epoch_0` when
it has no head) is strictly below the epoch of the link; otherwise
`balance_mismatch` unless the balance is the current balance of the account;
otherwise `progress`, with `result.amount` zero and the representative weights
unchanged. -/
theorem epoch_block_result_code (env : Env) (l : ledger) (b : state_block)
    (v : signature_verification)
    (hl : ledger.is_epoch_link env b.link = true)
    (hprev : b.previous = 0 ∨ l.store.block_exists b.previous = true)
    (hbal : b.balance = l.balance b.previous)
    (hstored : l.store.head_stored b.account = true) :
    ∃ r l1, ledger.process env l (.state b) v = some (r, l1) ∧
      r.code = epoch_code_spec env l b v ∧
      (r.code = .progress → r.amount = 0 ∧ l1.rep_weights = l.rep_weights) := by
  have heq := state_block_eq_epoch_impl env l v b
    (is_epoch_block_of_balance env l v b hl hprev hbal) hprev
  have hs := epoch_block_impl_isSome env l (process_return.init v) b hstored
  cases hp : ledger_processor.epoch_block_impl env l (process_return.init v) b with
  | none => rw [hp] at hs; exact Bool.noConfusion hs
  | some p =>
    obtain ⟨r, l1⟩ := p
    refine ⟨r, l1, by rw [heq, hp],
      epoch_block_impl_code env l (process_return.init v) b r l1 hstored hp, ?_⟩
    intro hc
    obtain ⟨store2, _, _, _, hl1, hr⟩ :=
      epoch_block_impl_progress env l (process_return.init v) b r l1 hp hc
    rw [hl1, hr]
    exact ⟨rfl, rfl⟩

theorem epoch_block_result_code_witness :
    ∃ r l1, ledger.process example_net.env example_net.genesis_ledger
        (.state example_net.epoch_upgrade_1) .unknown = some (r, l1) ∧
      r.code = epoch_code_spec example_net.env example_net.genesis_ledger
        example_net.epoch_upgrade_1 .unknown ∧
      (r.code = .progress →
        r.amount = 0 ∧ l1.rep_weights = example_net.genesis_ledger.rep_weights) :=
  epoch_block_result_code example_net.env example_net.genesis_ledger
    example_net.epoch_upgrade_1 .unknown (by decide) (Or.inr (by decide)) (by decide)
    (by decide)

end nano

namespace nano

/-! ## Epoch blocks: the epoch that is recorded -/

theorem epoch_position_progress (b : state_block) (st : account_state)
    (h : ledger_processor.epoch_block_position b st = .progress) :
    (st.head ≠ 0 → b.representative = st.rep) ∧ (st.head = 0 → b.representative = 0) := by
  unfold ledger_processor.epoch_block_position at h
  repeat' split at h
  all_goals
    first
    | exact process_result.noConfusion h
    | exact ⟨fun _ => by assumption, fun hk => absurd hk (by assumption)⟩
    | exact ⟨fun hk => absurd hk (by assumption), fun _ => by assumption⟩

/-- Every state block handled as an epoch block and accepted with `progress`,
with a non-zero hash, whatever epoch its link denotes: the block is stored
with the epoch tag `epoch_1`, and the row of the account, in the account table
of `epoch_1` and as `account_get` reads it, is the hash of the block, the
representative of the block (the current representative when the account has
a head, zero when it has none) and the open block as before (the hash of the
block when the account had none). For a link that denotes `epoch_1` this is
the epoch of the link. -/
theorem epoch_block_recorded_at_epoch_1 (env : Env) (l : ledger) (b : state_block)
    (v : signature_verification) (r : process_return) (l1 : ledger)
    (h : ledger.process env l (.state b) v = some (r, l1)) (hc : r.code = .progress)
    (he : ledger_processor.is_epoch_block env l v b = true)
    (hhash : env.hash (.state b) ≠ 0) :
    (l1.store.block_get (env.hash (.state b))).map block_row.epoch = some .epoch_1 ∧
    l1.store.accounts_v1.get b.account
      = some { head := env.hash (.state b), representative := b.representative,
               open_block := if (l.account_state b.account).open_ = 0 then env.hash (.state b)
                             else (l.account_state b.account).open_ } ∧
    l1.store.account_get b.account
      = some { head := env.hash (.state b), representative := b.representative,
               open_block := if (l.account_state b.account).open_ = 0 then env.hash (.state b)
                             else (l.account_state b.account).open_ } ∧
    ((l.account_state b.account).head ≠ 0 →
      b.representative = (l.account_state b.account).rep) ∧
    ((l.account_state b.account).head = 0 → b.representative = 0) := by
  have hreach : b.previous = 0 ∨ l.store.block_exists b.previous = true := by
    rcases state_block_progress_reach env l v b r l1 h hc with h1 | h1 | h1
    · exfalso
      unfold ledger_processor.is_epoch_block at he
      rw [h1] at he
      exact Bool.noConfusion he
    · exact Or.inl h1
    · exact Or.inr h1
  rw [state_block_eq_epoch_impl env l v b he hreach] at h
  obtain ⟨store2, hpos, _, hcl, hl1, _⟩ :=
    epoch_block_impl_progress env l (process_return.init v) b r l1 h hc
  have hfrm := change_latest_frame _ _ _ _ _ _ hcl
  have htab := change_latest_table_get _ _ _ _ _ _ hcl hhash
  simp only [if_false] at htab
  have hb : (if store2.frontier_get (l.account_state b.account).head ≠ 0
      then store2.frontier_del (l.account_state b.account).head else store2).blocks
      = store2.blocks := by
    split
    · rfl
    · rfl
  have h1 : (if store2.frontier_get (l.account_state b.account).head ≠ 0
      then store2.frontier_del (l.account_state b.account).head else store2).accounts_v1
      = store2.accounts_v1 := by
    split
    · rfl
    · rfl
  have hv1 : l1.store.accounts_v1.get b.account
      = some { head := env.hash (.state b), representative := b.representative,
               open_block := if (l.account_state b.account).open_ = 0 then env.hash (.state b)
                             else (l.account_state b.account).open_ } := by
    rw [hl1]
    simp only
    rw [h1]
    exact htab
  have hrep := epoch_position_progress b _ hpos
  refine ⟨?_, hv1, ?_, hrep.1, hrep.2⟩
  · unfold Store.block_get
    rw [hl1]
    simp only
    rw [hb, hfrm.1]
    exact epoch_after_put _ _ _ _ _
  · unfold Store.account_get
    rw [hv1]

theorem epoch_block_recorded_at_epoch_1_witness :
    (example_net.upgraded_2_ledger.store.block_get
        (example_net.env.hash (.state example_net.epoch_upgrade_2))).map block_row.epoch
      = some .epoch_1 ∧
    example_net.upgraded_2_ledger.store.accounts_v1.get example_net.epoch_upgrade_2.account
      = some { head := example_net.env.hash (.state example_net.epoch_upgrade_2),
               representative := example_net.epoch_upgrade_2.representative,
               open_block :=
                 if (example_net.genesis_ledger.account_state
                      example_net.epoch_upgrade_2.account).open_ = 0
                 then example_net.env.hash (.state example_net.epoch_upgrade_2)
                 else (example_net.genesis_ledger.account_state
                      example_net.epoch_upgrade_2.account).open_ } ∧
    example_net.upgraded_2_ledger.store.account_get example_net.epoch_upgrade_2.account
      = some { head := example_net.env.hash (.state example_net.epoch_upgrade_2),
               representative := example_net.epoch_upgrade_2.representative,
               open_block :=
                 if (example_net.genesis_ledger.account_state
                      example_net.epoch_upgrade_2.account).open_ = 0
                 then example_net.env.hash (.state example_net.epoch_upgrade_2)
                 else (example_net.genesis_ledger.account_state
                      example_net.epoch_upgrade_2.account).open_ } ∧
    ((example_net.genesis_ledger.account_state example_net.epoch_upgrade_2.account).head ≠ 0 →
      example_net.epoch_upgrade_2.representative
        = (example_net.genesis_ledger.account_state
            example_net.epoch_upgrade_2.account).rep) ∧
    ((example_net.genesis_ledger.account_state example_net.epoch_upgrade_2.account).head = 0 →
      example_net.epoch_upgrade_2.representative = 0) :=
  epoch_block_recorded_at_epoch_1 example_net.env example_net.genesis_ledger
    example_net.epoch_upgrade_2 .unknown example_net.epoch_upgrade_result
    example_net.upgraded_2_ledger (by decide) (by decide) (by decide) (by decide)

end nano

namespace nano

/-! ## The account tables after `change_latest` -/

theorem account_put_get0 (s : Store) (a : Account) (new : account_info) (e : epoch)
    (x : Account) :
    (s.account_put a new e).accounts_v0.get x
      = if e = .epoch_0 ∧ a = x then some new else s.accounts_v0.get x := by
  unfold Store.account_put
  by_cases he : e = .epoch_0
  · rw [if_pos he]
    simp only [Map.get_put, he, true_and]
  · rw [if_neg he]
    simp only [he, false_and, if_false]

theorem account_put_get1 (s : Store) (a : Account) (new : account_info) (e : epoch)
    (x : Account) :
    (s.account_put a new e).accounts_v1.get x
      = if ¬ e = .epoch_0 ∧ a = x then some new else s.accounts_v1.get x := by
  unfold Store.account_put
  by_cases he : e = .epoch_0
  · rw [if_pos he]
    simp only [he, not_true_eq_false, false_and, if_false]
  · rw [if_neg he]
    simp only [Map.get_put, he, not_false_eq_true, true_and]

theorem account_del_get0 (s : Store) (a x : Account) :
    (s.account_del a).accounts_v0.get x
      = if s.accounts_v1.get a = none ∧ a = x then none else s.accounts_v0.get x := by
  unfold Store.account_del Map.contains
  cases hg : s.accounts_v1.get a with
  | none =>
    simp only [Option.isSome_none, Bool.false_eq_true, if_false, Map.get_del, true_and]
  | some i =>
    simp only [Option.isSome_some, if_true]
    rw [if_neg (fun hk => Option.noConfusion hk.1)]

theorem account_del_get1 (s : Store) (a x : Account) :
    (s.account_del a).accounts_v1.get x
      = if a = x then none else s.accounts_v1.get x := by
  unfold Store.account_del Map.contains
  cases hg : s.accounts_v1.get a with
  | none =>
    simp only [Option.isSome_none, Bool.false_eq_true, if_false]
    by_cases hx : a = x
    · rw [if_pos hx, ← hx, hg]
    · rw [if_neg hx]
  | some i =>
    simp only [Option.isSome_some, if_true, Map.get_del]

theorem account_state_of_none (l : ledger) (a : Account) (h : l.store.account_get a = none) :
    (l.account_state a).head = 0 := by
  unfold ledger.account_state
  rw [h]
  rfl

theorem account_get_of_tables (s : Store) (a : Account) :
    s.account_get a = match s.accounts_v1.get a with
      | some i => some i
      | none => s.accounts_v0.get a := rfl

/-- The rows of an account in a consistent ledger: none, or one row in the
table of the epoch of its head block. -/
theorem account_rows_of_consistent (env : Env) (l : ledger) (hc : ledger_consistent env l)
    (a : Account) :
    (l.store.accounts_v0.get a = none ∧ l.store.accounts_v1.get a = none ∧
        (l.account_state a).head = 0) ∨
    (∃ i, l.store.accounts_v0.get a = some i ∧ l.store.accounts_v1.get a = none ∧
        (l.account_state a).head ≠ 0 ∧ (l.account_state a).epoch = some .epoch_0) ∨
    (∃ i e0, l.store.accounts_v1.get a = some i ∧ l.store.accounts_v0.get a = none ∧
        (l.account_state a).head ≠ 0 ∧ (l.account_state a).epoch = some e0 ∧
        e0 ≠ .epoch_0) := by
  cases h1 : l.store.accounts_v1.get a with
  | some i =>
    right
    right
    obtain ⟨h0, hh, e0, he0, hne⟩ := hc.acc1 a i h1
    refine ⟨i, e0, rfl, h0, ?_, ?_, hne⟩
    · unfold ledger.account_state
      rw [account_get_of_tables, h1]
      exact hh
    · unfold ledger.account_state
      rw [account_get_of_tables, h1]
      exact he0
  | none =>
    cases h0 : l.store.accounts_v0.get a with
    | some i =>
      right
      left
      obtain ⟨_, hh, he0⟩ := hc.acc0 a i h0
      refine ⟨i, rfl, rfl, ?_, ?_⟩
      · unfold ledger.account_state
        rw [account_get_of_tables, h1, h0]
        exact hh
      · unfold ledger.account_state
        rw [account_get_of_tables, h1, h0]
        exact he0
    | none =>
      left
      refine ⟨rfl, rfl, ?_⟩
      apply account_state_of_none
      rw [account_get_of_tables, h1, h0]

theorem change_latest_tables (env : Env) (l : ledger) (hc : ledger_consistent env l)
    (s s1 : Store) (a : Account) (new : account_info) (e : epoch)
    (h0 : s.accounts_v0 = l.store.accounts_v0) (h1 : s.accounts_v1 = l.store.accounts_v1)
    (hnew : new.head ≠ 0)
    (hcl : ledger.change_latest s a (l.account_state a) new e = some s1) :
    (∀ x, x ≠ a → s1.accounts_v0.get x = l.store.accounts_v0.get x ∧
      s1.accounts_v1.get x = l.store.accounts_v1.get x) ∧
    (e = .epoch_0 → s1.accounts_v0.get a = some new ∧ s1.accounts_v1.get a = none) ∧
    (¬ e = .epoch_0 → s1.accounts_v1.get a = some new ∧ s1.accounts_v0.get a = none) := by
  unfold ledger.change_latest at hcl
  rw [if_pos hnew] at hcl
  dsimp only at hcl
  have hcp0 : ∀ (c : Prop) [Decidable c],
      (if c then s.confirmation_height_put a 0 else s).accounts_v0 = l.store.accounts_v0 := by
    intro c _
    split
    · exact h0
    · exact h0
  have hcp1 : ∀ (c : Prop) [Decidable c],
      (if c then s.confirmation_height_put a 0 else s).accounts_v1 = l.store.accounts_v1 := by
    intro c _
    split
    · exact h1
    · exact h1
  rcases account_rows_of_consistent env l hc a with ⟨g0, g1, hh⟩ | ⟨i, g0, g1, hh, hep⟩ |
    ⟨i, e0, g1, g0, hh, hep, hne⟩
  · rw [if_neg (not_not.mpr hh)] at hcl
    simp only [Option.some.injEq] at hcl
    subst hcl
    refine ⟨?_, ?_, ?_⟩
    · intro x hx
      rw [account_put_get0, account_put_get1, hcp0, hcp1]
      rw [if_neg (fun hk => hx hk.2.symm), if_neg (fun hk => hx hk.2.symm)]
      exact ⟨rfl, rfl⟩
    · intro he
      rw [account_put_get0, account_put_get1, hcp1]
      rw [if_pos ⟨he, rfl⟩, if_neg (fun hk => hk.1 he)]
      exact ⟨rfl, g1⟩
    · intro he
      rw [account_put_get0, account_put_get1, hcp0]
      rw [if_pos ⟨he, rfl⟩, if_neg (fun hk => he hk.1)]
      exact ⟨rfl, g0⟩
  · rw [if_pos hh, hep] at hcl
    simp only [Option.some.injEq] at hcl
    subst hcl
    by_cases he : e = .epoch_0
    · have hee : ¬ (epoch.epoch_0 ≠ e) := fun hk => hk he.symm
      rw [if_neg hee]
      refine ⟨?_, ?_, ?_⟩
      · intro x hx
        rw [account_put_get0, account_put_get1, hcp0, hcp1]
        rw [if_neg (fun hk => hx hk.2.symm), if_neg (fun hk => hx hk.2.symm)]
        exact ⟨rfl, rfl⟩
      · intro _
        rw [account_put_get0, account_put_get1, hcp1]
        rw [if_pos ⟨he, rfl⟩, if_neg (fun hk => hk.1 he)]
        exact ⟨rfl, g1⟩
      · intro hk
        exact absurd he hk
    · have hee : epoch.epoch_0 ≠ e := fun hk => he hk.symm
      rw [if_pos hee]
      refine ⟨?_, ?_, ?_⟩
      · intro x hx
        rw [account_put_get0, account_put_get1, account_del_get0, account_del_get1, hcp0, hcp1]
        rw [if_neg (fun hk => hx hk.2.symm), if_neg (fun hk => hx hk.2.symm),
          if_neg (fun hk => hx hk.2.symm), if_neg (fun hk => hx hk.symm)]
        exact ⟨rfl, rfl⟩
      · intro hk
        exact absurd hk he
      · intro _
        rw [account_put_get0, account_put_get1, account_del_get0, hcp1]
        rw [if_pos ⟨he, rfl⟩, if_neg (fun hk => he hk.1), if_pos ⟨g1, rfl⟩]
        exact ⟨rfl, rfl⟩
  · rw [if_pos hh, hep] at hcl
    simp only [Option.some.injEq] at hcl
    subst hcl
    by_cases he : e = .epoch_0
    · have hee : e0 ≠ e := fun hk => hne (hk.trans he)
      rw [if_pos hee]
      refine ⟨?_, ?_, ?_⟩
      · intro x hx
        rw [account_put_get0, account_put_get1, account_del_get0, account_del_get1, hcp0, hcp1]
        rw [if_neg (fun hk => hx hk.2.symm), if_neg (fun hk => hx hk.2.symm),
          if_neg (fun hk => hx hk.2.symm), if_neg (fun hk => hx hk.symm)]
        exact ⟨rfl, rfl⟩
      · intro _
        rw [account_put_get0, account_put_get1, account_del_get1]
        rw [if_pos ⟨he, rfl⟩, if_neg (fun hk => hk.1 he), if_pos rfl]
        exact ⟨rfl, rfl⟩
      · intro hk
        exact absurd he hk
    · by_cases hee : e0 = e
      · rw [if_neg (not_not.mpr hee)]
        refine ⟨?_, ?_, ?_⟩
        · intro x hx
          rw [account_put_get0, account_put_get1, hcp0, hcp1]
          rw [if_neg (fun hk => hx hk.2.symm), if_neg (fun hk => hx hk.2.symm)]
          exact ⟨rfl, rfl⟩
        · intro hk
          exact absurd hk he
        · intro _
          rw [account_put_get0, account_put_get1, hcp0]
          rw [if_pos ⟨he, rfl⟩, if_neg (fun hk => he hk.1)]
          exact ⟨rfl, g0⟩
      · rw [if_pos hee]
        refine ⟨?_, ?_, ?_⟩
        · intro x hx
          rw [account_put_get0, account_put_get1, account_del_get0, account_del_get1,
            hcp0, hcp1]
          rw [if_neg (fun hk => hx hk.2.symm), if_neg (fun hk => hx hk.2.symm),
            if_neg (fun hk => hx hk.2.symm), if_neg (fun hk => hx hk.symm)]
          exact ⟨rfl, rfl⟩
        · intro hk
          exact absurd hk he
        · intro _
          rw [account_put_get0, account_put_get1, account_del_get0, hcp0, hcp1, g1]
          rw [if_pos ⟨he, rfl⟩, if_neg (fun hk => he hk.1),
            if_neg (fun hk => Option.noConfusion hk.1)]
          exact ⟨rfl, g0⟩

end nano

namespace nano

/-! ## One accepted block keeps the ledger consistent: the general step -/

theorem account_balance_eq_content (l : ledger) (x : Account) :
    l.account_balance x = match l.store.account_get x with
      | none => 0
      | some i =>
        if i.head ≠ 0 then
          ((l.store.blocks.get i.head).map (fun r => content_balance r.content)).getD 0
        else 0 := by
  unfold ledger.account_balance ledger.account_state
  cases hg : l.store.account_get x with
  | none => rfl
  | some i =>
    simp only [account_state.head, account_state.balance, Store.block_get]
    by_cases hh : i.head = 0
    · simp only [hh, ne_eq, not_true_eq_false, if_false]
    · simp only [hh, ne_eq, not_false_eq_true, if_true]
      cases hr : l.store.blocks.get i.head with
      | none => rfl
      | some r => exact row_balance_eq_content r

theorem balance_sum_step (l l1 : ledger) (a : Account)
    (hoff : ∀ x, x ≠ a → l1.account_balance x = l.account_balance x) :
    l1.balance_sum + l.account_balance a = l.balance_sum + l1.account_balance a := by
  unfold ledger.balance_sum
  exact sum_point_update l.store.accounts l1.store.accounts (List.nodup_dedup _)
    (List.nodup_dedup _) l.account_balance l1.account_balance a
    (account_balance_support l) (account_balance_support l1) hoff

theorem pending_sum_step (l l1 : ledger) (k : pending_key)
    (hoff : ∀ x, x ≠ k → l1.pending_amount x = l.pending_amount x) :
    l1.pending_sum + l.pending_amount k = l.pending_sum + l1.pending_amount k := by
  unfold ledger.pending_sum
  exact sum_point_update l.store.pending_keys l1.store.pending_keys (List.nodup_dedup _)
    (List.nodup_dedup _) l.pending_amount l1.pending_amount k
    (pending_amount_support l) (pending_amount_support l1) hoff

theorem account_balance_le_sum (l : ledger) (a : Account) :
    l.account_balance a ≤ l.balance_sum := by
  by_cases h : a ∈ l.store.accounts
  · exact le_list_sum_of_mem _ _ _ h
  · rw [account_balance_support l a h]
    exact Nat.zero_le _

theorem pending_amount_le_sum (l : ledger) (k : pending_key) :
    l.pending_amount k ≤ l.pending_sum := by
  by_cases h : k ∈ l.store.pending_keys
  · exact le_list_sum_of_mem _ _ _ h
  · rw [pending_amount_support l k h]
    exact Nat.zero_le _

theorem content_some {m : Map Hash block_row} {x : Hash}
    {c : nano.block × nano.epoch × Amount}
    (h : (m.get x).map block_row.content = some c) :
    ∃ row, m.get x = some row ∧ row.block = c.1 ∧ row.epoch = c.2.1 ∧
      row.sideband.balance = c.2.2 := by
  cases hr : m.get x with
  | none => rw [hr] at h; exact Option.noConfusion h
  | some row =>
    rw [hr] at h
    simp only [Option.map_some', Option.some.injEq] at h
    exact ⟨row, rfl, by rw [← h]; rfl, by rw [← h]; rfl, by rw [← h]; rfl⟩

theorem map_content_balance (o : Option block_row) :
    o.map (fun r => content_balance r.content) = (o.map block_row.content).map content_balance := by
  cases o <;> rfl

theorem pending_amount_congr (l l1 : ledger) (x : pending_key)
    (h : ∀ u, (l1.store.pending_table u).get x = (l.store.pending_table u).get x) :
    l1.pending_amount x = l.pending_amount x := by
  unfold ledger.pending_amount Store.pending_get
  have h1 := h true
  have h0 := h false
  change l1.store.pending_v1.get x = l.store.pending_v1.get x at h1
  change l1.store.pending_v0.get x = l.store.pending_v0.get x at h0
  rw [h1, h0]

theorem consistent_step (env : Env) (hs : env.sound) (l l1 : ledger)
    (hc : ledger_consistent env l)
    (a : Account) (b : block) (e : epoch) (sbbal : Amount) (new : account_info)
    (k : pending_key)
    (hfresh : l.store.blocks.get (env.hash b) = none)
    (hhead : new.head = env.hash b)
    (hblocks : ∀ x, (l1.store.blocks.get x).map block_row.content
      = if x = env.hash b then some (b, e, sbbal)
        else (l.store.blocks.get x).map block_row.content)
    (hoff : ∀ x, x ≠ a → l1.store.accounts_v0.get x = l.store.accounts_v0.get x ∧
      l1.store.accounts_v1.get x = l.store.accounts_v1.get x)
    (ha0 : e = .epoch_0 → l1.store.accounts_v0.get a = some new ∧
      l1.store.accounts_v1.get a = none)
    (ha1 : ¬ e = .epoch_0 → l1.store.accounts_v1.get a = some new ∧
      l1.store.accounts_v0.get a = none)
    (hpoff : ∀ u x, x ≠ k →
      (l1.store.pending_table u).get x = (l.store.pending_table u).get x)
    (hpk : ∀ u r, (l1.store.pending_table u).get k = some r →
      ((l.store.blocks.get k.hash).isSome = true ∨ k.hash = env.hash b) ∧
        (l1.store.pending_table (!u)).get k = none)
    (hval : content_balance (b, e, sbbal) + l1.pending_amount k
      = l.account_balance a + l.pending_amount k) :
    ledger_consistent env l1 := by
  have hnz : env.hash b ≠ 0 := hs.hash_nonzero b
  have hself : (l1.store.blocks.get (env.hash b)).map block_row.content
      = some (b, e, sbbal) := by
    rw [hblocks, if_pos rfl]
  have hkeep : ∀ x, (l.store.blocks.get x).isSome = true →
      (l1.store.blocks.get x).map block_row.content
        = (l.store.blocks.get x).map block_row.content := by
    intro x hx
    have hne : x ≠ env.hash b := by
      intro hk
      rw [hk, hfresh] at hx
      exact Bool.noConfusion hx
    rw [hblocks, if_neg hne]
  have hstored_of_epoch : ∀ x (eo : epoch),
      (l.store.blocks.get x).map block_row.epoch = some eo →
      (l.store.blocks.get x).isSome = true := by
    intro x eo heo
    cases hr : l.store.blocks.get x with
    | none => rw [hr] at heo; exact Option.noConfusion heo
    | some row => rfl
  have hkeep_epoch : ∀ x (eo : epoch),
      (l.store.blocks.get x).map block_row.epoch = some eo →
      (l1.store.blocks.get x).map block_row.epoch = some eo := by
    intro x eo heo
    have hk := hkeep x (hstored_of_epoch x eo heo)
    cases hr : l.store.blocks.get x with
    | none => rw [hr] at heo; exact Option.noConfusion heo
    | some row =>
      rw [hr] at hk heo
      obtain ⟨row1, hrow1, _, hep, _⟩ := content_some hk
      rw [hrow1]
      simp only [Option.map_some', Option.some.injEq] at heo ⊢
      rw [hep, ← heo]
      rfl
  have hself_epoch : (l1.store.blocks.get (env.hash b)).map block_row.epoch = some e := by
    obtain ⟨row1, hrow1, _, hep, _⟩ := content_some hself
    rw [hrow1]
    simp only [Option.map_some', Option.some.injEq]
    exact hep
  have hget_a : l1.store.account_get a = some new := by
    rw [account_get_of_tables]
    by_cases he : e = .epoch_0
    · rw [(ha0 he).2, (ha0 he).1]
    · rw [(ha1 he).1]
  have hbal_a : l1.account_balance a = content_balance (b, e, sbbal) := by
    rw [account_balance_eq_content, hget_a]
    simp only
    rw [if_pos (by rw [hhead]; exact hnz), hhead, map_content_balance, hself]
    rfl
  have hhead_stored : ∀ x i, l.store.account_get x = some i →
      (l.store.blocks.get i.head).isSome = true := by
    intro x i hgx
    rw [account_get_of_tables] at hgx
    cases h1 : l.store.accounts_v1.get x with
    | some j =>
      rw [h1] at hgx
      simp only [Option.some.injEq] at hgx
      obtain ⟨_, _, e0, he0, _⟩ := hc.acc1 x j h1
      rw [hgx] at he0
      exact hstored_of_epoch _ _ he0
    | none =>
      rw [h1] at hgx
      simp only at hgx
      obtain ⟨_, _, he0⟩ := hc.acc0 x i hgx
      exact hstored_of_epoch _ _ he0
  have hbal_off : ∀ x, x ≠ a → l1.account_balance x = l.account_balance x := by
    intro x hx
    have hg : l1.store.account_get x = l.store.account_get x := by
      rw [account_get_of_tables, account_get_of_tables, (hoff x hx).1, (hoff x hx).2]
    rw [account_balance_eq_content, account_balance_eq_content, hg]
    cases hgx : l.store.account_get x with
    | none => rfl
    | some i =>
      simp only
      rw [map_content_balance, map_content_balance, hkeep i.head (hhead_stored x i hgx)]
  have hpend_off : ∀ x, x ≠ k → l1.pending_amount x = l.pending_amount x := by
    intro x hx
    exact pending_amount_congr l l1 x (fun u => hpoff u x hx)
  constructor
  · intro h row hrow
    by_cases hh : h = env.hash b
    · obtain ⟨row1, hrow1, hb, _, _⟩ := content_some hself
      rw [← hh, hrow] at hrow1
      simp only [Option.some.injEq] at hrow1
      rw [hrow1, hb, hh]
    · have hk := hblocks h
      rw [if_neg hh, hrow] at hk
      cases hr : l.store.blocks.get h with
      | none => rw [hr] at hk; exact Option.noConfusion hk
      | some row0 =>
        rw [hr] at hk
        simp only [Option.map_some', Option.some.injEq] at hk
        have hb : row.block = row0.block := congrArg Prod.fst hk
        rw [hb]
        exact hc.keyed h row0 hr
  · intro x i hx
    by_cases hxa : x = a
    · subst hxa
      by_cases he : e = .epoch_0
      · rw [(ha0 he).1] at hx
        simp only [Option.some.injEq] at hx
        subst hx
        refine ⟨(ha0 he).2, by rw [hhead]; exact hnz, ?_⟩
        rw [hhead, hself_epoch, he]
      · rw [(ha1 he).2] at hx
        exact Option.noConfusion hx
    · rw [(hoff x hxa).1] at hx
      obtain ⟨h1, hh, he0⟩ := hc.acc0 x i hx
      exact ⟨by rw [(hoff x hxa).2]; exact h1, hh, hkeep_epoch _ _ he0⟩
  · intro x i hx
    by_cases hxa : x = a
    · subst hxa
      by_cases he : e = .epoch_0
      · rw [(ha0 he).2] at hx
        exact Option.noConfusion hx
      · rw [(ha1 he).1] at hx
        simp only [Option.some.injEq] at hx
        subst hx
        refine ⟨(ha1 he).2, by rw [hhead]; exact hnz, e, ?_, he⟩
        rw [hhead, hself_epoch]
    · rw [(hoff x hxa).2] at hx
      obtain ⟨h0, hh, e0, he0, hne⟩ := hc.acc1 x i hx
      exact ⟨by rw [(hoff x hxa).1]; exact h0, hh, e0, hkeep_epoch _ _ he0, hne⟩
  · intro u x r hx
    by_cases hxk : x = k
    · subst hxk
      obtain ⟨hst, hother⟩ := hpk u r hx
      refine ⟨?_, hother⟩
      rcases hst with hst | hst
      · have hk := hkeep x.hash hst
        cases hr : l.store.blocks.get x.hash with
        | none => rw [hr] at hst; exact Bool.noConfusion hst
        | some row =>
          rw [hr] at hk
          obtain ⟨row1, hrow1, _, _, _⟩ := content_some hk
          rw [hrow1]
          rfl
      · obtain ⟨row1, hrow1, _, _, _⟩ := content_some hself
        rw [hst, hrow1]
        rfl
    · rw [hpoff u x hxk] at hx
      obtain ⟨hst, hother⟩ := hc.pend u x r hx
      refine ⟨?_, by rw [hpoff _ x hxk]; exact hother⟩
      have hk := hkeep x.hash hst
      cases hr : l.store.blocks.get x.hash with
      | none => rw [hr] at hst; exact Bool.noConfusion hst
      | some row =>
        rw [hr] at hk
        obtain ⟨row1, hrow1, _, _, _⟩ := content_some hk
        rw [hrow1]
        rfl
  · have h1 := balance_sum_step l l1 a hbal_off
    have h2 := pending_sum_step l l1 k hpend_off
    have h3 := hc.total
    rw [hbal_a] at h1
    have key : ∀ (bs1 ps1 B P bs nb ps P1 G : Nat), bs1 + B = bs + nb → ps1 + P = ps + P1 →
        nb + P1 = B + P → bs + ps = G → bs1 + ps1 = G := by
      intros
      omega
    exact key _ _ _ _ _ _ _ _ _ h1 h2 hval h3

end nano

namespace nano

/-! ## Rollback stops at the confirmation height -/

/-- C21: for a stored block whose height is not above the confirmation
height of its account, `rollback` returns the error flag and hands back the
ledger (every store table and the representative weights) and the caller's
list as they were given. -/
theorem rollback_below_confirmation_height (env : Env) (l : ledger) (t : Hash)
    (list : List block) (fuel ch : Nat)
    (hst : l.store.block_exists t = true)
    (hch : l.store.confirmation_height_get (l.account t) = some ch)
    (hle : l.store.block_account_height t ≤ ch) :
    ledger.rollback env (fuel + 2) l t list = .ok (true, l, list) := by
  unfold ledger.rollback
  simp only
  unfold ledger.rollback_while
  simp only [hst, not_true_eq_false, if_false, hch]
  rw [if_neg (Nat.not_lt.mpr hle)]

theorem rollback_below_confirmation_height_witness :
    ledger.rollback example_net.env (0 + 2) example_net.cemented_ledger
      example_net.genesis_hash [] = .ok (true, example_net.cemented_ledger, []) :=
  rollback_below_confirmation_height example_net.env example_net.cemented_ledger
    example_net.genesis_hash [] 0 1 (by decide) (by decide) (by decide)

/-! ## The bootstrap weights -/

theorem send_block_flag (env : Env) (l : ledger) (res : process_return) (b : send_block)
    (r : process_return) (l1 : ledger)
    (h : ledger_processor.send_block env l res b = some (r, l1)) :
    l1.check_bootstrap_weights = l.check_bootstrap_weights := by
  unfold ledger_processor.send_block at h
  dsimp only at h
  repeat' split at h
  all_goals
    first
    | exact Option.noConfusion h
    | (simp only [Option.some.injEq, Prod.mk.injEq] at h
       rw [← h.2])

theorem receive_block_flag (env : Env) (l : ledger) (res : process_return) (b : receive_block)
    (r : process_return) (l1 : ledger)
    (h : ledger_processor.receive_block env l res b = some (r, l1)) :
    l1.check_bootstrap_weights = l.check_bootstrap_weights := by
  unfold ledger_processor.receive_block at h
  dsimp only at h
  repeat' split at h
  all_goals
    first
    | exact Option.noConfusion h
    | (simp only [Option.some.injEq, Prod.mk.injEq] at h
       rw [← h.2])

theorem open_block_flag (env : Env) (l : ledger) (res : process_return) (b : open_block)
    (r : process_return) (l1 : ledger)
    (h : ledger_processor.open_block env l res b = some (r, l1)) :
    l1.check_bootstrap_weights = l.check_bootstrap_weights := by
  unfold ledger_processor.open_block at h
  dsimp only at h
  repeat' split at h
  all_goals
    first
    | exact Option.noConfusion h
    | (simp only [Option.some.injEq, Prod.mk.injEq] at h
       rw [← h.2])

theorem change_block_flag (env : Env) (l : ledger) (res : process_return) (b : change_block)
    (r : process_return) (l1 : ledger)
    (h : ledger_processor.change_block env l res b = some (r, l1)) :
    l1.check_bootstrap_weights = l.check_bootstrap_weights := by
  unfold ledger_processor.change_block at h
  dsimp only at h
  repeat' split at h
  all_goals
    first
    | exact Option.noConfusion h
    | (simp only [Option.some.injEq, Prod.mk.injEq] at h
       rw [← h.2])

theorem state_block_flag (env : Env) (l : ledger) (res : process_return) (b : state_block)
    (r : process_return) (l1 : ledger)
    (h : ledger_processor.state_block env l res b = some (r, l1)) :
    l1.check_bootstrap_weights = l.check_bootstrap_weights := by
  by_cases hc : r.code = .progress
  · unfold ledger_processor.state_block at h
    dsimp only at h
    repeat' split at h
    all_goals
      first
      | (obtain ⟨_, _, _, _, hl1, _⟩ := epoch_block_impl_progress _ _ _ _ _ _ h hc
         rw [hl1])
      | (obtain ⟨_, _, _, hrecv, _⟩ := state_block_impl_progress _ _ _ _ _ _ h hc
         obtain ⟨_, hap, _⟩ := state_block_receive_progress _ _ _ _ _ _ _ _ _ hrecv hc
         obtain ⟨_, _, hl1, _⟩ := state_block_apply_shape _ _ _ _ _ _ _ _ _ hap
         rw [hl1])
      | (simp only [Option.some.injEq, Prod.mk.injEq] at h
         rw [← h.2])
  · rw [state_block_unchanged env l res b r l1 h hc]

theorem process_keeps_flag (env : Env) (l : ledger) (b : block) (v : signature_verification)
    (r : process_return) (l1 : ledger) (h : ledger.process env l b v = some (r, l1)) :
    l1.check_bootstrap_weights = l.check_bootstrap_weights := by
  unfold ledger.process at h
  cases b with
  | send b => exact send_block_flag _ _ _ _ _ _ h
  | receive b => exact receive_block_flag _ _ _ _ _ _ h
  | open_ b => exact open_block_flag _ _ _ _ _ _ h
  | change b => exact change_block_flag _ _ _ _ _ _ h
  | state b => exact state_block_flag _ _ _ _ _ _ h

/-- C25: `weight` returns the value of the bootstrap table when the flag
`check_bootstrap_weights` is set, the number of stored blocks is below
`bootstrap_weight_max_blocks` and the account is in the table, and the value
of the representative weights in every other case; it changes nothing but the
flag, which it clears exactly when it is set and the block count is not below
the threshold; with the flag cleared every call, for every store and account,
returns the value of the representative weights and leaves the flag cleared;
and `process` never changes the flag. -/
theorem weight_bootstrap_until_threshold (env : Env) (l : ledger) (a : Account) :
    (ledger.weight env l a).1
      = (if l.check_bootstrap_weights = true ∧
            l.store.block_count < env.bootstrap_weight_max_blocks then
          match env.bootstrap_weights.get a with
          | some w => w
          | none => representation_get l.rep_weights a
         else representation_get l.rep_weights a) ∧
    (ledger.weight env l a).2.store = l.store ∧
    (ledger.weight env l a).2.rep_weights = l.rep_weights ∧
    (ledger.weight env l a).2.check_bootstrap_weights
      = (l.check_bootstrap_weights &&
          decide (l.store.block_count < env.bootstrap_weight_max_blocks)) ∧
    (∀ (l2 : ledger) (a2 : Account), l2.check_bootstrap_weights = false →
      ledger.weight env l2 a2 = (representation_get l2.rep_weights a2, l2)) ∧
    (∀ (l2 : ledger) (b : block) (v : signature_verification) (r : process_return)
      (l3 : ledger), ledger.process env l2 b v = some (r, l3) →
      l3.check_bootstrap_weights = l2.check_bootstrap_weights) := by
  refine ⟨?_, ?_, ?_, ?_, ?_, ?_⟩
  · unfold ledger.weight
    by_cases hf : l.check_bootstrap_weights = true
    · by_cases hb : l.store.block_count < env.bootstrap_weight_max_blocks
      · simp only [hf, hb, if_true, and_self]
        cases env.bootstrap_weights.get a <;> rfl
      · simp only [hf, hb, if_true, if_false, and_false]
    · simp only [hf, Bool.false_eq_true, if_false, false_and]
  · unfold ledger.weight
    dsimp only
    repeat' split
    all_goals rfl
  · unfold ledger.weight
    dsimp only
    repeat' split
    all_goals rfl
  · unfold ledger.weight
    by_cases hf : l.check_bootstrap_weights = true
    · by_cases hb : l.store.block_count < env.bootstrap_weight_max_blocks
      · simp only [hf, hb, if_true, decide_True, Bool.and_self]
        cases env.bootstrap_weights.get a <;> exact hf
      · simp only [hf, hb, if_true, if_false, decide_False, Bool.and_false]
    · simp only [Bool.not_eq_true] at hf
      simp only [hf, Bool.false_eq_true, if_false, Bool.false_and]
  · intro l2 a2 hf
    unfold ledger.weight
    simp only [hf, Bool.false_eq_true, if_false]
  · intro l2 b v r l3 h
    exact process_keeps_flag env l2 b v r l3 h

/-! ## Legacy receive on a previous without frontier account -/

/-- C26: for a legacy receive block that is not stored, whose previous is
stored and is a legacy block, and whose previous has no frontier account,
`process` returns `fork` (never `gap_previous`) and leaves the ledger as it
was. -/
theorem legacy_receive_without_frontier_forks (env : Env) (l : ledger) (b : receive_block)
    (v : signature_verification) (previous : block_row)
    (hnew : l.store.block_exists_type .receive (env.hash (.receive b)) = false)
    (hprev : l.store.block_get b.previous = some previous)
    (hpos : valid_predecessor previous.block = true)
    (hfr : l.store.frontier_get b.previous = 0) :
    ∃ r, ledger.process env l (.receive b) v = some (r, l) ∧ r.code = .fork ∧
      r.code ≠ .gap_previous := by
  have hex : l.store.block_exists b.previous = true := by
    unfold Store.block_exists
    rw [hprev]
    rfl
  refine ⟨{ process_return.init v with code := .fork }, ?_, rfl,
    fun hk => process_result.noConfusion hk⟩
  unfold ledger.process
  simp only
  unfold ledger_processor.receive_block
  simp only [hnew, hprev, hpos, hfr, hex, Bool.false_eq_true, if_false, if_true,
    not_true_eq_false]

theorem legacy_receive_without_frontier_forks_witness :
    ∃ r, ledger.process example_net.env example_net.sent_ledger
        (.receive example_net.stale_receive) .unknown = some (r, example_net.sent_ledger) ∧
      r.code = .fork ∧ r.code ≠ .gap_previous :=
  legacy_receive_without_frontier_forks example_net.env example_net.sent_ledger
    example_net.stale_receive .unknown example_net.genesis_row_after_send
    (by decide) (by decide) (by decide) (by decide)

end nano

namespace nano

/-! ## Rollback: evaluations at failing inputs -/

/-- C22 (evaluation at the failing input): genesis has sent 100 to account 3
with a state block, account 3 has received it, and the open block of account 3
is cemented. `rollback` of the state send returns the error flag, because the
nested rollback of account 3 fails; yet the state send is no longer stored, the
row of genesis has its head moved back to the genesis open block, and the
weight of genesis is 1000 instead of 900. -/
theorem failed_state_send_rollback_still_writes :
    example_net.cemented_3_ledger.store.block_exists
        (example_net.hash (.state example_net.state_send_1)) = true ∧
    (example_net.cemented_3_ledger.store.account_get example_net.genesis).map
        account_info.head = some (example_net.hash (.state example_net.state_send_1)) ∧
    representation_get example_net.cemented_3_ledger.rep_weights example_net.genesis = 900 ∧
    (example_net.rollback_outcome example_net.cemented_3_ledger
        (example_net.hash (.state example_net.state_send_1))).map
      (fun p => (p.1,
        p.2.store.block_exists (example_net.hash (.state example_net.state_send_1)),
        (p.2.store.account_get example_net.genesis).map account_info.head,
        representation_get p.2.rep_weights example_net.genesis))
      = some (true, false, some example_net.genesis_hash, 1000) := by
  decide

/-- C27 (evaluation at the failing input): account 2 was opened by its open
block and has received a second send with a legacy receive block. Before the
receive the row of account 2 had the open block as `open_block`. The inversion
of the receive block returns no error, re-inserts the pending row, takes the
amount from the weight of the representative and moves the frontier back, but
the row of account 2 it writes has `open_block` zero. -/
theorem receive_inversion_writes_zero_open_block :
    example_net.receivable_ledger.store.account_get 2
      = some { head := example_net.hash (.open_ example_net.open_2), representative := 2,
               open_block := example_net.hash (.open_ example_net.open_2) } ∧
    (example_net.inversion_outcome example_net.received_ledger
        (.receive example_net.receive_2)).map
      (fun p => (p.1, p.2.store.account_get 2))
      = some (false,
          some { head := example_net.hash (.open_ example_net.open_2), representative := 2,
                 open_block := 0 }) ∧
    (example_net.inversion_outcome example_net.received_ledger
        (.receive example_net.receive_2)).map
      (fun p => p.2.store.pending_get
        { account := 2, hash := example_net.hash (.send example_net.send_2) })
      = some (some { source := example_net.genesis, amount := 50, epoch := .epoch_0 }) ∧
    (example_net.inversion_outcome example_net.received_ledger
        (.receive example_net.receive_2)).map
      (fun p => (representation_get p.2.rep_weights 2,
        p.2.store.frontier_get (example_net.hash (.open_ example_net.open_2)),
        p.2.store.frontier_get (example_net.hash (.receive example_net.receive_2))))
      = some (100, 2, 0) := by
  decide

/-- C28 (evaluation at the failing input): the representative of genesis is
the zero account, with weight 1000. A state block of genesis that names
account 5 as representative is accepted with `progress`; rolling it back
returns no error and leaves the zero account with weight 2000. -/
theorem zero_representative_round_trip_changes_weights :
    (example_net.zero_rep_ledger.account_state example_net.genesis).head ≠ 0 ∧
    (example_net.zero_rep_ledger.account_state example_net.genesis).rep = 0 ∧
    representation_get example_net.zero_rep_ledger.rep_weights 0 = 1000 ∧
    example_net.code_of example_net.zero_rep_ledger (.state example_net.from_zero_rep) .unknown
      = some .progress ∧
    (example_net.rollback_outcome
        (example_net.after example_net.zero_rep_ledger (.state example_net.from_zero_rep))
        (example_net.hash (.state example_net.from_zero_rep))).map
      (fun p => (p.1, representation_get p.2.rep_weights 0,
        representation_get p.2.rep_weights 5))
      = some (false, 2000, 0) := by
  decide

/-! ## The first block of an account -/

/-- C30 (evaluation at the failing input): genesis has sent its whole balance
with a legacy send block. Account 9 has no head. A state block of account 9
with the epoch link, balance 0, representative 0 and the send block of genesis
as previous, signed by the epoch signer, is handled as an epoch block and is
accepted with `progress`: it becomes the head of account 9 although its
previous is not zero, and the successor of the send block of genesis now
points to it. -/
theorem epoch_first_block_with_previous :
    example_net.emptied_ledger.latest 9 = 0 ∧
    example_net.epoch_first_9.previous ≠ 0 ∧
    ledger_processor.is_epoch_block example_net.env example_net.emptied_ledger .unknown
        example_net.epoch_first_9 = true ∧
    example_net.code_of example_net.emptied_ledger (.state example_net.epoch_first_9) .unknown
      = some .progress ∧
    (example_net.after example_net.emptied_ledger (.state example_net.epoch_first_9)).latest 9
      = example_net.hash (.state example_net.epoch_first_9) ∧
    (example_net.after example_net.emptied_ledger
        (.state example_net.epoch_first_9)).store.block_successor
        (example_net.hash (.send example_net.send_all))
      = example_net.hash (.state example_net.epoch_first_9) := by
  decide

end nano

namespace nano

/-! ## The inversion of a legacy send -/

theorem block_del_get_self (s : Store) (h : Hash) : (s.block_del h).blocks.get h = none := by
  unfold Store.block_del
  simp only [Map.get_del, if_true]

theorem block_successor_clear_get_none (s : Store) (p h : Hash) (hn : s.blocks.get h = none) :
    (s.block_successor_clear p).blocks.get h = none := by
  unfold Store.block_successor_clear
  cases hp : s.blocks.get p with
  | none => exact hn
  | some r =>
    simp only
    rw [Map.get_put]
    by_cases hk : p = h
    · rw [← hk, hp] at hn
      exact Option.noConfusion hn
    · rw [if_neg hk]
      exact hn

theorem send_loop_eq (rb : ledger → Hash → List block → Res rollback_state)
    (key : pending_key) (destination : Account) (fuel : Nat) (l : ledger) (list : List block) :
    rollback_visitor.send_loop rb key destination fuel l list
      = match l.store.pending_get key with
        | some pending => .ok (false, l, list, some pending)
        | none =>
          match fuel with
          | 0 => .out_of_fuel
          | n + 1 =>
            match rb l (l.latest destination) list with
            | .ok (true, l1, list1) => .ok (true, l1, list1, none)
            | .ok (false, l1, list1) =>
              rollback_visitor.send_loop rb key destination n l1 list1
            | .fault => .fault
            | .out_of_fuel => .out_of_fuel := by
  cases fuel with
  | zero => rw [rollback_visitor.send_loop]
  | succ n => rw [rollback_visitor.send_loop]

/-- C23: take a legacy send block `s` with destination `d` and a non-zero
previous other than its hash, and let the loop of its inversion end without
error on the ledger `l1` with the pending entry `p` under `(d, hash s)`, the row
of the sender `p.source` obeying the dual-table discipline, its head block
being stored and the key having a row in one pending table only. Then: when the
pending row is there at the start, the loop ends at once on the ledger and the
list it was given (no block of `d` is rolled back); when it is missing, the
loop rolls back the head of `d` and goes on from the ledger that leaves; the
inversion returns without error, and afterwards there is no pending row
`(d, hash s)`, `s` is not stored, the row of the sender is (previous of `s`,
representative as before, open block as before), the frontier maps the previous
of `s` to the sender and has no row for the hash of `s`, and the weight of the
representative of the sender has grown by the amount of the pending entry. -/
theorem legacy_send_inversion (env : Env)
    (rb : ledger → Hash → List block → Res rollback_state) (fuel : Nat)
    (l : ledger) (list : List block) (s : send_block)
    (l1 : ledger) (list1 : List block) (p : pending_info)
    (hloop : rollback_visitor.send_loop rb
      { account := s.destination, hash := env.hash (.send s) } s.destination fuel l list
      = .ok (false, l1, list1, some p))
    (hrow : l1.store.head_stored p.source = true)
    (hacc : l1.store.account_row_consistent p.source = true)
    (hdis : l1.store.pending_v1.get { account := s.destination, hash := env.hash (.send s) }
        = none ∨
      l1.store.pending_v0.get { account := s.destination, hash := env.hash (.send s) } = none)
    (hprev : s.previous ≠ 0) (hne : env.hash (.send s) ≠ s.previous) :
    (∀ p0, l.store.pending_get { account := s.destination, hash := env.hash (.send s) }
        = some p0 → l1 = l ∧ list1 = list ∧ p = p0) ∧
    (l.store.pending_get { account := s.destination, hash := env.hash (.send s) } = none →
      ∃ n la lista, fuel = n + 1 ∧
        rb l (l.latest s.destination) list = .ok (false, la, lista) ∧
        rollback_visitor.send_loop rb
          { account := s.destination, hash := env.hash (.send s) } s.destination n la lista
          = .ok (false, l1, list1, some p)) ∧
    l1.store.pending_get { account := s.destination, hash := env.hash (.send s) } = some p ∧
    ∃ l2, rollback_visitor.send_block env rb fuel l list s = .ok (false, l2, list1) ∧
      l2.store.pending_get { account := s.destination, hash := env.hash (.send s) } = none ∧
      l2.store.block_exists (env.hash (.send s)) = false ∧
      l2.store.account_get p.source
        = some { head := s.previous, representative := (l1.account_state p.source).rep,
                 open_block := (l1.account_state p.source).open_ } ∧
      l2.store.frontier_get s.previous = p.source ∧
      l2.store.frontier_get (env.hash (.send s)) = 0 ∧
      representation_get l2.rep_weights (l1.account_state p.source).rep
        = add128 (representation_get l1.rep_weights (l1.account_state p.source).rep)
            p.amount := by
  have hend : ∀ (n : Nat) (la : ledger) (lista : List block),
      rollback_visitor.send_loop rb
        { account := s.destination, hash := env.hash (.send s) } s.destination n la lista
        = .ok (false, l1, list1, some p) →
      l1.store.pending_get { account := s.destination, hash := env.hash (.send s) }
        = some p := by
    intro n
    induction n with
    | zero =>
      intro la lista hk
      rw [send_loop_eq] at hk
      cases hg : la.store.pending_get
        { account := s.destination, hash := env.hash (.send s) } with
      | none =>
        rw [hg] at hk
        exact Res.noConfusion hk
      | some q =>
        rw [hg] at hk
        simp only [Res.ok.injEq, Prod.mk.injEq, Option.some.injEq, true_and] at hk
        obtain ⟨h1, _, h3⟩ := hk
        rw [← h1, ← h3]
        exact hg
    | succ n ih =>
      intro la lista hk
      rw [send_loop_eq] at hk
      cases hg : la.store.pending_get
        { account := s.destination, hash := env.hash (.send s) } with
      | some q =>
        rw [hg] at hk
        simp only [Res.ok.injEq, Prod.mk.injEq, Option.some.injEq, true_and] at hk
        obtain ⟨h1, _, h3⟩ := hk
        rw [← h1, ← h3]
        exact hg
      | none =>
        rw [hg] at hk
        simp only at hk
        split at hk
        · simp only [Res.ok.injEq, Prod.mk.injEq] at hk
          exact absurd hk.1 (by decide)
        · exact ih _ _ hk
        · exact Res.noConfusion hk
        · exact Res.noConfusion hk
  have hpend := hend fuel l list hloop
  refine ⟨?_, ?_, hpend, ?_⟩
  · intro p0 hp0
    rw [send_loop_eq] at hloop
    rw [hp0] at hloop
    simp only [Res.ok.injEq, Prod.mk.injEq, Option.some.injEq, true_and] at hloop
    exact ⟨hloop.1.symm, hloop.2.1.symm, hloop.2.2.symm⟩
  · intro hnone
    rw [send_loop_eq] at hloop
    rw [hnone] at hloop
    simp only at hloop
    cases fuel with
    | zero => exact Res.noConfusion hloop
    | succ n =>
      simp only at hloop
      split at hloop
      · simp only [Res.ok.injEq, Prod.mk.injEq] at hloop
        exact absurd hloop.1 (by decide)
      · rename_i la lista hrb
        exact ⟨n, la, lista, rfl, hrb, hloop⟩
      · exact Res.noConfusion hloop
      · exact Res.noConfusion hloop
  · have hcl := change_latest_isSome
      (l1.store.pending_del { account := s.destination, hash := env.hash (.send s) })
      p.source (l1.account_state p.source)
      { head := s.previous, representative := (l1.account_state p.source).rep,
        open_block := (l1.account_state p.source).open_ } .epoch_0
      (account_state_row_of_head_stored l1 p.source hrow)
    cases hc : ledger.change_latest
      (l1.store.pending_del { account := s.destination, hash := env.hash (.send s) })
      p.source (l1.account_state p.source)
      { head := s.previous, representative := (l1.account_state p.source).rep,
        open_block := (l1.account_state p.source).open_ } .epoch_0 with
    | none => rw [hc] at hcl; exact Bool.noConfusion hcl
    | some store2 =>
      have hfrm := change_latest_frame _ _ _ _ _ _ hc
      have hget := change_latest_account_get _ store2 _ _ _ _ hc
        (consistent_row_upgraded l1 _ hacc _ (by simp) (by simp))
      rw [if_neg hprev] at hget
      refine ⟨ledger.mk
        ((((store2.block_del (env.hash (.send s))).frontier_del (env.hash (.send s))).frontier_put
          s.previous p.source).block_successor_clear s.previous)
        (representation_add l1.rep_weights (l1.account_state p.source).rep p.amount)
        l1.check_bootstrap_weights, ?_, ?_, ?_, ?_, ?_, ?_, ?_⟩
      · unfold rollback_visitor.send_block
        simp only [hloop, hc]
      · have hdel := pending_del_get_none l1.store
          { account := s.destination, hash := env.hash (.send s) } hdis
        rw [← hdel]
        apply pending_get_congr
        · simp only [Store.block_successor_clear_pending_v0, Store.frontier_put_pending_v0,
            Store.frontier_del_pending_v0, Store.block_del_pending_v0, hfrm.2.1]
        · simp only [Store.block_successor_clear_pending_v1, Store.frontier_put_pending_v1,
            Store.frontier_del_pending_v1, Store.block_del_pending_v1, hfrm.2.2.1]
      · unfold Store.block_exists Store.block_get
        rw [block_successor_clear_get_none]
        · rfl
        · simp only [Store.frontier_put_blocks, Store.frontier_del_blocks]
          exact block_del_get_self _ _
      · rw [← hget]
        apply account_get_congr
        · simp only [Store.block_successor_clear_accounts_v0, Store.frontier_put_accounts_v0,
            Store.frontier_del_accounts_v0, Store.block_del_accounts_v0]
        · simp only [Store.block_successor_clear_accounts_v1, Store.frontier_put_accounts_v1,
            Store.frontier_del_accounts_v1, Store.block_del_accounts_v1]
      · unfold Store.frontier_get
        simp only [Store.block_successor_clear_frontiers]
        exact frontier_put_get_self _ _ _
      · unfold Store.frontier_get
        simp only [Store.block_successor_clear_frontiers]
        unfold Store.frontier_put Store.frontier_del
        simp only [Map.get_put, Map.get_del, if_true]
        rw [if_neg (fun hk => hne hk.symm)]
        rfl
      · simp only
        rw [representation_get_add, if_pos rfl]

theorem legacy_send_inversion_witness :
    (∀ p0, example_net.opened_ledger.store.pending_get { account := example_net.send_1.destination, hash := example_net.env.hash (.send example_net.send_1) }
        = some p0 → example_net.unopened_ledger = example_net.opened_ledger ∧ [block.open_ example_net.open_2] = ([] : List block) ∧ example_net.pending_1 = p0) ∧
    (example_net.opened_ledger.store.pending_get { account := example_net.send_1.destination, hash := example_net.env.hash (.send example_net.send_1) } = none →
      ∃ n la lista, 8 = n + 1 ∧
        (ledger.rollback example_net.env 8) example_net.opened_ledger (example_net.opened_ledger.latest example_net.send_1.destination) [] = .ok (false, la, lista) ∧
        rollback_visitor.send_loop (ledger.rollback example_net.env 8)
          { account := example_net.send_1.destination, hash := example_net.env.hash (.send example_net.send_1) } example_net.send_1.destination n la lista
          = .ok (false, example_net.unopened_ledger, [block.open_ example_net.open_2], some example_net.pending_1)) ∧
    example_net.unopened_ledger.store.pending_get { account := example_net.send_1.destination, hash := example_net.env.hash (.send example_net.send_1) } = some example_net.pending_1 ∧
    ∃ l2, rollback_visitor.send_block example_net.env (ledger.rollback example_net.env 8) 8 example_net.opened_ledger [] example_net.send_1 = .ok (false, l2, [block.open_ example_net.open_2]) ∧
      l2.store.pending_get { account := example_net.send_1.destination, hash := example_net.env.hash (.send example_net.send_1) } = none ∧
      l2.store.block_exists (example_net.env.hash (.send example_net.send_1)) = false ∧
      l2.store.account_get example_net.pending_1.source
        = some { head := example_net.send_1.previous, representative := (example_net.unopened_ledger.account_state example_net.pending_1.source).rep,
                 open_block := (example_net.unopened_ledger.account_state example_net.pending_1.source).open_ } ∧
      l2.store.frontier_get example_net.send_1.previous = example_net.pending_1.source ∧
      l2.store.frontier_get (example_net.env.hash (.send example_net.send_1)) = 0 ∧
      representation_get l2.rep_weights (example_net.unopened_ledger.account_state example_net.pending_1.source).rep
        = add128 (representation_get example_net.unopened_ledger.rep_weights (example_net.unopened_ledger.account_state example_net.pending_1.source).rep)
            example_net.pending_1.amount :=
  legacy_send_inversion example_net.env (ledger.rollback example_net.env 8) 8
    example_net.opened_ledger [] example_net.send_1 example_net.unopened_ledger
    [block.open_ example_net.open_2] example_net.pending_1
    (by decide) (by decide) (by decide) (Or.inl (by decide)) (by decide) (by decide)

end nano

namespace nano

/-! ## Facts a consistent ledger gives to one step -/

theorem block_fresh (env : Env) (hs : env.sound) (l : ledger) (hc : ledger_consistent env l)
    (b : block) (hnew : l.store.block_exists_type b.type (env.hash b) = false) :
    l.store.blocks.get (env.hash b) = none := by
  cases hr : l.store.blocks.get (env.hash b) with
  | none => rfl
  | some row =>
    exfalso
    have hk := hc.keyed _ row hr
    have ht := hs.hash_typed _ _ hk
    unfold Store.block_exists_type Store.block_get at hnew
    rw [hr] at hnew
    simp only [decide_eq_false_iff_not] at hnew
    exact hnew ht

theorem account_balance_eq_state (env : Env) (l : ledger) (hc : ledger_consistent env l)
    (a : Account) : l.account_balance a = (l.account_state a).balance := by
  rw [account_balance_eq]
  by_cases hh : (l.account_state a).head = 0
  · rw [if_neg (not_not.mpr hh)]
    rcases account_rows_of_consistent env l hc a with ⟨g0, g1, _⟩ | ⟨i, _, _, hne, _⟩ |
      ⟨i, e0, _, _, hne, _⟩
    · unfold ledger.account_state
      rw [account_get_of_tables, g1, g0]
      rfl
    · exact absurd hh hne
    · exact absurd hh hne
  · rw [if_pos hh]

theorem balance_lt_two128 (env : Env) (hs : env.sound) (l : ledger)
    (hc : ledger_consistent env l) (a : Account) : l.account_balance a < two128 := by
  have h1 := account_balance_le_sum l a
  have h2 := hc.total
  have h3 := hs.genesis_128
  have key : ∀ (x bs ps g t : Nat), x ≤ bs → bs + ps = g → g < t → x < t := by
    intros
    omega
  exact key _ _ _ _ _ h1 h2 h3

theorem balance_add_pending_lt (env : Env) (hs : env.sound) (l : ledger)
    (hc : ledger_consistent env l) (a : Account) (k : pending_key) :
    l.account_balance a + l.pending_amount k < two128 := by
  have h1 := account_balance_le_sum l a
  have h1b := pending_amount_le_sum l k
  have h2 := hc.total
  have h3 := hs.genesis_128
  have key : ∀ (x y bs ps g t : Nat), x ≤ bs → y ≤ ps → bs + ps = g → g < t → x + y < t := by
    intros
    omega
  exact key _ _ _ _ _ _ h1 h1b h2 h3

theorem head_stored_of_consistent (env : Env) (l : ledger) (hc : ledger_consistent env l)
    (a : Account) : (l.account_state a).head ≠ 0 → (l.account_state a).row.isSome = true := by
  intro hh
  rcases account_rows_of_consistent env l hc a with ⟨_, _, h0⟩ | ⟨i, _, _, _, hep⟩ |
    ⟨i, e0, _, _, _, hep, _⟩
  · exact absurd h0 hh
  · unfold account_state.epoch at hep
    cases hr : (l.account_state a).row with
    | none => rw [hr] at hep; exact Option.noConfusion hep
    | some row => rfl
  · unfold account_state.epoch at hep
    cases hr : (l.account_state a).row with
    | none => rw [hr] at hep; exact Option.noConfusion hep
    | some row => rfl

/-! ## The pending tables after one step: three cases -/

theorem pending_amount_of_get (l : ledger) (k : pending_key) (p : pending_info)
    (h : l.store.pending_get k = some p) : l.pending_amount k = p.amount := by
  unfold ledger.pending_amount
  rw [h]

theorem pending_amount_of_none (l : ledger) (k : pending_key)
    (h : l.store.pending_get k = none) : l.pending_amount k = 0 := by
  unfold ledger.pending_amount
  rw [h]

theorem pending_get_none_of_tables (s : Store) (k : pending_key)
    (h : ∀ u, (s.pending_table u).get k = none) : s.pending_get k = none := by
  unfold Store.pending_get
  have h1 := h true
  have h0 := h false
  change s.pending_v1.get k = none at h1
  change s.pending_v0.get k = none at h0
  rw [h1, h0]

theorem pending_fresh_of_consistent (env : Env) (l : ledger) (hc : ledger_consistent env l)
    (k : pending_key) (hfresh : l.store.blocks.get k.hash = none) (u : Bool) :
    (l.store.pending_table u).get k = none := by
  cases hr : (l.store.pending_table u).get k with
  | none => rfl
  | some r =>
    have := (hc.pend u k r hr).1
    rw [hfresh] at this
    exact Bool.noConfusion this

theorem pending_del_table_self (env : Env) (l : ledger) (hc : ledger_consistent env l)
    (k : pending_key) (u : Bool) :
    ((l.store.pending_del k).pending_table u).get k = none := by
  unfold Store.pending_del Map.contains
  cases h1 : l.store.pending_v1.get k with
  | none =>
    simp only [Option.isSome_none, Bool.false_eq_true, if_false]
    cases u
    · change (l.store.pending_v0.del k).get k = none
      rw [Map.get_del, if_pos rfl]
    · exact h1
  | some r =>
    simp only [Option.isSome_some, if_true]
    cases u
    · exact (hc.pend true k r h1).2
    · change (l.store.pending_v1.del k).get k = none
      rw [Map.get_del, if_pos rfl]

end nano

namespace nano

/-! ## The pending tables after one step, as the general step needs them -/

theorem pending_case_put (env : Env) (l l1 : ledger) (hc : ledger_consistent env l)
    (b : block) (hfresh : l.store.blocks.get (env.hash b) = none)
    (k : pending_key) (info : pending_info) (hk : k.hash = env.hash b)
    (ht : ∀ u x, (l1.store.pending_table u).get x
      = if u = decide (info.epoch ≠ .epoch_0) ∧ k = x then
          some { source := info.source, amount := info.amount }
        else (l.store.pending_table u).get x) :
    (∀ u x, x ≠ k → (l1.store.pending_table u).get x = (l.store.pending_table u).get x) ∧
    (∀ u r, (l1.store.pending_table u).get k = some r →
      ((l.store.blocks.get k.hash).isSome = true ∨ k.hash = env.hash b) ∧
        (l1.store.pending_table (!u)).get k = none) ∧
    l1.pending_amount k = info.amount ∧ l.pending_amount k = 0 := by
  have hfr : ∀ u, (l.store.pending_table u).get k = none :=
    pending_fresh_of_consistent env l hc k (by rw [hk]; exact hfresh)
  refine ⟨?_, ?_, ?_, ?_⟩
  · intro u x hx
    rw [ht, if_neg (fun h => hx h.2.symm)]
  · intro u r hr
    refine ⟨Or.inr hk, ?_⟩
    rw [ht]
    by_cases hu : u = decide (info.epoch ≠ .epoch_0)
    · rw [if_neg, hfr]
      intro h
      rw [hu] at h
      cases hd : decide (info.epoch ≠ .epoch_0) <;> rw [hd] at h <;> exact Bool.noConfusion h.1
    · rw [ht, if_neg (fun h => hu h.1), hfr] at hr
      exact Option.noConfusion hr
  · unfold ledger.pending_amount Store.pending_get
    have h1 := ht true k
    have h0 := ht false k
    change l1.store.pending_v1.get k = _ at h1
    change l1.store.pending_v0.get k = _ at h0
    rw [h1, h0]
    by_cases he : info.epoch = .epoch_0
    · simp only [he, ne_eq, not_true_eq_false, decide_False, Bool.true_eq_false, false_and,
        if_false, and_self, if_true]
      rw [hfr true]
    · simp only [he, ne_eq, not_false_eq_true, decide_True, and_self, if_true]
  · exact pending_amount_of_none l k (pending_get_none_of_tables _ _ hfr)

theorem pending_case_del (env : Env) (l l1 : ledger) (hc : ledger_consistent env l)
    (b : block) (k : pending_key) (p : pending_info) (hp : l.store.pending_get k = some p)
    (ht : ∀ u, l1.store.pending_table u = (l.store.pending_del k).pending_table u) :
    (∀ u x, x ≠ k → (l1.store.pending_table u).get x = (l.store.pending_table u).get x) ∧
    (∀ u r, (l1.store.pending_table u).get k = some r →
      ((l.store.blocks.get k.hash).isSome = true ∨ k.hash = env.hash b) ∧
        (l1.store.pending_table (!u)).get k = none) ∧
    l1.pending_amount k = 0 ∧ l.pending_amount k = p.amount := by
  have hnone : ∀ u, (l1.store.pending_table u).get k = none := by
    intro u
    rw [ht]
    exact pending_del_table_self env l hc k u
  refine ⟨?_, ?_, ?_, pending_amount_of_get l k p hp⟩
  · intro u x hx
    rw [ht]
    exact pending_del_other _ _ _ _ hx
  · intro u r hr
    rw [hnone] at hr
    exact Option.noConfusion hr
  · exact pending_amount_of_none l1 k (pending_get_none_of_tables _ _ hnone)

theorem pending_case_same (env : Env) (l l1 : ledger) (hc : ledger_consistent env l)
    (b : block) (k : pending_key)
    (ht : ∀ u, l1.store.pending_table u = l.store.pending_table u) :
    (∀ u x, x ≠ k → (l1.store.pending_table u).get x = (l.store.pending_table u).get x) ∧
    (∀ u r, (l1.store.pending_table u).get k = some r →
      ((l.store.blocks.get k.hash).isSome = true ∨ k.hash = env.hash b) ∧
        (l1.store.pending_table (!u)).get k = none) ∧
    l1.pending_amount k = l.pending_amount k := by
  refine ⟨?_, ?_, ?_⟩
  · intro u x _
    rw [ht]
  · intro u r hr
    rw [ht] at hr
    obtain ⟨h1, h2⟩ := hc.pend u k r hr
    exact ⟨Or.inl h1, by rw [ht]; exact h2⟩
  · exact pending_amount_congr l l1 k (fun u => by rw [ht])

theorem pending_table_if_frontier (s : Store) (c : Prop) [Decidable c] (h : Hash) (u : Bool) :
    (if c then s.frontier_del h else s).pending_table u = s.pending_table u := by
  split
  · cases u <;> rfl
  · rfl

/-! ## A legacy send keeps the ledger consistent -/

theorem send_block_new (env : Env) (l : ledger) (res : process_return) (b : send_block)
    (r : process_return) (l1 : ledger)
    (h : ledger_processor.send_block env l res b = some (r, l1)) (hc : r.code = .progress) :
    l.store.block_exists_type .send (env.hash (.send b)) = false := by
  unfold ledger_processor.send_block at h
  dsimp only at h
  split at h
  · simp only [Option.some.injEq, Prod.mk.injEq] at h
    rw [← h.1] at hc
    exact process_result.noConfusion hc
  · rename_i hn
    simpa using hn

theorem send_block_consistent (env : Env) (hs : env.sound) (l : ledger)
    (hcs : ledger_consistent env l) (res : process_return) (b : send_block)
    (r : process_return) (l1 : ledger)
    (h : ledger_processor.send_block env l res b = some (r, l1)) (hc : r.code = .progress) :
    ledger_consistent env l1 := by
  have hfresh := block_fresh env hs l hcs (.send b) (send_block_new env l res b r l1 h hc)
  obtain ⟨store2, hle, hcl, hl1, _⟩ := send_block_progress env l res b r l1 h hc
  have hfrm := change_latest_frame _ _ _ _ _ _ hcl
  have htab := change_latest_tables env l hcs _ store2 _ _ _ (by simp) (by simp)
    (hs.hash_nonzero (.send b)) hcl
  have hB := account_balance_eq_state env l hcs (l.store.frontier_get b.previous)
  have hBlt := balance_lt_two128 env hs l hcs (l.store.frontier_get b.previous)
  obtain ⟨hpoff, hpk, hp1, hp0⟩ := pending_case_put env l l1 hcs (.send b) hfresh
    { account := b.destination, hash := env.hash (.send b) }
    { source := l.store.frontier_get b.previous,
      amount := sub128 (l.account_state (l.store.frontier_get b.previous)).balance b.balance,
      epoch := .epoch_0 } rfl
    (by
      intro u x
      rw [hl1]
      have hcg : ∀ v, store2.pending_table v = l.store.pending_table v := by
        intro v
        rw [pending_table_congr store2 _ hfrm.2.1 hfrm.2.2.1]
        exact pending_table_block_put _ _ _ _ _ _
      have : (((store2.pending_put { account := b.destination, hash := env.hash (.send b) }
          { source := l.store.frontier_get b.previous,
            amount := sub128 (l.account_state (l.store.frontier_get b.previous)).balance
              b.balance,
            epoch := .epoch_0 }).frontier_del b.previous).frontier_put (env.hash (.send b))
          (l.store.frontier_get b.previous)).pending_table u
          = (store2.pending_put { account := b.destination, hash := env.hash (.send b) }
          { source := l.store.frontier_get b.previous,
            amount := sub128 (l.account_state (l.store.frontier_get b.previous)).balance
              b.balance,
            epoch := .epoch_0 }).pending_table u := by
        cases u <;> rfl
      simp only
      rw [this, pending_put_table_get, hcg])
  refine consistent_step env hs l l1 hcs (l.store.frontier_get b.previous) (.send b) .epoch_0
    b.balance { head := env.hash (.send b),
                representative := (l.account_state (l.store.frontier_get b.previous)).rep,
                open_block := (l.account_state (l.store.frontier_get b.previous)).open_ }
    { account := b.destination, hash := env.hash (.send b) } hfresh rfl ?_ ?_ ?_ ?_ hpoff hpk ?_
  · intro x
    rw [hl1]
    simp only [Store.frontier_put_blocks, Store.frontier_del_blocks, Store.pending_put_blocks,
      hfrm.1]
    exact block_put_content _ _ _ _ _ _
  · intro x hx
    rw [hl1]
    simp only [Store.frontier_put_accounts_v0, Store.frontier_del_accounts_v0,
      Store.pending_put_accounts_v0, Store.frontier_put_accounts_v1,
      Store.frontier_del_accounts_v1, Store.pending_put_accounts_v1]
    exact htab.1 x hx
  · intro he
    rw [hl1]
    simp only [Store.frontier_put_accounts_v0, Store.frontier_del_accounts_v0,
      Store.pending_put_accounts_v0, Store.frontier_put_accounts_v1,
      Store.frontier_del_accounts_v1, Store.pending_put_accounts_v1]
    exact htab.2.1 he
  · intro he
    exact absurd rfl he
  · rw [hB] at hBlt
    rw [hp1, hp0, hB]
    show b.balance + sub128 (l.account_state (l.store.frontier_get b.previous)).balance
      b.balance = (l.account_state (l.store.frontier_get b.previous)).balance + 0
    rw [sub128_of_le _ _ hle hBlt, Nat.add_zero]
    exact Nat.add_sub_cancel' hle

/-! ## A legacy receive keeps the ledger consistent -/

theorem receive_block_new (env : Env) (l : ledger) (res : process_return) (b : receive_block)
    (r : process_return) (l1 : ledger)
    (h : ledger_processor.receive_block env l res b = some (r, l1))
    (hc : r.code = .progress) :
    l.store.block_exists_type .receive (env.hash (.receive b)) = false := by
  unfold ledger_processor.receive_block at h
  dsimp only at h
  split at h
  · simp only [Option.some.injEq, Prod.mk.injEq] at h
    rw [← h.1] at hc
    exact process_result.noConfusion hc
  · rename_i hn
    simpa using hn

theorem receive_block_consistent (env : Env) (hs : env.sound) (l : ledger)
    (hcs : ledger_consistent env l) (res : process_return) (b : receive_block)
    (r : process_return) (l1 : ledger)
    (h : ledger_processor.receive_block env l res b = some (r, l1))
    (hc : r.code = .progress) :
    ledger_consistent env l1 := by
  have hfresh := block_fresh env hs l hcs (.receive b) (receive_block_new env l res b r l1 h hc)
  obtain ⟨p, store3, hp, _, _, hcl, hl1, _⟩ := receive_block_progress env l res b r l1 h hc
  have hfrm := change_latest_frame _ _ _ _ _ _ hcl
  have htab := change_latest_tables env l hcs _ store3 _ _ _ (by simp) (by simp)
    (hs.hash_nonzero (.receive b)) hcl
  have hB := account_balance_eq_state env l hcs (l.store.frontier_get b.previous)
  have hlt := balance_add_pending_lt env hs l hcs (l.store.frontier_get b.previous)
    { account := l.store.frontier_get b.previous, hash := b.source }
  obtain ⟨hpoff, hpk, hp1, hp0⟩ := pending_case_del env l l1 hcs (.receive b)
    { account := l.store.frontier_get b.previous, hash := b.source } p hp
    (by
      intro u
      rw [hl1]
      have : ((store3.frontier_del b.previous).frontier_put (env.hash (.receive b))
          (l.store.frontier_get b.previous)).pending_table u = store3.pending_table u := by
        cases u <;> rfl
      simp only
      rw [this, pending_table_congr store3 _ hfrm.2.1 hfrm.2.2.1]
      exact pending_table_block_put _ _ _ _ _ _)
  refine consistent_step env hs l l1 hcs (l.store.frontier_get b.previous) (.receive b) .epoch_0
    (add128 (l.account_state (l.store.frontier_get b.previous)).balance p.amount)
    { head := env.hash (.receive b),
      representative := (l.account_state (l.store.frontier_get b.previous)).rep,
      open_block := (l.account_state (l.store.frontier_get b.previous)).open_ }
    { account := l.store.frontier_get b.previous, hash := b.source } hfresh rfl ?_ ?_ ?_ ?_
    hpoff hpk ?_
  · intro x
    rw [hl1]
    simp only [Store.frontier_put_blocks, Store.frontier_del_blocks, hfrm.1]
    rw [block_put_content, Store.pending_del_blocks]
  · intro x hx
    rw [hl1]
    simp only [Store.frontier_put_accounts_v0, Store.frontier_del_accounts_v0,
      Store.frontier_put_accounts_v1, Store.frontier_del_accounts_v1]
    exact htab.1 x hx
  · intro he
    rw [hl1]
    simp only [Store.frontier_put_accounts_v0, Store.frontier_del_accounts_v0,
      Store.frontier_put_accounts_v1, Store.frontier_del_accounts_v1]
    exact htab.2.1 he
  · intro he
    exact absurd rfl he
  · rw [hp0, hB] at hlt
    rw [hp1, hp0, hB]
    show add128 (l.account_state (l.store.frontier_get b.previous)).balance p.amount + 0
      = (l.account_state (l.store.frontier_get b.previous)).balance + p.amount
    rw [add128_of_lt _ _ hlt, Nat.add_zero]

/-! ## A legacy open keeps the ledger consistent -/

theorem open_block_new (env : Env) (l : ledger) (res : process_return) (b : open_block)
    (r : process_return) (l1 : ledger)
    (h : ledger_processor.open_block env l res b = some (r, l1))
    (hc : r.code = .progress) :
    l.store.block_exists_type .open_ (env.hash (.open_ b)) = false := by
  unfold ledger_processor.open_block at h
  dsimp only at h
  split at h
  · simp only [Option.some.injEq, Prod.mk.injEq] at h
    rw [← h.1] at hc
    exact process_result.noConfusion hc
  · rename_i hn
    simpa using hn

theorem open_block_consistent (env : Env) (hs : env.sound) (l : ledger)
    (hcs : ledger_consistent env l) (res : process_return) (b : open_block)
    (r : process_return) (l1 : ledger)
    (h : ledger_processor.open_block env l res b = some (r, l1))
    (hc : r.code = .progress) :
    ledger_consistent env l1 := by
  have hfresh := block_fresh env hs l hcs (.open_ b) (open_block_new env l res b r l1 h hc)
  obtain ⟨p, store3, hp, _, hh0, hcl, hl1, _⟩ := open_block_progress env l res b r l1 h hc
  have hfrm := change_latest_frame _ _ _ _ _ _ hcl
  have htab := change_latest_tables env l hcs _ store3 _ _ _ (by simp) (by simp)
    (hs.hash_nonzero (.open_ b)) hcl
  have hB : l.account_balance b.account = 0 := by
    rw [account_balance_eq, if_neg (not_not.mpr hh0)]
  obtain ⟨hpoff, hpk, hp1, hp0⟩ := pending_case_del env l l1 hcs (.open_ b)
    { account := b.account, hash := b.source } p hp
    (by
      intro u
      rw [hl1]
      have : (store3.frontier_put (env.hash (.open_ b)) b.account).pending_table u
          = store3.pending_table u := by
        cases u <;> rfl
      simp only
      rw [this, pending_table_congr store3 _ hfrm.2.1 hfrm.2.2.1]
      exact pending_table_block_put _ _ _ _ _ _)
  refine consistent_step env hs l l1 hcs b.account (.open_ b) .epoch_0 p.amount
    { head := env.hash (.open_ b), representative := b.representative,
      open_block := env.hash (.open_ b) }
    { account := b.account, hash := b.source } hfresh rfl ?_ ?_ ?_ ?_ hpoff hpk ?_
  · intro x
    rw [hl1]
    simp only [Store.frontier_put_blocks, hfrm.1]
    rw [block_put_content, Store.pending_del_blocks]
  · intro x hx
    rw [hl1]
    simp only [Store.frontier_put_accounts_v0, Store.frontier_put_accounts_v1]
    exact htab.1 x hx
  · intro he
    rw [hl1]
    simp only [Store.frontier_put_accounts_v0, Store.frontier_put_accounts_v1]
    exact htab.2.1 he
  · intro he
    exact absurd rfl he
  · rw [hp1, hp0, hB]
    show p.amount + 0 = 0 + p.amount
    rw [Nat.add_zero, Nat.zero_add]

/-! ## A legacy change keeps the ledger consistent -/

theorem change_block_new (env : Env) (l : ledger) (res : process_return) (b : change_block)
    (r : process_return) (l1 : ledger)
    (h : ledger_processor.change_block env l res b = some (r, l1))
    (hc : r.code = .progress) :
    l.store.block_exists_type .change (env.hash (.change b)) = false := by
  unfold ledger_processor.change_block at h
  dsimp only at h
  split at h
  · simp only [Option.some.injEq, Prod.mk.injEq] at h
    rw [← h.1] at hc
    exact process_result.noConfusion hc
  · rename_i hn
    simpa using hn

theorem change_block_consistent (env : Env) (hs : env.sound) (l : ledger)
    (hcs : ledger_consistent env l) (res : process_return) (b : change_block)
    (r : process_return) (l1 : ledger)
    (h : ledger_processor.change_block env l res b = some (r, l1))
    (hc : r.code = .progress) :
    ledger_consistent env l1 := by
  have hfresh := block_fresh env hs l hcs (.change b) (change_block_new env l res b r l1 h hc)
  obtain ⟨store2, bal, _, hcl, hl1, _⟩ := change_block_progress env l res b r l1 h hc
  have hfrm := change_latest_frame _ _ _ _ _ _ hcl
  have htab := change_latest_tables env l hcs _ store2 _ _ _ (by simp) (by simp)
    (hs.hash_nonzero (.change b)) hcl
  have hB := account_balance_eq_state env l hcs (l.store.frontier_get b.previous)
  obtain ⟨hpoff, hpk, hp1⟩ := pending_case_same env l l1 hcs (.change b)
    { account := 0, hash := 0 }
    (by
      intro u
      rw [hl1]
      have : ((store2.frontier_del b.previous).frontier_put (env.hash (.change b))
          (l.store.frontier_get b.previous)).pending_table u = store2.pending_table u := by
        cases u <;> rfl
      simp only
      rw [this, pending_table_congr store2 _ hfrm.2.1 hfrm.2.2.1]
      exact pending_table_block_put _ _ _ _ _ _)
  refine consistent_step env hs l l1 hcs (l.store.frontier_get b.previous) (.change b) .epoch_0
    (l.account_state (l.store.frontier_get b.previous)).balance
    { head := env.hash (.change b), representative := b.representative,
      open_block := (l.account_state (l.store.frontier_get b.previous)).open_ }
    { account := 0, hash := 0 } hfresh rfl ?_ ?_ ?_ ?_ hpoff hpk ?_
  · intro x
    rw [hl1]
    simp only [Store.frontier_put_blocks, Store.frontier_del_blocks, hfrm.1]
    rw [block_put_content]
  · intro x hx
    rw [hl1]
    simp only [Store.frontier_put_accounts_v0, Store.frontier_del_accounts_v0,
      Store.frontier_put_accounts_v1, Store.frontier_del_accounts_v1]
    exact htab.1 x hx
  · intro he
    rw [hl1]
    simp only [Store.frontier_put_accounts_v0, Store.frontier_del_accounts_v0,
      Store.frontier_put_accounts_v1, Store.frontier_del_accounts_v1]
    exact htab.2.1 he
  · intro he
    exact absurd rfl he
  · rw [hp1, hB]
    rfl

end nano

namespace nano

/-! ## A state block keeps the ledger consistent -/

theorem if_frontier_del_blocks (s : Store) (c : Prop) [Decidable c] (h : Hash) :
    (if c then s.frontier_del h else s).blocks = s.blocks := by
  split <;> rfl

theorem if_frontier_del_accounts_v0 (s : Store) (c : Prop) [Decidable c] (h : Hash) :
    (if c then s.frontier_del h else s).accounts_v0 = s.accounts_v0 := by
  split <;> rfl

theorem if_frontier_del_accounts_v1 (s : Store) (c : Prop) [Decidable c] (h : Hash) :
    (if c then s.frontier_del h else s).accounts_v1 = s.accounts_v1 := by
  split <;> rfl

theorem state_block_apply_consistent (env : Env) (hs : env.sound) (l : ledger)
    (hcs : ledger_consistent env l) (res : process_return) (b : state_block) (e : epoch)
    (is_send : Bool) (r : process_return) (l1 : ledger)
    (hfresh : l.store.blocks.get (env.hash (.state b)) = none)
    (h : ledger_processor.state_block_apply env l res b (l.account_state b.account) e is_send
      = some (r, l1))
    (hval : (is_send = true ∧ b.balance + res.amount = l.account_balance b.account) ∨
      (is_send = false ∧ b.link ≠ 0 ∧
        ∃ p, l.store.pending_get { account := b.account, hash := b.link } = some p ∧
          b.balance = l.account_balance b.account + p.amount) ∨
      (is_send = false ∧ b.link = 0 ∧ b.balance = l.account_balance b.account)) :
    ledger_consistent env l1 := by
  obtain ⟨store3, hcl, hl1, _⟩ := state_block_apply_shape env l res b _ e is_send r l1 h
  have hfrm := change_latest_frame _ _ _ _ _ _ hcl
  have hblocks : ∀ x, (l1.store.blocks.get x).map block_row.content
      = if x = env.hash (.state b) then some (.state b, e, 0)
        else (l.store.blocks.get x).map block_row.content := by
    intro x
    rw [hl1]
    simp only [if_frontier_del_blocks, hfrm.1]
    split
    · rw [Store.pending_put_blocks, block_put_content]
    · split
      · rw [Store.pending_del_blocks, block_put_content]
      · rw [block_put_content]
  have htab := change_latest_tables env l hcs _ store3 _ _ _
    (by split
        · simp
        · split <;> simp)
    (by split
        · simp
        · split <;> simp)
    (hs.hash_nonzero (.state b)) hcl
  have hoff : ∀ x, x ≠ b.account →
      l1.store.accounts_v0.get x = l.store.accounts_v0.get x ∧
      l1.store.accounts_v1.get x = l.store.accounts_v1.get x := by
    intro x hx
    rw [hl1]
    simp only [if_frontier_del_accounts_v0, if_frontier_del_accounts_v1]
    exact htab.1 x hx
  have ha0 : e = .epoch_0 → l1.store.accounts_v0.get b.account
      = some { head := env.hash (.state b), representative := b.representative,
               open_block := if (l.account_state b.account).open_ = 0 then env.hash (.state b)
                             else (l.account_state b.account).open_ } ∧
      l1.store.accounts_v1.get b.account = none := by
    intro he
    rw [hl1]
    simp only [if_frontier_del_accounts_v0, if_frontier_del_accounts_v1]
    exact htab.2.1 he
  have ha1 : ¬ e = .epoch_0 → l1.store.accounts_v1.get b.account
      = some { head := env.hash (.state b), representative := b.representative,
               open_block := if (l.account_state b.account).open_ = 0 then env.hash (.state b)
                             else (l.account_state b.account).open_ } ∧
      l1.store.accounts_v0.get b.account = none := by
    intro he
    rw [hl1]
    simp only [if_frontier_del_accounts_v0, if_frontier_del_accounts_v1]
    exact htab.2.2 he
  have hpt : ∀ u, l1.store.pending_table u
      = (if is_send = true then
          (l.store.block_put (env.hash (.state b)) (.state b)
            { type := .state, account := b.account, successor := 0, balance := 0,
              height := (l.account_state b.account).block_count + 1,
              timestamp := env.seconds_since_epoch } e).pending_put
            { account := b.link, hash := env.hash (.state b) }
            { source := b.account, amount := res.amount, epoch := e }
        else if b.link ≠ 0 then
          (l.store.block_put (env.hash (.state b)) (.state b)
            { type := .state, account := b.account, successor := 0, balance := 0,
              height := (l.account_state b.account).block_count + 1,
              timestamp := env.seconds_since_epoch } e).pending_del
            { account := b.account, hash := b.link }
        else
          l.store.block_put (env.hash (.state b)) (.state b)
            { type := .state, account := b.account, successor := 0, balance := 0,
              height := (l.account_state b.account).block_count + 1,
              timestamp := env.seconds_since_epoch } e).pending_table u := by
    intro u
    rw [hl1]
    simp only
    rw [pending_table_if_frontier, pending_table_congr store3 _ hfrm.2.1 hfrm.2.2.1]
  rcases hval with ⟨his, hv⟩ | ⟨his, hlink, p, hp, hv⟩ | ⟨his, hlink, hv⟩
  · obtain ⟨hpoff, hpk, hp1, hp0⟩ := pending_case_put env l l1 hcs (.state b) hfresh
      { account := b.link, hash := env.hash (.state b) }
      { source := b.account, amount := res.amount, epoch := e } rfl
      (by
        intro u x
        rw [hpt u, if_pos his, pending_put_table_get, pending_table_block_put])
    refine consistent_step env hs l l1 hcs b.account (.state b) e 0 _
      { account := b.link, hash := env.hash (.state b) } hfresh rfl hblocks hoff ha0 ha1
      hpoff hpk ?_
    rw [hp1, hp0]
    show b.balance + res.amount = l.account_balance b.account + 0
    rw [hv, Nat.add_zero]
  · obtain ⟨hpoff, hpk, hp1, hp0⟩ := pending_case_del env l l1 hcs (.state b)
      { account := b.account, hash := b.link } p hp
      (by
        intro u
        rw [hpt u, if_neg (by rw [his]; exact Bool.false_ne_true), if_pos hlink,
          pending_table_pending_del_block_put])
    refine consistent_step env hs l l1 hcs b.account (.state b) e 0 _
      { account := b.account, hash := b.link } hfresh rfl hblocks hoff ha0 ha1
      hpoff hpk ?_
    rw [hp1, hp0]
    show b.balance + 0 = l.account_balance b.account + p.amount
    rw [hv, Nat.add_zero]
  · obtain ⟨hpoff, hpk, hp1⟩ := pending_case_same env l l1 hcs (.state b)
      { account := 0, hash := 0 }
      (by
        intro u
        rw [hpt u, if_neg (by rw [his]; exact Bool.false_ne_true),
          if_neg (not_not.mpr hlink), pending_table_block_put])
    refine consistent_step env hs l l1 hcs b.account (.state b) e 0 _
      { account := 0, hash := 0 } hfresh rfl hblocks hoff ha0 ha1 hpoff hpk ?_
    rw [hp1]
    show b.balance + _ = l.account_balance b.account + _
    rw [hv]

end nano

namespace nano

theorem state_block_impl_new (env : Env) (l : ledger) (res : process_return) (b : state_block)
    (r : process_return) (l1 : ledger)
    (h : ledger_processor.state_block_impl env l res b = some (r, l1))
    (hc : r.code = .progress) :
    l.store.block_exists_type .state (env.hash (.state b)) = false := by
  unfold ledger_processor.state_block_impl at h
  dsimp only at h
  split at h
  · simp only [Option.some.injEq, Prod.mk.injEq] at h
    rw [← h.1] at hc
    exact process_result.noConfusion hc
  · rename_i hn
    simpa using hn

theorem epoch_block_impl_new (env : Env) (l : ledger) (res : process_return) (b : state_block)
    (r : process_return) (l1 : ledger)
    (h : ledger_processor.epoch_block_impl env l res b = some (r, l1))
    (hc : r.code = .progress) :
    l.store.block_exists_type .state (env.hash (.state b)) = false := by
  unfold ledger_processor.epoch_block_impl at h
  dsimp only at h
  split at h
  · simp only [Option.some.injEq, Prod.mk.injEq] at h
    rw [← h.1] at hc
    exact process_result.noConfusion hc
  · rename_i hn
    simpa using hn

theorem state_block_impl_consistent (env : Env) (hs : env.sound) (l : ledger)
    (hcs : ledger_consistent env l) (res : process_return) (b : state_block)
    (hty : b.balance < two128) (r : process_return) (l1 : ledger)
    (h : ledger_processor.state_block_impl env l res b = some (r, l1))
    (hc : r.code = .progress) :
    ledger_consistent env l1 := by
  have hfresh := block_fresh env hs l hcs (.state b) (state_block_impl_new env l res b r l1 h hc)
  have hB := account_balance_eq_state env l hcs b.account
  have hBlt := balance_lt_two128 env hs l hcs b.account
  obtain ⟨e, is_send, amount, hrecv, hcases⟩ := state_block_impl_progress env l res b r l1 h hc
  obtain ⟨e1, happ, hsub⟩ := state_block_receive_progress env l _ b _ e is_send r l1 hrecv hc
  refine state_block_apply_consistent env hs l hcs _ b e1 is_send r l1 hfresh happ ?_
  have ksend : ∀ (x y : Nat), x < y → x + (y - x) = y := by
    intros
    omega
  have krecv : ∀ (x y p : Nat), ¬ x < y → x - y = p → x = y + p := by
    intros
    omega
  rcases hcases with ⟨_, _, _, his, ham⟩ | ⟨hh0, _, _, hl, his, ham⟩
  · rcases hsub with ⟨hs1, _⟩ | ⟨hs1, hlink, _, p, hp, hpa, _⟩ | ⟨hs1, hlink, hz, _⟩
    · left
      refine ⟨hs1, ?_⟩
      rw [hs1] at his
      have hlt : b.balance < (l.account_state b.account).balance := of_decide_eq_true his.symm
      show b.balance + amount = _
      rw [ham, if_pos hs1, hB]
      rw [hB] at hBlt
      rw [sub128_of_le _ _ (Nat.le_of_lt hlt) hBlt]
      exact ksend _ _ hlt
    · right
      left
      refine ⟨hs1, hlink, p, hp, ?_⟩
      rw [hs1] at his
      have hnlt : ¬ b.balance < (l.account_state b.account).balance :=
        of_decide_eq_false his.symm
      have hpa2 : amount = p.amount := hpa
      rw [ham, if_neg (by rw [hs1]; exact Bool.false_ne_true),
        sub128_of_le _ _ (Nat.le_of_not_lt hnlt) hty] at hpa2
      rw [hB]
      exact krecv _ _ _ hnlt hpa2
    · right
      right
      refine ⟨hs1, hlink, ?_⟩
      rw [hs1] at his
      have hnlt : ¬ b.balance < (l.account_state b.account).balance :=
        of_decide_eq_false his.symm
      have hz2 : amount = 0 := hz
      rw [ham, if_neg (by rw [hs1]; exact Bool.false_ne_true),
        sub128_of_le _ _ (Nat.le_of_not_lt hnlt) hty] at hz2
      rw [hB]
      exact krecv _ _ 0 hnlt hz2
  · have hB0 : l.account_balance b.account = 0 := by
      rw [account_balance_eq, if_neg (not_not.mpr hh0)]
    rcases hsub with ⟨hs1, _⟩ | ⟨hs1, hlink, _, p, hp, hpa, _⟩ | ⟨_, hlink, _⟩
    · rw [his] at hs1
      exact Bool.noConfusion hs1
    · right
      left
      refine ⟨hs1, hlink, p, hp, ?_⟩
      have hpa2 : amount = p.amount := hpa
      rw [hB0, Nat.zero_add, ← hpa2, ham]
    · exact absurd hlink hl

theorem epoch_block_impl_consistent (env : Env) (hs : env.sound) (l : ledger)
    (hcs : ledger_consistent env l) (res : process_return) (b : state_block)
    (r : process_return) (l1 : ledger)
    (h : ledger_processor.epoch_block_impl env l res b = some (r, l1))
    (hc : r.code = .progress) :
    ledger_consistent env l1 := by
  have hfresh := block_fresh env hs l hcs (.state b) (epoch_block_impl_new env l res b r l1 h hc)
  have hB := account_balance_eq_state env l hcs b.account
  obtain ⟨store2, _, hbal, hcl, hl1, _⟩ := epoch_block_impl_progress env l res b r l1 h hc
  have hfrm := change_latest_frame _ _ _ _ _ _ hcl
  have htab := change_latest_tables env l hcs _ store2 _ _ _ (by simp) (by simp)
    (hs.hash_nonzero (.state b)) hcl
  obtain ⟨hpoff, hpk, hp1⟩ := pending_case_same env l l1 hcs (.state b)
    { account := 0, hash := 0 }
    (by
      intro u
      rw [hl1]
      simp only
      rw [pending_table_if_frontier, pending_table_congr store2 _ hfrm.2.1 hfrm.2.2.1,
        pending_table_block_put])
  refine consistent_step env hs l l1 hcs b.account (.state b) .epoch_1 0
    { head := env.hash (.state b), representative := b.representative,
      open_block := if (l.account_state b.account).open_ = 0 then env.hash (.state b)
                    else (l.account_state b.account).open_ }
    { account := 0, hash := 0 } hfresh rfl ?_ ?_ ?_ ?_ hpoff hpk ?_
  · intro x
    rw [hl1]
    simp only [if_frontier_del_blocks, hfrm.1]
    rw [block_put_content]
  · intro x hx
    rw [hl1]
    simp only [if_frontier_del_accounts_v0, if_frontier_del_accounts_v1]
    exact htab.1 x hx
  · intro he
    exact epoch.noConfusion he
  · intro he
    rw [hl1]
    simp only [if_frontier_del_accounts_v0, if_frontier_del_accounts_v1]
    exact htab.2.2 he
  · rw [hp1, hB]
    show b.balance + _ = _
    rw [hbal]

theorem state_block_cases (env : Env) (l : ledger) (res : process_return) (b : state_block)
    (r : process_return) (l1 : ledger)
    (h : ledger_processor.state_block env l res b = some (r, l1))
    (hc : r.code = .progress) :
    ∃ res1, ledger_processor.state_block_impl env l res1 b = some (r, l1) ∨
      ledger_processor.epoch_block_impl env l res1 b = some (r, l1) := by
  unfold ledger_processor.state_block at h
  dsimp only at h
  split at h
  · split at h
    · split at h
      · exact ⟨_, Or.inr h⟩
      · exact ⟨_, Or.inl h⟩
    · rename_i hn
      simp only [Option.some.injEq, Prod.mk.injEq] at h
      rw [← h.1] at hc
      exact absurd hc hn
  · exact ⟨_, Or.inl h⟩

/-- One accepted block keeps the ledger consistent. -/
theorem process_step_consistent (env : Env) (hs : env.sound) (l : ledger)
    (hcs : ledger_consistent env l) (b : block) (v : signature_verification)
    (hty : b.well_typed = true) (r : process_return) (l1 : ledger)
    (h : ledger.process env l b v = some (r, l1)) (hc : r.code = .progress) :
    ledger_consistent env l1 := by
  cases b with
  | send b => exact send_block_consistent env hs l hcs _ b r l1 h hc
  | receive b => exact receive_block_consistent env hs l hcs _ b r l1 h hc
  | open_ b => exact open_block_consistent env hs l hcs _ b r l1 h hc
  | change b => exact change_block_consistent env hs l hcs _ b r l1 h hc
  | state b =>
    have hty2 : b.balance < two128 := of_decide_eq_true hty
    obtain ⟨res1, h1 | h1⟩ := state_block_cases env l _ b r l1 h hc
    · exact state_block_impl_consistent env hs l hcs res1 b hty2 r l1 h1 hc
    · exact epoch_block_impl_consistent env hs l hcs res1 b r l1 h1 hc

end nano

namespace nano

/-! ## The genesis ledger is consistent, and so is every ledger reached from it -/

theorem genesis_consistent (env : Env) (hs : env.sound) :
    ledger_consistent env (ledger.genesis env) := by
  have hne := hs.hash_nonzero (.open_
    { source := env.genesis_account, representative := env.genesis_account,
      account := env.genesis_account, signature := 0 })
  refine ⟨?_, ?_, ?_, ?_, ?_⟩
  · intro h row hg
    unfold ledger.genesis at hg
    simp only [Map.get] at hg
    split at hg
    · rename_i heq
      simp only [Option.some.injEq] at hg
      rw [← hg, ← heq]
    · exact Option.noConfusion hg
  · intro a i hg
    unfold ledger.genesis at hg ⊢
    simp only [Map.get] at hg ⊢
    split at hg
    · simp only [Option.some.injEq] at hg
      rw [← hg]
      refine ⟨trivial, hne, ?_⟩
      simp only [if_true, Option.map_some']
    · exact Option.noConfusion hg
  · intro a i hg
    unfold ledger.genesis at hg
    simp only [Map.get] at hg
    exact Option.noConfusion hg
  · intro u k r hg
    unfold ledger.genesis at hg
    cases u <;> exact Option.noConfusion hg
  · unfold ledger.balance_sum ledger.pending_sum Store.accounts Store.pending_keys Map.keys
    have hacc : (ledger.genesis env).account_balance env.genesis_account
        = env.genesis_amount := by
      unfold ledger.account_balance ledger.account_state Store.account_get Store.block_get
        ledger.genesis
      simp only [Map.get, if_true, account_state.head, account_state.balance, ne_eq, hne,
        not_false_eq_true, Store.row_balance]
    unfold ledger.genesis at hacc ⊢
    simp only [List.map_nil, List.map_cons, List.dedup_nil, List.nil_append, List.dedup_cons_of_not_mem,
      List.not_mem_nil, not_false_eq_true, List.sum_cons, List.sum_nil, Nat.add_zero] at hacc ⊢
    exact hacc

theorem process_all_consistent (env : Env) (hs : env.sound)
    (cs : List (block × signature_verification)) :
    ∀ (l l1 : ledger), ledger_consistent env l →
      (∀ c ∈ cs, c.1.well_typed = true) →
      ledger.process_all env l cs = some l1 → ledger_consistent env l1 := by
  induction cs with
  | nil =>
    intro l l1 hc _ h
    unfold ledger.process_all at h
    simp only [Option.some.injEq] at h
    rw [← h]
    exact hc
  | cons c cs ih =>
    intro l l1 hc hty h
    unfold ledger.process_all at h
    split at h
    · rename_i r l2 hp
      split at h
      · rename_i hcode
        exact ih l2 l1
          (process_step_consistent env hs l hc c.1 c.2 (hty c (List.mem_cons_self _ _)) r l2 hp
            hcode)
          (fun c1 hc1 => hty c1 (List.mem_cons_of_mem _ hc1)) h
      · exact Option.noConfusion h
    · exact Option.noConfusion h

theorem example_net_sound : example_net.env.sound := by
  refine ⟨?_, ?_, ?_⟩
  · intro b
    cases b <;> exact Nat.succ_ne_zero _
  · intro b1 b2 h
    have h5 : example_net.env.hash b1 % 5 = example_net.env.hash b2 % 5 := by rw [h]
    cases b1 <;> cases b2 <;>
      first
      | rfl
      | (exfalso
         simp only [example_net.env, example_net.hash, Nat.mul_add_mod] at h5
         exact absurd h5 (by decide))
  · decide

end nano

namespace nano

/-! ## C4: what the accepted blocks conserve -/

/-- C4, as stated, fails: from the genesis ledger of the example network the
legacy send `send_1` (genesis keeps 900 of its 1000) is accepted with
`progress`, and afterwards the sum over all accounts of the head balance is
900, not the genesis amount 1000: the 100 sent are in the pending table and in
no account. -/
theorem balance_sum_drops_after_send :
    (ledger.process_all example_net.env (ledger.genesis example_net.env)
        [(.send example_net.send_1, .unknown)]).map ledger.balance_sum = some 900 ∧
      (ledger.process_all example_net.env (ledger.genesis example_net.env)
        [(.send example_net.send_1, .unknown)]).map ledger.pending_sum = some 100 ∧
      (ledger.genesis example_net.env).balance_sum = 1000 ∧
      example_net.env.genesis_amount = 1000 := by
  decide

/-- C4, amended: starting from the ledger that contains only the genesis
open block, after any sequence of `process` calls that each return `progress`
(the balance fields of the blocks being 128-bit values, and the block hash
being non-zero and distinguishing the block variants), the head balances of
all accounts plus the amounts of all pending entries add up to the genesis
amount. -/
theorem value_conserved_from_genesis (env : Env) (hs : env.sound)
    (cs : List (block × signature_verification))
    (hty : ∀ c ∈ cs, c.1.well_typed = true) (l1 : ledger)
    (h : ledger.process_all env (ledger.genesis env) cs = some l1) :
    l1.balance_sum + l1.pending_sum = env.genesis_amount :=
  (process_all_consistent env hs cs (ledger.genesis env) l1 (genesis_consistent env hs) hty
    h).total

theorem value_conserved_from_genesis_witness :
    (∀ c ∈ [((block.send example_net.send_1, signature_verification.unknown) :
        block × signature_verification)], c.1.well_typed = true) ∧
      ledger.process_all example_net.env (ledger.genesis example_net.env)
        [(.send example_net.send_1, .unknown)]
        = some (example_net.after (ledger.genesis example_net.env)
            (.send example_net.send_1)) ∧
      (example_net.after (ledger.genesis example_net.env)
          (.send example_net.send_1)).balance_sum
        + (example_net.after (ledger.genesis example_net.env)
          (.send example_net.send_1)).pending_sum = example_net.env.genesis_amount :=
  ⟨by decide, by decide,
    value_conserved_from_genesis example_net.env example_net_sound
      [(.send example_net.send_1, .unknown)] (by decide) _ (by decide)⟩

end nano

namespace nano

/-! ## The frontier table keys legacy blocks only -/

theorem map_valid_of_content (o : Option block_row) :
    o.map (fun r => valid_predecessor r.block)
      = (o.map block_row.content).map (fun c => valid_predecessor c.1) := by
  cases o <;> rfl

theorem frontier_legacy_step (env : Env) (l l1 : ledger) (hJ : frontier_legacy l)
    (b : block) (e : epoch) (sbbal : Amount)
    (hfresh : l.store.blocks.get (env.hash b) = none)
    (hblocks : ∀ x, (l1.store.blocks.get x).map block_row.content
      = if x = env.hash b then some (b, e, sbbal)
        else (l.store.blocks.get x).map block_row.content)
    (hfr : ∀ x a, l1.store.frontiers.get x = some a →
      (x = env.hash b ∧ valid_predecessor b = true) ∨ l.store.frontiers.get x = some a) :
    frontier_legacy l1 := by
  intro x a hx
  rw [map_valid_of_content, hblocks]
  rcases hfr x a hx with ⟨hxh, hv⟩ | hold
  · rw [if_pos hxh, Option.map_some', hv]
  · have h1 := hJ x a hold
    have hne : x ≠ env.hash b := by
      intro hxh
      rw [hxh, hfresh] at h1
      exact Option.noConfusion h1
    rw [if_neg hne, ← map_valid_of_content]
    exact h1

theorem frontier_moved (F : Map Hash Account) (p h x : Hash) (acc a : Account) (P : Prop)
    (hP : P) (hg : ((F.del p).put h acc).get x = some a) :
    (x = h ∧ P) ∨ F.get x = some a := by
  rw [Map.get_put] at hg
  by_cases hx : h = x
  · exact Or.inl ⟨hx.symm, hP⟩
  · rw [if_neg hx, Map.get_del] at hg
    by_cases hp : p = x
    · rw [if_pos hp] at hg
      exact Option.noConfusion hg
    · rw [if_neg hp] at hg
      exact Or.inr hg

theorem frontier_dropped (s : Store) (c : Prop) [Decidable c] (p x : Hash) (a : Account)
    (hg : (if c then s.frontier_del p else s).frontiers.get x = some a) :
    s.frontiers.get x = some a := by
  split at hg
  · unfold Store.frontier_del at hg
    simp only [Map.get_del] at hg
    split at hg
    · exact Option.noConfusion hg
    · exact hg
  · exact hg

theorem send_block_frontier_legacy (env : Env) (hs : env.sound) (l : ledger)
    (hcs : ledger_consistent env l) (hJ : frontier_legacy l) (res : process_return)
    (b : send_block) (r : process_return) (l1 : ledger)
    (h : ledger_processor.send_block env l res b = some (r, l1)) (hc : r.code = .progress) :
    frontier_legacy l1 := by
  have hfresh := block_fresh env hs l hcs (.send b) (send_block_new env l res b r l1 h hc)
  obtain ⟨store2, _, hcl, hl1, _⟩ := send_block_progress env l res b r l1 h hc
  have hfrm := change_latest_frame _ _ _ _ _ _ hcl
  refine frontier_legacy_step env l l1 hJ (.send b) .epoch_0 b.balance hfresh ?_ ?_
  · intro x
    rw [hl1]
    simp only [Store.frontier_put_blocks, Store.frontier_del_blocks, Store.pending_put_blocks,
      hfrm.1]
    exact block_put_content _ _ _ _ _ _
  · intro x a hx
    rw [hl1] at hx
    simp only [Store.frontier_put, Store.frontier_del, Store.pending_put_frontiers,
      hfrm.2.2.2, Store.block_put_frontiers] at hx
    exact frontier_moved _ _ _ _ _ _ _ rfl hx

theorem receive_block_frontier_legacy (env : Env) (hs : env.sound) (l : ledger)
    (hcs : ledger_consistent env l) (hJ : frontier_legacy l) (res : process_return)
    (b : receive_block) (r : process_return) (l1 : ledger)
    (h : ledger_processor.receive_block env l res b = some (r, l1))
    (hc : r.code = .progress) :
    frontier_legacy l1 := by
  have hfresh := block_fresh env hs l hcs (.receive b) (receive_block_new env l res b r l1 h hc)
  obtain ⟨p, store3, _, _, _, hcl, hl1, _⟩ := receive_block_progress env l res b r l1 h hc
  have hfrm := change_latest_frame _ _ _ _ _ _ hcl
  refine frontier_legacy_step env l l1 hJ (.receive b) .epoch_0
    (add128 (l.account_state (l.store.frontier_get b.previous)).balance p.amount) hfresh ?_ ?_
  · intro x
    rw [hl1]
    simp only [Store.frontier_put_blocks, Store.frontier_del_blocks, hfrm.1]
    rw [block_put_content, Store.pending_del_blocks]
  · intro x a hx
    rw [hl1] at hx
    simp only [Store.frontier_put, Store.frontier_del, hfrm.2.2.2, Store.block_put_frontiers,
      Store.pending_del_frontiers] at hx
    exact frontier_moved _ _ _ _ _ _ _ rfl hx

theorem open_block_frontier_legacy (env : Env) (hs : env.sound) (l : ledger)
    (hcs : ledger_consistent env l) (hJ : frontier_legacy l) (res : process_return)
    (b : open_block) (r : process_return) (l1 : ledger)
    (h : ledger_processor.open_block env l res b = some (r, l1))
    (hc : r.code = .progress) :
    frontier_legacy l1 := by
  have hfresh := block_fresh env hs l hcs (.open_ b) (open_block_new env l res b r l1 h hc)
  obtain ⟨p, store3, _, _, _, hcl, hl1, _⟩ := open_block_progress env l res b r l1 h hc
  have hfrm := change_latest_frame _ _ _ _ _ _ hcl
  refine frontier_legacy_step env l l1 hJ (.open_ b) .epoch_0 p.amount hfresh ?_ ?_
  · intro x
    rw [hl1]
    simp only [Store.frontier_put_blocks, hfrm.1]
    rw [block_put_content, Store.pending_del_blocks]
  · intro x a hx
    rw [hl1] at hx
    simp only [Store.frontier_put, hfrm.2.2.2, Store.block_put_frontiers,
      Store.pending_del_frontiers] at hx
    rw [Map.get_put] at hx
    by_cases hxh : env.hash (.open_ b) = x
    · exact Or.inl ⟨hxh.symm, rfl⟩
    · rw [if_neg hxh] at hx
      exact Or.inr hx

theorem change_block_frontier_legacy (env : Env) (hs : env.sound) (l : ledger)
    (hcs : ledger_consistent env l) (hJ : frontier_legacy l) (res : process_return)
    (b : change_block) (r : process_return) (l1 : ledger)
    (h : ledger_processor.change_block env l res b = some (r, l1))
    (hc : r.code = .progress) :
    frontier_legacy l1 := by
  have hfresh := block_fresh env hs l hcs (.change b) (change_block_new env l res b r l1 h hc)
  obtain ⟨store2, bal, _, hcl, hl1, _⟩ := change_block_progress env l res b r l1 h hc
  have hfrm := change_latest_frame _ _ _ _ _ _ hcl
  refine frontier_legacy_step env l l1 hJ (.change b) .epoch_0
    (l.account_state (l.store.frontier_get b.previous)).balance hfresh ?_ ?_
  · intro x
    rw [hl1]
    simp only [Store.frontier_put_blocks, Store.frontier_del_blocks, hfrm.1]
    rw [block_put_content]
  · intro x a hx
    rw [hl1] at hx
    simp only [Store.frontier_put, Store.frontier_del, hfrm.2.2.2, Store.block_put_frontiers]
      at hx
    exact frontier_moved _ _ _ _ _ _ _ rfl hx

theorem state_block_apply_frontier_legacy (env : Env) (l : ledger) (hJ : frontier_legacy l)
    (res : process_return) (b : state_block) (st : account_state) (e : epoch)
    (is_send : Bool) (r : process_return) (l1 : ledger)
    (hfresh : l.store.blocks.get (env.hash (.state b)) = none)
    (h : ledger_processor.state_block_apply env l res b st e is_send = some (r, l1)) :
    frontier_legacy l1 := by
  obtain ⟨store3, hcl, hl1, _⟩ := state_block_apply_shape env l res b st e is_send r l1 h
  have hfrm := change_latest_frame _ _ _ _ _ _ hcl
  refine frontier_legacy_step env l l1 hJ (.state b) e 0 hfresh ?_ ?_
  · intro x
    rw [hl1]
    simp only [if_frontier_del_blocks, hfrm.1]
    split
    · rw [Store.pending_put_blocks, block_put_content]
    · split
      · rw [Store.pending_del_blocks, block_put_content]
      · rw [block_put_content]
  · intro x a hx
    rw [hl1] at hx
    have hx2 := frontier_dropped _ _ _ _ _ hx
    rw [hfrm.2.2.2] at hx2
    right
    split at hx2
    · simpa using hx2
    · split at hx2
      · simpa using hx2
      · simpa using hx2

theorem state_block_impl_frontier_legacy (env : Env) (hs : env.sound) (l : ledger)
    (hcs : ledger_consistent env l) (hJ : frontier_legacy l) (res : process_return)
    (b : state_block) (r : process_return) (l1 : ledger)
    (h : ledger_processor.state_block_impl env l res b = some (r, l1))
    (hc : r.code = .progress) :
    frontier_legacy l1 := by
  have hfresh := block_fresh env hs l hcs (.state b) (state_block_impl_new env l res b r l1 h hc)
  obtain ⟨e, is_send, amount, hrecv, _⟩ := state_block_impl_progress env l res b r l1 h hc
  obtain ⟨e1, happ, _⟩ := state_block_receive_progress env l _ b _ e is_send r l1 hrecv hc
  exact state_block_apply_frontier_legacy env l hJ _ b _ e1 is_send r l1 hfresh happ

theorem epoch_block_impl_frontier_legacy (env : Env) (hs : env.sound) (l : ledger)
    (hcs : ledger_consistent env l) (hJ : frontier_legacy l) (res : process_return)
    (b : state_block) (r : process_return) (l1 : ledger)
    (h : ledger_processor.epoch_block_impl env l res b = some (r, l1))
    (hc : r.code = .progress) :
    frontier_legacy l1 := by
  have hfresh := block_fresh env hs l hcs (.state b) (epoch_block_impl_new env l res b r l1 h hc)
  obtain ⟨store2, _, _, hcl, hl1, _⟩ := epoch_block_impl_progress env l res b r l1 h hc
  have hfrm := change_latest_frame _ _ _ _ _ _ hcl
  refine frontier_legacy_step env l l1 hJ (.state b) .epoch_1 0 hfresh ?_ ?_
  · intro x
    rw [hl1]
    simp only [if_frontier_del_blocks, hfrm.1]
    rw [block_put_content]
  · intro x a hx
    rw [hl1] at hx
    have hx2 := frontier_dropped _ _ _ _ _ hx
    rw [hfrm.2.2.2] at hx2
    exact Or.inr hx2

theorem process_step_frontier_legacy (env : Env) (hs : env.sound) (l : ledger)
    (hcs : ledger_consistent env l) (hJ : frontier_legacy l) (b : block)
    (v : signature_verification) (r : process_return) (l1 : ledger)
    (h : ledger.process env l b v = some (r, l1)) (hc : r.code = .progress) :
    frontier_legacy l1 := by
  cases b with
  | send b => exact send_block_frontier_legacy env hs l hcs hJ _ b r l1 h hc
  | receive b => exact receive_block_frontier_legacy env hs l hcs hJ _ b r l1 h hc
  | open_ b => exact open_block_frontier_legacy env hs l hcs hJ _ b r l1 h hc
  | change b => exact change_block_frontier_legacy env hs l hcs hJ _ b r l1 h hc
  | state b =>
    obtain ⟨res1, h1 | h1⟩ := state_block_cases env l _ b r l1 h hc
    · exact state_block_impl_frontier_legacy env hs l hcs hJ res1 b r l1 h1 hc
    · exact epoch_block_impl_frontier_legacy env hs l hcs hJ res1 b r l1 h1 hc

theorem genesis_frontier_legacy (env : Env) : frontier_legacy (ledger.genesis env) := by
  intro x a hx
  unfold ledger.genesis at hx ⊢
  simp only [Map.get] at hx ⊢
  split at hx
  · rename_i heq
    rw [if_pos heq]
    rfl
  · exact Option.noConfusion hx

theorem process_all_frontier_legacy (env : Env) (hs : env.sound)
    (cs : List (block × signature_verification)) :
    ∀ (l l1 : ledger), ledger_consistent env l → frontier_legacy l →
      (∀ c ∈ cs, c.1.well_typed = true) →
      ledger.process_all env l cs = some l1 → frontier_legacy l1 := by
  induction cs with
  | nil =>
    intro l l1 _ hJ _ h
    unfold ledger.process_all at h
    simp only [Option.some.injEq] at h
    rw [← h]
    exact hJ
  | cons c cs ih =>
    intro l l1 hc hJ hty h
    unfold ledger.process_all at h
    split at h
    · rename_i r l2 hp
      split at h
      · rename_i hcode
        exact ih l2 l1
          (process_step_consistent env hs l hc c.1 c.2 (hty c (List.mem_cons_self _ _)) r l2 hp
            hcode)
          (process_step_frontier_legacy env hs l hc hJ c.1 c.2 r l2 hp hcode)
          (fun c1 hc1 => hty c1 (List.mem_cons_of_mem _ hc1)) h
      · exact Option.noConfusion h
    · exact Option.noConfusion h

end nano

namespace nano

/-! ## C29: legacy blocks are never appended on top of a state head -/

theorem not_valid_predecessor_of_state (row : block_row) (hst : row.block.type = .state) :
    valid_predecessor row.block = false := by
  unfold valid_predecessor
  rw [hst]

theorem send_block_on_state (env : Env) (l : ledger) (res : process_return) (b : send_block)
    (row : block_row) (hrow : l.store.block_get b.previous = some row)
    (hst : row.block.type = .state) :
    ∃ r, ledger_processor.send_block env l res b = some (r, l) ∧
      (r.code = .old ∨ r.code = .block_position) := by
  unfold ledger_processor.send_block
  dsimp only
  split
  · exact ⟨_, rfl, Or.inl rfl⟩
  · rw [hrow]
    dsimp only
    rw [if_pos (by rw [not_valid_predecessor_of_state row hst]; exact Bool.false_ne_true)]
    exact ⟨_, rfl, Or.inr rfl⟩

theorem receive_block_on_state (env : Env) (l : ledger) (res : process_return)
    (b : receive_block) (row : block_row) (hrow : l.store.block_get b.previous = some row)
    (hst : row.block.type = .state) :
    ∃ r, ledger_processor.receive_block env l res b = some (r, l) ∧
      (r.code = .old ∨ r.code = .block_position) := by
  unfold ledger_processor.receive_block
  dsimp only
  split
  · exact ⟨_, rfl, Or.inl rfl⟩
  · rw [hrow]
    dsimp only
    rw [if_pos (by rw [not_valid_predecessor_of_state row hst]; exact Bool.false_ne_true)]
    exact ⟨_, rfl, Or.inr rfl⟩

theorem change_block_on_state (env : Env) (l : ledger) (res : process_return)
    (b : change_block) (row : block_row) (hrow : l.store.block_get b.previous = some row)
    (hst : row.block.type = .state) :
    ∃ r, ledger_processor.change_block env l res b = some (r, l) ∧
      (r.code = .old ∨ r.code = .block_position) := by
  unfold ledger_processor.change_block
  dsimp only
  split
  · exact ⟨_, rfl, Or.inl rfl⟩
  · rw [hrow]
    dsimp only
    rw [if_pos (by rw [not_valid_predecessor_of_state row hst]; exact Bool.false_ne_true)]
    exact ⟨_, rfl, Or.inr rfl⟩

/-- C29: in every ledger reached from the genesis ledger by `process` calls
that each return `progress` (balance fields being 128-bit values, the block
hash non-zero and distinguishing the variants), for every account whose head
is a stored state block: the frontier table has no row keyed by that head, and
`process` of a legacy send, receive or change block whose `previous` is that
head returns `old` or `block_position`, never `progress`, and leaves the
ledger as it was. -/
theorem state_head_rejects_legacy_blocks (env : Env) (hs : env.sound)
    (cs : List (block × signature_verification))
    (hty : ∀ c ∈ cs, c.1.well_typed = true) (l : ledger)
    (h : ledger.process_all env (ledger.genesis env) cs = some l) (a : Account)
    (hst : (l.store.block_get (l.account_state a).head).map (fun r => r.block.type)
      = some .state) :
    l.store.frontiers.get (l.account_state a).head = none ∧
    (∀ (b : send_block) (v : signature_verification), b.previous = (l.account_state a).head →
      ∃ r, ledger.process env l (.send b) v = some (r, l) ∧
        (r.code = .old ∨ r.code = .block_position)) ∧
    (∀ (b : receive_block) (v : signature_verification),
      b.previous = (l.account_state a).head →
      ∃ r, ledger.process env l (.receive b) v = some (r, l) ∧
        (r.code = .old ∨ r.code = .block_position)) ∧
    (∀ (b : change_block) (v : signature_verification),
      b.previous = (l.account_state a).head →
      ∃ r, ledger.process env l (.change b) v = some (r, l) ∧
        (r.code = .old ∨ r.code = .block_position)) := by
  have hJ := process_all_frontier_legacy env hs cs (ledger.genesis env) l
    (genesis_consistent env hs) (genesis_frontier_legacy env) hty h
  cases hrow : l.store.block_get (l.account_state a).head with
  | none =>
    rw [hrow] at hst
    exact Option.noConfusion hst
  | some row =>
    rw [hrow] at hst
    simp only [Option.map_some', Option.some.injEq] at hst
    refine ⟨?_, ?_, ?_, ?_⟩
    · cases hf : l.store.frontiers.get (l.account_state a).head with
      | none => rfl
      | some acc =>
        exfalso
        have h1 := hJ _ _ hf
        unfold Store.block_get at hrow
        rw [hrow, Option.map_some', not_valid_predecessor_of_state row hst] at h1
        exact Bool.noConfusion (Option.some.inj h1)
    · intro b v hb
      exact send_block_on_state env l _ b row (by rw [hb]; exact hrow) hst
    · intro b v hb
      exact receive_block_on_state env l _ b row (by rw [hb]; exact hrow) hst
    · intro b v hb
      exact change_block_on_state env l _ b row (by rw [hb]; exact hrow) hst

theorem state_head_rejects_legacy_blocks_witness :
    (∀ c ∈ [((block.state example_net.state_send_1, signature_verification.unknown) :
        block × signature_verification)], c.1.well_typed = true) ∧
      ledger.process_all example_net.env (ledger.genesis example_net.env)
        [(.state example_net.state_send_1, .unknown)]
        = some (example_net.after (ledger.genesis example_net.env)
            (.state example_net.state_send_1)) ∧
      ((example_net.after (ledger.genesis example_net.env)
            (.state example_net.state_send_1)).store.block_get
          ((example_net.after (ledger.genesis example_net.env)
            (.state example_net.state_send_1)).account_state example_net.genesis).head).map
        (fun r => r.block.type) = some .state ∧
      ((example_net.after (ledger.genesis example_net.env)
            (.state example_net.state_send_1)).store.frontiers.get
          ((example_net.after (ledger.genesis example_net.env)
            (.state example_net.state_send_1)).account_state example_net.genesis).head
          = none ∧
        (∀ (b : send_block) (v : signature_verification),
          b.previous = ((example_net.after (ledger.genesis example_net.env)
            (.state example_net.state_send_1)).account_state example_net.genesis).head →
          ∃ r, ledger.process example_net.env
              (example_net.after (ledger.genesis example_net.env)
                (.state example_net.state_send_1)) (.send b) v
              = some (r, example_net.after (ledger.genesis example_net.env)
                (.state example_net.state_send_1)) ∧
            (r.code = .old ∨ r.code = .block_position)) ∧
        (∀ (b : receive_block) (v : signature_verification),
          b.previous = ((example_net.after (ledger.genesis example_net.env)
            (.state example_net.state_send_1)).account_state example_net.genesis).head →
          ∃ r, ledger.process example_net.env
              (example_net.after (ledger.genesis example_net.env)
                (.state example_net.state_send_1)) (.receive b) v
              = some (r, example_net.after (ledger.genesis example_net.env)
                (.state example_net.state_send_1)) ∧
            (r.code = .old ∨ r.code = .block_position)) ∧
        (∀ (b : change_block) (v : signature_verification),
          b.previous = ((example_net.after (ledger.genesis example_net.env)
            (.state example_net.state_send_1)).account_state example_net.genesis).head →
          ∃ r, ledger.process example_net.env
              (example_net.after (ledger.genesis example_net.env)
                (.state example_net.state_send_1)) (.change b) v
              = some (r, example_net.after (ledger.genesis example_net.env)
                (.state example_net.state_send_1)) ∧
            (r.code = .old ∨ r.code = .block_position))) :=
  ⟨by decide, by decide, by decide,
    state_head_rejects_legacy_blocks example_net.env example_net_sound
      [(.state example_net.state_send_1, .unknown)] (by decide) _ (by decide)
      example_net.genesis (by decide)⟩

end nano

namespace nano

/-! ## The tables after a legacy send and after a legacy open, row by row -/

theorem change_latest_confirmation (s s1 : Store) (a : Account) (old : account_state)
    (new : account_info) (e : epoch) (h : ledger.change_latest s a old new e = some s1)
    (hnew : new.head ≠ 0) :
    s1.confirmation_height
      = if old.head = 0 ∧ new.open_block = new.head then s.confirmation_height.put a 0
        else s.confirmation_height := by
  unfold ledger.change_latest at h
  rw [if_pos hnew] at h
  dsimp only at h
  have hput : ∀ (t : Store), (t.account_put a new e).confirmation_height
      = t.confirmation_height := by
    intro t
    unfold Store.account_put
    split <;> rfl
  have hdel : ∀ (t : Store), (t.account_del a).confirmation_height = t.confirmation_height := by
    intro t
    unfold Store.account_del
    split <;> rfl
  have hbase : (if old.head = 0 ∧ new.open_block = new.head then s.confirmation_height_put a 0
      else s).confirmation_height
      = if old.head = 0 ∧ new.open_block = new.head then s.confirmation_height.put a 0
        else s.confirmation_height := by
    split <;> rfl
  split at h
  · split at h
    · exact Option.noConfusion h
    · simp only [Option.some.injEq] at h
      rw [← h, hput]
      split
      · rw [hdel, hbase]
      · rw [hbase]
  · simp only [Option.some.injEq] at h
    rw [← h, hput, hbase]

theorem block_put_send_get (s : Store) (h : Hash) (b : send_block) (sb : block_sideband)
    (e : epoch) (r0 : block_row) (hp : s.blocks.get b.previous = some r0)
    (hne : h ≠ b.previous) (x : Hash) :
    (s.block_put h (.send b) sb e).blocks.get x
      = if b.previous = x then
          some { r0 with sideband := { r0.sideband with successor := h } }
        else if h = x then some { block := .send b, sideband := sb, epoch := e }
        else s.blocks.get x := by
  unfold Store.block_put Store.block_predecessor_set
  simp only [block.previous, Map.get_put, if_neg hne, hp]

theorem block_put_open_get (s : Store) (h : Hash) (b : open_block) (sb : block_sideband)
    (e : epoch) (x : Hash) :
    (s.block_put h (.open_ b) sb e).blocks.get x
      = if h = x then some { block := .open_ b, sideband := sb, epoch := e }
        else s.blocks.get x := by
  unfold Store.block_put Store.block_predecessor_set
  simp only [Map.get_put]

/-- The ledger after an accepted legacy send, table by table. -/
theorem send_block_tables (env : Env) (hs : env.sound) (l : ledger)
    (hcs : ledger_consistent env l) (res : process_return) (b : send_block)
    (r : process_return) (l1 : ledger)
    (h : ledger_processor.send_block env l res b = some (r, l1)) (hc : r.code = .progress) :
    ∃ r0, l.store.blocks.get b.previous = some r0 ∧
      valid_predecessor r0.block = true ∧
      l.store.frontier_get b.previous ≠ 0 ∧
      b.balance ≤ (l.account_state (l.store.frontier_get b.previous)).balance ∧
      l.store.blocks.get (env.hash (.send b)) = none ∧
      (∀ x, l1.store.blocks.get x
        = if b.previous = x then
            some { r0 with sideband := { r0.sideband with successor := env.hash (.send b) } }
          else if env.hash (.send b) = x then
            some { block := .send b,
                   sideband :=
                    { type := .send, account := l.store.frontier_get b.previous, successor := 0,
                      balance := b.balance,
                      height :=
                        (l.account_state (l.store.frontier_get b.previous)).block_count + 1,
                      timestamp := env.seconds_since_epoch },
                   epoch := .epoch_0 }
          else l.store.blocks.get x) ∧
      (∀ x, l1.store.accounts_v0.get x
        = if l.store.frontier_get b.previous = x then
            some { head := env.hash (.send b),
                   representative := (l.account_state (l.store.frontier_get b.previous)).rep,
                   open_block := (l.account_state (l.store.frontier_get b.previous)).open_ }
          else l.store.accounts_v0.get x) ∧
      (∀ x, l1.store.accounts_v1.get x
        = if l.store.frontier_get b.previous = x then none else l.store.accounts_v1.get x) ∧
      (∀ k, l1.store.pending_v0.get k
        = if ({ account := b.destination, hash := env.hash (.send b) } : pending_key) = k then
            some { source := l.store.frontier_get b.previous,
                   amount :=
                    sub128 (l.account_state (l.store.frontier_get b.previous)).balance
                      b.balance }
          else l.store.pending_v0.get k) ∧
      (∀ k, l1.store.pending_v1.get k = l.store.pending_v1.get k) ∧
      (∀ x, l1.store.frontiers.get x
        = if env.hash (.send b) = x then some (l.store.frontier_get b.previous)
          else if b.previous = x then none else l.store.frontiers.get x) ∧
      l1.store.confirmation_height = l.store.confirmation_height ∧
      l1.rep_weights = representation_add l.rep_weights
        (l.account_state (l.store.frontier_get b.previous)).rep
        (sub128 0 (sub128 (l.account_state (l.store.frontier_get b.previous)).balance
          b.balance)) ∧
      l1.check_bootstrap_weights = l.check_bootstrap_weights := by
  have hfresh := block_fresh env hs l hcs (.send b) (send_block_new env l res b r l1 h hc)
  obtain ⟨store2, hle, hcl, hl1, _⟩ := send_block_progress env l res b r l1 h hc
  have hfrm := change_latest_frame _ _ _ _ _ _ hcl
  have htab := change_latest_tables env l hcs _ store2 _ _ _ (by simp) (by simp)
    (hs.hash_nonzero (.send b)) hcl
  have hconf := change_latest_confirmation _ _ _ _ _ _ hcl (hs.hash_nonzero (.send b))
  have hpre : ∃ r0, l.store.blocks.get b.previous = some r0 ∧
      valid_predecessor r0.block = true ∧ l.store.frontier_get b.previous ≠ 0 := by
    unfold ledger_processor.send_block at h
    dsimp only at h
    split at h
    · simp only [Option.some.injEq, Prod.mk.injEq] at h
      rw [← h.1] at hc
      exact process_result.noConfusion hc
    · split at h
      · simp only [Option.some.injEq, Prod.mk.injEq] at h
        rw [← h.1] at hc
        exact process_result.noConfusion hc
      · rename_i previous hprev
        split at h
        · simp only [Option.some.injEq, Prod.mk.injEq] at h
          rw [← h.1] at hc
          exact process_result.noConfusion hc
        · rename_i hvp
          split at h
          · simp only [Option.some.injEq, Prod.mk.injEq] at h
            rw [← h.1] at hc
            exact process_result.noConfusion hc
          · rename_i hacc
            exact ⟨previous, hprev, by simpa using hvp, hacc⟩
  obtain ⟨r0, hr0, hvp, hg⟩ := hpre
  have hne : env.hash (.send b) ≠ b.previous := by
    intro heq
    rw [← heq, hfresh] at hr0
    exact Option.noConfusion hr0
  refine ⟨r0, hr0, hvp, hg, hle, hfresh, ?_, ?_, ?_, ?_, ?_, ?_, ?_, ?_, ?_⟩
  · intro x
    rw [hl1]
    simp only [Store.frontier_put_blocks, Store.frontier_del_blocks, Store.pending_put_blocks,
      hfrm.1]
    exact block_put_send_get _ _ _ _ _ r0 hr0 hne x
  · intro x
    rw [hl1]
    simp only [Store.frontier_put_accounts_v0, Store.frontier_del_accounts_v0,
      Store.pending_put_accounts_v0]
    by_cases hx : l.store.frontier_get b.previous = x
    · rw [if_pos hx, ← hx]
      exact (htab.2.1 rfl).1
    · rw [if_neg hx]
      exact (htab.1 x (fun hk => hx hk.symm)).1
  · intro x
    rw [hl1]
    simp only [Store.frontier_put_accounts_v1, Store.frontier_del_accounts_v1,
      Store.pending_put_accounts_v1]
    by_cases hx : l.store.frontier_get b.previous = x
    · rw [if_pos hx, ← hx]
      exact (htab.2.1 rfl).2
    · rw [if_neg hx]
      exact (htab.1 x (fun hk => hx hk.symm)).2
  · intro k
    rw [hl1]
    simp only [Store.frontier_put_pending_v0, Store.frontier_del_pending_v0]
    have := pending_put_table_get store2 { account := b.destination, hash := env.hash (.send b) }
      { source := l.store.frontier_get b.previous,
        amount := sub128 (l.account_state (l.store.frontier_get b.previous)).balance b.balance,
        epoch := .epoch_0 } false k
    simp only [Store.pending_table, ne_eq, not_true_eq_false, decide_False, true_and,
      Bool.false_eq_true, if_false] at this
    rw [this, hfrm.2.1, Store.block_put_pending_v0]
  · intro k
    rw [hl1]
    simp only [Store.frontier_put_pending_v1, Store.frontier_del_pending_v1]
    have := pending_put_table_get store2 { account := b.destination, hash := env.hash (.send b) }
      { source := l.store.frontier_get b.previous,
        amount := sub128 (l.account_state (l.store.frontier_get b.previous)).balance b.balance,
        epoch := .epoch_0 } true k
    simp only [Store.pending_table, ne_eq, not_true_eq_false, decide_False,
      Bool.true_eq_false, false_and, if_false, if_true] at this
    rw [this, hfrm.2.2.1, Store.block_put_pending_v1]
  · intro x
    rw [hl1]
    simp only [Store.frontier_put, Store.frontier_del, Store.pending_put_frontiers,
      hfrm.2.2.2, Store.block_put_frontiers, Map.get_put, Map.get_del]
  · rw [hl1]
    simp only [Store.frontier_put, Store.frontier_del]
    have hpp : ∀ (t : Store) (k : pending_key) (i : pending_info),
        (t.pending_put k i).confirmation_height = t.confirmation_height := by
      intro t k i
      unfold Store.pending_put
      split <;> rfl
    rw [hpp, hconf]
    rw [if_neg]
    · rfl
    · intro hk
      have h1 : (l.account_state (l.store.frontier_get b.previous)).open_ = 0 := by
        rcases account_rows_of_consistent env l hcs (l.store.frontier_get b.previous) with
          ⟨g0, g1, _⟩ | ⟨_, _, _, h3, _⟩ | ⟨_, _, _, _, h3, _⟩
        · have hrow : l.store.account_get (l.store.frontier_get b.previous) = none := by
            rw [account_get_of_tables, g1, g0]
          unfold ledger.account_state
          rw [hrow]
          rfl
        · exact absurd hk.1 h3
        · exact absurd hk.1 h3
      have h3 : env.hash (.send b) = 0 := by
        have := hk.2
        simp only at this
        rw [← this, h1]
      exact hs.hash_nonzero _ h3
  · rw [hl1]
  · rw [hl1]

/-- The ledger after an accepted legacy open, table by table. -/
theorem open_block_tables (env : Env) (hs : env.sound) (l : ledger)
    (hcs : ledger_consistent env l) (res : process_return) (b : open_block)
    (r : process_return) (l1 : ledger)
    (h : ledger_processor.open_block env l res b = some (r, l1)) (hc : r.code = .progress) :
    ∃ p : pending_info,
      l.store.pending_v0.get { account := b.account, hash := b.source }
        = some { source := p.source, amount := p.amount } ∧
      l.store.pending_v1.get { account := b.account, hash := b.source } = none ∧
      l.store.accounts_v0.get b.account = none ∧
      l.store.accounts_v1.get b.account = none ∧
      l.store.blocks.get (env.hash (.open_ b)) = none ∧
      (∀ x, l1.store.blocks.get x
        = if env.hash (.open_ b) = x then
            some { block := .open_ b,
                   sideband :=
                    { type := .open_, account := b.account, successor := 0,
                      balance := p.amount, height := 1,
                      timestamp := env.seconds_since_epoch },
                   epoch := .epoch_0 }
          else l.store.blocks.get x) ∧
      (∀ x, l1.store.accounts_v0.get x
        = if b.account = x then
            some { head := env.hash (.open_ b), representative := b.representative,
                   open_block := env.hash (.open_ b) }
          else l.store.accounts_v0.get x) ∧
      (∀ x, l1.store.accounts_v1.get x = l.store.accounts_v1.get x) ∧
      (∀ k, l1.store.pending_v0.get k
        = if ({ account := b.account, hash := b.source } : pending_key) = k then none
          else l.store.pending_v0.get k) ∧
      (∀ k, l1.store.pending_v1.get k = l.store.pending_v1.get k) ∧
      (∀ x, l1.store.frontiers.get x
        = if env.hash (.open_ b) = x then some b.account else l.store.frontiers.get x) ∧
      (∀ x, l1.store.confirmation_height.get x
        = if b.account = x then some 0 else l.store.confirmation_height.get x) ∧
      l1.rep_weights = representation_add l.rep_weights b.representative p.amount ∧
      l1.check_bootstrap_weights = l.check_bootstrap_weights := by
  have hfresh := block_fresh env hs l hcs (.open_ b) (open_block_new env l res b r l1 h hc)
  obtain ⟨p, store3, hp, hpe, hh0, hcl, hl1, _⟩ := open_block_progress env l res b r l1 h hc
  have hfrm := change_latest_frame _ _ _ _ _ _ hcl
  have htab := change_latest_tables env l hcs _ store3 _ _ _ (by simp) (by simp)
    (hs.hash_nonzero (.open_ b)) hcl
  have hconf := change_latest_confirmation _ _ _ _ _ _ hcl (hs.hash_nonzero (.open_ b))
  obtain ⟨hp1, hp0⟩ := pending_get_epoch_0 _ _ _ hp hpe
  have hrows : l.store.accounts_v0.get b.account = none ∧
      l.store.accounts_v1.get b.account = none := by
    rcases account_rows_of_consistent env l hcs b.account with
      ⟨g0, g1, _⟩ | ⟨_, _, _, h3, _⟩ | ⟨_, _, _, _, h3, _⟩
    · exact ⟨g0, g1⟩
    · exact absurd hh0 h3
    · exact absurd hh0 h3
  have hdel : l.store.pending_del { account := b.account, hash := b.source }
      = { l.store with
          pending_v0 := l.store.pending_v0.del { account := b.account, hash := b.source } } := by
    unfold Store.pending_del Map.contains
    rw [hp1]
    rfl
  refine ⟨p, hp0, hp1, hrows.1, hrows.2, hfresh, ?_, ?_, ?_, ?_, ?_, ?_, ?_, ?_, ?_⟩
  · intro x
    rw [hl1]
    simp only [Store.frontier_put_blocks, hfrm.1]
    rw [block_put_open_get, Store.pending_del_blocks]
  · intro x
    rw [hl1]
    simp only [Store.frontier_put_accounts_v0]
    by_cases hx : b.account = x
    · rw [if_pos hx, ← hx]
      exact (htab.2.1 rfl).1
    · rw [if_neg hx]
      exact (htab.1 x (fun hk => hx hk.symm)).1
  · intro x
    rw [hl1]
    simp only [Store.frontier_put_accounts_v1]
    by_cases hx : b.account = x
    · rw [← hx, hrows.2]
      exact (htab.2.1 rfl).2
    · exact (htab.1 x (fun hk => hx hk.symm)).2
  · intro k
    rw [hl1]
    simp only [Store.frontier_put_pending_v0, hfrm.2.1, Store.block_put_pending_v0]
    rw [hdel]
    simp only [Map.get_del]
  · intro k
    rw [hl1]
    simp only [Store.frontier_put_pending_v1, hfrm.2.2.1, Store.block_put_pending_v1]
    rw [hdel]
  · intro x
    rw [hl1]
    simp only [Store.frontier_put, hfrm.2.2.2, Store.block_put_frontiers,
      Store.pending_del_frontiers, Map.get_put]
  · intro x
    rw [hl1]
    simp only [Store.frontier_put]
    rw [hconf, if_pos ⟨hh0, rfl⟩, Map.get_put]
    rw [hdel]
    rfl
  · rw [hl1]
  · rw [hl1]

end nano

namespace nano

/-! ## One round of `rollback`, and the inversions of a legacy open and send -/

theorem rollback_one_step (env : Env) (l : ledger) (t : Hash) (list : List block)
    (fuel ch : Nat) (i : account_info) (row : block_row) (l1 : ledger) (list1 : List block)
    (hst : l.store.block_exists t = true)
    (hch : l.store.confirmation_height_get (l.account t) = some ch)
    (hgt : ch < l.store.block_account_height t)
    (hacc : l.store.account_get (l.account t) = some i)
    (hrow : l.store.block_get i.head = some row)
    (hvisit : rollback_visitor.visit env (ledger.rollback env (fuel + 1)) (fuel + 1) l
      (list ++ [row.block]) row.block = .ok (false, l1, list1))
    (hgone : l1.store.block_exists t = false) :
    ledger.rollback env (fuel + 2) l t list = .ok (false, l1, list1) := by
  unfold ledger.rollback
  simp only
  unfold ledger.rollback_while
  simp only [hst, not_true_eq_false, if_false, hch]
  rw [if_pos hgt]
  simp only [hacc, Option.getD_some, hrow, hvisit]
  unfold ledger.rollback_while
  simp only [hgone, Bool.false_eq_true, not_false_eq_true, if_true]

theorem rollback_open_block_eq (env : Env) (l : ledger) (list : List block) (o : open_block)
    (amount : Amount) (hamt : l.amount env o.source = some amount) :
    rollback_visitor.open_block env l list o
      = .ok (false,
          ledger.mk
            (((((l.store.confirmation_height_del (l.account (env.hash (.open_ o)))).account_del
                (l.account (env.hash (.open_ o)))).block_del (env.hash (.open_ o))).pending_put
                { account := l.account (env.hash (.open_ o)), hash := o.source }
                { source := l.account o.source, amount := amount, epoch := .epoch_0 }).frontier_del
              (env.hash (.open_ o)))
            (representation_add l.rep_weights o.representative (sub128 0 amount))
            l.check_bootstrap_weights, list) := by
  unfold rollback_visitor.open_block
  simp only [hamt]
  unfold ledger.change_latest
  simp only [account_info.default, ne_eq, not_true_eq_false, if_false]

theorem rollback_send_block_eq (env : Env)
    (rb : ledger → Hash → List block → Res rollback_state) (fuel : Nat) (l : ledger)
    (list : List block) (s : send_block) (g : Account) (amount : Amount) (e : epoch)
    (rep : Account) (opn : Hash)
    (hp : l.store.pending_get { account := s.destination, hash := env.hash (.send s) }
      = some { source := g, amount := amount, epoch := e })
    (hprev : s.previous ≠ 0) (hhead : (l.account_state g).head ≠ 0)
    (hep : (l.account_state g).epoch = some .epoch_0)
    (hrep : (l.account_state g).rep = rep) (hopen : (l.account_state g).open_ = opn) :
    rollback_visitor.send_block env rb fuel l list s
      = .ok (false,
          ledger.mk
            ((((((l.store.pending_del
                  { account := s.destination, hash := env.hash (.send s) }).account_put g
                  { head := s.previous, representative := rep, open_block := opn }
                  .epoch_0).block_del
                (env.hash (.send s))).frontier_del (env.hash (.send s))).frontier_put s.previous
              g).block_successor_clear s.previous)
            (representation_add l.rep_weights rep amount)
            l.check_bootstrap_weights, list) := by
  subst hrep
  subst hopen
  have hcl : ledger.change_latest
      (l.store.pending_del { account := s.destination, hash := env.hash (.send s) })
      g (l.account_state g)
      { head := s.previous, representative := (l.account_state g).rep,
        open_block := (l.account_state g).open_ } .epoch_0
      = some ((l.store.pending_del
          { account := s.destination, hash := env.hash (.send s) }).account_put g
          { head := s.previous, representative := (l.account_state g).rep,
            open_block := (l.account_state g).open_ } .epoch_0) := by
    unfold ledger.change_latest
    simp only [ne_eq, hprev, not_false_eq_true, if_true, hhead, false_and, if_false, hep,
      not_true_eq_false]
  unfold rollback_visitor.send_block
  simp only [send_loop_eq, hp, hcl]

end nano

namespace nano

/-! ## The stores that the inversions of a legacy open and send leave -/

theorem open_inversion_store (S T : Store) (A : Account) (ho : Hash) (k : pending_key)
    (src : Account) (amount : Amount)
    (hT : T = ((((S.confirmation_height_del A).account_del A).block_del ho).pending_put k
      { source := src, amount := amount, epoch := .epoch_0 }).frontier_del ho) :
    (∀ x, T.blocks.get x = if ho = x then none else S.blocks.get x) ∧
    (∀ x, T.accounts_v0.get x
      = if S.accounts_v1.get A = none ∧ A = x then none else S.accounts_v0.get x) ∧
    (∀ x, T.accounts_v1.get x = if A = x then none else S.accounts_v1.get x) ∧
    (∀ y, T.pending_v0.get y
      = if k = y then some { source := src, amount := amount } else S.pending_v0.get y) ∧
    (∀ y, T.pending_v1.get y = S.pending_v1.get y) ∧
    (∀ x, T.frontiers.get x = if ho = x then none else S.frontiers.get x) ∧
    (∀ x, T.confirmation_height.get x
      = if A = x then none else S.confirmation_height.get x) := by
  have hadc : ∀ (t : Store), (t.account_del A).confirmation_height = t.confirmation_height := by
    intro t
    unfold Store.account_del
    split <;> rfl
  have hadp0 : ∀ (t : Store), (t.account_del A).pending_v0 = t.pending_v0 := by
    intro t
    unfold Store.account_del
    split <;> rfl
  refine ⟨?_, ?_, ?_, ?_, ?_, ?_, ?_⟩
  · intro x
    rw [hT]
    simp only [Store.frontier_del_blocks, Store.pending_put_blocks]
    unfold Store.block_del
    simp only [Map.get_del, Store.account_del_blocks, Store.confirmation_height_del_blocks]
  · intro x
    rw [hT]
    simp only [Store.frontier_del_accounts_v0, Store.pending_put_accounts_v0,
      Store.block_del_accounts_v0]
    rw [account_del_get0]
    simp only [Store.confirmation_height_del_accounts_v0,
      Store.confirmation_height_del_accounts_v1]
  · intro x
    rw [hT]
    simp only [Store.frontier_del_accounts_v1, Store.pending_put_accounts_v1,
      Store.block_del_accounts_v1]
    rw [account_del_get1]
    simp only [Store.confirmation_height_del_accounts_v1]
  · intro y
    rw [hT]
    simp only [Store.frontier_del_pending_v0]
    unfold Store.pending_put
    simp only [if_true, Map.get_put, Store.block_del_pending_v0, Store.account_del_pending_v0,
      Store.confirmation_height_del_pending_v0]
  · intro y
    rw [hT]
    simp only [Store.frontier_del_pending_v1]
    unfold Store.pending_put
    simp only [if_true, Store.block_del_pending_v1, Store.account_del_pending_v1,
      Store.confirmation_height_del_pending_v1]
  · intro x
    rw [hT]
    unfold Store.frontier_del
    simp only [Map.get_del, Store.pending_put_frontiers, Store.block_del_frontiers,
      Store.account_del_frontiers, Store.confirmation_height_del_frontiers]
  · intro x
    rw [hT]
    have h1 : ∀ (t : Store) (h : Hash), (t.frontier_del h).confirmation_height
        = t.confirmation_height := fun _ _ => rfl
    have h2 : ∀ (t : Store) (q : pending_key) (i : pending_info),
        (t.pending_put q i).confirmation_height = t.confirmation_height := by
      intro t q i
      unfold Store.pending_put
      split <;> rfl
    have h3 : ∀ (t : Store) (h : Hash), (t.block_del h).confirmation_height
        = t.confirmation_height := fun _ _ => rfl
    rw [h1, h2, h3, hadc]
    unfold Store.confirmation_height_del
    simp only [Map.get_del]

theorem block_successor_clear_get (S : Store) (p x : Hash) :
    (S.block_successor_clear p).blocks.get x
      = if p = x then
          (S.blocks.get p).map
            (fun r => { r with sideband := { r.sideband with successor := 0 } })
        else S.blocks.get x := by
  unfold Store.block_successor_clear
  cases hp : S.blocks.get p with
  | none =>
    simp only [Option.map_none']
    by_cases hx : p = x
    · rw [if_pos hx, ← hx, hp]
    · rw [if_neg hx]
  | some r =>
    simp only [Map.get_put, Option.map_some']

theorem send_inversion_store (S T : Store) (g : Account) (hsh prev : Hash) (k : pending_key)
    (new : account_info) (hk : S.pending_v1.get k = none) (hne : prev ≠ hsh)
    (hT : T = (((((S.pending_del k).account_put g new .epoch_0).block_del hsh).frontier_del
      hsh).frontier_put prev g).block_successor_clear prev) :
    (∀ x, T.blocks.get x
      = if prev = x then
          (S.blocks.get prev).map
            (fun r => { r with sideband := { r.sideband with successor := 0 } })
        else if hsh = x then none else S.blocks.get x) ∧
    (∀ x, T.accounts_v0.get x = if g = x then some new else S.accounts_v0.get x) ∧
    (∀ x, T.accounts_v1.get x = S.accounts_v1.get x) ∧
    (∀ y, T.pending_v0.get y = if k = y then none else S.pending_v0.get y) ∧
    (∀ y, T.pending_v1.get y = S.pending_v1.get y) ∧
    (∀ x, T.frontiers.get x
      = if prev = x then some g else if hsh = x then none else S.frontiers.get x) ∧
    T.confirmation_height = S.confirmation_height := by
  have hdel : S.pending_del k = { S with pending_v0 := S.pending_v0.del k } := by
    unfold Store.pending_del Map.contains
    rw [hk]
    rfl
  have hput : (S.pending_del k).account_put g new .epoch_0
      = { S with pending_v0 := S.pending_v0.del k, accounts_v0 := S.accounts_v0.put g new } := by
    rw [hdel]
    unfold Store.account_put
    simp only [if_true]
  have hsc : ∀ (t : Store),
      (t.block_successor_clear prev).accounts_v0 = t.accounts_v0 ∧
      (t.block_successor_clear prev).accounts_v1 = t.accounts_v1 ∧
      (t.block_successor_clear prev).pending_v0 = t.pending_v0 ∧
      (t.block_successor_clear prev).pending_v1 = t.pending_v1 ∧
      (t.block_successor_clear prev).frontiers = t.frontiers ∧
      (t.block_successor_clear prev).confirmation_height = t.confirmation_height := by
    intro t
    unfold Store.block_successor_clear
    split <;> exact ⟨rfl, rfl, rfl, rfl, rfl, rfl⟩
  rw [hput] at hT
  refine ⟨?_, ?_, ?_, ?_, ?_, ?_, ?_⟩
  · intro x
    rw [hT, block_successor_clear_get]
    simp only [Store.frontier_put, Store.frontier_del, Store.block_del, Map.get_del,
      if_neg hne.symm]
  · intro x
    rw [hT, (hsc _).1]
    simp only [Store.frontier_put, Store.frontier_del, Store.block_del, Map.get_put]
  · intro x
    rw [hT, (hsc _).2.1]
    rfl
  · intro y
    rw [hT, (hsc _).2.2.1]
    simp only [Store.frontier_put, Store.frontier_del, Store.block_del, Map.get_del]
  · intro y
    rw [hT, (hsc _).2.2.2.1]
    rfl
  · intro x
    rw [hT, (hsc _).2.2.2.2.1]
    simp only [Store.frontier_put, Store.frontier_del, Store.block_del, Map.get_put,
      Map.get_del]
  · rw [hT, (hsc _).2.2.2.2.2]
    rfl

end nano

namespace nano

/-! ## A legacy send, then its inversion, on a ledger that hangs together -/

theorem add128_sub128_back (x y : Amount) (hx : x < two128) :
    add128 (add128 x (sub128 0 y)) y = x := by
  have key : ∀ (a b : Nat), a < 340282366920938463463374607431768211456 →
      ((a + (0 + (340282366920938463463374607431768211456
        - b % 340282366920938463463374607431768211456))
        % 340282366920938463463374607431768211456)
        % 340282366920938463463374607431768211456 + b)
        % 340282366920938463463374607431768211456 = a := by
    intro a b h
    omega
  unfold add128 sub128
  unfold two128 at hx ⊢
  exact key x y hx

theorem account_state_of_get (l : ledger) (a : Account) (i : account_info)
    (h : l.store.account_get a = some i) :
    l.account_state a = account_state.mk i (l.store.blocks.get i.head) := by
  unfold ledger.account_state
  rw [h]
  rfl

theorem row_successor_zero (r : block_row) (h : r.sideband.successor = 0) :
    ({ r with sideband := { r.sideband with successor := 0 } } : block_row) = r := by
  cases r with
  | mk b sb e =>
    cases sb with
    | mk t a su ba he ti =>
      simp only at h
      rw [h]

/-- The sender of a legacy send in a ledger that hangs together: its row is in
the table of `epoch_0`, its head is the previous block, which has no successor. -/
theorem sender_facts (env : Env) (l : ledger) (hcs : ledger_consistent env l)
    (hL : ledger_linked l) (prev : Hash) (r0 : block_row)
    (hg : l.store.frontier_get prev ≠ 0) (hr0 : l.store.blocks.get prev = some r0) :
    ∃ i0, l.store.accounts_v0.get (l.store.frontier_get prev) = some i0 ∧
      l.store.accounts_v1.get (l.store.frontier_get prev) = none ∧
      i0.head = prev ∧
      l.store.account_get (l.store.frontier_get prev) = some i0 ∧
      (l.account_state (l.store.frontier_get prev)).rep = i0.representative ∧
      (l.account_state (l.store.frontier_get prev)).open_ = i0.open_block ∧
      (l.account_state (l.store.frontier_get prev)).balance = Store.row_balance r0 ∧
      (l.account_state (l.store.frontier_get prev)).block_count = r0.sideband.height ∧
      r0.epoch = .epoch_0 ∧ r0.sideband.successor = 0 ∧
      l.store.frontiers.get prev = some (l.store.frontier_get prev) ∧
      l.store.confirmation_height.get (l.store.frontier_get prev) = some 0 := by
  have hf : l.store.frontiers.get prev = some (l.store.frontier_get prev) := by
    unfold Store.frontier_get at hg ⊢
    cases hfr : l.store.frontiers.get prev with
    | none =>
      rw [hfr] at hg
      exact absurd rfl hg
    | some a => rfl
  obtain ⟨i0, hi0, hhead⟩ := hL.frontier_owner prev _ hf hg
  obtain ⟨hv1, _, hep⟩ := hcs.acc0 _ i0 hi0
  have hget : l.store.account_get (l.store.frontier_get prev) = some i0 := by
    rw [account_get_of_tables, hv1]
    exact hi0
  have hst : l.account_state (l.store.frontier_get prev)
      = { info_m := i0, row := some r0 } := by
    unfold ledger.account_state
    rw [hget]
    simp only
    unfold Store.block_get
    rw [hhead, hr0]
  have hlast := hL.head_last _ i0 hget
  rw [hhead, hr0] at hlast hep
  simp only [Option.map_some', Option.some.injEq] at hlast hep
  have hconf := hL.unconfirmed (l.store.frontier_get prev)
  rw [hget] at hconf
  refine ⟨i0, hi0, hv1, hhead, hget, ?_, ?_, ?_, ?_, hep, hlast, hf, hconf⟩
  · rw [hst]
    rfl
  · rw [hst]
    rfl
  · rw [hst]
    rfl
  · rw [hst]
    rfl

end nano

namespace nano

theorem frontier_none_of_fresh (l : ledger) (hJ : frontier_legacy l) (h : Hash)
    (hfresh : l.store.blocks.get h = none) : l.store.frontiers.get h = none := by
  cases hf : l.store.frontiers.get h with
  | none => rfl
  | some a =>
    have := hJ h a hf
    rw [hfresh] at this
    exact Option.noConfusion this

/-- The inversion of an accepted legacy send, run on any ledger that holds the
same rows as the ledger the send left, ends without error and leaves a ledger
that holds the same rows as the ledger before the send. -/
theorem send_round_trip (env : Env) (hs : env.sound) (l0 : ledger)
    (hc0 : ledger_consistent env l0) (hJ0 : frontier_legacy l0) (hL0 : ledger_linked l0)
    (res : process_return) (s : send_block) (r1 : process_return) (l1 : ledger)
    (h1 : ledger_processor.send_block env l0 res s = some (r1, l1))
    (hp1 : r1.code = .progress) (L : ledger) (hsame : L.same l1) (list : List block)
    (fuel : Nat) :
    ∃ l0b, ledger.rollback env (fuel + 2) L (env.hash (.send s)) list
        = .ok (false, l0b, list ++ [.send s]) ∧
      l0b.same l0 := by
  obtain ⟨r0, hr0, _, hg, hle, hfresh, B1, A01, A11, P01, P11, F1, C1, W1, FL1⟩ :=
    send_block_tables env hs l0 hc0 res s r1 l1 h1 hp1
  obtain ⟨i0, hi0, hv1, hhead, hget, hrep, hopen, hbal, hcount, hep, hsucc, hf, hconf⟩ :=
    sender_facts env l0 hc0 hL0 s.previous r0 hg hr0
  obtain ⟨⟨sb, sa0, sa1, sp0, sp1, sf, sc⟩, sw, sfl⟩ := hsame
  have hne : s.previous ≠ env.hash (.send s) := by
    intro heq
    rw [heq, hfresh] at hr0
    exact Option.noConfusion hr0
  have hprev : s.previous ≠ 0 := by
    have := hc0.keyed _ _ hr0
    rw [← this]
    exact hs.hash_nonzero _
  have hpf := pending_fresh_of_consistent env l0 hc0
    { account := s.destination, hash := env.hash (.send s) } hfresh
  have hpf1 : l0.store.pending_v1.get { account := s.destination, hash := env.hash (.send s) }
      = none := hpf true
  have hpf0 : l0.store.pending_v0.get { account := s.destination, hash := env.hash (.send s) }
      = none := hpf false
  -- what `L` holds
  have Lrow : L.store.blocks.get (env.hash (.send s))
      = some (block_row.mk (.send s)
          (block_sideband.mk .send (l0.store.frontier_get s.previous) 0 s.balance
            ((l0.account_state (l0.store.frontier_get s.previous)).block_count + 1)
            env.seconds_since_epoch) .epoch_0) := by
    rw [sb, B1, if_neg hne, if_pos rfl]
  have Lacc : L.store.account_get (l0.store.frontier_get s.previous)
      = some { head := env.hash (.send s),
               representative := (l0.account_state (l0.store.frontier_get s.previous)).rep,
               open_block := (l0.account_state (l0.store.frontier_get s.previous)).open_ } := by
    rw [account_get_of_tables, sa1, A11, if_pos rfl]
    simp only
    rw [sa0, A01, if_pos rfl]
  have Lp1 : L.store.pending_v1.get { account := s.destination, hash := env.hash (.send s) }
      = none := by
    rw [sp1, P11, hpf1]
  have Lpend : L.store.pending_get { account := s.destination, hash := env.hash (.send s) }
      = some { source := l0.store.frontier_get s.previous,
               amount := sub128 (l0.account_state (l0.store.frontier_get s.previous)).balance
                 s.balance,
               epoch := .epoch_0 } := by
    unfold Store.pending_get
    rw [Lp1]
    simp only
    rw [sp0, P01, if_pos rfl]
  have Lstate : L.account_state (l0.store.frontier_get s.previous)
      = account_state.mk
          (account_info.mk (env.hash (.send s))
            (l0.account_state (l0.store.frontier_get s.previous)).rep
            (l0.account_state (l0.store.frontier_get s.previous)).open_)
          (some (block_row.mk (.send s)
            (block_sideband.mk .send (l0.store.frontier_get s.previous) 0 s.balance
              ((l0.account_state (l0.store.frontier_get s.previous)).block_count + 1)
              env.seconds_since_epoch) .epoch_0)) := by
    rw [account_state_of_get L _ _ Lacc]
    simp only
    rw [Lrow]
  have Laccount : L.account (env.hash (.send s)) = l0.store.frontier_get s.previous := by
    unfold ledger.account Store.block_account Store.block_get
    rw [Lrow]
  obtain ⟨T, hT⟩ : ∃ T : Store, T = ((((((L.store.pending_del
      { account := s.destination, hash := env.hash (.send s) }).account_put
      (l0.store.frontier_get s.previous)
      { head := s.previous,
        representative := (l0.account_state (l0.store.frontier_get s.previous)).rep,
        open_block := (l0.account_state (l0.store.frontier_get s.previous)).open_ }
      .epoch_0).block_del (env.hash (.send s))).frontier_del (env.hash (.send s))).frontier_put
      s.previous (l0.store.frontier_get s.previous)).block_successor_clear s.previous) :=
    ⟨_, rfl⟩
  have hvisit := rollback_send_block_eq env (ledger.rollback env (fuel + 1)) (fuel + 1) L
    (list ++ [.send s]) s (l0.store.frontier_get s.previous)
    (sub128 (l0.account_state (l0.store.frontier_get s.previous)).balance s.balance) .epoch_0
    (l0.account_state (l0.store.frontier_get s.previous)).rep
    (l0.account_state (l0.store.frontier_get s.previous)).open_ Lpend hprev
    (by rw [Lstate]; exact hs.hash_nonzero _) (by rw [Lstate]; rfl)
    (by rw [Lstate]; rfl) (by rw [Lstate]; rfl)
  rw [← hT] at hvisit
  obtain ⟨T1, T2, T3, T4, T5, T6, T7⟩ := send_inversion_store L.store T
    (l0.store.frontier_get s.previous) (env.hash (.send s)) s.previous
    { account := s.destination, hash := env.hash (.send s) }
    { head := s.previous,
      representative := (l0.account_state (l0.store.frontier_get s.previous)).rep,
      open_block := (l0.account_state (l0.store.frontier_get s.previous)).open_ }
    Lp1 hne hT
  refine ⟨ledger.mk T
    (representation_add L.rep_weights (l0.account_state (l0.store.frontier_get s.previous)).rep
      (sub128 (l0.account_state (l0.store.frontier_get s.previous)).balance s.balance))
    L.check_bootstrap_weights, ?_, ?_⟩
  · refine rollback_one_step env L (env.hash (.send s)) list fuel 0
      (account_info.mk (env.hash (.send s))
        (l0.account_state (l0.store.frontier_get s.previous)).rep
        (l0.account_state (l0.store.frontier_get s.previous)).open_)
      (block_row.mk (.send s)
        (block_sideband.mk .send (l0.store.frontier_get s.previous) 0 s.balance
          ((l0.account_state (l0.store.frontier_get s.previous)).block_count + 1)
          env.seconds_since_epoch) .epoch_0) _ _ ?_ ?_ ?_
      (by rw [Laccount]; exact Lacc) (by unfold Store.block_get; exact Lrow) hvisit ?_
    · unfold Store.block_exists Store.block_get
      rw [Lrow]
      rfl
    · rw [Laccount]
      unfold Store.confirmation_height_get
      rw [sc, C1, hconf]
    · unfold Store.block_account_height Store.block_get
      rw [Lrow]
      exact Nat.succ_pos _
    · unfold Store.block_exists Store.block_get
      simp only
      rw [T1, if_neg hne, if_pos rfl]
      rfl
  · refine ⟨⟨?_, ?_, ?_, ?_, ?_, ?_, ?_⟩, ?_, ?_⟩
    · intro x
      simp only
      rw [T1]
      by_cases hx1 : s.previous = x
      · rw [if_pos hx1, sb, B1, if_pos rfl, Option.map_some', ← hx1, hr0]
        simp only
        rw [row_successor_zero r0 hsucc]
      · rw [if_neg hx1]
        by_cases hx2 : env.hash (.send s) = x
        · rw [if_pos hx2, ← hx2, hfresh]
        · rw [if_neg hx2, sb, B1, if_neg hx1, if_neg hx2]
    · intro x
      simp only
      rw [T2]
      by_cases hx : l0.store.frontier_get s.previous = x
      · rw [if_pos hx, ← hx, hi0, hrep, hopen, ← hhead]
      · rw [if_neg hx, sa0, A01, if_neg hx]
    · intro x
      simp only
      rw [T3, sa1, A11]
      by_cases hx : l0.store.frontier_get s.previous = x
      · rw [if_pos hx, ← hx, hv1]
      · rw [if_neg hx]
    · intro y
      simp only
      rw [T4]
      by_cases hy : ({ account := s.destination, hash := env.hash (.send s) } : pending_key) = y
      · rw [if_pos hy, ← hy, hpf0]
      · rw [if_neg hy, sp0, P01, if_neg hy]
    · intro y
      simp only
      rw [T5, sp1, P11]
    · intro x
      simp only
      rw [T6]
      by_cases hx1 : s.previous = x
      · rw [if_pos hx1, ← hx1, hf]
      · rw [if_neg hx1]
        by_cases hx2 : env.hash (.send s) = x
        · rw [if_pos hx2, ← hx2, frontier_none_of_fresh l0 hJ0 _ hfresh]
        · rw [if_neg hx2, sf, F1, if_neg hx2, if_neg hx1]
    · intro x
      simp only
      rw [T7, sc, C1]
    · intro x
      simp only
      rw [representation_get_add]
      by_cases hx : (l0.account_state (l0.store.frontier_get s.previous)).rep = x
      · rw [if_pos hx, sw, W1, representation_get_add, if_pos rfl, ← hx]
        exact add128_sub128_back _ _ (hL0.weight_128 _)
      · rw [if_neg hx, sw, W1, representation_get_add, if_neg hx]
    · simp only
      rw [sfl, FL1]

end nano

namespace nano

/-! ## A legacy open, then its inversion -/

theorem amount_congr (env : Env) (l l2 : ledger) (h : Hash) (rs : block_row)
    (hrow : l.store.blocks.get h = some rs)
    (h1 : l2.store.blocks.get h = l.store.blocks.get h)
    (h2 : l2.store.blocks.get rs.block.previous = l.store.blocks.get rs.block.previous) :
    l2.amount env h = l.amount env h := by
  unfold ledger.amount ledger.balance Store.block_balance Store.block_get
  rw [h1, hrow]
  simp only
  rw [h2]

/-- The inversion of an accepted legacy open whose source is a stored block
ends without error and leaves a ledger that holds the same rows as the ledger
before the open. -/
theorem open_round_trip (env : Env) (hs : env.sound) (l1 : ledger)
    (hc1 : ledger_consistent env l1) (hJ1 : frontier_legacy l1)
    (res : process_return) (o : open_block) (r2 : process_return) (l2 : ledger)
    (h2 : ledger_processor.open_block env l1 res o = some (r2, l2))
    (hp2 : r2.code = .progress)
    (rs : block_row) (g : Account) (a : Amount)
    (hsrc : l1.store.blocks.get o.source = some rs) (hsa : rs.sideband.account = g)
    (hpv : (l1.store.blocks.get rs.block.previous).isSome = true ∨
      l2.store.blocks.get rs.block.previous = l1.store.blocks.get rs.block.previous)
    (hamt : l1.amount env o.source = some a)
    (hpend : l1.store.pending_v0.get { account := o.account, hash := o.source }
      = some { source := g, amount := a })
    (hw : representation_get l1.rep_weights o.representative < two128)
    (hconfA : l1.store.confirmation_height.get o.account = none)
    (list : List block) (fuel : Nat) :
    ∃ l1b, ledger.rollback env (fuel + 2) l2 (env.hash (.open_ o)) list
        = .ok (false, l1b, list ++ [.open_ o]) ∧
      l1b.same l1 := by
  obtain ⟨p, hp0, hp1, hA0, hA1, hfresh, B2, A02, A12, P02, P12, F2, C2, W2, FL2⟩ :=
    open_block_tables env hs l1 hc1 res o r2 l2 h2 hp2
  rw [hpend] at hp0
  simp only [Option.some.injEq, pending_row.mk.injEq] at hp0
  obtain ⟨hps, hpa⟩ := hp0
  have hne : env.hash (.open_ o) ≠ o.source := by
    intro heq
    rw [← heq, hfresh] at hsrc
    exact Option.noConfusion hsrc
  have hpv2 : l2.store.blocks.get rs.block.previous = l1.store.blocks.get rs.block.previous := by
    rcases hpv with hst | hst
    · rw [B2, if_neg]
      intro heq
      rw [← heq, hfresh] at hst
      exact Bool.noConfusion hst
    · exact hst
  have Rrow : l2.store.blocks.get (env.hash (.open_ o))
      = some (block_row.mk (.open_ o)
          (block_sideband.mk .open_ o.account 0 p.amount 1 env.seconds_since_epoch)
          .epoch_0) := by
    rw [B2, if_pos rfl]
  have Racc : l2.store.account_get o.account
      = some (account_info.mk (env.hash (.open_ o)) o.representative (env.hash (.open_ o))) := by
    rw [account_get_of_tables, A12, hA1]
    simp only
    rw [A02, if_pos rfl]
  have Raccount : l2.account (env.hash (.open_ o)) = o.account := by
    unfold ledger.account Store.block_account Store.block_get
    rw [Rrow]
  have Rsrc : l2.store.blocks.get o.source = some rs := by
    rw [B2, if_neg hne, hsrc]
  have Rsource : l2.account o.source = g := by
    unfold ledger.account Store.block_account Store.block_get
    rw [Rsrc]
    exact hsa
  have Ramount : l2.amount env o.source = some a := by
    rw [amount_congr env l1 l2 o.source rs hsrc (by rw [Rsrc, hsrc]) hpv2]
    exact hamt
  obtain ⟨T, hT⟩ : ∃ T : Store, T = ((((l2.store.confirmation_height_del o.account).account_del
      o.account).block_del (env.hash (.open_ o))).pending_put
      { account := o.account, hash := o.source }
      { source := g, amount := a, epoch := .epoch_0 }).frontier_del (env.hash (.open_ o)) :=
    ⟨_, rfl⟩
  have hvisit := rollback_open_block_eq env l2 (list ++ [.open_ o]) o a Ramount
  rw [Raccount, Rsource, ← hT] at hvisit
  obtain ⟨T1, T2, T3, T4, T5, T6, T7⟩ := open_inversion_store l2.store T o.account
    (env.hash (.open_ o)) { account := o.account, hash := o.source } g a hT
  refine ⟨ledger.mk T (representation_add l2.rep_weights o.representative (sub128 0 a))
    l2.check_bootstrap_weights, ?_, ?_⟩
  · refine rollback_one_step env l2 (env.hash (.open_ o)) list fuel 0
      (account_info.mk (env.hash (.open_ o)) o.representative (env.hash (.open_ o)))
      (block_row.mk (.open_ o)
        (block_sideband.mk .open_ o.account 0 p.amount 1 env.seconds_since_epoch) .epoch_0)
      _ _ ?_ ?_ ?_ (by rw [Raccount]; exact Racc) (by unfold Store.block_get; exact Rrow)
      hvisit ?_
    · unfold Store.block_exists Store.block_get
      rw [Rrow]
      rfl
    · rw [Raccount]
      unfold Store.confirmation_height_get
      rw [C2, if_pos rfl]
    · unfold Store.block_account_height Store.block_get
      rw [Rrow]
      exact Nat.succ_pos _
    · unfold Store.block_exists Store.block_get
      simp only
      rw [T1, if_pos rfl]
      rfl
  · refine ⟨⟨?_, ?_, ?_, ?_, ?_, ?_, ?_⟩, ?_, ?_⟩
    · intro x
      simp only
      rw [T1]
      by_cases hx : env.hash (.open_ o) = x
      · rw [if_pos hx, ← hx, hfresh]
      · rw [if_neg hx, B2, if_neg hx]
    · intro x
      simp only
      rw [T2, A12, hA1]
      by_cases hx : o.account = x
      · rw [if_pos ⟨rfl, hx⟩, ← hx, hA0]
      · rw [if_neg (fun hk => hx hk.2), A02, if_neg hx]
    · intro x
      simp only
      rw [T3, A12]
      by_cases hx : o.account = x
      · rw [if_pos hx, ← hx, hA1]
      · rw [if_neg hx]
    · intro y
      simp only
      rw [T4]
      by_cases hy : ({ account := o.account, hash := o.source } : pending_key) = y
      · rw [if_pos hy, ← hy, hpend]
      · rw [if_neg hy, P02, if_neg hy]
    · intro y
      simp only
      rw [T5, P12]
    · intro x
      simp only
      rw [T6]
      by_cases hx : env.hash (.open_ o) = x
      · rw [if_pos hx, ← hx, frontier_none_of_fresh l1 hJ1 _ hfresh]
      · rw [if_neg hx, F2, if_neg hx]
    · intro x
      simp only
      rw [T7]
      by_cases hx : o.account = x
      · rw [if_pos hx, ← hx, hconfA]
      · rw [if_neg hx, C2, if_neg hx]
    · intro x
      simp only
      rw [representation_get_add, W2, representation_get_add, if_pos rfl]
      by_cases hx : o.representative = x
      · rw [if_pos hx, ← hx, ← hpa]
        exact add128_sub128_cancel _ _ hw
      · rw [if_neg hx, representation_get_add, if_neg hx]
    · simp only
      rw [FL2]

end nano

namespace nano

/-! ## Send, open, and both inversions -/

theorem representation_add_lt (w : Map Account Amount) (a : Account) (x : Amount)
    (hw : ∀ z, representation_get w z < two128) (y : Account) :
    representation_get (representation_add w a x) y < two128 := by
  rw [representation_get_add]
  split
  · unfold add128
    exact Nat.mod_lt _ (by decide)
  · exact hw y

theorem same_account_get (s t : Store) (h : s.same t) (a : Account) :
    s.account_get a = t.account_get a := by
  rw [account_get_of_tables, account_get_of_tables, h.2.2.1 a, h.2.1 a]

theorem same_pending_get (s t : Store) (h : s.same t) (k : pending_key) :
    s.pending_get k = t.pending_get k := by
  unfold Store.pending_get
  rw [h.2.2.2.2.1 k, h.2.2.2.1 k]

/-- A legacy send accepted on a ledger that hangs together, a legacy open of
its amount accepted next, then the inversion of the open and the inversion of
the send: both end without error, the first leaves the rows of the ledger
between the two blocks, the second the rows of the ledger before the send. -/
theorem send_open_round_trip (env : Env) (hs : env.sound) (l0 : ledger)
    (hc0 : ledger_consistent env l0) (hJ0 : frontier_legacy l0) (hL0 : ledger_linked l0)
    (res1 res2 : process_return) (s : send_block) (o : open_block)
    (r1 r2 : process_return) (l1 l2 : ledger)
    (h1 : ledger_processor.send_block env l0 res1 s = some (r1, l1))
    (hp1 : r1.code = .progress)
    (h2 : ledger_processor.open_block env l1 res2 o = some (r2, l2))
    (hp2 : r2.code = .progress)
    (hsrc : o.source = env.hash (.send s))
    (hgen : env.hash (.send s) ≠ env.genesis_account) (fuel : Nat) :
    ∃ l1b l0b,
      ledger.rollback env (fuel + 2) l2 (env.hash (.open_ o)) [] = .ok (false, l1b, [.open_ o]) ∧
      l1b.same l1 ∧
      ledger.rollback env (fuel + 2) l1b (env.hash (.send s)) [] = .ok (false, l0b, [.send s]) ∧
      l0b.same l0 ∧
      o.account = s.destination ∧
      l1.store.account_get o.account = none ∧
      l1.store.confirmation_height_get o.account = none ∧
      l1.store.frontiers.get (env.hash (.open_ o)) = none ∧
      l1.store.block_get (env.hash (.open_ o)) = none ∧
      l1.store.pending_get { account := o.account, hash := env.hash (.send s) }
        = some { source := r1.account, amount := r1.amount, epoch := .epoch_0 } := by
  have hc1 := send_block_consistent env hs l0 hc0 res1 s r1 l1 h1 hp1
  have hJ1 := send_block_frontier_legacy env hs l0 hc0 hJ0 res1 s r1 l1 h1 hp1
  obtain ⟨r0, hr0, _, hg, hle, hfresh, B1, A01, A11, P01, P11, F1, C1, W1, FL1⟩ :=
    send_block_tables env hs l0 hc0 res1 s r1 l1 h1 hp1
  obtain ⟨i0, hi0, hv1, hhead, hget, hrep, hopen, hbal, hcount, hep, hsucc, hf, hconf⟩ :=
    sender_facts env l0 hc0 hL0 s.previous r0 hg hr0
  obtain ⟨_, _, _, _, hr1⟩ := send_block_progress env l0 res1 s r1 l1 h1 hp1
  obtain ⟨p, hq0, hq1, hA0, hA1, hfresh2, _⟩ :=
    open_block_tables env hs l1 hc1 res2 o r2 l2 h2 hp2
  have hne : s.previous ≠ env.hash (.send s) := by
    intro heq
    rw [heq, hfresh] at hr0
    exact Option.noConfusion hr0
  have hprev : s.previous ≠ 0 := by
    have := hc0.keyed _ _ hr0
    rw [← this]
    exact hs.hash_nonzero _
  have hpf := pending_fresh_of_consistent env l0 hc0
    { account := o.account, hash := env.hash (.send s) } hfresh
  have hpf0 : l0.store.pending_v0.get { account := o.account, hash := env.hash (.send s) }
      = none := hpf false
  have hdest : o.account = s.destination := by
    rw [hsrc, P01] at hq0
    by_cases hk : ({ account := s.destination, hash := env.hash (.send s) } : pending_key)
        = { account := o.account, hash := env.hash (.send s) }
    · simp only [pending_key.mk.injEq, and_true] at hk
      exact hk.symm
    · rw [if_neg hk, hpf0] at hq0
      exact Option.noConfusion hq0
  have hpend : l1.store.pending_v0.get { account := o.account, hash := o.source }
      = some { source := l0.store.frontier_get s.previous,
               amount := sub128 (l0.account_state (l0.store.frontier_get s.previous)).balance
                 s.balance } := by
    rw [hsrc, P01, hdest, if_pos rfl]
  have hrow1 : l1.store.blocks.get o.source
      = some (block_row.mk (.send s)
          (block_sideband.mk .send (l0.store.frontier_get s.previous) 0 s.balance
            ((l0.account_state (l0.store.frontier_get s.previous)).block_count + 1)
            env.seconds_since_epoch) .epoch_0) := by
    rw [hsrc, B1, if_neg hne, if_pos rfl]
  have hrowp : l1.store.blocks.get s.previous
      = some { r0 with sideband := { r0.sideband with successor := env.hash (.send s) } } := by
    rw [B1, if_pos rfl]
  have hb1 : l1.balance o.source = s.balance := by
    unfold ledger.balance Store.block_balance Store.block_get
    rw [hrow1, if_neg (by rw [hsrc]; exact hs.hash_nonzero _)]
    rfl
  have hb2 : l1.balance s.previous
      = (l0.account_state (l0.store.frontier_get s.previous)).balance := by
    unfold ledger.balance Store.block_balance Store.block_get
    rw [hrowp, if_neg hprev, hbal]
    exact row_balance_successor r0 _
  have hamt : l1.amount env o.source
      = some (sub128 (l0.account_state (l0.store.frontier_get s.previous)).balance
          s.balance) := by
    unfold ledger.amount
    rw [if_pos (by rw [hsrc]; exact hgen)]
    unfold Store.block_get
    rw [hrow1]
    simp only [block.previous]
    rw [hb1, hb2, if_neg (Nat.not_lt.mpr hle)]
  have hw1 : representation_get l1.rep_weights o.representative < two128 := by
    rw [W1]
    exact representation_add_lt _ _ _ hL0.weight_128 _
  have hAg : l0.store.frontier_get s.previous ≠ o.account := by
    intro heq
    have := A01 o.account
    rw [if_pos heq, hA0] at this
    exact Option.noConfusion this
  have hA00 : l0.store.accounts_v0.get o.account = none := by
    have := A01 o.account
    rw [if_neg hAg, hA0] at this
    exact this.symm
  have hA10 : l0.store.accounts_v1.get o.account = none := by
    have := A11 o.account
    rw [if_neg hAg, hA1] at this
    exact this.symm
  have hconfA : l1.store.confirmation_height.get o.account = none := by
    rw [C1, hL0.unconfirmed, account_get_of_tables, hA10, hA00]
    rfl
  obtain ⟨l1b, hrb1, hsame1⟩ := open_round_trip env hs l1 hc1 hJ1 res2 o r2 l2 h2 hp2 _
    (l0.store.frontier_get s.previous)
    (sub128 (l0.account_state (l0.store.frontier_get s.previous)).balance s.balance)
    hrow1 rfl (Or.inl (by
      show (l1.store.blocks.get s.previous).isSome = true
      rw [hrowp]
      rfl)) hamt hpend hw1 hconfA [] fuel
  obtain ⟨l0b, hrb0, hsame0⟩ := send_round_trip env hs l0 hc0 hJ0 hL0 res1 s r1 l1 h1 hp1
    l1b hsame1 [] fuel
  refine ⟨l1b, l0b, hrb1, hsame1, hrb0, hsame0, hdest, ?_, ?_, ?_, ?_, ?_⟩
  · rw [account_get_of_tables, hA1, hA0]
  · exact hconfA
  · exact frontier_none_of_fresh l1 hJ1 _ hfresh2
  · exact hfresh2
  · unfold Store.pending_get
    rw [← hsrc, hq1, hpend, hr1]

end nano

namespace nano

/-! ## The genesis ledger hangs together -/

theorem genesis_linked (env : Env) (hs : env.sound) : ledger_linked (ledger.genesis env) := by
  have hne := hs.hash_nonzero (.open_
    { source := env.genesis_account, representative := env.genesis_account,
      account := env.genesis_account, signature := 0 })
  refine ⟨?_, ?_, ?_, ?_, ?_⟩
  · intro h a hf _
    unfold ledger.genesis at hf ⊢
    simp only [Map.get] at hf ⊢
    split at hf
    · rename_i heq
      simp only [Option.some.injEq] at hf
      rw [← hf, if_pos rfl]
      exact ⟨_, rfl, heq⟩
    · exact Option.noConfusion hf
  · intro a i hg
    unfold ledger.genesis Store.account_get at hg
    unfold ledger.genesis
    simp only [Map.get] at hg ⊢
    split at hg
    · simp only [Option.some.injEq] at hg
      rw [← hg]
      simp only [if_true, Option.map_some']
    · exact Option.noConfusion hg
  · intro a c i j hi hj _
    unfold ledger.genesis Store.account_get at hi hj
    simp only [Map.get] at hi hj
    split at hi
    · rename_i h1
      split at hj
      · rename_i h2
        rw [← h1, ← h2]
      · exact Option.noConfusion hj
    · exact Option.noConfusion hi
  · intro x
    unfold ledger.genesis representation_get
    simp only [Map.get]
    split
    · exact hs.genesis_128
    · exact Nat.lt_of_lt_of_le Nat.zero_lt_one (by decide)
  · intro a
    unfold ledger.genesis Store.account_get
    simp only [Map.get]
    split <;> rfl

/-- From the ledger that holds the genesis open block only: a legacy send of
genesis and the legacy open of its destination are undone by rolling back the
open block and then the send block; the first rollback leaves the rows of the
ledger between the two blocks, the second the rows of the genesis ledger. -/
theorem send_open_round_trip_genesis (env : Env) (hs : env.sound)
    (v1 v2 : signature_verification) (s : send_block) (o : open_block)
    (r1 r2 : process_return) (l1 l2 : ledger)
    (h1 : ledger.process env (ledger.genesis env) (.send s) v1 = some (r1, l1))
    (hp1 : r1.code = .progress)
    (h2 : ledger.process env l1 (.open_ o) v2 = some (r2, l2))
    (hp2 : r2.code = .progress)
    (hsrc : o.source = env.hash (.send s))
    (hgen : env.hash (.send s) ≠ env.genesis_account) (fuel : Nat) :
    ∃ l1b l0b,
      ledger.rollback env (fuel + 2) l2 (env.hash (.open_ o)) [] = .ok (false, l1b, [.open_ o]) ∧
      l1b.same l1 ∧
      ledger.rollback env (fuel + 2) l1b (env.hash (.send s)) [] = .ok (false, l0b, [.send s]) ∧
      l0b.same (ledger.genesis env) := by
  obtain ⟨l1b, l0b, e1, e2, e3, e4, _⟩ := send_open_round_trip env hs (ledger.genesis env)
    (genesis_consistent env hs) (genesis_frontier_legacy env) (genesis_linked env hs)
    (process_return.init v1) (process_return.init v2) s o r1 r2 l1 l2 h1 hp1 h2 hp2 hsrc hgen
    fuel
  exact ⟨l1b, l0b, e1, e2, e3, e4⟩

end nano

namespace nano

/-! ## C24: send, open, and the two rollbacks -/

/-- C24 (evaluation at the failing input): genesis has sent its whole balance
and the epoch block of the unopened account 9 was accepted on top of that send
block, which is still the head of genesis and now has the epoch block as
successor. Genesis then sends 0 to account 3 and account 3 opens with that send,
both with `progress`. Rolling back the open block and then the send block
returns no error twice, but the send block of genesis is left with successor 0:
the store is not the store before the send was processed. -/
theorem round_trip_clears_foreign_successor :
    example_net.code_of example_net.emptied_ledger (.state example_net.epoch_first_9) .unknown
      = some .progress ∧
    example_net.stray_ledger.latest example_net.genesis
      = example_net.hash (.send example_net.send_all) ∧
    example_net.stray_ledger.store.block_successor
        (example_net.hash (.send example_net.send_all))
      = example_net.hash (.state example_net.epoch_first_9) ∧
    example_net.hash (.state example_net.epoch_first_9) ≠ 0 ∧
    example_net.code_of example_net.stray_ledger (.send example_net.send_zero) .unknown
      = some .progress ∧
    example_net.code_of (example_net.after example_net.stray_ledger (.send example_net.send_zero))
      (.open_ example_net.open_3) .unknown = some .progress ∧
    (example_net.rollback_outcome example_net.opened_3_ledger
      (example_net.hash (.open_ example_net.open_3))).map (fun p => p.1) = some false ∧
    (example_net.rollback_outcome
      (example_net.after_rollback example_net.opened_3_ledger
        (example_net.hash (.open_ example_net.open_3)))
      (example_net.hash (.send example_net.send_zero))).map (fun p => p.1) = some false ∧
    (example_net.after_rollback
      (example_net.after_rollback example_net.opened_3_ledger
        (example_net.hash (.open_ example_net.open_3)))
      (example_net.hash (.send example_net.send_zero))).store.block_successor
        (example_net.hash (.send example_net.send_all)) = 0 := by
  decide

end nano

namespace nano

/-! ## C31: the signature verdict for an epoch-link block whose previous is missing -/

/-- C31: for a state block whose link is an epoch link and whose previous is
non-zero and not stored, `process` returns and hands the ledger back as it was.
With the hint `unknown`, `verified` is `valid` when the signature validates
for the account of the block, otherwise `valid_epoch` when it validates for the
epoch signer, otherwise `invalid`; the code is `gap_previous` in the first two
cases and `bad_signature` in the third. With any other hint the code is
`gap_previous` and `verified` is the hint. (`validate_message` returns `true`
when the signature does not validate.) -/
theorem epoch_link_missing_previous_verdict (env : Env) (l : ledger)
    (v : signature_verification) (b : state_block)
    (hl : ledger.is_epoch_link env b.link = true) (h0 : b.previous ≠ 0)
    (hx : l.store.block_exists b.previous = false) :
    ∃ r, ledger.process env l (.state b) v = some (r, l) ∧
      (v = .unknown →
        (env.validate_message b.account (env.hash (.state b)) b.signature = false →
          r.verified = .valid ∧ r.code = .gap_previous) ∧
        (env.validate_message b.account (env.hash (.state b)) b.signature = true →
          env.validate_message (ledger.signer env b.link) (env.hash (.state b)) b.signature
            = false →
          r.verified = .valid_epoch ∧ r.code = .gap_previous) ∧
        (env.validate_message b.account (env.hash (.state b)) b.signature = true →
          env.validate_message (ledger.signer env b.link) (env.hash (.state b)) b.signature
            = true →
          r.verified = .invalid ∧ r.code = .bad_signature)) ∧
      (v ≠ .unknown → r.code = .gap_previous ∧ r.verified = v) := by
  have hv : (process_return.init v).verified = v := rfl
  have hprev : ledger_processor.state_block_prev env l (process_return.init v) b
      = (if v = .unknown then
          if env.validate_message b.account (env.hash (.state b)) b.signature = true then
            if env.validate_message (ledger.signer env b.link) (env.hash (.state b))
                b.signature = true then
              ({ process_return.init v with code := .bad_signature, verified := .invalid }, 0)
            else ({ process_return.init v with code := .gap_previous,
                                               verified := .valid_epoch }, 0)
          else ({ process_return.init v with code := .gap_previous, verified := .valid }, 0)
        else ({ process_return.init v with code := .gap_previous }, 0)) := by
    unfold ledger_processor.state_block_prev
    simp only [h0, hx, ne_eq, not_false_eq_true, if_true, Bool.false_eq_true, if_false, hv]
  have hcode : (ledger_processor.state_block_prev env l (process_return.init v) b).1.code
      ≠ .progress := by
    rw [hprev]
    repeat' split
    all_goals exact fun hk => process_result.noConfusion hk
  refine ⟨(ledger_processor.state_block_prev env l (process_return.init v) b).1, ?_, ?_, ?_⟩
  · unfold ledger.process ledger_processor.state_block
    simp only [hl, if_true, hcode, if_false]
  · intro hu
    rw [hprev, if_pos hu]
    refine ⟨?_, ?_, ?_⟩
    · intro h1
      rw [if_neg (by rw [h1]; exact Bool.false_ne_true)]
      exact ⟨rfl, rfl⟩
    · intro h1 h2
      rw [if_pos h1, if_neg (by rw [h2]; exact Bool.false_ne_true)]
      exact ⟨rfl, rfl⟩
    · intro h1 h2
      rw [if_pos h1, if_pos h2]
      exact ⟨rfl, rfl⟩
  · intro hu
    rw [hprev, if_neg hu]
    exact ⟨rfl, rfl⟩

theorem epoch_link_missing_previous_verdict_witness :
    ledger.is_epoch_link example_net.env example_net.orphan_epoch_link_block.link = true ∧
    example_net.orphan_epoch_link_block.previous ≠ 0 ∧
    example_net.genesis_ledger.store.block_exists example_net.orphan_epoch_link_block.previous
      = false ∧
    ∃ r, ledger.process example_net.env example_net.genesis_ledger
        (.state example_net.orphan_epoch_link_block) .unknown
        = some (r, example_net.genesis_ledger) ∧
      (signature_verification.unknown = .unknown →
        (example_net.env.validate_message example_net.orphan_epoch_link_block.account
            (example_net.env.hash (.state example_net.orphan_epoch_link_block))
            example_net.orphan_epoch_link_block.signature = false →
          r.verified = .valid ∧ r.code = .gap_previous) ∧
        (example_net.env.validate_message example_net.orphan_epoch_link_block.account
            (example_net.env.hash (.state example_net.orphan_epoch_link_block))
            example_net.orphan_epoch_link_block.signature = true →
          example_net.env.validate_message
            (ledger.signer example_net.env example_net.orphan_epoch_link_block.link)
            (example_net.env.hash (.state example_net.orphan_epoch_link_block))
            example_net.orphan_epoch_link_block.signature = false →
          r.verified = .valid_epoch ∧ r.code = .gap_previous) ∧
        (example_net.env.validate_message example_net.orphan_epoch_link_block.account
            (example_net.env.hash (.state example_net.orphan_epoch_link_block))
            example_net.orphan_epoch_link_block.signature = true →
          example_net.env.validate_message
            (ledger.signer example_net.env example_net.orphan_epoch_link_block.link)
            (example_net.env.hash (.state example_net.orphan_epoch_link_block))
            example_net.orphan_epoch_link_block.signature = true →
          r.verified = .invalid ∧ r.code = .bad_signature)) ∧
      (signature_verification.unknown ≠ .unknown → r.code = .gap_previous ∧ r.verified = .unknown) :=
  ⟨by decide, by decide, by decide,
    epoch_link_missing_previous_verdict example_net.env example_net.genesis_ledger .unknown
      example_net.orphan_epoch_link_block (by decide) (by decide) (by decide)⟩

end nano

namespace nano

/-! ## C35: `change_latest` keeps one row per account -/

theorem if_confirmation_put_accounts (s : Store) (c : Prop) [Decidable c] (a : Account) :
    (if c then s.confirmation_height_put a 0 else s).accounts_v0 = s.accounts_v0 ∧
    (if c then s.confirmation_height_put a 0 else s).accounts_v1 = s.accounts_v1 := by
  split
  · exact ⟨rfl, rfl⟩
  · exact ⟨rfl, rfl⟩

theorem put_after_optional_del (t : Store) (a : Account) (new : account_info) (e e0 : epoch)
    (hone : t.accounts_v0.get a = none ∨ t.accounts_v1.get a = none)
    (h1 : (t.accounts_v1.get a).isSome = true → e0 ≠ .epoch_0)
    (h0 : (t.accounts_v0.get a).isSome = true → e0 = .epoch_0) :
    (e = .epoch_0 →
      ((if e0 ≠ e then t.account_del a else t).account_put a new e).accounts_v0.get a = some new ∧
      ((if e0 ≠ e then t.account_del a else t).account_put a new e).accounts_v1.get a = none) ∧
    (¬ e = .epoch_0 →
      ((if e0 ≠ e then t.account_del a else t).account_put a new e).accounts_v1.get a = some new ∧
      ((if e0 ≠ e then t.account_del a else t).account_put a new e).accounts_v0.get a
        = none) := by
  constructor
  · intro he
    rw [account_put_get0, account_put_get1, if_pos ⟨he, rfl⟩,
      if_neg (fun hk => hk.1 he)]
    refine ⟨rfl, ?_⟩
    by_cases hee : e0 = e
    · rw [if_neg (not_not.mpr hee)]
      cases hg : t.accounts_v1.get a with
      | none => rfl
      | some i =>
        exfalso
        exact h1 (by rw [hg]; rfl) (hee.trans he)
    · rw [if_pos hee, account_del_get1, if_pos rfl]
  · intro he
    rw [account_put_get0, account_put_get1, if_pos ⟨he, rfl⟩,
      if_neg (fun hk => he hk.1)]
    refine ⟨rfl, ?_⟩
    by_cases hee : e0 = e
    · rw [if_neg (not_not.mpr hee)]
      cases hg : t.accounts_v0.get a with
      | none => rfl
      | some i =>
        exfalso
        exact he (hee.symm.trans (h0 (by rw [hg]; rfl)))
    · rw [if_pos hee, account_del_get0]
      cases hg1 : t.accounts_v1.get a with
      | none => rw [if_pos ⟨rfl, rfl⟩]
      | some i =>
        rw [if_neg (fun hk => Option.noConfusion hk.1)]
        rcases hone with h | h
        · exact h
        · rw [hg1] at h
          exact Option.noConfusion h

/-- C35: `change_latest` on an account that has at most one row in the two
account tables. With a non-zero new head, when the row the account has is in
the table of the epoch of its old head block (so the old state has a head, and
an account without a row is called with whatever old state), the call returns
and afterwards the account has exactly one row: it is in the table of
`new_epoch` and equals the new account info. With a zero new head, whatever
old state the caller passes (the rollback of an open block passes a default
one), the call returns and afterwards the account has no row in either account
table and no confirmation height row. -/
theorem change_latest_single_row (s : Store) (a : Account) (old : account_state)
    (new : account_info) (e : epoch)
    (hone : s.accounts_v0.get a = none ∨ s.accounts_v1.get a = none)
    (hold : new.head ≠ 0 → old.head ≠ 0 → old.row.isSome = true)
    (hrow1 : new.head ≠ 0 → ∀ i, s.accounts_v1.get a = some i →
      old.head ≠ 0 ∧ old.epoch ≠ some .epoch_0)
    (hrow0 : new.head ≠ 0 → ∀ i, s.accounts_v0.get a = some i →
      old.head ≠ 0 ∧ old.epoch = some .epoch_0) :
    ∃ s1, ledger.change_latest s a old new e = some s1 ∧
      (new.head ≠ 0 →
        (e = .epoch_0 → s1.accounts_v0.get a = some new ∧ s1.accounts_v1.get a = none) ∧
        (¬ e = .epoch_0 → s1.accounts_v1.get a = some new ∧ s1.accounts_v0.get a = none)) ∧
      (new.head = 0 →
        s1.accounts_v0.get a = none ∧ s1.accounts_v1.get a = none ∧
          s1.confirmation_height.get a = none) := by
  by_cases hn : new.head = 0
  · refine ⟨(s.confirmation_height_del a).account_del a, ?_, fun hk => absurd hn hk, ?_⟩
    · unfold ledger.change_latest
      rw [if_neg (not_not.mpr hn)]
    · intro _
      refine ⟨?_, ?_, ?_⟩
      · rw [account_del_get0, Store.confirmation_height_del_accounts_v0,
          Store.confirmation_height_del_accounts_v1]
        cases hg1 : s.accounts_v1.get a with
        | none => rw [if_pos ⟨rfl, rfl⟩]
        | some i =>
          rw [if_neg (fun hk => Option.noConfusion hk.1)]
          rcases hone with h | h
          · exact h
          · rw [hg1] at h
            exact Option.noConfusion h
      · rw [account_del_get1, if_pos rfl]
      · have hdel : ∀ (t : Store), (t.account_del a).confirmation_height
            = t.confirmation_height := by
          intro t
          unfold Store.account_del
          split <;> rfl
        rw [hdel]
        unfold Store.confirmation_height_del
        simp only [Map.get_del, if_true]
  · obtain ⟨hf0, hf1⟩ := if_confirmation_put_accounts s
      (old.head = 0 ∧ new.open_block = new.head) a
    by_cases ho : old.head = 0
    · have hv1 : s.accounts_v1.get a = none := by
        cases hg : s.accounts_v1.get a with
        | none => rfl
        | some i => exact absurd ho (hrow1 hn i hg).1
      have hv0 : s.accounts_v0.get a = none := by
        cases hg : s.accounts_v0.get a with
        | none => rfl
        | some i => exact absurd ho (hrow0 hn i hg).1
      refine ⟨_, change_latest_new_account s a old new e ho hn, fun _ => ⟨?_, ?_⟩,
        fun hk => absurd hk hn⟩
      · intro he
        rw [account_put_get0, account_put_get1, if_pos ⟨he, rfl⟩, if_neg (fun hk => hk.1 he)]
        refine ⟨rfl, ?_⟩
        split
        · exact hv1
        · exact hv1
      · intro he
        rw [account_put_get0, account_put_get1, if_pos ⟨he, rfl⟩, if_neg (fun hk => he hk.1)]
        refine ⟨rfl, ?_⟩
        split
        · exact hv0
        · exact hv0
    · have hr := hold hn ho
      cases hrow : old.row with
      | none =>
        rw [hrow] at hr
        exact Bool.noConfusion hr
      | some r =>
        have hep : old.epoch = some r.epoch := by
          unfold account_state.epoch
          rw [hrow]
          rfl
        have hcl : ledger.change_latest s a old new e
            = some ((if r.epoch ≠ e then
                (if old.head = 0 ∧ new.open_block = new.head then s.confirmation_height_put a 0
                 else s).account_del a
              else (if old.head = 0 ∧ new.open_block = new.head then
                s.confirmation_height_put a 0 else s)).account_put a new e) := by
          unfold ledger.change_latest
          rw [if_pos hn]
          simp only [ne_eq, ho, not_false_eq_true, if_true, hep]
        refine ⟨_, hcl, fun _ => ?_, fun hk => absurd hk hn⟩
        refine put_after_optional_del _ a new e r.epoch ?_ ?_ ?_
        · rw [hf0, hf1]
          exact hone
        · rw [hf1]
          intro hs1 heq
          cases hg : s.accounts_v1.get a with
          | none =>
            rw [hg] at hs1
            exact Bool.noConfusion hs1
          | some i =>
            apply (hrow1 hn i hg).2
            rw [hep, heq]
        · rw [hf0]
          intro hs0
          cases hg : s.accounts_v0.get a with
          | none =>
            rw [hg] at hs0
            exact Bool.noConfusion hs0
          | some i =>
            have := (hrow0 hn i hg).2
            rw [hep] at this
            exact Option.some.inj this

theorem change_latest_single_row_witness :
    (∃ s1, ledger.change_latest example_net.genesis_ledger.store example_net.genesis
        (example_net.genesis_ledger.account_state example_net.genesis)
        { head := 7, representative := 5, open_block := 3 } .epoch_1 = some s1 ∧
      (({ head := 7, representative := 5, open_block := 3 } : account_info).head ≠ 0 →
        (epoch.epoch_1 = .epoch_0 →
          s1.accounts_v0.get example_net.genesis
            = some { head := 7, representative := 5, open_block := 3 } ∧
          s1.accounts_v1.get example_net.genesis = none) ∧
        (¬ epoch.epoch_1 = .epoch_0 →
          s1.accounts_v1.get example_net.genesis
            = some { head := 7, representative := 5, open_block := 3 } ∧
          s1.accounts_v0.get example_net.genesis = none)) ∧
      (({ head := 7, representative := 5, open_block := 3 } : account_info).head = 0 →
        s1.accounts_v0.get example_net.genesis = none ∧
        s1.accounts_v1.get example_net.genesis = none ∧
          s1.confirmation_height.get example_net.genesis = none)) ∧
    (example_net.opened_ledger.store.accounts_v0.get 2).isSome = true ∧
    (example_net.opened_ledger.store.confirmation_height.get 2).isSome = true ∧
    (∃ s1, ledger.change_latest example_net.opened_ledger.store 2 account_state.default
        account_info.default .epoch_0 = some s1 ∧
      (account_info.default.head ≠ 0 →
        (epoch.epoch_0 = .epoch_0 →
          s1.accounts_v0.get 2 = some account_info.default ∧ s1.accounts_v1.get 2 = none) ∧
        (¬ epoch.epoch_0 = .epoch_0 →
          s1.accounts_v1.get 2 = some account_info.default ∧ s1.accounts_v0.get 2 = none)) ∧
      (account_info.default.head = 0 →
        s1.accounts_v0.get 2 = none ∧ s1.accounts_v1.get 2 = none ∧
          s1.confirmation_height.get 2 = none)) :=
  ⟨change_latest_single_row example_net.genesis_ledger.store example_net.genesis
      (example_net.genesis_ledger.account_state example_net.genesis)
      { head := 7, representative := 5, open_block := 3 } .epoch_1 (by decide) (by decide)
      (by decide) (by decide),
    by decide, by decide,
    change_latest_single_row example_net.opened_ledger.store 2 account_state.default
      account_info.default .epoch_0 (by decide) (by decide) (by decide) (by decide)⟩

end nano

namespace nano

/-! ## C36: an accepted block moves value, it does not make or lose any -/

theorem pending_rows_sum_eq (env : Env) (l : ledger) (hc : ledger_consistent env l) :
    l.pending_rows_sum = l.pending_sum := by
  have h1 : ∀ k r, l.store.pending_v1.get k = some r → l.store.pending_v0.get k = none :=
    fun k r hr => (hc.pend true k r hr).2
  have hsum : ∀ (m : Map pending_key pending_row),
      pending_table_sum m
        = ∑ k in (l.store.pending_v0.keys ++ l.store.pending_v1.keys ++ m.keys).toFinset,
            (match m.get k with
              | some r => r.amount
              | none => 0) := by
    intro m
    unfold pending_table_sum
    apply list_sum_eq_sum_superset _ (Map.keys_nodup m)
    · intro x hx
      rw [List.mem_toFinset]
      exact List.mem_append_right _ hx
    · intro x hx
      rw [Map.mem_keys] at hx
      cases hg : m.get x with
      | none => rfl
      | some r =>
        rw [hg] at hx
        exact absurd rfl hx
  have hU : ∀ (m : Map pending_key pending_row),
      ∑ k in (l.store.pending_v0.keys ++ l.store.pending_v1.keys ++ m.keys).toFinset,
          l.pending_amount k
        = ∑ k in (l.store.pending_v0.keys ++ l.store.pending_v1.keys).toFinset,
          l.pending_amount k := by
    intro m
    symm
    apply Finset.sum_subset
    · intro x hx
      rw [List.mem_toFinset] at hx ⊢
      exact List.mem_append_left _ hx
    · intro x _ hx
      apply pending_amount_support
      intro hk
      apply hx
      rw [List.mem_toFinset]
      unfold Store.pending_keys at hk
      rw [List.mem_dedup, List.mem_append] at hk
      rw [List.mem_append]
      exact hk.symm
  have hps : l.pending_sum
      = ∑ k in (l.store.pending_v0.keys ++ l.store.pending_v1.keys).toFinset,
          l.pending_amount k := by
    unfold ledger.pending_sum
    apply list_sum_eq_sum_superset _ (List.nodup_dedup _)
    · intro x hx
      unfold Store.pending_keys at hx
      rw [List.mem_dedup, List.mem_append] at hx
      rw [List.mem_toFinset, List.mem_append]
      exact hx.symm
    · intro x hx
      exact pending_amount_support l x hx
  have hpt : ∀ k, l.pending_amount k
      = (match l.store.pending_v0.get k with
          | some r => r.amount
          | none => 0)
        + (match l.store.pending_v1.get k with
          | some r => r.amount
          | none => 0) := by
    intro k
    unfold ledger.pending_amount Store.pending_get
    cases hg1 : l.store.pending_v1.get k with
    | some r =>
      rw [h1 k r hg1]
      simp only [Nat.zero_add]
    | none =>
      cases hg0 : l.store.pending_v0.get k with
      | some r => rfl
      | none => rfl
  unfold ledger.pending_rows_sum
  have e0 := hsum l.store.pending_v0
  have e1 := hsum l.store.pending_v1
  have k0 : (l.store.pending_v0.keys ++ l.store.pending_v1.keys
      ++ l.store.pending_v0.keys).toFinset
      = (l.store.pending_v0.keys ++ l.store.pending_v1.keys).toFinset := by
    ext x
    simp only [List.mem_toFinset, List.mem_append]
    tauto
  have k1 : (l.store.pending_v0.keys ++ l.store.pending_v1.keys
      ++ l.store.pending_v1.keys).toFinset
      = (l.store.pending_v0.keys ++ l.store.pending_v1.keys).toFinset := by
    ext x
    simp only [List.mem_toFinset, List.mem_append]
    tauto
  rw [k0] at e0
  rw [k1] at e1
  rw [e0, e1, hps, ← Finset.sum_add_distrib]
  apply Finset.sum_congr rfl
  intro k _
  exact (hpt k).symm

/-- C36: in a ledger that satisfies the invariants that `process` maintains
(rows keyed by their hash, one row per account and per pending key, heads and
pending sources stored, value adding up to the genesis amount), every
`process` call that returns `progress` leaves the sum over all accounts of the
head balance plus the sum over all rows of both pending tables of the amount
as it was. The sums are natural numbers: nothing wraps at 128 bits. -/
theorem accepted_block_keeps_value (env : Env) (hs : env.sound) (l : ledger)
    (hc : ledger_consistent env l) (b : block) (v : signature_verification)
    (hty : b.well_typed = true) (r : process_return) (l1 : ledger)
    (h : ledger.process env l b v = some (r, l1)) (hp : r.code = .progress) :
    l1.balance_sum + l1.pending_rows_sum = l.balance_sum + l.pending_rows_sum := by
  have hc1 := process_step_consistent env hs l hc b v hty r l1 h hp
  rw [pending_rows_sum_eq env l hc, pending_rows_sum_eq env l1 hc1, hc.total, hc1.total]

theorem accepted_block_keeps_value_witness :
    (block.send example_net.send_1).well_typed = true ∧
    ledger.process example_net.env (ledger.genesis example_net.env)
        (.send example_net.send_1) .unknown
      = some (process_return.mk .progress example_net.genesis 100 2 none .valid,
          example_net.after (ledger.genesis example_net.env) (.send example_net.send_1)) ∧
    (example_net.after (ledger.genesis example_net.env) (.send example_net.send_1)).balance_sum
      + (example_net.after (ledger.genesis example_net.env)
          (.send example_net.send_1)).pending_rows_sum
      = (ledger.genesis example_net.env).balance_sum
        + (ledger.genesis example_net.env).pending_rows_sum :=
  ⟨by decide, by decide,
    accepted_block_keeps_value example_net.env example_net_sound (ledger.genesis example_net.env)
      (genesis_consistent example_net.env example_net_sound) (.send example_net.send_1) .unknown
      (by decide) (process_return.mk .progress example_net.genesis 100 2 none .valid)
      (example_net.after (ledger.genesis example_net.env) (.send example_net.send_1))
      (by decide) rfl⟩

end nano

namespace nano

/-! ## What each accepted block changes in the tables -/

theorem receive_block_pre (env : Env) (l : ledger) (res : process_return) (b : receive_block)
    (r : process_return) (l1 : ledger)
    (h : ledger_processor.receive_block env l res b = some (r, l1))
    (hc : r.code = .progress) :
    ∃ r0, l.store.blocks.get b.previous = some r0 ∧ valid_predecessor r0.block = true ∧
      l.store.frontier_get b.previous ≠ 0 := by
  unfold ledger_processor.receive_block at h
  dsimp only at h
  split at h
  · simp only [Option.some.injEq, Prod.mk.injEq] at h
    rw [← h.1] at hc
    exact process_result.noConfusion hc
  · split at h
    · simp only [Option.some.injEq, Prod.mk.injEq] at h
      rw [← h.1] at hc
      exact process_result.noConfusion hc
    · rename_i previous hprev
      split at h
      · simp only [Option.some.injEq, Prod.mk.injEq] at h
        rw [← h.1] at hc
        exact process_result.noConfusion hc
      · rename_i hvp
        split at h
        · simp only [Option.some.injEq, Prod.mk.injEq] at h
          rw [← h.1] at hc
          simp only at hc
          split at hc <;> exact process_result.noConfusion hc
        · rename_i hacc
          exact ⟨previous, hprev, by simpa using hvp, hacc⟩

theorem change_block_pre (env : Env) (l : ledger) (res : process_return) (b : change_block)
    (r : process_return) (l1 : ledger)
    (h : ledger_processor.change_block env l res b = some (r, l1))
    (hc : r.code = .progress) :
    ∃ r0, l.store.blocks.get b.previous = some r0 ∧ valid_predecessor r0.block = true ∧
      l.store.frontier_get b.previous ≠ 0 := by
  unfold ledger_processor.change_block at h
  dsimp only at h
  split at h
  · simp only [Option.some.injEq, Prod.mk.injEq] at h
    rw [← h.1] at hc
    exact process_result.noConfusion hc
  · split at h
    · simp only [Option.some.injEq, Prod.mk.injEq] at h
      rw [← h.1] at hc
      exact process_result.noConfusion hc
    · rename_i previous hprev
      split at h
      · simp only [Option.some.injEq, Prod.mk.injEq] at h
        rw [← h.1] at hc
        exact process_result.noConfusion hc
      · rename_i hvp
        split at h
        · simp only [Option.some.injEq, Prod.mk.injEq] at h
          rw [← h.1] at hc
          exact process_result.noConfusion hc
        · rename_i hacc
          exact ⟨previous, hprev, by simpa using hvp, hacc⟩

theorem frontier_moved_eq (F : Map Hash Account) (p h x : Hash) (a : Account) (v : Bool)
    (hv : v = true) :
    ((F.del p).put h a).get x
      = if v = true ∧ h = x then some a else if some p = some x then none else F.get x := by
  rw [Map.get_put, Map.get_del]
  simp only [hv, true_and, Option.some.injEq]

theorem legacy_row_of_some (o : Option block_row) (r0 : block_row) (h : o = some r0)
    (hv : valid_predecessor r0.block = true) :
    o.map (fun r => valid_predecessor r.block) = some true := by
  rw [h, Option.map_some', hv]

theorem send_block_step (env : Env) (hs : env.sound) (l : ledger)
    (hcs : ledger_consistent env l) (res : process_return) (b : send_block)
    (r : process_return) (l1 : ledger)
    (h : ledger_processor.send_block env l res b = some (r, l1)) (hc : r.code = .progress) :
    accepted_step env l l1 (l.store.frontier_get b.previous) (.send b) .epoch_0 b.balance
      { head := env.hash (.send b),
        representative := (l.account_state (l.store.frontier_get b.previous)).rep,
        open_block := (l.account_state (l.store.frontier_get b.previous)).open_ }
      (some b.previous) ∧
    r.account = l.store.frontier_get b.previous := by
  have hfresh := block_fresh env hs l hcs (.send b) (send_block_new env l res b r l1 h hc)
  obtain ⟨r0, hr0, hvp, hg, _⟩ := send_block_tables env hs l hcs res b r l1 h hc
  obtain ⟨store2, _, hcl, hl1, hr⟩ := send_block_progress env l res b r l1 h hc
  have hfrm := change_latest_frame _ _ _ _ _ _ hcl
  have htab := change_latest_tables env l hcs _ store2 _ _ _ (by simp) (by simp)
    (hs.hash_nonzero (.send b)) hcl
  refine ⟨⟨hfresh, rfl, ?_, ?_, ?_, fun he => absurd rfl he, ?_, ?_, ?_⟩, by rw [hr]⟩
  · intro x
    rw [hl1]
    simp only [Store.frontier_put_blocks, Store.frontier_del_blocks, Store.pending_put_blocks,
      hfrm.1]
    exact block_put_content _ _ _ _ _ _
  · intro x hx
    rw [hl1]
    simp only [Store.frontier_put_accounts_v0, Store.frontier_del_accounts_v0,
      Store.pending_put_accounts_v0, Store.frontier_put_accounts_v1,
      Store.frontier_del_accounts_v1, Store.pending_put_accounts_v1]
    exact htab.1 x hx
  · intro he
    rw [hl1]
    simp only [Store.frontier_put_accounts_v0, Store.frontier_del_accounts_v0,
      Store.pending_put_accounts_v0, Store.frontier_put_accounts_v1,
      Store.frontier_del_accounts_v1, Store.pending_put_accounts_v1]
    exact htab.2.1 he
  · intro x
    rw [hl1]
    simp only [Store.frontier_put, Store.frontier_del, Store.pending_put_frontiers,
      hfrm.2.2.2, Store.block_put_frontiers]
    exact frontier_moved_eq _ _ _ _ _ _ rfl
  · intro _
    exact ⟨rfl, Or.inr ⟨rfl, rfl, hg, legacy_row_of_some _ r0 hr0 hvp⟩⟩
  · intro hv
    exact Bool.noConfusion hv

theorem receive_block_step (env : Env) (hs : env.sound) (l : ledger)
    (hcs : ledger_consistent env l) (res : process_return) (b : receive_block)
    (r : process_return) (l1 : ledger)
    (h : ledger_processor.receive_block env l res b = some (r, l1))
    (hc : r.code = .progress) :
    ∃ bal, accepted_step env l l1 (l.store.frontier_get b.previous) (.receive b) .epoch_0 bal
      { head := env.hash (.receive b),
        representative := (l.account_state (l.store.frontier_get b.previous)).rep,
        open_block := (l.account_state (l.store.frontier_get b.previous)).open_ }
      (some b.previous) ∧
    r.account = l.store.frontier_get b.previous := by
  have hfresh := block_fresh env hs l hcs (.receive b) (receive_block_new env l res b r l1 h hc)
  obtain ⟨r0, hr0, hvp, hg⟩ := receive_block_pre env l res b r l1 h hc
  obtain ⟨p, store3, _, _, _, hcl, hl1, hr⟩ := receive_block_progress env l res b r l1 h hc
  have hfrm := change_latest_frame _ _ _ _ _ _ hcl
  have htab := change_latest_tables env l hcs _ store3 _ _ _ (by simp) (by simp)
    (hs.hash_nonzero (.receive b)) hcl
  refine ⟨add128 (l.account_state (l.store.frontier_get b.previous)).balance p.amount,
    ⟨hfresh, rfl, ?_, ?_, ?_, fun he => absurd rfl he, ?_, ?_, ?_⟩, by rw [hr]⟩
  · intro x
    rw [hl1]
    simp only [Store.frontier_put_blocks, Store.frontier_del_blocks, hfrm.1]
    rw [block_put_content, Store.pending_del_blocks]
  · intro x hx
    rw [hl1]
    simp only [Store.frontier_put_accounts_v0, Store.frontier_del_accounts_v0,
      Store.frontier_put_accounts_v1, Store.frontier_del_accounts_v1]
    exact htab.1 x hx
  · intro he
    rw [hl1]
    simp only [Store.frontier_put_accounts_v0, Store.frontier_del_accounts_v0,
      Store.frontier_put_accounts_v1, Store.frontier_del_accounts_v1]
    exact htab.2.1 he
  · intro x
    rw [hl1]
    simp only [Store.frontier_put, Store.frontier_del, hfrm.2.2.2, Store.block_put_frontiers,
      Store.pending_del_frontiers]
    exact frontier_moved_eq _ _ _ _ _ _ rfl
  · intro _
    exact ⟨rfl, Or.inr ⟨rfl, rfl, hg, legacy_row_of_some _ r0 hr0 hvp⟩⟩
  · intro hv
    exact Bool.noConfusion hv

theorem change_block_step (env : Env) (hs : env.sound) (l : ledger)
    (hcs : ledger_consistent env l) (res : process_return) (b : change_block)
    (r : process_return) (l1 : ledger)
    (h : ledger_processor.change_block env l res b = some (r, l1))
    (hc : r.code = .progress) :
    accepted_step env l l1 (l.store.frontier_get b.previous) (.change b) .epoch_0
      (l.account_state (l.store.frontier_get b.previous)).balance
      { head := env.hash (.change b), representative := b.representative,
        open_block := (l.account_state (l.store.frontier_get b.previous)).open_ }
      (some b.previous) ∧
    r.account = l.store.frontier_get b.previous := by
  have hfresh := block_fresh env hs l hcs (.change b) (change_block_new env l res b r l1 h hc)
  obtain ⟨r0, hr0, hvp, hg⟩ := change_block_pre env l res b r l1 h hc
  obtain ⟨store2, bal, _, hcl, hl1, hr⟩ := change_block_progress env l res b r l1 h hc
  have hfrm := change_latest_frame _ _ _ _ _ _ hcl
  have htab := change_latest_tables env l hcs _ store2 _ _ _ (by simp) (by simp)
    (hs.hash_nonzero (.change b)) hcl
  refine ⟨⟨hfresh, rfl, ?_, ?_, ?_, fun he => absurd rfl he, ?_, ?_, ?_⟩, by rw [hr]⟩
  · intro x
    rw [hl1]
    simp only [Store.frontier_put_blocks, Store.frontier_del_blocks, hfrm.1]
    rw [block_put_content]
  · intro x hx
    rw [hl1]
    simp only [Store.frontier_put_accounts_v0, Store.frontier_del_accounts_v0,
      Store.frontier_put_accounts_v1, Store.frontier_del_accounts_v1]
    exact htab.1 x hx
  · intro he
    rw [hl1]
    simp only [Store.frontier_put_accounts_v0, Store.frontier_del_accounts_v0,
      Store.frontier_put_accounts_v1, Store.frontier_del_accounts_v1]
    exact htab.2.1 he
  · intro x
    rw [hl1]
    simp only [Store.frontier_put, Store.frontier_del, hfrm.2.2.2, Store.block_put_frontiers]
    exact frontier_moved_eq _ _ _ _ _ _ rfl
  · intro _
    exact ⟨rfl, Or.inr ⟨rfl, rfl, hg, legacy_row_of_some _ r0 hr0 hvp⟩⟩
  · intro hv
    exact Bool.noConfusion hv

theorem open_block_step (env : Env) (hs : env.sound) (l : ledger)
    (hcs : ledger_consistent env l) (res : process_return) (b : open_block)
    (r : process_return) (l1 : ledger)
    (h : ledger_processor.open_block env l res b = some (r, l1))
    (hc : r.code = .progress) :
    ∃ bal, accepted_step env l l1 b.account (.open_ b) .epoch_0 bal
      { head := env.hash (.open_ b), representative := b.representative,
        open_block := env.hash (.open_ b) } none ∧
    r.account = b.account := by
  have hfresh := block_fresh env hs l hcs (.open_ b) (open_block_new env l res b r l1 h hc)
  obtain ⟨p, store3, _, _, hh0, hcl, hl1, hr⟩ := open_block_progress env l res b r l1 h hc
  have hfrm := change_latest_frame _ _ _ _ _ _ hcl
  have htab := change_latest_tables env l hcs _ store3 _ _ _ (by simp) (by simp)
    (hs.hash_nonzero (.open_ b)) hcl
  refine ⟨p.amount, ⟨hfresh, rfl, ?_, ?_, ?_, fun he => absurd rfl he, ?_, ?_, ?_⟩,
    by rw [hr]⟩
  · intro x
    rw [hl1]
    simp only [Store.frontier_put_blocks, hfrm.1]
    rw [block_put_content, Store.pending_del_blocks]
  · intro x hx
    rw [hl1]
    simp only [Store.frontier_put_accounts_v0, Store.frontier_put_accounts_v1]
    exact htab.1 x hx
  · intro he
    rw [hl1]
    simp only [Store.frontier_put_accounts_v0, Store.frontier_put_accounts_v1]
    exact htab.2.1 he
  · intro x
    rw [hl1]
    simp only [Store.frontier_put, hfrm.2.2.2, Store.block_put_frontiers,
      Store.pending_del_frontiers, Map.get_put]
    have hv : valid_predecessor (.open_ b) = true := rfl
    simp only [hv, true_and, if_false]
    rfl
  · intro _
    exact ⟨rfl, Or.inl ⟨rfl, hh0⟩⟩
  · intro hv
    exact Bool.noConfusion hv

end nano

namespace nano

theorem state_block_impl_account (env : Env) (l : ledger) (res : process_return)
    (b : state_block) (r : process_return) (l1 : ledger)
    (h : ledger_processor.state_block_impl env l res b = some (r, l1))
    (hc : r.code = .progress) : b.account ≠ 0 := by
  unfold ledger_processor.state_block_impl at h
  dsimp only at h
  split at h
  · simp only [Option.some.injEq, Prod.mk.injEq] at h
    rw [← h.1] at hc
    exact process_result.noConfusion hc
  · split at h
    · simp only [Option.some.injEq, Prod.mk.injEq] at h
      rw [← h.1] at hc
      exact process_result.noConfusion hc
    · split at h
      · simp only [Option.some.injEq, Prod.mk.injEq] at h
        rw [← h.1] at hc
        exact process_result.noConfusion hc
      · rename_i hacc
        exact hacc

theorem epoch_block_impl_account (env : Env) (l : ledger) (res : process_return)
    (b : state_block) (r : process_return) (l1 : ledger)
    (h : ledger_processor.epoch_block_impl env l res b = some (r, l1))
    (hc : r.code = .progress) :
    b.account ≠ 0 ∧
    ∃ current, (if (l.account_state b.account).head = 0 then some epoch.epoch_0
        else (l.account_state b.account).epoch) = some current ∧
      current.lt (env.epochs_epoch b.link) = true := by
  unfold ledger_processor.epoch_block_impl at h
  dsimp only at h
  split at h
  · simp only [Option.some.injEq, Prod.mk.injEq] at h
    rw [← h.1] at hc
    exact process_result.noConfusion hc
  · split at h
    · simp only [Option.some.injEq, Prod.mk.injEq] at h
      rw [← h.1] at hc
      exact process_result.noConfusion hc
    · split at h
      · simp only [Option.some.injEq, Prod.mk.injEq] at h
        rw [← h.1] at hc
        exact process_result.noConfusion hc
      · rename_i hacc
        split at h
        · rename_i hpos
          simp only [Option.some.injEq, Prod.mk.injEq] at h
          rw [← h.1] at hc
          exact absurd hc hpos
        · split at h
          · exact Option.noConfusion h
          · rename_i current hcur
            split at h
            · simp only [Option.some.injEq, Prod.mk.injEq] at h
              rw [← h.1] at hc
              exact process_result.noConfusion hc
            · rename_i hlt
              exact ⟨hacc, current, hcur, by simpa using hlt⟩

theorem epoch_max_rank (e p : epoch) : e.rank ≤ (e.max p).rank := by
  unfold epoch.max epoch.lt
  split
  · rename_i h
    exact Nat.le_of_lt (of_decide_eq_true h)
  · exact Nat.le_refl _

theorem epoch_rank_le_two (e : epoch) : e.rank ≤ 2 := by
  cases e <;> decide

theorem frontier_dropped_eq (s : Store) (F : Map Hash Account) (hF : s.frontiers = F)
    (h0 x : Hash) :
    (if s.frontier_get h0 ≠ 0 then s.frontier_del h0 else s).frontiers.get x
      = if (if (F.get h0).getD 0 ≠ 0 then some h0 else none) = some x then none
        else F.get x := by
  have hg : s.frontier_get h0 = (F.get h0).getD 0 := by
    unfold Store.frontier_get
    rw [hF]
  rw [hg]
  by_cases hc : (F.get h0).getD 0 ≠ 0
  · rw [if_pos hc, if_pos hc]
    unfold Store.frontier_del
    simp only [hF, Map.get_del, Option.some.injEq]
  · rw [if_neg hc, if_neg hc, hF]
    rw [if_neg (fun hk => Option.noConfusion hk)]

theorem state_block_impl_step (env : Env) (hs : env.sound) (l : ledger)
    (hcs : ledger_consistent env l) (res : process_return) (b : state_block)
    (r : process_return) (l1 : ledger)
    (h : ledger_processor.state_block_impl env l res b = some (r, l1))
    (hc : r.code = .progress) :
    ∃ e new, accepted_step env l l1 b.account (.state b) e 0 new
      (if l.store.frontier_get (l.account_state b.account).head ≠ 0
        then some (l.account_state b.account).head else none) ∧
    r.account = b.account := by
  have hfresh := block_fresh env hs l hcs (.state b) (state_block_impl_new env l res b r l1 h hc)
  have hacc := state_block_impl_account env l res b r l1 h hc
  obtain ⟨e, is_send, amount, hrecv, hcases⟩ := state_block_impl_progress env l res b r l1 h hc
  obtain ⟨e1, happ, hsub⟩ := state_block_receive_progress env l _ b _ e is_send r l1 hrecv hc
  obtain ⟨store3, hcl, hl1, hr⟩ := state_block_apply_shape env l _ b _ e1 is_send r l1 happ
  have hfrm := change_latest_frame _ _ _ _ _ _ hcl
  have htab := change_latest_tables env l hcs _ store3 _ _ _
    (by split
        · simp
        · split <;> simp)
    (by split
        · simp
        · split <;> simp)
    (hs.hash_nonzero (.state b)) hcl
  have hfr : store3.frontiers = l.store.frontiers := by
    rw [hfrm.2.2.2]
    split
    · simp
    · split <;> simp
  refine ⟨e1,
    account_info.mk (env.hash (.state b)) b.representative
      (if (l.account_state b.account).open_ = 0 then env.hash (.state b)
       else (l.account_state b.account).open_),
    ⟨hfresh, rfl, ?_, ?_, ?_, ?_, ?_, ?_, ?_⟩, by rw [hr]⟩
  · intro x
    rw [hl1]
    simp only [if_frontier_del_blocks, hfrm.1]
    split
    · rw [Store.pending_put_blocks, block_put_content]
    · split
      · rw [Store.pending_del_blocks, block_put_content]
      · rw [block_put_content]
  · intro x hx
    rw [hl1]
    simp only [if_frontier_del_accounts_v0, if_frontier_del_accounts_v1]
    exact htab.1 x hx
  · intro he
    rw [hl1]
    simp only [if_frontier_del_accounts_v0, if_frontier_del_accounts_v1]
    exact htab.2.1 he
  · intro he
    rw [hl1]
    simp only [if_frontier_del_accounts_v0, if_frontier_del_accounts_v1]
    exact htab.2.2 he
  · intro x
    rw [hl1]
    have hv : valid_predecessor (.state b) = false := rfl
    have hn : ¬ (valid_predecessor (.state b) = true ∧ env.hash (.state b) = x) :=
      fun hk => Bool.noConfusion (hv.symm.trans hk.1)
    rw [if_neg hn]
    exact frontier_dropped_eq store3 l.store.frontiers hfr (l.account_state b.account).head x
  · intro hv
    exact Bool.noConfusion hv
  · intro _
    refine ⟨hacc, rfl, ?_⟩
    intro hh
    rcases hcases with ⟨_, hep, _⟩ | ⟨hh0, _⟩
    · refine ⟨e, hep, ?_⟩
      rcases hsub with ⟨_, he1⟩ | ⟨_, _, _, p, _, _, he1⟩ | ⟨_, _, _, he1⟩
      · rw [he1]
      · rw [he1]
        exact epoch_max_rank e p.epoch
      · rw [he1]
    · exact absurd hh0 hh

theorem epoch_block_impl_step (env : Env) (hs : env.sound) (l : ledger)
    (hcs : ledger_consistent env l) (res : process_return) (b : state_block)
    (r : process_return) (l1 : ledger)
    (h : ledger_processor.epoch_block_impl env l res b = some (r, l1))
    (hc : r.code = .progress) :
    ∃ new, accepted_step env l l1 b.account (.state b) .epoch_1 0 new
      (if l.store.frontier_get (l.account_state b.account).head ≠ 0
        then some (l.account_state b.account).head else none) ∧
    r.account = b.account := by
  have hfresh := block_fresh env hs l hcs (.state b) (epoch_block_impl_new env l res b r l1 h hc)
  obtain ⟨hacc, current, hcur, hlt⟩ := epoch_block_impl_account env l res b r l1 h hc
  obtain ⟨store2, _, _, hcl, hl1, hr⟩ := epoch_block_impl_progress env l res b r l1 h hc
  have hfrm := change_latest_frame _ _ _ _ _ _ hcl
  have htab := change_latest_tables env l hcs _ store2 _ _ _ (by simp) (by simp)
    (hs.hash_nonzero (.state b)) hcl
  have hfr : store2.frontiers = l.store.frontiers := by
    rw [hfrm.2.2.2]
    simp
  refine ⟨account_info.mk (env.hash (.state b)) b.representative
      (if (l.account_state b.account).open_ = 0 then env.hash (.state b)
       else (l.account_state b.account).open_),
    ⟨hfresh, rfl, ?_, ?_, fun he => epoch.noConfusion he, ?_, ?_, ?_, ?_⟩, by rw [hr]⟩
  · intro x
    rw [hl1]
    simp only [if_frontier_del_blocks, hfrm.1]
    rw [block_put_content]
  · intro x hx
    rw [hl1]
    simp only [if_frontier_del_accounts_v0, if_frontier_del_accounts_v1]
    exact htab.1 x hx
  · intro he
    rw [hl1]
    simp only [if_frontier_del_accounts_v0, if_frontier_del_accounts_v1]
    exact htab.2.2 he
  · intro x
    rw [hl1]
    have hv : valid_predecessor (.state b) = false := rfl
    have hn : ¬ (valid_predecessor (.state b) = true ∧ env.hash (.state b) = x) :=
      fun hk => Bool.noConfusion (hv.symm.trans hk.1)
    rw [if_neg hn]
    exact frontier_dropped_eq store2 l.store.frontiers hfr (l.account_state b.account).head x
  · intro hv
    exact Bool.noConfusion hv
  · intro _
    refine ⟨hacc, rfl, ?_⟩
    intro hh
    rw [if_neg hh] at hcur
    refine ⟨current, hcur, ?_⟩
    have h1 : current.rank < (env.epochs_epoch b.link).rank := of_decide_eq_true hlt
    have h2 := epoch_rank_le_two (env.epochs_epoch b.link)
    show current.rank ≤ 1
    omega

/-- Every accepted block is a step of its account. -/
theorem process_step (env : Env) (hs : env.sound) (l : ledger)
    (hcs : ledger_consistent env l) (b : block) (v : signature_verification)
    (r : process_return) (l1 : ledger)
    (h : ledger.process env l b v = some (r, l1)) (hc : r.code = .progress) :
    ∃ e bal new dropped, accepted_step env l l1 r.account b e bal new dropped := by
  cases b with
  | send b =>
    obtain ⟨hst, hr⟩ := send_block_step env hs l hcs _ b r l1 h hc
    rw [hr]
    exact ⟨_, _, _, _, hst⟩
  | receive b =>
    obtain ⟨bal, hst, hr⟩ := receive_block_step env hs l hcs _ b r l1 h hc
    rw [hr]
    exact ⟨_, _, _, _, hst⟩
  | open_ b =>
    obtain ⟨bal, hst, hr⟩ := open_block_step env hs l hcs _ b r l1 h hc
    rw [hr]
    exact ⟨_, _, _, _, hst⟩
  | change b =>
    obtain ⟨hst, hr⟩ := change_block_step env hs l hcs _ b r l1 h hc
    rw [hr]
    exact ⟨_, _, _, _, hst⟩
  | state b =>
    obtain ⟨res1, h1 | h1⟩ := state_block_cases env l _ b r l1 h hc
    · obtain ⟨e, new, hst, hr⟩ := state_block_impl_step env hs l hcs res1 b r l1 h1 hc
      rw [hr]
      exact ⟨_, _, _, _, hst⟩
    · obtain ⟨new, hst, hr⟩ := epoch_block_impl_step env hs l hcs res1 b r l1 h1 hc
      rw [hr]
      exact ⟨_, _, _, _, hst⟩

end nano

namespace nano

/-! ## The recorded epoch of an account never goes down -/

theorem account_epoch_of_v0 (s : Store) (a : Account) (i : account_info)
    (h0 : s.accounts_v0.get a = some i) (h1 : s.accounts_v1.get a = none) :
    s.account_epoch a = some .epoch_0 := by
  unfold Store.account_epoch
  rw [h1, h0]

theorem account_epoch_of_v1 (s : Store) (a : Account) (i : account_info)
    (h1 : s.accounts_v1.get a = some i) :
    s.account_epoch a = some .epoch_1 := by
  unfold Store.account_epoch
  rw [h1]

theorem account_get_of_v0 (s : Store) (a : Account) (i : account_info)
    (h0 : s.accounts_v0.get a = some i) (h1 : s.accounts_v1.get a = none) :
    s.account_get a = some i := by
  rw [account_get_of_tables, h1]
  exact h0

theorem account_get_of_v1 (s : Store) (a : Account) (i : account_info)
    (h1 : s.accounts_v1.get a = some i) :
    s.account_get a = some i := by
  rw [account_get_of_tables, h1]

theorem frontier_get_some (s : Store) (h : Hash) (a : Account)
    (h1 : s.frontier_get h = a) (h0 : a ≠ 0) : s.frontiers.get h = some a := by
  unfold Store.frontier_get at h1
  cases hg : s.frontiers.get h with
  | none =>
    rw [hg] at h1
    exact absurd h1.symm h0
  | some c =>
    rw [hg] at h1
    exact congrArg some h1

/-- In a state where the frontier table is exact and legacy rows are tagged
`epoch_0`, an account whose head has a frontier row has its row in the
`epoch_0` table. -/
theorem frontier_row_epoch_0 (env : Env) (l : ledger) (hc : ledger_consistent env l)
    (hF : frontier_exact l) (htag : legacy_untagged l) (p : Hash) (a : Account)
    (hf : l.store.frontiers.get p = some a) :
    ∃ i, l.store.accounts_v0.get a = some i ∧ l.store.accounts_v1.get a = none ∧ i.head = p := by
  obtain ⟨hh, hv⟩ := (hF p a).1 hf
  cases hr : l.store.blocks.get p with
  | none =>
    rw [hr] at hv
    exact Option.noConfusion hv
  | some r0 =>
    rw [hr, Option.map_some', Option.some.injEq] at hv
    have he := htag p r0 hr hv
    cases h1 : l.store.accounts_v1.get a with
    | some i =>
      exfalso
      have hg := account_get_of_v1 _ _ _ h1
      rw [hg, Option.map_some', Option.some.injEq] at hh
      obtain ⟨_, _, e, hE, hne⟩ := hc.acc1 a i h1
      rw [hh, hr, Option.map_some', Option.some.injEq] at hE
      exact hne (hE.symm.trans he)
    | none =>
      cases h0 : l.store.accounts_v0.get a with
      | none =>
        exfalso
        rw [account_get_of_tables, h1, h0] at hh
        exact Option.noConfusion hh
      | some i =>
        have hg := account_get_of_v0 _ _ _ h0 h1
        rw [hg, Option.map_some', Option.some.injEq] at hh
        exact ⟨i, rfl, rfl, hh⟩

theorem epoch_rank_zero (e : epoch) (h : e.rank ≤ 0) : e = .epoch_0 := by
  cases e
  · rfl
  · exact absurd h (by decide)
  · exact absurd h (by decide)

theorem epoch_rank_pos (e : epoch) (h : e ≠ .epoch_0) : 1 ≤ e.rank := by
  cases e
  · exact absurd rfl h
  · exact Nat.le_refl 1
  · exact Nat.le_succ 1

/-- The recorded epoch before and after an accepted block on an account that
has a head. -/
theorem accepted_step_epoch (env : Env) (l l1 : ledger) (hc : ledger_consistent env l)
    (hF : frontier_exact l) (htag : legacy_untagged l) (a : Account) (b : block) (e : epoch)
    (bal : Amount) (new : account_info) (dropped : Option Hash)
    (hst : accepted_step env l l1 a b e bal new dropped)
    (hhead : (l.account_state a).head ≠ 0) :
    (∃ e0 e1, l.store.account_epoch a = some e0 ∧ l1.store.account_epoch a = some e1 ∧
      e0.rank ≤ e1.rank) ∧
    (valid_predecessor b = true → l.store.account_epoch a = some .epoch_0) := by
  have hleg : valid_predecessor b = true → l.store.account_epoch a = some .epoch_0 := by
    intro hv
    obtain ⟨_, hd | hd⟩ := hst.legacy hv
    · exact absurd hd.2 hhead
    · obtain ⟨_, hfg, ha0, _⟩ := hd
      obtain ⟨i, h0, h1, _⟩ := frontier_row_epoch_0 env l hc hF htag _ _
        (frontier_get_some _ _ _ hfg ha0)
      exact account_epoch_of_v0 _ _ _ h0 h1
  refine ⟨?_, hleg⟩
  have hafter : ∃ e1, l1.store.account_epoch a = some e1 ∧ (e ≠ .epoch_0 → e1 = .epoch_1) := by
    by_cases he : e = .epoch_0
    · obtain ⟨h0, h1⟩ := hst.at0 he
      exact ⟨.epoch_0, account_epoch_of_v0 _ _ _ h0 h1, fun hn => absurd he hn⟩
    · obtain ⟨h1, _⟩ := hst.at1 he
      exact ⟨.epoch_1, account_epoch_of_v1 _ _ _ h1, fun _ => rfl⟩
  obtain ⟨e1, he1, hup⟩ := hafter
  rcases account_rows_of_consistent env l hc a with hn | ⟨i, h0, h1, _, _⟩ |
    ⟨i, e0, h1, h0, _, hep, hne⟩
  · exact absurd hn.2.2 hhead
  · exact ⟨.epoch_0, e1, account_epoch_of_v0 _ _ _ h0 h1, he1, Nat.zero_le _⟩
  · refine ⟨.epoch_1, e1, account_epoch_of_v1 _ _ _ h1, he1, ?_⟩
    cases hv : valid_predecessor b with
    | true =>
      have h2 := hleg hv
      rw [account_epoch_of_v1 _ _ _ h1] at h2
      exact absurd h2 (by decide)
    | false =>
      obtain ⟨_, _, hrk⟩ := hst.state hv
      obtain ⟨e0b, hE, hle⟩ := hrk hhead
      rw [hep, Option.some.injEq] at hE
      subst hE
      have hpos := epoch_rank_pos e0 hne
      have hne1 : e ≠ .epoch_0 := by
        intro hz
        rw [hz] at hle
        exact absurd (Nat.le_trans hpos hle) (by decide)
      rw [hup hne1]

theorem genesis_frontier_exact (env : Env) :
    frontier_exact (ledger.genesis env) := by
  intro h a
  unfold ledger.genesis
  simp only [Map.get, Store.account_get]
  by_cases h1 : env.hash (.open_
      { source := env.genesis_account, representative := env.genesis_account,
        account := env.genesis_account, signature := 0 }) = h
  · by_cases h2 : env.genesis_account = a
    · simp [h1, h2, valid_predecessor, block.type]
    · simp [h1, h2]
  · by_cases h2 : env.genesis_account = a
    · simp [h1, h2, valid_predecessor, block.type]
    · simp [h1, h2]

theorem genesis_untagged (env : Env) : legacy_untagged (ledger.genesis env) := by
  intro h r hr _
  unfold ledger.genesis at hr
  simp only [Map.get] at hr
  split at hr
  · simp only [Option.some.injEq] at hr
    rw [← hr]
  · exact Option.noConfusion hr

/-- C33: in a state satisfying the ledger invariants, the frontier invariant
(a frontier row for exactly the legacy heads) and in which legacy blocks are
tagged `epoch_0`, when `process` accepts a block on an account that already
has a head, the epoch recorded for that account (the table its row lives in)
after the call is not lower than before; and when the accepted block is a
legacy block, the account was recorded at `epoch_0`, so that no legacy send,
receive or change block is accepted on an account recorded at `epoch_1`. -/
theorem recorded_epoch_never_decreases (env : Env) (hs : env.sound) (l : ledger)
    (hc : ledger_consistent env l) (hF : frontier_exact l) (htag : legacy_untagged l)
    (b : block) (v : signature_verification) (r : process_return) (l1 : ledger)
    (h : ledger.process env l b v = some (r, l1)) (hp : r.code = .progress)
    (hhead : (l.account_state r.account).head ≠ 0) :
    (∃ e0 e1, l.store.account_epoch r.account = some e0 ∧
      l1.store.account_epoch r.account = some e1 ∧ e0.rank ≤ e1.rank) ∧
    (valid_predecessor b = true → l.store.account_epoch r.account = some .epoch_0 ∧
      l.store.account_epoch r.account ≠ some .epoch_1) := by
  obtain ⟨e, bal, new, dropped, hst⟩ := process_step env hs l hc b v r l1 h hp
  obtain ⟨h1, h2⟩ := accepted_step_epoch env l l1 hc hF htag _ b e bal new dropped hst hhead
  refine ⟨h1, fun hv => ⟨h2 hv, ?_⟩⟩
  rw [h2 hv]
  decide

theorem recorded_epoch_never_decreases_witness :
    (∃ e0 e1, (ledger.genesis example_net.env).store.account_epoch example_net.genesis = some e0 ∧
      (example_net.after (ledger.genesis example_net.env)
        (.send example_net.send_1)).store.account_epoch example_net.genesis = some e1 ∧
      e0.rank ≤ e1.rank) ∧
    (valid_predecessor (.send example_net.send_1) = true →
      (ledger.genesis example_net.env).store.account_epoch example_net.genesis
        = some .epoch_0 ∧
      (ledger.genesis example_net.env).store.account_epoch example_net.genesis
        ≠ some .epoch_1) :=
  recorded_epoch_never_decreases example_net.env example_net_sound
    (ledger.genesis example_net.env) (genesis_consistent _ example_net_sound)
    (genesis_frontier_exact _) (genesis_untagged _)
    (.send example_net.send_1) .valid
    (process_return.mk .progress example_net.genesis 100 2 none .valid)
    (example_net.after (ledger.genesis example_net.env) (.send example_net.send_1))
    (by decide) rfl (by decide)

end nano

namespace nano

/-! ## The frontier invariant across `process` -/

theorem accepted_step_account_get (env : Env) (l l1 : ledger) (a : Account) (b : block)
    (e : epoch) (bal : Amount) (new : account_info) (dropped : Option Hash)
    (hst : accepted_step env l l1 a b e bal new dropped) (c : Account) :
    l1.store.account_get c = if c = a then some new else l.store.account_get c := by
  by_cases hca : c = a
  · subst hca
    rw [if_pos rfl]
    by_cases he : e = .epoch_0
    · obtain ⟨h0, h1⟩ := hst.at0 he
      exact account_get_of_v0 _ _ _ h0 h1
    · obtain ⟨h1, _⟩ := hst.at1 he
      exact account_get_of_v1 _ _ _ h1
  · rw [if_neg hca]
    obtain ⟨h0, h1⟩ := hst.off c hca
    rw [account_get_of_tables, account_get_of_tables, h0, h1]

theorem accepted_step_valid (env : Env) (l l1 : ledger) (a : Account) (b : block)
    (e : epoch) (bal : Amount) (new : account_info) (dropped : Option Hash)
    (hst : accepted_step env l l1 a b e bal new dropped) (x : Hash) :
    (l1.store.blocks.get x).map (fun r => valid_predecessor r.block)
      = if x = env.hash b then some (valid_predecessor b)
        else (l.store.blocks.get x).map (fun r => valid_predecessor r.block) := by
  rw [map_valid_of_content, hst.blocks x]
  by_cases hx : x = env.hash b
  · rw [if_pos hx, if_pos hx]
    rfl
  · rw [if_neg hx, if_neg hx, ← map_valid_of_content]

theorem consistent_head_stored (env : Env) (l : ledger) (hc : ledger_consistent env l)
    (c : Account) (i : account_info) (h : l.store.account_get c = some i) :
    ∃ r, l.store.blocks.get i.head = some r := by
  rw [account_get_of_tables] at h
  cases h1 : l.store.accounts_v1.get c with
  | some j =>
    rw [h1] at h
    simp only [Option.some.injEq] at h
    subst h
    obtain ⟨_, _, e, hE, _⟩ := hc.acc1 c j h1
    cases hb : l.store.blocks.get j.head with
    | none =>
      rw [hb] at hE
      exact Option.noConfusion hE
    | some r => exact ⟨r, rfl⟩
  | none =>
    rw [h1] at h
    obtain ⟨_, _, hE⟩ := hc.acc0 c i h
    cases hb : l.store.blocks.get i.head with
    | none =>
      rw [hb] at hE
      exact Option.noConfusion hE
    | some r => exact ⟨r, rfl⟩

theorem consistent_zero_not_stored (env : Env) (hs : env.sound) (l : ledger)
    (hc : ledger_consistent env l) : l.store.blocks.get 0 = none := by
  cases hb : l.store.blocks.get 0 with
  | none => rfl
  | some r => exact absurd (hc.keyed 0 r hb) (hs.hash_nonzero _)

theorem valid_some_stored (o : Option block_row)
    (h : o.map (fun r => valid_predecessor r.block) = some true) : ∃ r, o = some r := by
  cases o with
  | none => exact Option.noConfusion h
  | some r => exact ⟨r, rfl⟩

theorem head_of_map (o : Option account_info) (x : Hash)
    (h : o.map (fun i => i.head) = some x) : ∃ i, o = some i ∧ i.head = x := by
  cases o with
  | none => exact Option.noConfusion h
  | some i =>
    rw [Option.map_some', Option.some.injEq] at h
    exact ⟨i, rfl, h⟩

/-- The frontier row an accepted block drops is the row of its account, and
the row of its account is dropped. -/
theorem accepted_step_dropped (env : Env) (hs : env.sound) (l l1 : ledger)
    (hc : ledger_consistent env l) (hF : frontier_exact l) (a : Account) (b : block)
    (e : epoch) (bal : Amount) (new : account_info) (dropped : Option Hash)
    (hst : accepted_step env l l1 a b e bal new dropped) :
    (∀ x c, dropped = some x → l.store.frontiers.get x = some c → c = a) ∧
    (∀ x, l.store.frontiers.get x = some a → dropped = some x) := by
  have hz := consistent_zero_not_stored env hs l hc
  constructor
  · intro x c hd hf
    cases hv : valid_predecessor b with
    | true =>
      obtain ⟨_, hl | hl⟩ := hst.legacy hv
      · rw [hl.1] at hd
        exact Option.noConfusion hd
      · obtain ⟨hd2, hfg, ha0, _⟩ := hl
        rw [hd2, Option.some.injEq] at hd
        rw [← hd, frontier_get_some _ _ _ hfg ha0, Option.some.injEq] at hf
        exact hf.symm
    | false =>
      obtain ⟨ha0, hd2, _⟩ := hst.state hv
      rw [hd2] at hd
      by_cases hfg : l.store.frontier_get (l.account_state a).head ≠ 0
      · rw [if_pos hfg, Option.some.injEq] at hd
        obtain ⟨hh, hleg⟩ := (hF x c).1 hf
        cases hg : l.store.account_get a with
        | none =>
          exfalso
          have h0 := account_state_of_none l a hg
          rw [h0] at hd
          obtain ⟨r, hr⟩ := valid_some_stored _ hleg
          rw [← hd, hz] at hr
          exact Option.noConfusion hr
        | some i =>
          have hi := (account_state_of_row l a i hg).2.2
          rw [hi] at hd
          have hfa := (hF x a).2 ⟨by rw [hg, Option.map_some', hd], hleg⟩
          rw [hf, Option.some.injEq] at hfa
          exact hfa
      · rw [if_neg hfg] at hd
        exact Option.noConfusion hd
  · intro x hf
    obtain ⟨hh, hleg⟩ := (hF x a).1 hf
    obtain ⟨i, hg, hi⟩ := head_of_map _ _ hh
    have hst_head := (account_state_of_row l a i hg).2.2
    obtain ⟨r, hr⟩ := valid_some_stored _ hleg
    cases hv : valid_predecessor b with
    | true =>
      obtain ⟨_, hl | hl⟩ := hst.legacy hv
      · exfalso
        rw [hst_head, hi] at hl
        rw [hl.2, hz] at hr
        exact Option.noConfusion hr
      · obtain ⟨hd2, hfg, ha0, _⟩ := hl
        obtain ⟨hh2, _⟩ := (hF b.previous a).1 (frontier_get_some _ _ _ hfg ha0)
        rw [hg, Option.map_some', Option.some.injEq, hi] at hh2
        rw [hd2, hh2]
    | false =>
      obtain ⟨ha0, hd2, _⟩ := hst.state hv
      rw [hd2, hst_head, hi]
      have hfg : l.store.frontier_get x ≠ 0 := by
        unfold Store.frontier_get
        rw [hf]
        exact ha0
      rw [if_pos hfg]

/-- An accepted block keeps the frontier table exact: a row `h → a` exactly
when the head of `a` is `h` and that block is a legacy block. -/
theorem accepted_step_frontier_exact (env : Env) (hs : env.sound) (l l1 : ledger)
    (hc : ledger_consistent env l) (hF : frontier_exact l) (a : Account) (b : block)
    (e : epoch) (bal : Amount) (new : account_info) (dropped : Option Hash)
    (hst : accepted_step env l l1 a b e bal new dropped) : frontier_exact l1 := by
  obtain ⟨K1, K2⟩ := accepted_step_dropped env hs l l1 hc hF a b e bal new dropped hst
  have hFfresh : ∀ c, l.store.frontiers.get (env.hash b) ≠ some c := by
    intro c hf
    obtain ⟨_, hleg⟩ := (hF _ c).1 hf
    obtain ⟨r, hr⟩ := valid_some_stored _ hleg
    rw [hst.fresh] at hr
    exact Option.noConfusion hr
  intro x c
  rw [hst.frontier x, accepted_step_account_get env l l1 a b e bal new dropped hst,
    accepted_step_valid env l l1 a b e bal new dropped hst]
  constructor
  · intro h
    by_cases h1 : valid_predecessor b = true ∧ env.hash b = x
    · rw [if_pos h1, Option.some.injEq] at h
      obtain ⟨hv, hx⟩ := h1
      rw [if_pos h.symm, if_pos hx.symm, Option.map_some', hst.head, hx, hv]
      exact ⟨rfl, rfl⟩
    · rw [if_neg h1] at h
      by_cases h2 : dropped = some x
      · rw [if_pos h2] at h
        exact Option.noConfusion h
      · rw [if_neg h2] at h
        have hca : c ≠ a := by
          intro hh
          rw [hh] at h
          exact h2 (K2 x h)
        have hxb : x ≠ env.hash b := by
          intro hh
          rw [hh] at h
          exact hFfresh c h
        rw [if_neg hca, if_neg hxb]
        exact (hF x c).1 h
  · intro hx
    obtain ⟨hh, hv⟩ := hx
    by_cases hca : c = a
    · rw [if_pos hca, Option.map_some', Option.some.injEq, hst.head] at hh
      rw [if_pos hh.symm, Option.some.injEq] at hv
      rw [if_pos ⟨hv, hh⟩, hca]
    · rw [if_neg hca] at hh
      have hxb : x ≠ env.hash b := by
        intro hxe
        obtain ⟨i, hg, hi⟩ := head_of_map _ _ hh
        obtain ⟨r, hr⟩ := consistent_head_stored env l hc c i hg
        rw [hi, hxe, hst.fresh] at hr
        exact Option.noConfusion hr
      rw [if_neg hxb] at hv
      have hf := (hF x c).2 ⟨hh, hv⟩
      have hn1 : ¬ (valid_predecessor b = true ∧ env.hash b = x) := fun h1 => hxb h1.2.symm
      have hn2 : ¬ dropped = some x := fun h2 => hca (K1 x c h2 hf)
      rw [if_neg hn1, if_neg hn2]
      exact hf

theorem content_of_map (o : Option block_row) (r : block_row) (c : block × epoch × Amount)
    (ho : o = some r) (h : o.map block_row.content = some c) :
    r.block = c.1 ∧ r.epoch = c.2.1 := by
  rw [ho, Option.map_some', Option.some.injEq] at h
  rw [← h]
  exact ⟨rfl, rfl⟩

/-- An accepted block keeps legacy blocks tagged `epoch_0`. -/
theorem accepted_step_untagged (env : Env) (l l1 : ledger) (htag : legacy_untagged l)
    (a : Account) (b : block) (e : epoch) (bal : Amount) (new : account_info)
    (dropped : Option Hash) (hst : accepted_step env l l1 a b e bal new dropped) :
    legacy_untagged l1 := by
  intro x r hr hv
  have hb := hst.blocks x
  by_cases hx : x = env.hash b
  · rw [if_pos hx] at hb
    obtain ⟨h1, h2⟩ := content_of_map _ r _ hr hb
    rw [h1] at hv
    rw [h2]
    exact (hst.legacy hv).1
  · rw [if_neg hx] at hb
    cases h0 : l.store.blocks.get x with
    | none =>
      rw [h0, hr] at hb
      exact Option.noConfusion hb
    | some r0 =>
      rw [h0, Option.map_some'] at hb
      obtain ⟨h1, h2⟩ := content_of_map _ r _ hr hb
      rw [h2]
      exact htag x r0 h0 (by
        show valid_predecessor (block_row.content r0).1 = true
        rw [← h1]
        exact hv)

theorem process_rejected_same (env : Env) (l : ledger) (b : block)
    (v : signature_verification) (r : process_return) (l1 : ledger)
    (h : ledger.process env l b v = some (r, l1)) (hc : r.code ≠ .progress) : l1 = l := by
  unfold ledger.process at h
  cases b with
  | send b => exact send_block_unchanged _ _ _ _ _ _ h hc
  | receive b => exact receive_block_unchanged _ _ _ _ _ _ h hc
  | open_ b => exact open_block_unchanged _ _ _ _ _ _ h hc
  | change b => exact change_block_unchanged _ _ _ _ _ _ h hc
  | state b => exact state_block_unchanged _ _ _ _ _ _ h hc

/-- Every `process` call, whatever its result code, keeps the frontier table
exact and legacy blocks tagged `epoch_0`, in a consistent ledger. -/
theorem process_frontier_exact (env : Env) (hs : env.sound) (l : ledger)
    (hc : ledger_consistent env l) (hF : frontier_exact l) (htag : legacy_untagged l)
    (b : block) (v : signature_verification) (r : process_return) (l1 : ledger)
    (h : ledger.process env l b v = some (r, l1)) :
    frontier_exact l1 ∧ legacy_untagged l1 := by
  by_cases hp : r.code = .progress
  · obtain ⟨e, bal, new, dropped, hst⟩ := process_step env hs l hc b v r l1 h hp
    exact ⟨accepted_step_frontier_exact env hs l l1 hc hF _ b e bal new dropped hst,
      accepted_step_untagged env l l1 htag _ b e bal new dropped hst⟩
  · rw [process_rejected_same env l b v r l1 h hp]
    exact ⟨hF, htag⟩

/-- The three invariants together pass from a ledger of the example network
to the ledger after one more block. -/
theorem after_invariants (l : ledger) (b : block) (hty : b.well_typed = true)
    (h : ledger_consistent example_net.env l ∧ frontier_exact l ∧ legacy_untagged l) :
    ledger_consistent example_net.env (example_net.after l b) ∧
      frontier_exact (example_net.after l b) ∧ legacy_untagged (example_net.after l b) := by
  obtain ⟨hc, hF, htag⟩ := h
  unfold example_net.after
  cases hp : ledger.process example_net.env l b .unknown with
  | none => exact ⟨hc, hF, htag⟩
  | some p =>
    obtain ⟨r, l1⟩ := p
    have h2 := process_frontier_exact example_net.env example_net_sound l hc hF htag b
      .unknown r l1 hp
    refine ⟨?_, h2.1, h2.2⟩
    by_cases hpr : r.code = .progress
    · exact process_step_consistent example_net.env example_net_sound l hc b .unknown hty r l1
        hp hpr
    · show ledger_consistent example_net.env l1
      rw [process_rejected_same example_net.env l b .unknown r l1 hp hpr]
      exact hc

theorem genesis_ledger_invariants :
    ledger_consistent example_net.env example_net.genesis_ledger ∧
      frontier_exact example_net.genesis_ledger ∧
      legacy_untagged example_net.genesis_ledger := by
  have h : ledger.genesis example_net.env = example_net.genesis_ledger := by decide
  rw [← h]
  exact ⟨genesis_consistent _ example_net_sound, genesis_frontier_exact _, genesis_untagged _⟩

theorem stray_ledger_invariants :
    ledger_consistent example_net.env example_net.stray_ledger ∧
      frontier_exact example_net.stray_ledger ∧
      legacy_untagged example_net.stray_ledger :=
  after_invariants _ _ (by decide) (after_invariants _ _ (by decide) genesis_ledger_invariants)

/-- From the genesis-only ledger, after any sequence of accepted blocks with
128-bit balance fields, the ledger is consistent, the frontier table is exact
and legacy blocks are tagged `epoch_0`. -/
theorem process_all_invariants (env : Env) (hs : env.sound)
    (cs : List (block × signature_verification)) :
    ∀ (l l1 : ledger), ledger_consistent env l → frontier_exact l → legacy_untagged l →
      (∀ c ∈ cs, c.1.well_typed = true) →
      ledger.process_all env l cs = some l1 →
      ledger_consistent env l1 ∧ frontier_exact l1 ∧ legacy_untagged l1 := by
  induction cs with
  | nil =>
    intro l l1 hc hF htag _ h
    unfold ledger.process_all at h
    simp only [Option.some.injEq] at h
    rw [← h]
    exact ⟨hc, hF, htag⟩
  | cons c cs ih =>
    intro l l1 hc hF htag hty h
    unfold ledger.process_all at h
    split at h
    · rename_i r l2 hp
      split at h
      · rename_i hcode
        obtain ⟨hF2, htag2⟩ := process_frontier_exact env hs l hc hF htag c.1 c.2 r l2 hp
        exact ih l2 l1
          (process_step_consistent env hs l hc c.1 c.2 (hty c (List.mem_cons_self _ _)) r l2 hp
            hcode)
          hF2 htag2 (fun c1 hc1 => hty c1 (List.mem_cons_of_mem _ hc1)) h
      · exact Option.noConfusion h
    · exact Option.noConfusion h

theorem genesis_reachable_invariants (env : Env) (hs : env.sound)
    (cs : List (block × signature_verification)) (l1 : ledger)
    (hty : ∀ c ∈ cs, c.1.well_typed = true)
    (h : ledger.process_all env (ledger.genesis env) cs = some l1) :
    ledger_consistent env l1 ∧ frontier_exact l1 ∧ legacy_untagged l1 :=
  process_all_invariants env hs cs _ l1 (genesis_consistent env hs) (genesis_frontier_exact env)
    (genesis_untagged env) hty h

/-- C32: the frontier invariant (a row `h → a` exactly when the head of `a` is
`h` and that block is a legacy block) holds in the ledger in which genesis has
sent its balance with the legacy block `send_all` and the epoch block
`epoch_first_9` of the unopened account 9 was accepted on top of it; the
rollback of that epoch block returns no error, and afterwards the invariant
fails: the head of genesis is still the legacy block `send_all`, but its
frontier row names account 9. -/
theorem rollback_of_stray_epoch_block_moves_frontier :
    frontier_exact example_net.stray_ledger ∧
    (example_net.rollback_outcome example_net.stray_ledger
        (example_net.hash (.state example_net.epoch_first_9))).map Prod.fst = some false ∧
    ((example_net.after_rollback example_net.stray_ledger
        (example_net.hash (.state example_net.epoch_first_9))).store.account_get
          example_net.genesis).map (fun i => i.head)
      = some (example_net.hash (.send example_net.send_all)) ∧
    (example_net.after_rollback example_net.stray_ledger
        (example_net.hash (.state example_net.epoch_first_9))).store.frontiers.get
          (example_net.hash (.send example_net.send_all)) = some 9 ∧
    ¬ frontier_exact (example_net.after_rollback example_net.stray_ledger
        (example_net.hash (.state example_net.epoch_first_9))) := by
  refine ⟨stray_ledger_invariants.2.1, by decide, by decide, by decide, ?_⟩
  intro hF
  have h := (hF (example_net.hash (.send example_net.send_all)) example_net.genesis).2
    ⟨by decide, by decide⟩
  exact absurd h (by decide)

end nano

namespace nano

/-! ## Rows up to their successor link -/

theorem unlinked_fields (r q : block_row) (h : r.unlinked = q.unlinked) :
    r.block = q.block ∧ r.epoch = q.epoch ∧ r.sideband.account = q.sideband.account ∧
      r.sideband.height = q.sideband.height ∧ r.sideband.balance = q.sideband.balance := by
  have h1 := congrArg block_row.block h
  have h2 := congrArg block_row.epoch h
  have h3 := congrArg (fun t => t.sideband.account) h
  have h4 := congrArg (fun t => t.sideband.height) h
  have h5 := congrArg (fun t => t.sideband.balance) h
  exact ⟨h1, h2, h3, h4, h5⟩

theorem unlinked_of_some (o1 o : Option block_row) (r1 : block_row) (h1 : o1 = some r1)
    (h : o1.map block_row.unlinked = o.map block_row.unlinked) :
    ∃ r, o = some r ∧ r1.unlinked = r.unlinked := by
  cases o with
  | none =>
    rw [h1] at h
    exact Option.noConfusion h
  | some r =>
    rw [h1, Option.map_some', Option.map_some', Option.some.injEq] at h
    exact ⟨r, rfl, h⟩

theorem some_of_unlinked (o1 o : Option block_row) (r : block_row) (h0 : o = some r)
    (h : o1.map block_row.unlinked = o.map block_row.unlinked) :
    ∃ r1, o1 = some r1 ∧ r1.unlinked = r.unlinked := by
  cases o1 with
  | none =>
    rw [h0] at h
    exact Option.noConfusion h
  | some r1 =>
    rw [h0, Option.map_some', Option.map_some', Option.some.injEq] at h
    exact ⟨r1, rfl, h⟩

theorem row_balance_unlinked (r q : block_row) (h : r.unlinked = q.unlinked) :
    Store.row_balance r = Store.row_balance q := by
  obtain ⟨hb, _, _, _, hbal⟩ := unlinked_fields r q h
  unfold Store.row_balance
  rw [hb, hbal]

theorem balance_of_unlinked (l1 l : ledger) (p : Hash)
    (h : (l1.store.blocks.get p).map block_row.unlinked
      = (l.store.blocks.get p).map block_row.unlinked) :
    l1.balance p = l.balance p := by
  unfold ledger.balance Store.block_balance Store.block_get
  cases h1 : l1.store.blocks.get p with
  | none =>
    cases h0 : l.store.blocks.get p with
    | none => rfl
    | some r =>
      rw [h1, h0] at h
      exact Option.noConfusion h
  | some r1 =>
    obtain ⟨r, hr, hu⟩ := unlinked_of_some _ _ r1 h1 h
    rw [hr]
    simp only
    rw [row_balance_unlinked r1 r hu]

theorem sent_to_stable (l1 l : ledger) (r1 r : block_row) (hu : r1.unlinked = r.unlinked)
    (hb : l1.balance r.block.previous = l.balance r.block.previous) :
    l1.sent_to r1 = l.sent_to r := by
  obtain ⟨hblock, _⟩ := unlinked_fields r1 r hu
  unfold ledger.sent_to
  rw [hblock]
  cases hrb : r.block with
  | state b =>
    rw [hrb] at hb
    simp only
    rw [show l1.balance b.previous = l.balance b.previous from hb]
  | send b => rfl
  | receive b => rfl
  | open_ b => rfl
  | change b => rfl

theorem received_from_stable (env : Env) (l1 l : ledger) (r1 r : block_row)
    (hu : r1.unlinked = r.unlinked)
    (hb : l1.balance r.block.previous = l.balance r.block.previous) :
    l1.received_from env r1 = l.received_from env r := by
  obtain ⟨hblock, _⟩ := unlinked_fields r1 r hu
  unfold ledger.received_from
  rw [hblock]
  cases hrb : r.block with
  | state b =>
    rw [hrb] at hb
    simp only
    rw [show l1.balance b.previous = l.balance b.previous from hb]
  | send b => rfl
  | receive b => rfl
  | open_ b => rfl
  | change b => rfl

/-! ## Consequences of the rollback invariants -/

theorem chained_pos (env : Env) (rank : Hash → Nat) (N : Nat) (l : ledger)
    (hI : ledger_chained env rank N l) (h : Hash) (r : block_row)
    (hr : l.store.blocks.get h = some r) : 1 ≤ r.sideband.height := by
  by_cases hp : r.block.previous = 0
  · rw [hI.first h r hr hp]
  · obtain ⟨p, _, _, hh, _⟩ := hI.prev h r hr hp
    omega

/-- The head of an account is the highest of its stored blocks. -/
theorem chained_head_top (env : Env) (rank : Hash → Nat) (N : Nat) (l : ledger)
    (hI : ledger_chained env rank N l) (a : Account) (i : account_info) (u : block_row)
    (hi : l.store.account_get a = some i) (hu : l.store.blocks.get i.head = some u)
    (y : Hash) (r : block_row) (hr : l.store.blocks.get y = some r)
    (ha : r.sideband.account = a) : r.sideband.height ≤ u.sideband.height := by
  obtain ⟨i0, u0, h1, h2, h3⟩ := hI.top y r hr
  rw [ha, hi, Option.some.injEq] at h1
  subst h1
  rw [hu, Option.some.injEq] at h2
  subst h2
  exact h3

theorem chained_head_account (env : Env) (rank : Hash → Nat) (N : Nat) (l : ledger)
    (hI : ledger_chained env rank N l) (a : Account) (i : account_info) (u : block_row)
    (hi : l.store.account_get a = some i) (hu : l.store.blocks.get i.head = some u) :
    u.sideband.account = a := by
  have h := hI.owner a i hi
  rw [hu, Option.map_some', Option.some.injEq] at h
  exact h

theorem chained_head_stored (env : Env) (rank : Hash → Nat) (N : Nat) (l : ledger)
    (hI : ledger_chained env rank N l) (a : Account) (i : account_info)
    (hi : l.store.account_get a = some i) :
    ∃ u, l.store.blocks.get i.head = some u ∧ u.sideband.account = a := by
  have h := hI.owner a i hi
  cases hu : l.store.blocks.get i.head with
  | none =>
    rw [hu] at h
    exact Option.noConfusion h
  | some u =>
    rw [hu, Option.map_some', Option.some.injEq] at h
    exact ⟨u, rfl, h⟩

/-- The previous block of a stored block of another chain position is never
the head of its account. -/
theorem chained_previous_ne_head (env : Env) (rank : Hash → Nat) (N : Nat) (l : ledger)
    (hI : ledger_chained env rank N l) (a : Account) (i : account_info) (u : block_row)
    (hi : l.store.account_get a = some i) (hu : l.store.blocks.get i.head = some u)
    (y : Hash) (r : block_row) (hr : l.store.blocks.get y = some r)
    (hp : r.block.previous ≠ 0) : r.block.previous ≠ i.head := by
  intro he
  obtain ⟨p, h1, h2, h3, _⟩ := hI.prev y r hr hp
  rw [he, hu, Option.some.injEq] at h1
  subst h1
  have hua := chained_head_account env rank N l hI a i u hi hu
  have hle := chained_head_top env rank N l hI a i u hi hu y r hr (h2.symm.trans hua)
  omega

/-- A stored block of the account of a head block other than the head lies
strictly below it, so the head is not the first block. -/
theorem chained_below_head (env : Env) (rank : Hash → Nat) (N : Nat) (l : ledger)
    (hI : ledger_chained env rank N l) (a : Account) (i : account_info) (u : block_row)
    (hi : l.store.account_get a = some i) (hu : l.store.blocks.get i.head = some u)
    (y : Hash) (r : block_row) (hr : l.store.blocks.get y = some r)
    (ha : r.sideband.account = a) (hne : y ≠ i.head) :
    u.block.previous ≠ 0 ∧
      ∃ p, l.store.blocks.get u.block.previous = some p ∧ p.sideband.account = a ∧
        r.sideband.height ≤ p.sideband.height ∧ u.block.previous ≠ i.head := by
  have hua := chained_head_account env rank N l hI a i u hi hu
  have hle := chained_head_top env rank N l hI a i u hi hu y r hr ha
  have hlt : r.sideband.height < u.sideband.height := by
    rcases Nat.lt_or_ge r.sideband.height u.sideband.height with h | h
    · exact h
    · exact absurd (hI.inj y i.head r u hr hu (ha.trans hua.symm) (Nat.le_antisymm hle h)) hne
  have hpos := chained_pos env rank N l hI y r hr
  have hp : u.block.previous ≠ 0 := by
    intro h0
    have := hI.first i.head u hu h0
    omega
  obtain ⟨p, h1, h2, h3, _⟩ := hI.prev i.head u hu hp
  refine ⟨hp, p, h1, h2.trans hua, by omega, ?_⟩
  intro he
  rw [he, hu, Option.some.injEq] at h1
  subst h1
  omega

theorem account_get_none_of_tables (s : Store) (a : Account)
    (h0 : s.accounts_v0.get a = none) (h1 : s.accounts_v1.get a = none) :
    s.account_get a = none := by
  rw [account_get_of_tables, h1]
  exact h0

theorem account_get_of_rows (s t : Store) (a : Account)
    (h0 : s.accounts_v0.get a = t.accounts_v0.get a)
    (h1 : s.accounts_v1.get a = t.accounts_v1.get a) :
    s.account_get a = t.account_get a := by
  rw [account_get_of_tables, account_get_of_tables, h0, h1]

theorem block_version_of_get (s : Store) (h : Hash) (r : block_row)
    (hr : s.blocks.get h = some r) : s.block_version h = r.epoch := by
  unfold Store.block_version Store.block_get
  rw [hr]

theorem account_of_get (l : ledger) (h : Hash) (r : block_row)
    (hr : l.store.blocks.get h = some r) : l.account h = r.sideband.account := by
  unfold ledger.account Store.block_account Store.block_get
  rw [hr]

/-! ## The relation `rolled` -/

theorem rolled_refl (rank : Hash → Nat) (k : Nat) (l : ledger) : rolled rank k l l := by
  refine ⟨fun h => Or.inr rfl, fun _ _ _ => rfl, ?_, ?_, fun _ _ _ _ => ⟨rfl, rfl⟩⟩
  · intro h r ch hr hn
    rw [hr] at hn
    exact Option.noConfusion hn
  · intro h r hr _
    rw [hr]
    rfl

theorem rolled_mono (rank : Hash → Nat) (k k1 : Nat) (l l1 : ledger) (hk : k1 ≤ k)
    (h : rolled rank k l l1) : rolled rank k1 l l1 :=
  ⟨h.kept, h.cemented, h.spared,
    fun y r hr hlt => h.below y r hr (Nat.lt_of_lt_of_le hlt hk),
    fun a i hi hlt => h.rows a i hi (Nat.lt_of_lt_of_le hlt hk)⟩

theorem rolled_stored (rank : Hash → Nat) (k : Nat) (l l1 : ledger) (h : rolled rank k l l1)
    (y : Hash) (r1 : block_row) (hr : l1.store.blocks.get y = some r1) :
    ∃ r, l.store.blocks.get y = some r ∧ r1.unlinked = r.unlinked := by
  rcases h.kept y with hn | he
  · rw [hr] at hn
    exact Option.noConfusion hn
  · exact unlinked_of_some _ _ r1 hr he

theorem rolled_trans (rank : Hash → Nat) (k : Nat) (l l1 l2 : ledger)
    (h1 : rolled rank k l l1) (h2 : rolled rank k l1 l2) : rolled rank k l l2 := by
  refine ⟨?_, ?_, ?_, ?_, ?_⟩
  · intro y
    rcases h2.kept y with hn | he
    · exact Or.inl hn
    · rcases h1.kept y with hn1 | he1
      · left
        rw [hn1] at he
        cases hg : l2.store.blocks.get y with
        | none => rfl
        | some r =>
          rw [hg] at he
          exact Option.noConfusion he
      · exact Or.inr (he.trans he1)
  · intro y r2 hr2
    obtain ⟨r1, hr1, hu⟩ := rolled_stored rank k l1 l2 h2 y r2 hr2
    obtain ⟨_, _, ha, _⟩ := unlinked_fields r2 r1 hu
    rw [h2.cemented y r2 hr2, ha]
    exact h1.cemented y r1 hr1
  · intro y r ch hr hn hch
    cases hg : l1.store.blocks.get y with
    | none => exact h1.spared y r ch hr hg hch
    | some r1 =>
      obtain ⟨r0, hr0, hu⟩ := rolled_stored rank k l l1 h1 y r1 hg
      rw [hr, Option.some.injEq] at hr0
      subst hr0
      obtain ⟨_, _, ha, hh, _⟩ := unlinked_fields r1 r hu
      have hc := h1.cemented y r1 hg
      rw [ha, hch] at hc
      have := h2.spared y r1 ch hg hn (by rw [ha]; exact hc)
      rw [hh] at this
      exact this
  · intro y r hr hlt
    have hb := h1.below y r hr hlt
    cases hg : l1.store.blocks.get y with
    | none =>
      rw [hg] at hb
      exact Option.noConfusion hb
    | some r1 =>
      rw [hg, Option.map_some', Option.some.injEq] at hb
      rw [h2.below y r1 hg hlt, hb]
  · intro a i hi hlt
    obtain ⟨h0, h1a⟩ := h1.rows a i hi hlt
    have hi1 : l1.store.account_get a = some i := by
      rw [account_get_of_rows _ _ a h0 h1a]
      exact hi
    obtain ⟨g0, g1⟩ := h2.rows a i hi1 hlt
    exact ⟨g0.trans h0, g1.trans h1a⟩

/-! ## Counting stored blocks -/

theorem block_count_le (l l1 : ledger)
    (hk : ∀ y, (l1.store.blocks.get y).isSome = true → (l.store.blocks.get y).isSome = true) :
    l1.store.block_count ≤ l.store.block_count := by
  unfold Store.block_count
  rw [← List.toFinset_card_of_nodup (Map.keys_nodup l1.store.blocks),
    ← List.toFinset_card_of_nodup (Map.keys_nodup l.store.blocks)]
  apply Finset.card_le_card
  intro y hy
  rw [List.mem_toFinset, Map.mem_keys] at hy ⊢
  exact hk y hy

theorem block_count_lt (l l1 : ledger)
    (hk : ∀ y, (l1.store.blocks.get y).isSome = true → (l.store.blocks.get y).isSome = true)
    (t : Hash) (ht : (l.store.blocks.get t).isSome = true)
    (ht1 : l1.store.blocks.get t = none) :
    l1.store.block_count < l.store.block_count := by
  unfold Store.block_count
  rw [← List.toFinset_card_of_nodup (Map.keys_nodup l1.store.blocks),
    ← List.toFinset_card_of_nodup (Map.keys_nodup l.store.blocks)]
  apply Finset.card_lt_card
  rw [Finset.ssubset_iff_of_subset]
  · refine ⟨t, ?_, ?_⟩
    · rw [List.mem_toFinset, Map.mem_keys]
      exact ht
    · rw [List.mem_toFinset, Map.mem_keys, ht1]
      exact Bool.false_ne_true
  · intro y hy
    rw [List.mem_toFinset, Map.mem_keys] at hy ⊢
    exact hk y hy

theorem rolled_isSome (rank : Hash → Nat) (k : Nat) (l l1 : ledger) (h : rolled rank k l l1)
    (y : Hash) (hy : (l1.store.blocks.get y).isSome = true) :
    (l.store.blocks.get y).isSome = true := by
  cases hg : l1.store.blocks.get y with
  | none =>
    rw [hg] at hy
    exact absurd hy Bool.false_ne_true
  | some r1 =>
    obtain ⟨r, hr, _⟩ := rolled_stored rank k l l1 h y r1 hg
    rw [hr]
    rfl

end nano

namespace nano

/-! ## One inversion keeps the rollback invariants -/

theorem popped_stored (env : Env) (l l1 : ledger) (a : Account) (x : Hash) (u : block_row)
    (hp : popped env l l1 a x u) (y : Hash) (r1 : block_row)
    (hr : l1.store.blocks.get y = some r1) :
    y ≠ x ∧ ∃ r, l.store.blocks.get y = some r ∧ r1.unlinked = r.unlinked := by
  have hb := hp.blocks y
  by_cases hy : y = x
  · rw [if_pos hy, hr] at hb
    exact Option.noConfusion hb
  · rw [if_neg hy] at hb
    exact ⟨hy, unlinked_of_some _ _ r1 hr hb⟩

theorem popped_kept (env : Env) (l l1 : ledger) (a : Account) (x : Hash) (u : block_row)
    (hp : popped env l l1 a x u) (y : Hash) (r : block_row)
    (hr : l.store.blocks.get y = some r) (hy : y ≠ x) :
    ∃ r1, l1.store.blocks.get y = some r1 ∧ r1.unlinked = r.unlinked := by
  have hb := hp.blocks y
  rw [if_neg hy] at hb
  exact some_of_unlinked _ _ r hr hb

theorem popped_map {α : Type} (f : block_row → α) (hf : ∀ r, f r.unlinked = f r) (env : Env)
    (l l1 : ledger) (a : Account) (x : Hash) (u : block_row) (hp : popped env l l1 a x u)
    (y : Hash) (hy : y ≠ x) :
    (l1.store.blocks.get y).map f = (l.store.blocks.get y).map f := by
  have hb := hp.blocks y
  rw [if_neg hy] at hb
  have h2 := congrArg (fun o => Option.map f o) hb
  simp only [Option.map_map] at h2
  have hfun : f ∘ block_row.unlinked = f := funext hf
  rw [hfun] at h2
  exact h2

theorem popped_balance (env : Env) (rank : Hash → Nat) (N : Nat) (l l1 : ledger) (a : Account)
    (i : account_info) (u : block_row) (hI : ledger_chained env rank N l)
    (hi : l.store.account_get a = some i) (hu : l.store.blocks.get i.head = some u)
    (hp : popped env l l1 a i.head u) (y : Hash) (r : block_row)
    (hr : l.store.blocks.get y = some r) :
    l1.balance r.block.previous = l.balance r.block.previous := by
  by_cases h0 : r.block.previous = 0
  · rw [h0]
    unfold ledger.balance
    rw [if_pos rfl, if_pos rfl]
  · have hne := chained_previous_ne_head env rank N l hI a i u hi hu y r hr h0
    apply balance_of_unlinked
    have hb := hp.blocks r.block.previous
    rw [if_neg hne] at hb
    exact hb

/-- The rows of the account after the inversion of its head. -/
theorem popped_row (env : Env) (rank : Hash → Nat) (N : Nat) (l l1 : ledger) (a : Account)
    (i : account_info) (u : block_row) (hI : ledger_chained env rank N l)
    (hu : l.store.blocks.get i.head = some u) (hua : u.sideband.account = a)
    (hp : popped env l l1 a i.head u) :
    (u.block.previous = 0 ∧ l1.store.accounts_v0.get a = none ∧
      l1.store.accounts_v1.get a = none) ∨
    (u.block.previous ≠ 0 ∧ ∃ j p, j.head = u.block.previous ∧
      l.store.blocks.get u.block.previous = some p ∧ p.sideband.account = a ∧
      p.sideband.height + 1 = u.sideband.height ∧ u.block.previous ≠ i.head ∧
      l1.store.confirmation_height.get a = l.store.confirmation_height.get a ∧
      l1.store.account_get a = some j ∧
      ((p.epoch = .epoch_0 ∧ l1.store.accounts_v0.get a = some j ∧
          l1.store.accounts_v1.get a = none) ∨
        (p.epoch ≠ .epoch_0 ∧ l1.store.accounts_v1.get a = some j ∧
          l1.store.accounts_v0.get a = none))) := by
  by_cases h0 : u.block.previous = 0
  · exact Or.inl ⟨h0, hp.gone h0⟩
  · right
    obtain ⟨p, hpg, hpa, hph, _⟩ := hI.prev i.head u hu h0
    obtain ⟨hconf, j, hj, hv0, hv1⟩ := hp.moved h0
    rw [block_version_of_get _ _ p hpg] at hv0 hv1
    have hne : u.block.previous ≠ i.head := by
      intro he
      rw [he, hu, Option.some.injEq] at hpg
      subst hpg
      omega
    refine ⟨h0, j, p, hj, hpg, hpa.trans hua, hph, hne, hconf, ?_, ?_⟩
    · by_cases he : p.epoch = .epoch_0
      · obtain ⟨g0, g1⟩ := hv0 he
        exact account_get_of_v0 _ _ _ g0 g1
      · obtain ⟨g1, _⟩ := hv1 he
        exact account_get_of_v1 _ _ _ g1
    · by_cases he : p.epoch = .epoch_0
      · exact Or.inl ⟨he, hv0 he⟩
      · exact Or.inr ⟨he, hv1 he⟩

theorem other_head_ne (env : Env) (rank : Hash → Nat) (N : Nat) (l : ledger)
    (hI : ledger_chained env rank N l) (a : Account) (x : Hash) (u : block_row)
    (hu : l.store.blocks.get x = some u) (hua : u.sideband.account = a)
    (c : Account) (j : account_info) (hc : c ≠ a) (hj : l.store.account_get c = some j) :
    j.head ≠ x := by
  intro he
  have h := hI.owner c j hj
  rw [he, hu, Option.map_some', Option.some.injEq] at h
  exact hc (h.symm.trans hua)

theorem popped_chained (env : Env) (rank : Hash → Nat) (N : Nat) (l l1 : ledger) (a : Account)
    (i : account_info) (u : block_row) (hI : ledger_chained env rank N l)
    (hi : l.store.account_get a = some i) (hu : l.store.blocks.get i.head = some u)
    (hp : popped env l l1 a i.head u) : ledger_chained env rank N l1 := by
  have hua := chained_head_account env rank N l hI a i u hi hu
  have hS := popped_stored env l l1 a i.head u hp
  have hK := popped_kept env l l1 a i.head u hp
  have hrow := popped_row env rank N l l1 a i u hI hu hua hp
  have hoth := other_head_ne env rank N l hI a i.head u hu hua
  have hget : ∀ c, c ≠ a → l1.store.account_get c = l.store.account_get c := by
    intro c hc
    obtain ⟨o0, o1, _⟩ := hp.off c hc
    exact account_get_of_rows _ _ c o0 o1
  have hbal : ∀ y r, l.store.blocks.get y = some r →
      l1.balance r.block.previous = l.balance r.block.previous :=
    popped_balance env rank N l l1 a i u hI hi hu hp
  refine ⟨?_, ?_, ?_, ?_, ?_, ?_, ?_, ?_, ?_, ?_, ?_, ?_, ?_, ?_⟩
  · -- keyed
    intro y r1 hr1
    obtain ⟨_, r, hr, hur⟩ := hS y r1 hr1
    rw [(unlinked_fields r1 r hur).1]
    exact hI.keyed y r hr
  · -- acc0
    intro c j hj
    by_cases hc : c = a
    · subst hc
      rcases hrow with ⟨_, h0, _⟩ | ⟨hp0, j1, p, hjh, hpg, _, _, hne, _, _, hcase⟩
      · rw [h0] at hj
        exact Option.noConfusion hj
      · rcases hcase with ⟨he, g0, g1⟩ | ⟨_, _, g0⟩
        · rw [g0, Option.some.injEq] at hj
          subst hj
          refine ⟨g1, by rw [hjh]; exact hp0, ?_⟩
          rw [hjh, popped_map block_row.epoch (fun _ => rfl) env l l1 _ i.head u hp _ hne, hpg,
            Option.map_some', he]
        · rw [g0] at hj
          exact Option.noConfusion hj
    · obtain ⟨o0, o1, _⟩ := hp.off c hc
      rw [o0] at hj
      obtain ⟨h1, h2, h3⟩ := hI.acc0 c j hj
      have hne := hoth c j hc (account_get_of_v0 _ _ _ hj h1)
      refine ⟨o1.trans h1, h2, ?_⟩
      rw [popped_map block_row.epoch (fun _ => rfl) env l l1 _ i.head u hp _ hne]
      exact h3
  · -- acc1
    intro c j hj
    by_cases hc : c = a
    · subst hc
      rcases hrow with ⟨_, _, h1⟩ | ⟨hp0, j1, p, hjh, hpg, _, _, hne, _, _, hcase⟩
      · rw [h1] at hj
        exact Option.noConfusion hj
      · rcases hcase with ⟨_, _, g1⟩ | ⟨he, g1, g0⟩
        · rw [g1] at hj
          exact Option.noConfusion hj
        · rw [g1, Option.some.injEq] at hj
          subst hj
          refine ⟨g0, by rw [hjh]; exact hp0, p.epoch, ?_, he⟩
          rw [hjh, popped_map block_row.epoch (fun _ => rfl) env l l1 _ i.head u hp _ hne, hpg,
            Option.map_some']
    · obtain ⟨o0, o1, _⟩ := hp.off c hc
      rw [o1] at hj
      obtain ⟨h1, h2, e, h3, h4⟩ := hI.acc1 c j hj
      have hne := hoth c j hc (account_get_of_v1 _ _ _ hj)
      refine ⟨o0.trans h1, h2, e, ?_, h4⟩
      rw [popped_map block_row.epoch (fun _ => rfl) env l l1 _ i.head u hp _ hne]
      exact h3
  · -- owner
    intro c j hj
    by_cases hc : c = a
    · subst hc
      rcases hrow with ⟨_, h0, h1⟩ | ⟨hp0, j1, p, hjh, hpg, hpa, _, hne, _, hg, _⟩
      · rw [account_get_none_of_tables _ _ h0 h1] at hj
        exact Option.noConfusion hj
      · rw [hg, Option.some.injEq] at hj
        subst hj
        rw [hjh, popped_map (fun r => r.sideband.account) (fun _ => rfl) env l l1 _ i.head u hp
          _ hne, hpg, Option.map_some', hpa]
    · rw [hget c hc] at hj
      have hne := hoth c j hc hj
      rw [popped_map (fun r => r.sideband.account) (fun _ => rfl) env l l1 _ i.head u hp _ hne]
      exact hI.owner c j hj
  · -- top
    intro y r1 hr1
    obtain ⟨hy, r, hr, hur⟩ := hS y r1 hr1
    obtain ⟨_, _, hra, hrh, _⟩ := unlinked_fields r1 r hur
    rw [hra, hrh]
    by_cases hc : r.sideband.account = a
    · obtain ⟨hp0, p, hpg, _, hle, hne⟩ :=
        chained_below_head env rank N l hI a i u hi hu y r hr hc hy
      rcases hrow with ⟨h0, _, _⟩ | ⟨_, j1, p2, hjh, hpg2, _, _, _, _, hg, _⟩
      · exact absurd h0 hp0
      · obtain ⟨p1, hp1, hup⟩ := hK _ p hpg hne
        refine ⟨j1, p1, by rw [hc]; exact hg, by rw [hjh]; exact hp1, ?_⟩
        rw [(unlinked_fields p1 p hup).2.2.2.1]
        exact hle
    · obtain ⟨i0, u0, h1, h2, h3⟩ := hI.top y r hr
      have hne := hoth _ i0 hc h1
      obtain ⟨u1, hu1, huu⟩ := hK _ u0 h2 hne
      refine ⟨i0, u1, by rw [hget _ hc]; exact h1, hu1, ?_⟩
      rw [(unlinked_fields u1 u0 huu).2.2.2.1]
      exact h3
  · -- inj
    intro y z r1 q1 hr1 hq1 hacc hh
    obtain ⟨_, r, hr, hur⟩ := hS y r1 hr1
    obtain ⟨_, q, hq, huq⟩ := hS z q1 hq1
    obtain ⟨_, _, hra, hrh, _⟩ := unlinked_fields r1 r hur
    obtain ⟨_, _, hqa, hqh, _⟩ := unlinked_fields q1 q huq
    exact hI.inj y z r q hr hq (by rw [← hra, ← hqa]; exact hacc) (by rw [← hrh, ← hqh]; exact hh)
  · -- prev
    intro y r1 hr1 hp0
    obtain ⟨_, r, hr, hur⟩ := hS y r1 hr1
    obtain ⟨hrb, _, hra, hrh, _⟩ := unlinked_fields r1 r hur
    rw [hrb] at hp0 ⊢
    rw [hra, hrh]
    obtain ⟨p, hpg, hpa, hph, hpe⟩ := hI.prev y r hr hp0
    have hne := chained_previous_ne_head env rank N l hI a i u hi hu y r hr hp0
    obtain ⟨p1, hp1, hup⟩ := hK _ p hpg hne
    obtain ⟨_, hpe1, hpa1, hph1, _⟩ := unlinked_fields p1 p hup
    exact ⟨p1, hp1, hpa1.trans hpa, by rw [hph1]; exact hph, fun hv => hpe1.trans (hpe hv)⟩
  · -- first
    intro y r1 hr1 hp0
    obtain ⟨_, r, hr, hur⟩ := hS y r1 hr1
    obtain ⟨hrb, _, _, hrh, _⟩ := unlinked_fields r1 r hur
    rw [hrb] at hp0
    rw [hrh]
    exact hI.first y r hr hp0
  · -- legacy
    intro y r1 hr1 hv
    obtain ⟨_, r, hr, hur⟩ := hS y r1 hr1
    obtain ⟨hrb, hre, _⟩ := unlinked_fields r1 r hur
    rw [hrb] at hv
    rw [hre]
    exact hI.legacy y r hr hv
  · -- state_account
    intro y r1 b hr1 hb
    obtain ⟨_, r, hr, hur⟩ := hS y r1 hr1
    obtain ⟨hrb, _, hra, _⟩ := unlinked_fields r1 r hur
    rw [hrb] at hb
    rw [hra]
    exact hI.state_account y r b hr hb
  · -- pending_src
    intro t k row r1 hrow1 hr1
    obtain ⟨hy, r, hr, hur⟩ := hS k.hash r1 hr1
    rw [(unlinked_fields r1 r hur).2.2.1]
    rcases hp.pend_rows t k row hrow1 hy with hold | ⟨_, _, hsrc⟩
    · exact hI.pending_src t k row r hold hr
    · rw [hsrc]
      exact account_of_get l k.hash r hr
  · -- received
    intro y r1 d hr1 hsend hpend
    obtain ⟨hy, r, hr, hur⟩ := hS y r1 hr1
    rw [sent_to_stable l1 l r1 r hur (hbal y r hr)] at hsend
    have hpend0 : l.store.pending_get { account := d, hash := y } = none := by
      cases hg : l.store.pending_get { account := d, hash := y } with
      | none => rfl
      | some v =>
        exfalso
        exact hp.pend_keep { account := d, hash := y } hy (by rw [hg]; exact Option.noConfusion)
          hpend
    obtain ⟨k, q, hq, hrec, hqa, hlt⟩ := hI.received y r d hr hsend hpend0
    by_cases hk : k = i.head
    · exfalso
      rw [hk, hu, Option.some.injEq] at hq
      subst hq
      have hda : d = a := hqa.symm.trans hua
      rw [hda] at hpend
      exact hp.pend_put y hrec hpend
    · obtain ⟨q1, hq1, huq⟩ := hK k q hq hk
      refine ⟨k, q1, hq1, ?_, ?_, hlt⟩
      · rw [received_from_stable env l1 l q1 q huq (hbal k q hq)]
        exact hrec
      · rw [(unlinked_fields q1 q huq).2.2.1]
        exact hqa
  · -- rank_chain
    intro y z r1 q1 hr1 hq1 hacc hh
    obtain ⟨_, r, hr, hur⟩ := hS y r1 hr1
    obtain ⟨_, q, hq, huq⟩ := hS z q1 hq1
    obtain ⟨_, _, hra, hrh, _⟩ := unlinked_fields r1 r hur
    obtain ⟨_, _, hqa, hqh, _⟩ := unlinked_fields q1 q huq
    exact hI.rank_chain y z r q hr hq (by rw [← hra, ← hqa]; exact hacc)
      (by rw [← hrh, ← hqh]; exact hh)
  · -- bound
    intro y r1 hr1
    obtain ⟨_, r, hr, _⟩ := hS y r1 hr1
    exact hI.bound y r hr

/-- One inversion as a rollback step: only the head row is deleted, and it
was above the confirmation height. -/
theorem popped_rolled (env : Env) (rank : Hash → Nat) (N : Nat) (l l1 : ledger) (a : Account)
    (i : account_info) (u : block_row) (hI : ledger_chained env rank N l)
    (hi : l.store.account_get a = some i) (hu : l.store.blocks.get i.head = some u)
    (hp : popped env l l1 a i.head u)
    (hsafe : ∀ ch, l.store.confirmation_height.get a = some ch → ch < u.sideband.height)
    (k : Nat) (hk : k ≤ rank i.head) : rolled rank k l l1 := by
  have hua := chained_head_account env rank N l hI a i u hi hu
  have hS := popped_stored env l l1 a i.head u hp
  have hK := popped_kept env l l1 a i.head u hp
  refine ⟨?_, ?_, ?_, ?_, ?_⟩
  · intro y
    have hb := hp.blocks y
    by_cases hy : y = i.head
    · rw [if_pos hy] at hb
      left
      cases hg : l1.store.blocks.get y with
      | none => rfl
      | some r =>
        rw [hg] at hb
        exact Option.noConfusion hb
    · rw [if_neg hy] at hb
      exact Or.inr hb
  · intro y r1 hr1
    obtain ⟨hy, r, hr, hur⟩ := hS y r1 hr1
    rw [(unlinked_fields r1 r hur).2.2.1]
    by_cases hc : r.sideband.account = a
    · obtain ⟨hp0, _⟩ := chained_below_head env rank N l hI a i u hi hu y r hr hc hy
      rw [hc]
      exact (hp.moved hp0).1
    · exact (hp.off _ hc).2.2
  · intro y r ch hr hn hch
    by_cases hy : y = i.head
    · rw [hy, hu, Option.some.injEq] at hr
      subst hr
      rw [hua] at hch
      exact hsafe ch hch
    · obtain ⟨r1, hr1, _⟩ := hK y r hr hy
      rw [hn] at hr1
      exact Option.noConfusion hr1
  · intro y r hr hlt
    have hy : y ≠ i.head := by
      intro he
      rw [he] at hlt
      omega
    have hb := hp.blocks y
    rw [if_neg hy, hr] at hb
    exact hb
  · intro c j hj hlt
    have hc : c ≠ a := by
      intro he
      rw [he, hi, Option.some.injEq] at hj
      rw [← hj] at hlt
      omega
    obtain ⟨o0, o1, _⟩ := hp.off c hc
    exact ⟨o0, o1⟩

end nano

namespace nano

/-! ## The tables after an inversion -/

theorem change_latest_pop_eq (S : Store) (a : Account) (old : account_state)
    (new : account_info) (e e0 : epoch) (hold : old.head ≠ 0) (hep : old.epoch = some e0) :
    ledger.change_latest S a old new e
      = some (if new.head ≠ 0 then (if e0 ≠ e then S.account_del a else S).account_put a new e
          else (S.confirmation_height_del a).account_del a) := by
  unfold ledger.change_latest
  by_cases hn : new.head ≠ 0
  · rw [if_pos hn, if_pos hn]
    dsimp only
    rw [if_pos hold, hep, if_neg (fun hk => hold hk.1)]
  · rw [if_neg hn, if_neg hn]

/-- The account tables and the confirmation heights after `change_latest` on
an account with one row, in the table of the epoch of its old head. -/
theorem change_latest_pop (S S2 : Store) (a : Account) (old : account_state)
    (new : account_info) (e e0 : epoch) (hold : old.head ≠ 0) (hep : old.epoch = some e0)
    (h : ledger.change_latest S a old new e = some S2)
    (hone : S.accounts_v0.get a = none ∨ S.accounts_v1.get a = none)
    (h1 : (S.accounts_v1.get a).isSome = true → e0 ≠ .epoch_0)
    (h0 : (S.accounts_v0.get a).isSome = true → e0 = .epoch_0) :
    (∀ c, c ≠ a → S2.accounts_v0.get c = S.accounts_v0.get c ∧
      S2.accounts_v1.get c = S.accounts_v1.get c ∧
      S2.confirmation_height.get c = S.confirmation_height.get c) ∧
    (new.head = 0 → S2.accounts_v0.get a = none ∧ S2.accounts_v1.get a = none) ∧
    (new.head ≠ 0 → S2.confirmation_height.get a = S.confirmation_height.get a ∧
      (e = .epoch_0 → S2.accounts_v0.get a = some new ∧ S2.accounts_v1.get a = none) ∧
      (e ≠ .epoch_0 → S2.accounts_v1.get a = some new ∧ S2.accounts_v0.get a = none)) := by
  rw [change_latest_pop_eq S a old new e e0 hold hep, Option.some.injEq] at h
  subst h
  by_cases hn : new.head ≠ 0
  · simp only [if_pos hn]
    refine ⟨?_, fun hz => absurd hz hn, fun _ => ⟨?_, ?_⟩⟩
    · intro c hc
      have hca : ¬ a = c := fun hk => hc hk.symm
      refine ⟨?_, ?_, ?_⟩
      · rw [account_put_get0, if_neg (fun hk => hca hk.2)]
        split
        · rw [account_del_get0, if_neg (fun hk => hca hk.2)]
        · rfl
      · rw [account_put_get1, if_neg (fun hk => hca hk.2)]
        split
        · rw [account_del_get1, if_neg hca]
        · rfl
      · rw [Store.account_put_confirmation_height]
        split
        · rw [Store.account_del_confirmation_height]
        · rfl
    · rw [Store.account_put_confirmation_height]
      split
      · rw [Store.account_del_confirmation_height]
      · rfl
    · exact put_after_optional_del S a new e e0 hone h1 h0
  · simp only [if_neg hn]
    refine ⟨?_, fun _ => ⟨?_, ?_⟩, fun hz => absurd hz hn⟩
    · intro c hc
      have hca : ¬ a = c := fun hk => hc hk.symm
      refine ⟨?_, ?_, ?_⟩
      · rw [account_del_get0, if_neg (fun hk => hca hk.2)]
        rfl
      · rw [account_del_get1, if_neg hca]
        rfl
      · rw [Store.account_del_confirmation_height]
        unfold Store.confirmation_height_del
        simp only [Map.get_del, if_neg hca]
    · rw [account_del_get0]
      by_cases hv : (S.confirmation_height_del a).accounts_v1.get a = none
      · rw [if_pos ⟨hv, rfl⟩]
      · rw [if_neg (fun hk => hv hk.1)]
        rcases hone with hz | hz
        · exact hz
        · exact absurd hz hv
    · rw [account_del_get1, if_pos rfl]

theorem unlinked_clear (r : block_row) :
    block_row.unlinked { r with sideband := { r.sideband with successor := 0 } }
      = r.unlinked := rfl

/-- The block rows after `block_del` of the head and `block_successor_clear`
of its previous block, in either order. -/
theorem pop_blocks (B : Map Hash block_row) (T : Store) (x p : Hash)
    (hT : ∀ y, T.blocks.get y = if p = y then
        ((B.del x).get p).map (fun r => { r with sideband := { r.sideband with successor := 0 } })
      else (B.del x).get y) (y : Hash) :
    (T.blocks.get y).map block_row.unlinked
      = if y = x then none else (B.get y).map block_row.unlinked := by
  rw [hT y]
  by_cases hy : y = x
  · rw [if_pos hy]
    by_cases hp : p = y
    · rw [if_pos hp, Map.get_del, hp, hy, if_pos rfl]
      rfl
    · rw [if_neg hp, Map.get_del, hy, if_pos rfl]
      rfl
  · rw [if_neg hy]
    have hxy : ¬ x = y := fun hk => hy hk.symm
    by_cases hp : p = y
    · rw [if_pos hp, Map.get_del, hp, if_neg hxy]
      cases B.get y <;> rfl
    · rw [if_neg hp, Map.get_del, if_neg hxy]

/-! ## The pending tables after an inversion -/

theorem pending_get_of_row (s : Store) (k : pending_key) (t : Bool) (row : pending_row)
    (h : (s.pending_table t).get k = some row) : s.pending_get k ≠ none := by
  unfold Store.pending_get
  cases t
  · change s.pending_v0.get k = some row at h
    rw [h]
    cases s.pending_v1.get k <;> exact Option.noConfusion
  · change s.pending_v1.get k = some row at h
    rw [h]
    exact Option.noConfusion

theorem pending_row_of_get (s : Store) (k : pending_key) (h : s.pending_get k ≠ none) :
    ∃ t row, (s.pending_table t).get k = some row := by
  cases h1 : s.pending_v1.get k with
  | some row => exact ⟨true, row, h1⟩
  | none =>
    cases h0 : s.pending_v0.get k with
    | some row => exact ⟨false, row, h0⟩
    | none =>
      exfalso
      apply h
      unfold Store.pending_get
      rw [h1, h0]

theorem pending_parts_put (env : Env) (l : ledger) (u : block_row) (a : Account) (x : Hash)
    (X T : Store) (key : pending_key) (info : pending_info)
    (hX0 : X.pending_v0 = l.store.pending_v0) (hX1 : X.pending_v1 = l.store.pending_v1)
    (hT0 : T.pending_v0 = (X.pending_put key info).pending_v0)
    (hT1 : T.pending_v1 = (X.pending_put key info).pending_v1)
    (hrec : l.received_from env u = some key.hash) (hka : key.account = a)
    (hsrc : info.source = l.account key.hash) :
    (∀ t k row, (T.pending_table t).get k = some row → k.hash ≠ x →
      (l.store.pending_table t).get k = some row ∨
        (l.received_from env u = some k.hash ∧ k.account = a ∧
          row.source = l.account k.hash)) ∧
    (∀ k, k.hash ≠ x → l.store.pending_get k ≠ none → T.pending_get k ≠ none) ∧
    (∀ src, l.received_from env u = some src →
      T.pending_get { account := a, hash := src } ≠ none) := by
  have hget : ∀ t k, (T.pending_table t).get k
      = if t = decide (info.epoch ≠ .epoch_0) ∧ key = k then
          some { source := info.source, amount := info.amount }
        else (l.store.pending_table t).get k := by
    intro t k
    rw [pending_table_congr T _ hT0 hT1, pending_put_table_get,
      pending_table_congr X l.store hX0 hX1]
  refine ⟨?_, ?_, ?_⟩
  · intro t k row hrow _
    rw [hget] at hrow
    split at hrow
    · rename_i hc
      right
      rw [Option.some.injEq] at hrow
      rw [← hc.2, ← hrow]
      exact ⟨hrec, hka, hsrc⟩
    · exact Or.inl hrow
  · intro k _ hk
    obtain ⟨t, row, hrow⟩ := pending_row_of_get _ k hk
    have := hget t k
    split at this
    · exact pending_get_of_row T k t _ this
    · rw [hrow] at this
      exact pending_get_of_row T k t _ this
  · intro src hs
    rw [hrec, Option.some.injEq] at hs
    have hk : ({ account := a, hash := src } : pending_key) = key := by
      rw [← hs, ← hka]
    rw [hk]
    have := hget (decide (info.epoch ≠ .epoch_0)) key
    rw [if_pos ⟨rfl, rfl⟩] at this
    exact pending_get_of_row T key _ _ this

theorem pending_parts_del (env : Env) (l : ledger) (u : block_row) (a : Account) (x : Hash)
    (X T : Store) (key : pending_key)
    (hX0 : X.pending_v0 = l.store.pending_v0) (hX1 : X.pending_v1 = l.store.pending_v1)
    (hT0 : T.pending_v0 = (X.pending_del key).pending_v0)
    (hT1 : T.pending_v1 = (X.pending_del key).pending_v1)
    (hrec : l.received_from env u = none) (hkx : key.hash = x) :
    (∀ t k row, (T.pending_table t).get k = some row → k.hash ≠ x →
      (l.store.pending_table t).get k = some row ∨
        (l.received_from env u = some k.hash ∧ k.account = a ∧
          row.source = l.account k.hash)) ∧
    (∀ k, k.hash ≠ x → l.store.pending_get k ≠ none → T.pending_get k ≠ none) ∧
    (∀ src, l.received_from env u = some src →
      T.pending_get { account := a, hash := src } ≠ none) := by
  refine ⟨?_, ?_, ?_⟩
  · intro t k row hrow _
    left
    rw [pending_table_congr T _ hT0 hT1] at hrow
    have := pending_del_table_get X key t k row hrow
    rw [pending_table_congr X l.store hX0 hX1] at this
    exact this
  · intro k hkne hk
    obtain ⟨t, row, hrow⟩ := pending_row_of_get _ k hk
    have hne : k ≠ key := by
      intro he
      rw [he] at hkne
      exact hkne hkx
    apply pending_get_of_row T k t row
    rw [pending_table_congr T _ hT0 hT1, pending_del_other X key t k hne,
      pending_table_congr X l.store hX0 hX1]
    exact hrow
  · intro src hs
    rw [hrec] at hs
    exact Option.noConfusion hs

theorem pending_parts_same (env : Env) (l : ledger) (u : block_row) (a : Account) (x : Hash)
    (T : Store)
    (hT0 : T.pending_v0 = l.store.pending_v0) (hT1 : T.pending_v1 = l.store.pending_v1)
    (hrec : l.received_from env u = none) :
    (∀ t k row, (T.pending_table t).get k = some row → k.hash ≠ x →
      (l.store.pending_table t).get k = some row ∨
        (l.received_from env u = some k.hash ∧ k.account = a ∧
          row.source = l.account k.hash)) ∧
    (∀ k, k.hash ≠ x → l.store.pending_get k ≠ none → T.pending_get k ≠ none) ∧
    (∀ src, l.received_from env u = some src →
      T.pending_get { account := a, hash := src } ≠ none) := by
  refine ⟨?_, ?_, ?_⟩
  · intro t k row hrow _
    left
    rw [pending_table_congr T l.store hT0 hT1] at hrow
    exact hrow
  · intro k _ hk
    rw [pending_get_congr T l.store k hT0 hT1]
    exact hk
  · intro src hs
    rw [hrec] at hs
    exact Option.noConfusion hs

/-- The head of an account, its row and the tables the row is in. -/
theorem chained_head_rows (env : Env) (rank : Hash → Nat) (N : Nat) (l : ledger)
    (hI : ledger_chained env rank N l) (a : Account) (i : account_info) (u : block_row)
    (hi : l.store.account_get a = some i) (hu : l.store.blocks.get i.head = some u) :
    i.head ≠ 0 ∧ (l.account_state a).head = i.head ∧
    (l.account_state a).epoch = some u.epoch ∧
    (l.store.accounts_v0.get a = none ∨ l.store.accounts_v1.get a = none) ∧
    ((l.store.accounts_v1.get a).isSome = true → u.epoch ≠ .epoch_0) ∧
    ((l.store.accounts_v0.get a).isSome = true → u.epoch = .epoch_0) := by
  have hst := account_state_of_get l a i hi
  have hhead : (l.account_state a).head = i.head := by
    rw [hst]
    rfl
  have hep : (l.account_state a).epoch = some u.epoch := by
    rw [hst]
    unfold account_state.epoch
    simp only [hu, Option.map_some']
  have h1 : ∀ j, l.store.accounts_v1.get a = some j →
      l.store.accounts_v0.get a = none ∧ j = i ∧ u.epoch ≠ .epoch_0 := by
    intro j hj
    obtain ⟨g0, _, e, hE, hne⟩ := hI.acc1 a j hj
    have hij : j = i := by
      have := account_get_of_v1 _ _ _ hj
      rw [hi, Option.some.injEq] at this
      exact this.symm
    rw [hij, hu, Option.map_some', Option.some.injEq] at hE
    exact ⟨g0, hij, by rw [hE]; exact hne⟩
  have h0 : ∀ j, l.store.accounts_v0.get a = some j →
      l.store.accounts_v1.get a = none ∧ j = i ∧ u.epoch = .epoch_0 := by
    intro j hj
    obtain ⟨g1, _, hE⟩ := hI.acc0 a j hj
    have hij : j = i := by
      have := account_get_of_v0 _ _ _ hj g1
      rw [hi, Option.some.injEq] at this
      exact this.symm
    rw [hij, hu, Option.map_some', Option.some.injEq] at hE
    exact ⟨g1, hij, hE⟩
  have hne0 : i.head ≠ 0 := by
    rw [account_get_of_tables] at hi
    cases hv1 : l.store.accounts_v1.get a with
    | some j =>
      rw [← (h1 j hv1).2.1]
      exact (hI.acc1 a j hv1).2.1
    | none =>
      rw [hv1] at hi
      exact (hI.acc0 a i hi).2.1
  refine ⟨hne0, hhead, hep, ?_, ?_, ?_⟩
  · cases hv1 : l.store.accounts_v1.get a with
    | some j => exact Or.inl ((h1 j hv1).1.trans rfl)
    | none => exact Or.inr rfl
  · intro hs
    cases hv1 : l.store.accounts_v1.get a with
    | some j => exact (h1 j hv1).2.2
    | none =>
      rw [hv1] at hs
      exact absurd hs Bool.false_ne_true
  · intro hs
    cases hv0 : l.store.accounts_v0.get a with
    | some j => exact (h0 j hv0).2.2
    | none =>
      rw [hv0] at hs
      exact absurd hs Bool.false_ne_true

/-- The relation `popped` from the tables of the store an inversion leaves:
the block rows, the account tables as `change_latest` left them, and the
three facts about the pending tables. -/
theorem popped_of_parts (env : Env) (rank : Hash → Nat) (N : Nat) (l : ledger)
    (hI : ledger_chained env rank N l) (a : Account) (i : account_info) (u : block_row)
    (hi : l.store.account_get a = some i) (hu : l.store.blocks.get i.head = some u)
    (l1 : ledger) (S0 S2 : Store) (old : account_state) (rep : Account) (opn : Hash)
    (e : epoch) (hoh : old.head = i.head) (hoe : old.epoch = some u.epoch)
    (hb : ∀ y, (l1.store.blocks.get y).map block_row.unlinked
      = if y = i.head then none else (l.store.blocks.get y).map block_row.unlinked)
    (hS0 : S0.accounts_v0 = l.store.accounts_v0 ∧ S0.accounts_v1 = l.store.accounts_v1 ∧
      S0.confirmation_height = l.store.confirmation_height)
    (hcl : ledger.change_latest S0 a old
      { head := u.block.previous, representative := rep, open_block := opn } e = some S2)
    (hT : l1.store.accounts_v0 = S2.accounts_v0 ∧ l1.store.accounts_v1 = S2.accounts_v1 ∧
      l1.store.confirmation_height = S2.confirmation_height)
    (he : u.block.previous ≠ 0 → e = l.store.block_version u.block.previous)
    (hpend : (∀ t k row, (l1.store.pending_table t).get k = some row → k.hash ≠ i.head →
        (l.store.pending_table t).get k = some row ∨
          (l.received_from env u = some k.hash ∧ k.account = a ∧
            row.source = l.account k.hash)) ∧
      (∀ k, k.hash ≠ i.head → l.store.pending_get k ≠ none →
        l1.store.pending_get k ≠ none) ∧
      (∀ src, l.received_from env u = some src →
        l1.store.pending_get { account := a, hash := src } ≠ none)) :
    popped env l l1 a i.head u := by
  obtain ⟨hne0, hhead, hep, hone, h1, h0⟩ := chained_head_rows env rank N l hI a i u hi hu
  obtain ⟨s0, s1, sc⟩ := hS0
  obtain ⟨t0, t1, tc⟩ := hT
  have hpop := change_latest_pop S0 S2 a old _ e u.epoch
    (by rw [hoh]; exact hne0) hoe hcl (by rw [s0, s1]; exact hone) (by rw [s1]; exact h1)
    (by rw [s0]; exact h0)
  obtain ⟨hoff, hgone, hmoved⟩ := hpop
  rw [← t0, ← t1, ← tc, s0, s1, sc] at hoff
  rw [← t0, ← t1] at hgone
  rw [← t0, ← t1, ← tc, sc] at hmoved
  refine ⟨hb, hoff, hgone, ?_, hpend.1, hpend.2.1, hpend.2.2⟩
  intro hp0
  obtain ⟨hconf, hv0, hv1⟩ := hmoved hp0
  refine ⟨hconf, account_info.mk u.block.previous rep opn, rfl, ?_, ?_⟩
  · intro hv
    exact hv0 ((he hp0).trans hv)
  · intro hv
    exact hv1 (fun hk => hv ((he hp0).symm.trans hk))

end nano

namespace nano

/-! ## The inversions of the legacy blocks -/

theorem block_del_get (S : Store) (x y : Hash) :
    (S.block_del x).blocks.get y = (S.blocks.del x).get y := rfl

theorem legacy_previous_version (env : Env) (rank : Hash → Nat) (N : Nat) (l : ledger)
    (hI : ledger_chained env rank N l) (x : Hash) (u : block_row)
    (hu : l.store.blocks.get x = some u) (hv : valid_predecessor u.block = true)
    (hp : u.block.previous ≠ 0) : .epoch_0 = l.store.block_version u.block.previous := by
  obtain ⟨p, hpg, _, _, hpe⟩ := hI.prev x u hu hp
  rw [block_version_of_get _ _ p hpg, hpe hv]

theorem receive_block_popped (env : Env) (rank : Hash → Nat) (N : Nat) (l : ledger)
    (hI : ledger_chained env rank N l) (a : Account) (i : account_info) (u : block_row)
    (hi : l.store.account_get a = some i) (hu : l.store.blocks.get i.head = some u)
    (b : receive_block) (hub : u.block = .receive b) (list : List block) :
    (∀ e l1 list1, rollback_visitor.receive_block env l list b = .ok (e, l1, list1) →
      e = false ∧ popped env l l1 a i.head u) ∧
    rollback_visitor.receive_block env l list b ≠ .out_of_fuel := by
  have hkey : env.hash (.receive b) = i.head := by
    have := hI.keyed i.head u hu
    rw [hub] at this
    exact this
  have hua := chained_head_account env rank N l hI a i u hi hu
  have hacc : l.account (env.hash (.receive b)) = a := by
    rw [hkey, account_of_get l _ u hu]
    exact hua
  have hprev : u.block.previous = b.previous := by
    rw [hub]
    rfl
  have hrec : l.received_from env u = some b.source := by
    unfold ledger.received_from
    rw [hub]
  unfold rollback_visitor.receive_block
  dsimp only
  rw [hacc, hkey]
  cases hamt : l.amount env b.source with
  | none =>
    refine ⟨fun e l1 list1 h => Res.noConfusion h, fun h => Res.noConfusion h⟩
  | some amount =>
    dsimp only
    cases hcl : ledger.change_latest l.store a (l.account_state a)
        { head := b.previous, representative := (l.account_state a).rep,
          open_block := account_info.default.open_block } .epoch_0 with
    | none =>
      refine ⟨fun e l1 list1 h => Res.noConfusion h, fun h => Res.noConfusion h⟩
    | some store1 =>
      dsimp only
      refine ⟨?_, fun h => Res.noConfusion h⟩
      intro e l1 list1 h
      simp only [Res.ok.injEq, Prod.mk.injEq] at h
      obtain ⟨he, hl, _⟩ := h
      refine ⟨he.symm, ?_⟩
      subst hl
      obtain ⟨fb, fp0, fp1, _⟩ := change_latest_frame _ _ _ _ _ _ hcl
      rw [← hprev] at hcl
      obtain ⟨_, hoh, hoe, _⟩ := chained_head_rows env rank N l hI a i u hi hu
      refine popped_of_parts env rank N l hI a i u hi hu _ l.store store1 _ _ _ .epoch_0
        hoh hoe ?_
        ⟨rfl, rfl, rfl⟩ hcl ⟨?_, ?_, ?_⟩ ?_ ?_
      · intro y
        apply pop_blocks l.store.blocks _ i.head b.previous
        intro y
        rw [block_successor_clear_get]
        simp only [Store.frontier_put_blocks, Store.frontier_del_blocks,
          Store.pending_put_blocks, block_del_get, fb]
      · simp only [Store.block_successor_clear_accounts_v0, Store.frontier_put_accounts_v0,
          Store.frontier_del_accounts_v0, Store.pending_put_accounts_v0,
          Store.block_del_accounts_v0]
      · simp only [Store.block_successor_clear_accounts_v1, Store.frontier_put_accounts_v1,
          Store.frontier_del_accounts_v1, Store.pending_put_accounts_v1,
          Store.block_del_accounts_v1]
      · simp only [Store.block_successor_clear_confirmation_height,
          Store.frontier_put_confirmation_height, Store.frontier_del_confirmation_height,
          Store.pending_put_confirmation_height, Store.block_del_confirmation_height]
      · intro hp0
        exact legacy_previous_version env rank N l hI i.head u hu (by rw [hub]; rfl) hp0
      · exact pending_parts_put env l u a i.head (store1.block_del i.head) _
          { account := a, hash := b.source }
          { source := l.account b.source, amount := amount, epoch := .epoch_0 }
          (by rw [Store.block_del_pending_v0]; exact fp0)
          (by rw [Store.block_del_pending_v1]; exact fp1)
          (by simp only [Store.block_successor_clear_pending_v0, Store.frontier_put_pending_v0,
            Store.frontier_del_pending_v0])
          (by simp only [Store.block_successor_clear_pending_v1, Store.frontier_put_pending_v1,
            Store.frontier_del_pending_v1])
          hrec rfl rfl

theorem pop_blocks_plain (B : Map Hash block_row) (T : Store) (x : Hash)
    (hT : ∀ y, T.blocks.get y = (B.del x).get y) (y : Hash) :
    (T.blocks.get y).map block_row.unlinked
      = if y = x then none else (B.get y).map block_row.unlinked := by
  rw [hT y, Map.get_del]
  by_cases hy : y = x
  · rw [if_pos hy, if_pos hy.symm]
    rfl
  · rw [if_neg hy, if_neg (fun hk => hy hk.symm)]

theorem change_latest_zero (S : Store) (a : Account) (old : account_state)
    (new : account_info) (e : epoch) (h : new.head = 0) :
    ledger.change_latest S a old new e
      = some ((S.confirmation_height_del a).account_del a) := by
  unfold ledger.change_latest
  rw [if_neg (not_not.mpr h)]

theorem open_block_popped (env : Env) (rank : Hash → Nat) (N : Nat) (l : ledger)
    (hI : ledger_chained env rank N l) (a : Account) (i : account_info) (u : block_row)
    (hi : l.store.account_get a = some i) (hu : l.store.blocks.get i.head = some u)
    (b : open_block) (hub : u.block = .open_ b) (list : List block) :
    (∀ e l1 list1, rollback_visitor.open_block env l list b = .ok (e, l1, list1) →
      e = false ∧ popped env l l1 a i.head u) ∧
    rollback_visitor.open_block env l list b ≠ .out_of_fuel := by
  have hkey : env.hash (.open_ b) = i.head := by
    have := hI.keyed i.head u hu
    rw [hub] at this
    exact this
  have hua := chained_head_account env rank N l hI a i u hi hu
  have hacc : l.account (env.hash (.open_ b)) = a := by
    rw [hkey, account_of_get l _ u hu]
    exact hua
  have hprev : u.block.previous = 0 := by
    rw [hub]
    rfl
  have hrec : l.received_from env u = some b.source := by
    unfold ledger.received_from
    rw [hub]
  unfold rollback_visitor.open_block
  dsimp only
  rw [hacc, hkey]
  cases hamt : l.amount env b.source with
  | none =>
    refine ⟨fun e l1 list1 h => Res.noConfusion h, fun h => Res.noConfusion h⟩
  | some amount =>
    dsimp only
    cases hcl : ledger.change_latest l.store a account_state.default
        account_info.default .epoch_0 with
    | none =>
      refine ⟨fun e l1 list1 h => Res.noConfusion h, fun h => Res.noConfusion h⟩
    | some store1 =>
      dsimp only
      refine ⟨?_, fun h => Res.noConfusion h⟩
      intro e l1 list1 h
      simp only [Res.ok.injEq, Prod.mk.injEq] at h
      obtain ⟨he, hl, _⟩ := h
      refine ⟨he.symm, ?_⟩
      subst hl
      obtain ⟨fb, fp0, fp1, _⟩ := change_latest_frame _ _ _ _ _ _ hcl
      have hcl2 : ledger.change_latest l.store a (l.account_state a)
          { head := u.block.previous, representative := 0, open_block := 0 } .epoch_0
          = some store1 := by
        rw [← hcl, change_latest_zero _ _ _ _ _ hprev, change_latest_zero _ _ _ _ _ rfl]
      obtain ⟨_, hoh, hoe, _⟩ := chained_head_rows env rank N l hI a i u hi hu
      refine popped_of_parts env rank N l hI a i u hi hu _ l.store store1 _ _ _ .epoch_0
        hoh hoe ?_
        ⟨rfl, rfl, rfl⟩ hcl2 ⟨?_, ?_, ?_⟩ ?_ ?_
      · intro y
        apply pop_blocks_plain l.store.blocks _ i.head
        intro y
        simp only [Store.frontier_del_blocks, Store.pending_put_blocks, block_del_get, fb]
      · simp only [Store.frontier_del_accounts_v0, Store.pending_put_accounts_v0,
          Store.block_del_accounts_v0]
      · simp only [Store.frontier_del_accounts_v1, Store.pending_put_accounts_v1,
          Store.block_del_accounts_v1]
      · simp only [Store.frontier_del_confirmation_height,
          Store.pending_put_confirmation_height, Store.block_del_confirmation_height]
      · intro hp0
        exact absurd hprev hp0
      · exact pending_parts_put env l u a i.head (store1.block_del i.head) _
          { account := a, hash := b.source }
          { source := l.account b.source, amount := amount, epoch := .epoch_0 }
          (by rw [Store.block_del_pending_v0]; exact fp0)
          (by rw [Store.block_del_pending_v1]; exact fp1)
          (by simp only [Store.frontier_del_pending_v0])
          (by simp only [Store.frontier_del_pending_v1])
          hrec rfl rfl

theorem pending_get_source (s : Store) (k : pending_key) (p : pending_info)
    (h : s.pending_get k = some p) :
    ∃ t row, (s.pending_table t).get k = some row ∧ row.source = p.source := by
  unfold Store.pending_get at h
  cases h1 : s.pending_v1.get k with
  | some row =>
    rw [h1] at h
    simp only [Option.some.injEq] at h
    exact ⟨true, row, h1, by rw [← h]⟩
  | none =>
    rw [h1] at h
    cases h0 : s.pending_v0.get k with
    | some row =>
      rw [h0] at h
      simp only [Option.some.injEq] at h
      exact ⟨false, row, h0, by rw [← h]⟩
    | none =>
      rw [h0] at h
      exact Option.noConfusion h

/-- The inversion of a legacy send once the loop over the destination has
ended on a ledger that holds the pending row. -/
theorem send_block_popped (env : Env) (rank : Hash → Nat) (N : Nat)
    (rb : ledger → Hash → List block → Res rollback_state) (fuel : Nat)
    (l0 : ledger) (list0 : List block) (l : ledger)
    (hI : ledger_chained env rank N l) (a : Account) (i : account_info) (u : block_row)
    (hi : l.store.account_get a = some i) (hu : l.store.blocks.get i.head = some u)
    (b : send_block) (hub : u.block = .send b) (list : List block) (pending : pending_info)
    (hloop : rollback_visitor.send_loop rb
      { account := b.destination, hash := env.hash (.send b) } b.destination fuel l0 list0
      = .ok (false, l, list, some pending))
    (hpend : l.store.pending_get { account := b.destination, hash := env.hash (.send b) }
      = some pending) :
    (∀ e l1 list1, rollback_visitor.send_block env rb fuel l0 list0 b = .ok (e, l1, list1) →
      e = false ∧ popped env l l1 a i.head u) ∧
    rollback_visitor.send_block env rb fuel l0 list0 b ≠ .out_of_fuel := by
  have hkey : env.hash (.send b) = i.head := by
    have := hI.keyed i.head u hu
    rw [hub] at this
    exact this
  have hua := chained_head_account env rank N l hI a i u hi hu
  have hsrc : pending.source = a := by
    obtain ⟨t, row, hrow, hs⟩ := pending_get_source _ _ _ hpend
    rw [← hs, hI.pending_src t _ row u hrow (by rw [hkey]; exact hu)]
    exact hua
  have hprev : u.block.previous = b.previous := by
    rw [hub]
    rfl
  have hrec : l.received_from env u = none := by
    unfold ledger.received_from
    rw [hub]
  unfold rollback_visitor.send_block
  dsimp only
  rw [hloop]
  dsimp only
  rw [hsrc, hkey]
  cases hcl : ledger.change_latest
      (l.store.pending_del { account := b.destination, hash := i.head }) a
      (l.account_state a)
      { head := b.previous, representative := (l.account_state a).rep,
        open_block := (l.account_state a).open_ } .epoch_0 with
  | none =>
    refine ⟨fun e l1 list1 h => Res.noConfusion h, fun h => Res.noConfusion h⟩
  | some store2 =>
    dsimp only
    refine ⟨?_, fun h => Res.noConfusion h⟩
    intro e l1 list1 h
    simp only [Res.ok.injEq, Prod.mk.injEq] at h
    obtain ⟨he, hl, _⟩ := h
    refine ⟨he.symm, ?_⟩
    subst hl
    obtain ⟨fb, fp0, fp1, _⟩ := change_latest_frame _ _ _ _ _ _ hcl
    rw [← hprev] at hcl
    obtain ⟨_, hoh, hoe, _⟩ := chained_head_rows env rank N l hI a i u hi hu
    refine popped_of_parts env rank N l hI a i u hi hu _
      (l.store.pending_del { account := b.destination, hash := i.head }) store2 _ _ _ .epoch_0
      hoh hoe ?_
      ⟨?_, ?_, ?_⟩ hcl ⟨?_, ?_, ?_⟩ ?_ ?_
    · intro y
      apply pop_blocks l.store.blocks _ i.head b.previous
      intro y
      rw [block_successor_clear_get]
      simp only [Store.frontier_put_blocks, Store.frontier_del_blocks, block_del_get, fb,
        Store.pending_del_blocks]
    · simp only [Store.pending_del_accounts_v0]
    · simp only [Store.pending_del_accounts_v1]
    · simp only [Store.pending_del_confirmation_height]
    · simp only [Store.block_successor_clear_accounts_v0, Store.frontier_put_accounts_v0,
        Store.frontier_del_accounts_v0, Store.block_del_accounts_v0]
    · simp only [Store.block_successor_clear_accounts_v1, Store.frontier_put_accounts_v1,
        Store.frontier_del_accounts_v1, Store.block_del_accounts_v1]
    · simp only [Store.block_successor_clear_confirmation_height,
        Store.frontier_put_confirmation_height, Store.frontier_del_confirmation_height,
        Store.block_del_confirmation_height]
    · intro hp0
      exact legacy_previous_version env rank N l hI i.head u hu (by rw [hub]; rfl) hp0
    · exact pending_parts_del env l u a i.head l.store _
        { account := b.destination, hash := i.head } rfl rfl
        (by simp only [Store.block_successor_clear_pending_v0, Store.frontier_put_pending_v0,
          Store.frontier_del_pending_v0, Store.block_del_pending_v0, fp0])
        (by simp only [Store.block_successor_clear_pending_v1, Store.frontier_put_pending_v1,
          Store.frontier_del_pending_v1, Store.block_del_pending_v1, fp1])
        hrec rfl

end nano

namespace nano

/-! ## The representative walk ends -/

theorem chained_zero_not_stored (env : Env) (hs : env.sound) (rank : Hash → Nat) (N : Nat)
    (l : ledger) (hI : ledger_chained env rank N l) : l.store.blocks.get 0 = none := by
  cases hb : l.store.blocks.get 0 with
  | none => rfl
  | some r => exact absurd (hI.keyed 0 r hb) (hs.hash_nonzero _)

/-- Below a stored block of height `k` there are `k` stored blocks of its
account. -/
theorem chained_chain_below (env : Env) (rank : Hash → Nat) (N : Nat) (l : ledger)
    (hI : ledger_chained env rank N l) :
    ∀ k c r, l.store.blocks.get c = some r → r.sideband.height = k →
      ∃ S : Finset Hash, S.card = k ∧
        ∀ y ∈ S, ∃ q, l.store.blocks.get y = some q ∧ q.sideband.height ≤ k := by
  intro k
  induction k with
  | zero =>
    intro c r hr hk
    have := chained_pos env rank N l hI c r hr
    omega
  | succ k ih =>
    intro c r hr hk
    by_cases hp : r.block.previous = 0
    · have h1 := hI.first c r hr hp
      have hk0 : k = 0 := by omega
      subst hk0
      refine ⟨{c}, Finset.card_singleton c, ?_⟩
      intro y hy
      rw [Finset.mem_singleton] at hy
      subst hy
      exact ⟨r, hr, by omega⟩
    · obtain ⟨p, hpg, _, hph, _⟩ := hI.prev c r hr hp
      obtain ⟨S, hcard, hS⟩ := ih r.block.previous p hpg (by omega)
      have hc : c ∉ S := by
        intro hin
        obtain ⟨q, hq, hle⟩ := hS c hin
        rw [hr, Option.some.injEq] at hq
        subst hq
        omega
      refine ⟨insert c S, by rw [Finset.card_insert_of_not_mem hc, hcard], ?_⟩
      intro y hy
      rw [Finset.mem_insert] at hy
      rcases hy with hy | hy
      · subst hy
        exact ⟨r, hr, by omega⟩
      · obtain ⟨q, hq, hle⟩ := hS y hy
        exact ⟨q, hq, by omega⟩

theorem chained_height_le_count (env : Env) (rank : Hash → Nat) (N : Nat) (l : ledger)
    (hI : ledger_chained env rank N l) (c : Hash) (r : block_row)
    (hr : l.store.blocks.get c = some r) : r.sideband.height ≤ l.store.block_count := by
  obtain ⟨S, hcard, hS⟩ := chained_chain_below env rank N l hI _ c r hr rfl
  rw [← hcard]
  unfold Store.block_count
  rw [← List.toFinset_card_of_nodup (Map.keys_nodup l.store.blocks)]
  apply Finset.card_le_card
  intro y hy
  obtain ⟨q, hq, _⟩ := hS y hy
  rw [List.mem_toFinset, Map.mem_keys, hq]
  rfl

theorem block_count_le_length (s : Store) : s.block_count ≤ s.blocks.length := by
  unfold Store.block_count Map.keys
  have h := (List.dedup_sublist (s.blocks.map Prod.fst)).length_le
  rw [List.length_map] at h
  exact h

theorem representative_walk_unstored (env : Env) (s : Store) (n : Nat) (c : Hash)
    (hc : s.blocks.get c = none) : representative_walk env s (n + 1) c = .fault := by
  unfold representative_walk Store.block_get
  rw [hc]

theorem representative_walk_ends (env : Env) (hs : env.sound) (rank : Hash → Nat) (N : Nat)
    (l : ledger) (hI : ledger_chained env rank N l) :
    ∀ n c r, l.store.blocks.get c = some r → r.sideband.height < n →
      representative_walk env l.store n c ≠ .out_of_fuel := by
  intro n
  induction n with
  | zero =>
    intro c r _ hlt
    omega
  | succ m ih =>
    intro c r hr hlt
    have hpos := chained_pos env rank N l hI c r hr
    have hstep : ∀ p, r.block.previous = p →
        representative_walk env l.store m p ≠ .out_of_fuel := by
      intro p hp
      by_cases h0 : r.block.previous = 0
      · rw [← hp, h0]
        cases m with
        | zero => omega
        | succ m1 =>
          rw [representative_walk_unstored env l.store m1 0
            (chained_zero_not_stored env hs rank N l hI)]
          exact fun h => Res.noConfusion h
      · obtain ⟨q, hq, _, hqh, _⟩ := hI.prev c r hr h0
        rw [← hp]
        exact ih _ q hq (by omega)
    unfold representative_walk Store.block_get
    rw [hr]
    dsimp only
    cases hb : r.block with
    | send b =>
      dsimp only
      exact hstep b.previous (by rw [hb]; rfl)
    | receive b =>
      dsimp only
      exact hstep b.previous (by rw [hb]; rfl)
    | open_ b =>
      dsimp only
      rw [if_neg (hs.hash_nonzero _)]
      exact fun h => Res.noConfusion h
    | change b =>
      dsimp only
      rw [if_neg (hs.hash_nonzero _)]
      exact fun h => Res.noConfusion h
    | state b =>
      dsimp only
      rw [if_neg (hs.hash_nonzero _)]
      exact fun h => Res.noConfusion h

theorem representative_ends (env : Env) (hs : env.sound) (rank : Hash → Nat) (N : Nat)
    (l : ledger) (hI : ledger_chained env rank N l) (c : Hash) :
    l.representative env c ≠ .out_of_fuel := by
  unfold ledger.representative
  cases hc : l.store.blocks.get c with
  | none =>
    rw [representative_walk_unstored env l.store _ c hc]
    exact fun h => Res.noConfusion h
  | some r =>
    apply representative_walk_ends env hs rank N l hI _ c r hc
    have h1 := chained_height_le_count env rank N l hI c r hc
    have h2 := block_count_le_length l.store
    omega

theorem representative_previous_stored (env : Env) (l : ledger) (c : Hash) (h : Hash)
    (hr : l.representative env c = .ok h) : ∃ r, l.store.blocks.get c = some r := by
  cases hc : l.store.blocks.get c with
  | some r => exact ⟨r, rfl⟩
  | none =>
    unfold ledger.representative at hr
    rw [representative_walk_unstored env l.store _ c hc] at hr
    exact Res.noConfusion hr

/-! ## The inversion of a legacy change block -/

theorem change_block_popped (env : Env) (hs : env.sound) (rank : Hash → Nat) (N : Nat)
    (l : ledger)
    (hI : ledger_chained env rank N l) (a : Account) (i : account_info) (u : block_row)
    (hi : l.store.account_get a = some i) (hu : l.store.blocks.get i.head = some u)
    (b : change_block) (hub : u.block = .change b) (list : List block) :
    (∀ e l1 list1, rollback_visitor.change_block env l list b = .ok (e, l1, list1) →
      e = false ∧ popped env l l1 a i.head u) ∧
    rollback_visitor.change_block env l list b ≠ .out_of_fuel := by
  have hkey : env.hash (.change b) = i.head := by
    have := hI.keyed i.head u hu
    rw [hub] at this
    exact this
  have hua := chained_head_account env rank N l hI a i u hi hu
  have hprev : u.block.previous = b.previous := by
    rw [hub]
    rfl
  have hrec : l.received_from env u = none := by
    unfold ledger.received_from
    rw [hub]
  unfold rollback_visitor.change_block
  dsimp only
  rw [hkey]
  cases hrep : l.representative env b.previous with
  | fault =>
    refine ⟨fun e l1 list1 h => Res.noConfusion h, fun h => Res.noConfusion h⟩
  | out_of_fuel => exact absurd hrep (representative_ends env hs rank N l hI b.previous)
  | ok rep_block =>
    dsimp only
    obtain ⟨p0, hp0g⟩ := representative_previous_stored env l b.previous rep_block hrep
    have hpne : u.block.previous ≠ 0 := by
      intro hz
      rw [hprev] at hz
      rw [hz, chained_zero_not_stored env hs rank N l hI] at hp0g
      exact Option.noConfusion hp0g
    have hacc : l.account b.previous = a := by
      obtain ⟨p, hpg, hpa, _, _⟩ := hI.prev i.head u hu hpne
      rw [hprev] at hpg
      rw [account_of_get l _ p hpg, hpa]
      exact hua
    rw [hacc]
    cases hblock : l.store.block_get rep_block with
    | none =>
      refine ⟨fun e l1 list1 h => Res.noConfusion h, fun h => Res.noConfusion h⟩
    | some block =>
      dsimp only
      cases hcl : ledger.change_latest (l.store.block_del i.head) a (l.account_state a)
          { head := b.previous, representative := block.block.representative,
            open_block := (l.account_state a).open_ } .epoch_0 with
      | none =>
        refine ⟨fun e l1 list1 h => Res.noConfusion h, fun h => Res.noConfusion h⟩
      | some store2 =>
        dsimp only
        refine ⟨?_, fun h => Res.noConfusion h⟩
        intro e l1 list1 h
        simp only [Res.ok.injEq, Prod.mk.injEq] at h
        obtain ⟨he, hl, _⟩ := h
        refine ⟨he.symm, ?_⟩
        subst hl
        obtain ⟨fb, fp0, fp1, _⟩ := change_latest_frame _ _ _ _ _ _ hcl
        rw [← hprev] at hcl
        obtain ⟨_, hoh, hoe, _⟩ := chained_head_rows env rank N l hI a i u hi hu
        refine popped_of_parts env rank N l hI a i u hi hu _ (l.store.block_del i.head)
          store2 _ _ _ .epoch_0 hoh hoe ?_ ⟨?_, ?_, ?_⟩ hcl ⟨?_, ?_, ?_⟩ ?_ ?_
        · intro y
          apply pop_blocks l.store.blocks _ i.head b.previous
          intro y
          rw [block_successor_clear_get]
          simp only [Store.frontier_put_blocks, Store.frontier_del_blocks, block_del_get, fb]
        · simp only [Store.block_del_accounts_v0]
        · simp only [Store.block_del_accounts_v1]
        · simp only [Store.block_del_confirmation_height]
        · simp only [Store.block_successor_clear_accounts_v0, Store.frontier_put_accounts_v0,
            Store.frontier_del_accounts_v0]
        · simp only [Store.block_successor_clear_accounts_v1, Store.frontier_put_accounts_v1,
            Store.frontier_del_accounts_v1]
        · simp only [Store.block_successor_clear_confirmation_height,
            Store.frontier_put_confirmation_height, Store.frontier_del_confirmation_height]
        · intro hp0
          exact legacy_previous_version env rank N l hI i.head u hu (by rw [hub]; rfl) hp0
        · exact pending_parts_same env l u a i.head _
            (by simp only [Store.block_successor_clear_pending_v0, Store.frontier_put_pending_v0,
              Store.frontier_del_pending_v0, fp0, Store.block_del_pending_v0])
            (by simp only [Store.block_successor_clear_pending_v1, Store.frontier_put_pending_v1,
              Store.frontier_del_pending_v1, fp1, Store.block_del_pending_v1])
            hrec

end nano

namespace nano

/-! ## The loops over the destination of a send -/

theorem block_count_pos (l : ledger) (x : Hash) (r : block_row)
    (h : l.store.blocks.get x = some r) : 0 < l.store.block_count := by
  unfold Store.block_count
  apply List.length_pos_of_mem (a := x)
  rw [Map.mem_keys, h]
  rfl

/-- After a rollback above the head of an account, the head, its row and what
the rollback visitor reads of them are as before. -/
theorem rolled_head_facts (env : Env) (hs : env.sound) (rank : Hash → Nat) (N : Nat)
    (l l1 : ledger)
    (hI : ledger_chained env rank N l) (a : Account) (i : account_info) (u : block_row)
    (hi : l.store.account_get a = some i) (hu : l.store.blocks.get i.head = some u)
    (hr : rolled rank (rank i.head + 1) l l1) :
    ∃ u1, l1.store.blocks.get i.head = some u1 ∧ u1.unlinked = u.unlinked ∧
      l1.store.account_get a = some i ∧
      l1.balance u.block.previous = l.balance u.block.previous ∧
      l1.store.confirmation_height.get a = l.store.confirmation_height.get a ∧
      l1.store.block_version u.block.previous = l.store.block_version u.block.previous := by
  have hua := chained_head_account env rank N l hI a i u hi hu
  have hb := hr.below i.head u hu (Nat.lt_succ_self _)
  cases hg : l1.store.blocks.get i.head with
  | none =>
    rw [hg] at hb
    exact Option.noConfusion hb
  | some u1 =>
    rw [hg, Option.map_some', Option.some.injEq] at hb
    obtain ⟨r0, r1⟩ := hr.rows a i hi (Nat.lt_succ_self _)
    have hprev : (l1.store.blocks.get u.block.previous).map block_row.unlinked
        = (l.store.blocks.get u.block.previous).map block_row.unlinked := by
      by_cases hp : u.block.previous = 0
      · rw [hp]
        have h0 := chained_zero_not_stored env hs rank N l hI
        rcases hr.kept 0 with hn | he
        · rw [hn, h0]
        · exact he
      · obtain ⟨p, hpg, hpa, hph, _⟩ := hI.prev i.head u hu hp
        have hrk := hI.rank_chain u.block.previous i.head p u hpg hu hpa (by omega)
        rw [hr.below _ p hpg (by omega), hpg]
        rfl
    refine ⟨u1, rfl, hb, ?_, balance_of_unlinked l1 l _ hprev, ?_, ?_⟩
    · rw [account_get_of_rows _ _ a r0 r1]
      exact hi
    · have := hr.cemented i.head u1 hg
      rw [(unlinked_fields u1 u hb).2.2.1, hua] at this
      exact this
    · unfold Store.block_version Store.block_get
      have h2 := congrArg (fun o => Option.map block_row.epoch o) hprev
      simp only [Option.map_map] at h2
      have hfun : block_row.epoch ∘ block_row.unlinked = block_row.epoch := funext fun _ => rfl
      rw [hfun] at h2
      cases h1 : l1.store.blocks.get u.block.previous with
      | none =>
        cases h0 : l.store.blocks.get u.block.previous with
        | none => rfl
        | some r =>
          rw [h1, h0] at h2
          exact Option.noConfusion h2
      | some r1 =>
        cases h0 : l.store.blocks.get u.block.previous with
        | none =>
          rw [h1, h0] at h2
          exact Option.noConfusion h2
        | some r =>
          rw [h1, h0, Option.map_some', Option.map_some', Option.some.injEq] at h2
          exact h2

/-- One turn of the loop of a send inversion: the pending row is missing, so
a block of the destination received the send; the rollback of the head of the
destination is a rollback above the send, and it removes a block. -/
theorem nested_step (env : Env) (rank : Hash → Nat) (N n : Nat)
    (rb : ledger → Hash → List block → Res rollback_state)
    (hrb : rollback_sound env rank N n rb) (l : ledger) (hI : ledger_chained env rank N l)
    (x : Hash) (u : block_row) (hu : l.store.blocks.get x = some u) (d : Account)
    (hd : l.sent_to u = some d)
    (hpend : l.store.pending_get { account := d, hash := x } = none) (list : List block) :
    (∀ e l1 list1, rb l (l.latest d) list = .ok (e, l1, list1) →
      rolled rank (rank x + 1) l l1 ∧
        (e = false → ledger_chained env rank N l1 ∧
          l1.store.block_count < l.store.block_count)) ∧
    (rb l (l.latest d) list = .out_of_fuel → n < l.store.block_count + (N - rank x)) := by
  obtain ⟨z, q, hq, _, hqa, hlt⟩ := hI.received x u d hu hd hpend
  obtain ⟨j, uj, hj, huj, hle⟩ := hI.top z q hq
  have huja := chained_head_account env rank N l hI _ j uj hj huj
  have hrank := hI.rank_chain z j.head q uj hq huj huja.symm hle
  have hlatest : l.latest d = j.head := by
    unfold ledger.latest
    rw [← hqa, hj]
  rw [hlatest]
  obtain ⟨h1, h2⟩ := hrb l j.head list hI
  constructor
  · intro e l1 list1 h
    obtain ⟨hr, hf⟩ := h1 e l1 list1 h
    refine ⟨rolled_mono rank _ _ l l1 (by omega) hr, fun he => ?_⟩
    obtain ⟨hI1, hgone⟩ := hf he
    exact ⟨hI1, block_count_lt l l1 (rolled_isSome rank _ l l1 hr) j.head
      (by rw [huj]; rfl) hgone⟩
  · intro h
    have h3 := h2 h
    have hb := hI.bound j.head uj huj
    omega

theorem send_loop_sound (env : Env) (hs : env.sound) (rank : Hash → Nat) (N n : Nat)
    (rb : ledger → Hash → List block → Res rollback_state)
    (hrb : rollback_sound env rank N n rb) (a : Account) (i : account_info) (d : Account) :
    ∀ (m : Nat) (l : ledger) (list : List block) (u : block_row),
      ledger_chained env rank N l → l.store.account_get a = some i →
      l.store.blocks.get i.head = some u → l.sent_to u = some d →
      (∀ e l1 list1 p,
        rollback_visitor.send_loop rb { account := d, hash := i.head } d m l list
          = .ok (e, l1, list1, p) →
        rolled rank (rank i.head + 1) l l1 ∧
          (e = false → ledger_chained env rank N l1 ∧
            l1.store.pending_get { account := d, hash := i.head } = p ∧ p ≠ none)) ∧
      (rollback_visitor.send_loop rb { account := d, hash := i.head } d m l list
          = .out_of_fuel →
        m < l.store.block_count ∨ n < l.store.block_count + (N - rank i.head)) := by
  intro m
  induction m with
  | zero =>
    intro l list u hI hi hu hd
    rw [send_loop_eq]
    cases hp : l.store.pending_get { account := d, hash := i.head } with
    | some pending =>
      dsimp only
      refine ⟨?_, fun h => Res.noConfusion h⟩
      intro e l1 list1 p h
      simp only [Res.ok.injEq, Prod.mk.injEq] at h
      obtain ⟨_, hl, _, hpp⟩ := h
      subst hl
      subst hpp
      exact ⟨rolled_refl _ _ _, fun _ => ⟨hI, hp, Option.noConfusion⟩⟩
    | none =>
      dsimp only
      exact ⟨fun e l1 list1 p h => Res.noConfusion h,
        fun _ => Or.inl (block_count_pos l i.head u hu)⟩
  | succ m ih =>
    intro l list u hI hi hu hd
    rw [send_loop_eq]
    cases hp : l.store.pending_get { account := d, hash := i.head } with
    | some pending =>
      dsimp only
      refine ⟨?_, fun h => Res.noConfusion h⟩
      intro e l1 list1 p h
      simp only [Res.ok.injEq, Prod.mk.injEq] at h
      obtain ⟨_, hl, _, hpp⟩ := h
      subst hl
      subst hpp
      exact ⟨rolled_refl _ _ _, fun _ => ⟨hI, hp, Option.noConfusion⟩⟩
    | none =>
      dsimp only
      obtain ⟨s1, s2⟩ := nested_step env rank N n rb hrb l hI i.head u hu d hd hp list
      cases hr : rb l (l.latest d) list with
      | fault =>
        dsimp only
        exact ⟨fun e l1 list1 p h => Res.noConfusion h, fun h => Res.noConfusion h⟩
      | out_of_fuel =>
        dsimp only
        exact ⟨fun e l1 list1 p h => Res.noConfusion h, fun _ => Or.inr (s2 hr)⟩
      | ok v =>
        obtain ⟨e2, l2, list2⟩ := v
        obtain ⟨hr12, hf⟩ := s1 e2 l2 list2 hr
        cases e2 with
        | true =>
          dsimp only
          refine ⟨?_, fun h => Res.noConfusion h⟩
          intro e l1 list1 p h
          simp only [Res.ok.injEq, Prod.mk.injEq] at h
          obtain ⟨he, hl, _, _⟩ := h
          subst hl
          subst he
          exact ⟨hr12, fun hk => Bool.noConfusion hk⟩
        | false =>
          dsimp only
          obtain ⟨hI2, hcount⟩ := hf rfl
          obtain ⟨u2, hu2, huu, hi2, hbal, _, _⟩ :=
            rolled_head_facts env hs rank N l l2 hI a i u hi hu hr12
          have hd2 : l2.sent_to u2 = some d := by
            rw [sent_to_stable l2 l u2 u huu hbal]
            exact hd
          obtain ⟨g1, g2⟩ := ih l2 list2 u2 hI2 hi2 hu2 hd2
          constructor
          · intro e l1 list1 p h
            obtain ⟨hr2, hf2⟩ := g1 e l1 list1 p h
            exact ⟨rolled_trans rank _ l l2 l1 hr12 hr2, hf2⟩
          · intro h
            rcases g2 h with h3 | h3
            · left
              omega
            · right
              omega

theorem state_loop_eq (rb : ledger → Hash → List block → Res rollback_state)
    (key : pending_key) (destination : Account) (fuel : Nat) (l : ledger) (list : List block) :
    rollback_visitor.state_loop rb key destination fuel l list
      = if l.store.pending_exists key then .ok (false, l, list) else
        match fuel with
        | 0 => .out_of_fuel
        | n + 1 =>
          match rb l (l.latest destination) list with
          | .ok (true, l1, list1) => .ok (true, l1, list1)
          | .ok (false, l1, list1) =>
            rollback_visitor.state_loop rb key destination n l1 list1
          | .fault => .fault
          | .out_of_fuel => .out_of_fuel := by
  cases fuel with
  | zero =>
    conv_lhs => rw [rollback_visitor.state_loop.eq_def]
  | succ n =>
    conv_lhs => rw [rollback_visitor.state_loop.eq_def]

theorem state_loop_sound (env : Env) (hs : env.sound) (rank : Hash → Nat) (N n : Nat)
    (rb : ledger → Hash → List block → Res rollback_state)
    (hrb : rollback_sound env rank N n rb) (a : Account) (i : account_info) (d : Account) :
    ∀ (m : Nat) (l : ledger) (list : List block) (u : block_row),
      ledger_chained env rank N l → l.store.account_get a = some i →
      l.store.blocks.get i.head = some u → l.sent_to u = some d →
      (∀ e l1 list1,
        rollback_visitor.state_loop rb { account := d, hash := i.head } d m l list
          = .ok (e, l1, list1) →
        rolled rank (rank i.head + 1) l l1 ∧
          (e = false → ledger_chained env rank N l1)) ∧
      (rollback_visitor.state_loop rb { account := d, hash := i.head } d m l list
          = .out_of_fuel →
        m < l.store.block_count ∨ n < l.store.block_count + (N - rank i.head)) := by
  intro m
  induction m with
  | zero =>
    intro l list u hI hi hu hd
    rw [state_loop_eq]
    by_cases hp : l.store.pending_exists { account := d, hash := i.head } = true
    · rw [if_pos hp]
      refine ⟨?_, fun h => Res.noConfusion h⟩
      intro e l1 list1 h
      simp only [Res.ok.injEq, Prod.mk.injEq] at h
      obtain ⟨_, hl, _⟩ := h
      subst hl
      exact ⟨rolled_refl _ _ _, fun _ => hI⟩
    · rw [if_neg hp]
      dsimp only
      exact ⟨fun e l1 list1 h => Res.noConfusion h,
        fun _ => Or.inl (block_count_pos l i.head u hu)⟩
  | succ m ih =>
    intro l list u hI hi hu hd
    rw [state_loop_eq]
    by_cases hp : l.store.pending_exists { account := d, hash := i.head } = true
    · rw [if_pos hp]
      refine ⟨?_, fun h => Res.noConfusion h⟩
      intro e l1 list1 h
      simp only [Res.ok.injEq, Prod.mk.injEq] at h
      obtain ⟨_, hl, _⟩ := h
      subst hl
      exact ⟨rolled_refl _ _ _, fun _ => hI⟩
    · rw [if_neg hp]
      dsimp only
      have hpn : l.store.pending_get { account := d, hash := i.head } = none := by
        unfold Store.pending_exists at hp
        cases hg : l.store.pending_get { account := d, hash := i.head } with
        | none => rfl
        | some v =>
          rw [hg] at hp
          exact absurd rfl hp
      obtain ⟨s1, s2⟩ := nested_step env rank N n rb hrb l hI i.head u hu d hd hpn list
      cases hr : rb l (l.latest d) list with
      | fault =>
        dsimp only
        exact ⟨fun e l1 list1 h => Res.noConfusion h, fun h => Res.noConfusion h⟩
      | out_of_fuel =>
        dsimp only
        exact ⟨fun e l1 list1 h => Res.noConfusion h, fun _ => Or.inr (s2 hr)⟩
      | ok v =>
        obtain ⟨e2, l2, list2⟩ := v
        obtain ⟨hr12, hf⟩ := s1 e2 l2 list2 hr
        cases e2 with
        | true =>
          dsimp only
          refine ⟨?_, fun h => Res.noConfusion h⟩
          intro e l1 list1 h
          simp only [Res.ok.injEq, Prod.mk.injEq] at h
          obtain ⟨he, hl, _⟩ := h
          subst hl
          subst he
          exact ⟨hr12, fun hk => Bool.noConfusion hk⟩
        | false =>
          dsimp only
          obtain ⟨hI2, hcount⟩ := hf rfl
          obtain ⟨u2, hu2, huu, hi2, hbal, _, _⟩ :=
            rolled_head_facts env hs rank N l l2 hI a i u hi hu hr12
          have hd2 : l2.sent_to u2 = some d := by
            rw [sent_to_stable l2 l u2 u huu hbal]
            exact hd
          obtain ⟨g1, g2⟩ := ih l2 list2 u2 hI2 hi2 hu2 hd2
          constructor
          · intro e l1 list1 h
            obtain ⟨hr2, hf2⟩ := g1 e l1 list1 h
            exact ⟨rolled_trans rank _ l l2 l1 hr12 hr2, hf2⟩
          · intro h
            rcases g2 h with h3 | h3
            · left
              omega
            · right
              omega

end nano

namespace nano

/-! ## The inversion of a state block -/

theorem sent_to_of_store (l l2 : ledger) (h : l2.store = l.store) (r : block_row) :
    l2.sent_to r = l.sent_to r := by
  unfold ledger.sent_to ledger.balance
  rw [h]

theorem received_from_of_store (env : Env) (l l2 : ledger) (h : l2.store = l.store)
    (r : block_row) : l2.received_from env r = l.received_from env r := by
  unfold ledger.received_from ledger.balance
  rw [h]

theorem chained_of_store (env : Env) (rank : Hash → Nat) (N : Nat) (l l2 : ledger)
    (h : l2.store = l.store) (hI : ledger_chained env rank N l) :
    ledger_chained env rank N l2 := by
  refine ⟨?_, ?_, ?_, ?_, ?_, ?_, ?_, ?_, ?_, ?_, ?_, ?_, ?_, ?_⟩
  · rw [h]; exact hI.keyed
  · rw [h]; exact hI.acc0
  · rw [h]; exact hI.acc1
  · rw [h]; exact hI.owner
  · rw [h]; exact hI.top
  · rw [h]; exact hI.inj
  · rw [h]; exact hI.prev
  · rw [h]; exact hI.first
  · rw [h]; exact hI.legacy
  · rw [h]; exact hI.state_account
  · rw [h]; exact hI.pending_src
  · intro x r d hr hd hp
    rw [h] at hr hp
    rw [sent_to_of_store l l2 h] at hd
    obtain ⟨k, q, hq, hrec, hqa, hlt⟩ := hI.received x r d hr hd hp
    refine ⟨k, q, by rw [h]; exact hq, ?_, hqa, hlt⟩
    rw [received_from_of_store env l l2 h]
    exact hrec
  · rw [h]; exact hI.rank_chain
  · rw [h]; exact hI.bound

theorem rolled_of_store (rank : Hash → Nat) (k : Nat) (l l2 l1 : ledger)
    (h : l2.store = l.store) (hr : rolled rank k l2 l1) : rolled rank k l l1 := by
  obtain ⟨h1, h2, h3, h4, h5⟩ := hr
  rw [h] at h1 h2 h3 h4 h5
  exact ⟨h1, h2, h3, h4, h5⟩

theorem change_latest_old (S : Store) (a : Account) (old old2 : account_state)
    (new : account_info) (e : epoch) (hh : old2.head = old.head)
    (he : old2.epoch = old.epoch) :
    ledger.change_latest S a old2 new e = ledger.change_latest S a old new e := by
  unfold ledger.change_latest
  rw [hh, he]

theorem change_latest_off (S S2 : Store) (a : Account) (old : account_state)
    (new : account_info) (e e0 : epoch) (hold : old.head ≠ 0) (hep : old.epoch = some e0)
    (h : ledger.change_latest S a old new e = some S2) :
    (∀ c, c ≠ a → S2.accounts_v0.get c = S.accounts_v0.get c ∧
      S2.accounts_v1.get c = S.accounts_v1.get c ∧
      S2.confirmation_height.get c = S.confirmation_height.get c) ∧
    (new.head ≠ 0 → S2.confirmation_height.get a = S.confirmation_height.get a) := by
  rw [change_latest_pop_eq S a old new e e0 hold hep, Option.some.injEq] at h
  subst h
  by_cases hn : new.head ≠ 0
  · simp only [if_pos hn]
    refine ⟨?_, fun _ => ?_⟩
    · intro c hc
      have hca : ¬ a = c := fun hk => hc hk.symm
      refine ⟨?_, ?_, ?_⟩
      · rw [account_put_get0, if_neg (fun hk => hca hk.2)]
        split
        · rw [account_del_get0, if_neg (fun hk => hca hk.2)]
        · rfl
      · rw [account_put_get1, if_neg (fun hk => hca hk.2)]
        split
        · rw [account_del_get1, if_neg hca]
        · rfl
      · rw [Store.account_put_confirmation_height]
        split
        · rw [Store.account_del_confirmation_height]
        · rfl
    · rw [Store.account_put_confirmation_height]
      split
      · rw [Store.account_del_confirmation_height]
      · rfl
  · simp only [if_neg hn]
    refine ⟨?_, fun hz => absurd hz hn⟩
    intro c hc
    have hca : ¬ a = c := fun hk => hc hk.symm
    refine ⟨?_, ?_, ?_⟩
    · rw [account_del_get0, if_neg (fun hk => hca hk.2)]
      rfl
    · rw [account_del_get1, if_neg hca]
      rfl
    · rw [Store.account_del_confirmation_height]
      unfold Store.confirmation_height_del
      simp only [Map.get_del, if_neg hca]

theorem pop_blocks_rev (B : Map Hash block_row) (T : Store) (x p : Hash)
    (hT : ∀ y, T.blocks.get y = if x = y then none else
      if p = y then
        (B.get p).map (fun r => { r with sideband := { r.sideband with successor := 0 } })
      else B.get y) (y : Hash) :
    (T.blocks.get y).map block_row.unlinked
      = if y = x then none else (B.get y).map block_row.unlinked := by
  rw [hT y]
  by_cases hy : y = x
  · rw [if_pos hy, if_pos hy.symm]
    rfl
  · rw [if_neg hy, if_neg (fun hk => hy hk.symm)]
    by_cases hp : p = y
    · rw [if_pos hp, hp]
      cases B.get y <;> rfl
    · rw [if_neg hp]

theorem finish_middle (S : Store) (p : Hash) (acct : Account) :
    ∃ T : Store, T = (match S.block_get p with
        | some previous =>
          if previous.block.type.rank < block_type.state.rank then
            (S.block_successor_clear p).frontier_put p acct
          else S.block_successor_clear p
        | none => S) ∧
      (∀ y, T.blocks.get y = (S.block_successor_clear p).blocks.get y) ∧
      T.accounts_v0 = S.accounts_v0 ∧ T.accounts_v1 = S.accounts_v1 ∧
      T.confirmation_height = S.confirmation_height ∧
      T.pending_v0 = S.pending_v0 ∧ T.pending_v1 = S.pending_v1 := by
  refine ⟨_, rfl, ?_⟩
  cases hp : S.block_get p with
  | none =>
    dsimp only
    refine ⟨?_, rfl, rfl, rfl, rfl, rfl⟩
    intro y
    unfold Store.block_successor_clear
    unfold Store.block_get at hp
    rw [hp]
  | some previous =>
    dsimp only
    split
    · refine ⟨fun y => ?_, ?_, ?_, ?_, ?_, ?_⟩
      · rw [Store.frontier_put_blocks]
      · rw [Store.frontier_put_accounts_v0, Store.block_successor_clear_accounts_v0]
      · rw [Store.frontier_put_accounts_v1, Store.block_successor_clear_accounts_v1]
      · rw [Store.frontier_put_confirmation_height,
          Store.block_successor_clear_confirmation_height]
      · rw [Store.frontier_put_pending_v0, Store.block_successor_clear_pending_v0]
      · rw [Store.frontier_put_pending_v1, Store.block_successor_clear_pending_v1]
    · exact ⟨fun y => rfl, Store.block_successor_clear_accounts_v0 _ _,
        Store.block_successor_clear_accounts_v1 _ _,
        Store.block_successor_clear_confirmation_height _ _,
        Store.block_successor_clear_pending_v0 _ _,
        Store.block_successor_clear_pending_v1 _ _⟩

/-- The store `state_block_finish` leaves: the block row is deleted, the
other block rows keep all but their successor, the account tables and the
confirmation heights are those `change_latest` left, the pending tables are
untouched. -/
theorem state_finish_frame (env : Env) (l3 : ledger) (b : state_block) (st : account_state)
    (rep : Account) (store : Store)
    (h : rollback_visitor.state_block_finish env l3 b st rep = some store) :
    ∃ S2, ledger.change_latest l3.store b.account st
        { head := b.previous, representative := rep, open_block := st.open_ }
        (l3.store.block_version b.previous) = some S2 ∧
      (∀ y, (store.blocks.get y).map block_row.unlinked
        = if y = env.hash (.state b) then none
          else (l3.store.blocks.get y).map block_row.unlinked) ∧
      store.accounts_v0 = S2.accounts_v0 ∧ store.accounts_v1 = S2.accounts_v1 ∧
      store.confirmation_height = S2.confirmation_height ∧
      store.pending_v0 = l3.store.pending_v0 ∧ store.pending_v1 = l3.store.pending_v1 := by
  unfold rollback_visitor.state_block_finish at h
  dsimp only at h
  split at h
  · exact Option.noConfusion h
  · rename_i S2 hcl
    obtain ⟨T, hT, tb, t0, t1, tc, tp0, tp1⟩ := finish_middle S2 b.previous b.account
    have h2 : some (T.block_del (env.hash (.state b))) = some store := by
      rw [hT]
      exact h
    rw [Option.some.injEq] at h2
    subst h2
    obtain ⟨fb, fp0, fp1, _⟩ := change_latest_frame _ _ _ _ _ _ hcl
    refine ⟨S2, hcl, ?_, ?_, ?_, ?_, ?_, ?_⟩
    · intro y
      apply pop_blocks_rev l3.store.blocks _ (env.hash (.state b)) b.previous
      intro y
      rw [block_del_get, Map.get_del, tb, block_successor_clear_get, fb]
    · rw [Store.block_del_accounts_v0, t0]
    · rw [Store.block_del_accounts_v1, t1]
    · rw [Store.block_del_confirmation_height, tc]
    · rw [Store.block_del_pending_v0, tp0, fp0]
    · rw [Store.block_del_pending_v1, tp1, fp1]

/-- A rollback above the head of an account followed by the removal of that
head is a rollback from the head on. -/
theorem finish_rolled (env : Env) (rank : Hash → Nat) (N : Nat) (l : ledger)
    (hI : ledger_chained env rank N l) (a : Account) (i : account_info) (u : block_row)
    (hi : l.store.account_get a = some i) (hu : l.store.blocks.get i.head = some u)
    (hsafe : ∀ ch, l.store.confirmation_height.get a = some ch → ch < u.sideband.height)
    (l2 lf : ledger) (hr : rolled rank (rank i.head + 1) l l2)
    (hb : ∀ y, (lf.store.blocks.get y).map block_row.unlinked
      = if y = i.head then none else (l2.store.blocks.get y).map block_row.unlinked)
    (hoff : ∀ c, c ≠ a → lf.store.accounts_v0.get c = l2.store.accounts_v0.get c ∧
      lf.store.accounts_v1.get c = l2.store.accounts_v1.get c ∧
      lf.store.confirmation_height.get c = l2.store.confirmation_height.get c)
    (hconf : u.block.previous ≠ 0 →
      lf.store.confirmation_height.get a = l2.store.confirmation_height.get a) :
    rolled rank (rank i.head) l lf := by
  have hua := chained_head_account env rank N l hI a i u hi hu
  have hnone : ∀ y, y ≠ i.head → l2.store.blocks.get y = none →
      lf.store.blocks.get y = none := by
    intro y hy hn
    have h1 := hb y
    rw [if_neg hy, hn] at h1
    cases hg : lf.store.blocks.get y with
    | none => rfl
    | some r =>
      rw [hg] at h1
      exact Option.noConfusion h1
  refine ⟨?_, ?_, ?_, ?_, ?_⟩
  · intro y
    by_cases hy : y = i.head
    · left
      have h1 := hb y
      rw [if_pos hy] at h1
      cases hg : lf.store.blocks.get y with
      | none => rfl
      | some r =>
        rw [hg] at h1
        exact Option.noConfusion h1
    · rcases hr.kept y with hn | he
      · exact Or.inl (hnone y hy hn)
      · right
        have h1 := hb y
        rw [if_neg hy] at h1
        exact h1.trans he
  · intro y rf hrf
    have hy : y ≠ i.head := by
      intro he
      have h1 := hb y
      rw [if_pos he, hrf] at h1
      exact Option.noConfusion h1
    have h1 := hb y
    rw [if_neg hy] at h1
    obtain ⟨r2, hr2, hu2⟩ := unlinked_of_some _ _ rf hrf h1
    obtain ⟨r, hr0, hu0⟩ := rolled_stored rank _ l l2 hr y r2 hr2
    have ha2 := (unlinked_fields rf r2 hu2).2.2.1
    have ha0 := (unlinked_fields r2 r hu0).2.2.1
    have hc2 := hr.cemented y r2 hr2
    rw [ha2, ← hc2]
    by_cases hc : r2.sideband.account = a
    · rw [hc]
      obtain ⟨hp0, _⟩ := chained_below_head env rank N l hI a i u hi hu y r hr0
        (ha0.symm.trans hc) hy
      exact hconf hp0
    · exact (hoff _ hc).2.2
  · intro y r ch hr0 hn hch
    by_cases hy : y = i.head
    · rw [hy, hu, Option.some.injEq] at hr0
      subst hr0
      rw [hua] at hch
      exact hsafe ch hch
    · have h1 := hb y
      rw [if_neg hy, hn] at h1
      cases hg : l2.store.blocks.get y with
      | none => exact hr.spared y r ch hr0 hg hch
      | some r2 =>
        rw [hg] at h1
        exact Option.noConfusion h1
  · intro y r hr0 hlt
    have hy : y ≠ i.head := by
      intro he
      rw [he] at hlt
      omega
    have h1 := hb y
    rw [if_neg hy] at h1
    rw [h1]
    exact hr.below y r hr0 (by omega)
  · intro c j hj hlt
    have hc : c ≠ a := by
      intro he
      rw [he, hi, Option.some.injEq] at hj
      rw [← hj] at hlt
      omega
    obtain ⟨g0, g1⟩ := hr.rows c j hj (by omega)
    obtain ⟨o0, o1, _⟩ := hoff c hc
    exact ⟨o0.trans g0, o1.trans g1⟩

end nano

namespace nano

/-! ## The rollback visitor keeps the invariants -/

theorem popped_gone (env : Env) (l l1 : ledger) (a : Account) (x : Hash) (u : block_row)
    (hp : popped env l l1 a x u) : l1.store.blocks.get x = none := by
  have h := hp.blocks x
  rw [if_pos rfl] at h
  cases hg : l1.store.blocks.get x with
  | none => rfl
  | some r =>
    rw [hg] at h
    exact Option.noConfusion h

/-- What one inversion that ends as `popped` gives the loop of the rollback. -/
theorem popped_sound (env : Env) (rank : Hash → Nat) (N : Nat) (l l1 : ledger) (a : Account)
    (i : account_info) (u : block_row) (hI : ledger_chained env rank N l)
    (hi : l.store.account_get a = some i) (hu : l.store.blocks.get i.head = some u)
    (hsafe : ∀ ch, l.store.confirmation_height.get a = some ch → ch < u.sideband.height)
    (hp : popped env l l1 a i.head u) :
    rolled rank (rank i.head) l l1 ∧ ledger_chained env rank N l1 ∧
      l1.store.blocks.get i.head = none :=
  ⟨popped_rolled env rank N l l1 a i u hI hi hu hp hsafe _ (Nat.le_refl _),
    popped_chained env rank N l l1 a i u hI hi hu hp, popped_gone env l l1 a i.head u hp⟩

theorem state_sent_to (l : ledger) (u : block_row) (b : state_block) (hub : u.block = .state b)
    (h : decide (b.balance < l.balance b.previous) = true) :
    l.sent_to u = some b.link ∧ ∀ env, l.received_from env u = none := by
  have hlt : b.balance < l.balance b.previous := of_decide_eq_true h
  constructor
  · unfold ledger.sent_to
    rw [hub]
    dsimp only
    rw [if_pos hlt]
  · intro env
    unfold ledger.received_from
    rw [hub]
    dsimp only
    rw [if_pos hlt]

theorem state_received_from (env : Env) (l : ledger) (u : block_row) (b : state_block)
    (hub : u.block = .state b) (h : ¬ decide (b.balance < l.balance b.previous) = true) :
    l.received_from env u
      = if b.link ≠ 0 ∧ ¬ ledger.is_epoch_link env b.link then some b.link else none := by
  have hlt : ¬ b.balance < l.balance b.previous := fun hk => h (decide_eq_true hk)
  unfold ledger.received_from
  rw [hub]
  dsimp only
  rw [if_neg hlt]

theorem block_version_congr (s t : Store) (h : s.blocks = t.blocks) (x : Hash) :
    s.block_version x = t.block_version x := by
  unfold Store.block_version Store.block_get
  rw [h]

theorem state_block_sound (env : Env) (hs : env.sound) (rank : Hash → Nat) (N n : Nat)
    (rb : ledger → Hash → List block → Res rollback_state)
    (hrb : rollback_sound env rank N n rb) (l : ledger) (hI : ledger_chained env rank N l)
    (a : Account) (i : account_info) (u : block_row)
    (hi : l.store.account_get a = some i) (hu : l.store.blocks.get i.head = some u)
    (b : state_block) (hub : u.block = .state b)
    (hsafe : ∀ ch, l.store.confirmation_height.get a = some ch → ch < u.sideband.height)
    (list : List block) (res : Res rollback_state)
    (hres : rollback_visitor.state_block env rb n l list b = res) :
    (∀ e l1 list1, res = .ok (e, l1, list1) →
      rolled rank (rank i.head) l l1 ∧
        (e = false → ledger_chained env rank N l1 ∧ l1.store.blocks.get i.head = none)) ∧
    (res = .out_of_fuel → n < l.store.block_count + (N - rank i.head)) := by
  have hkey : env.hash (.state b) = i.head := by
    have := hI.keyed i.head u hu
    rw [hub] at this
    exact this
  have hua := chained_head_account env rank N l hI a i u hi hu
  have hacc : b.account = a := (hI.state_account i.head u b hu hub).trans hua
  have hprev : u.block.previous = b.previous := by
    rw [hub]
    rfl
  obtain ⟨hne0, hoh, hoe, _⟩ := chained_head_rows env rank N l hI a i u hi hu
  unfold rollback_visitor.state_block at hres
  dsimp only at hres
  rw [hkey, hacc] at hres
  split at hres
  · subst hres
    exact ⟨fun _ _ _ h => Res.noConfusion h, fun h => Res.noConfusion h⟩
  · rename_i heq
    exfalso
    split at heq
    · exact representative_ends env hs rank N l hI b.previous heq
    · exact Res.noConfusion heq
  · split at hres
    · subst hres
      exact ⟨fun _ _ _ h => Res.noConfusion h, fun h => Res.noConfusion h⟩
    · rename_i representative rw2 hmoved
      split at hres
      · subst hres
        exact ⟨fun _ _ _ h => Res.noConfusion h, fun h => Res.noConfusion h⟩
      · rename_i hap
        subst hres
        refine ⟨fun _ _ _ h => Res.noConfusion h, fun _ => ?_⟩
        split at hap
        · rename_i hsend
          obtain ⟨hd, _⟩ := state_sent_to l u b hub hsend
          split at hap
          · exact Res.noConfusion hap
          · exact Res.noConfusion hap
          · rename_i hloop
            have hI2 := chained_of_store env rank N l
              { store := l.store, rep_weights := rw2,
                check_bootstrap_weights := l.check_bootstrap_weights } rfl hI
            obtain ⟨_, g2⟩ := state_loop_sound env hs rank N n rb hrb a i b.link n
              { store := l.store, rep_weights := rw2,
                check_bootstrap_weights := l.check_bootstrap_weights } list u hI2 hi hu
              ((sent_to_of_store l _ rfl u).trans hd)
            rcases g2 hloop with h3 | h3
            · have : l.store.block_count ≤ l.store.block_count + (N - rank i.head) :=
                Nat.le_add_right _ _
              exact Nat.lt_of_lt_of_le h3 this
            · exact h3
        · split at hap
          · exact Res.noConfusion hap
          · exact Res.noConfusion hap
      · rename_i e l3 list3 hap
        split at hres
        · subst hres
          exact ⟨fun _ _ _ h => Res.noConfusion h, fun h => Res.noConfusion h⟩
        · rename_i store hfin
          subst hres
          refine ⟨?_, fun h => Res.noConfusion h⟩
          intro e1 l1 list1 hok
          simp only [Res.ok.injEq, Prod.mk.injEq] at hok
          obtain ⟨he1, hl1, _⟩ := hok
          subst he1
          subst hl1
          obtain ⟨S2, hcl, fb, f0, f1, fc, fp0, fp1⟩ :=
            state_finish_frame env l3 b _ representative store hfin
          rw [hacc] at hcl
          rw [hkey] at fb
          split at hap
          · rename_i hsend
            obtain ⟨hd, hrec⟩ := state_sent_to l u b hub hsend
            split at hap
            · rename_i e2 l2 list2 hloop
              simp only [Res.ok.injEq, Prod.mk.injEq] at hap
              obtain ⟨he2, hl3, _⟩ := hap
              subst he2
              subst hl3
              have hI2 := chained_of_store env rank N l
                { store := l.store, rep_weights := rw2,
                  check_bootstrap_weights := l.check_bootstrap_weights } rfl hI
              obtain ⟨g1, _⟩ := state_loop_sound env hs rank N n rb hrb a i b.link n
                { store := l.store, rep_weights := rw2,
                  check_bootstrap_weights := l.check_bootstrap_weights } list u hI2 hi hu
                ((sent_to_of_store l _ rfl u).trans hd)
              obtain ⟨hr2, hf⟩ := g1 e2 l2 list2 hloop
              have hr := rolled_of_store rank _ l
                { store := l.store, rep_weights := rw2,
                  check_bootstrap_weights := l.check_bootstrap_weights } l2 rfl hr2
              obtain ⟨hoff, hconf⟩ := change_latest_off _ S2 a _ _ _ u.epoch
                (by
                  show (l.account_state a).head ≠ 0
                  rw [hoh]
                  exact hne0)
                hoe hcl
              simp only [Store.pending_del_accounts_v0, Store.pending_del_accounts_v1,
                Store.pending_del_confirmation_height] at hoff hconf
              simp only [Store.pending_del_blocks] at fb
              rw [← f0, ← f1, ← fc] at hoff
              rw [← fc] at hconf
              refine ⟨finish_rolled env rank N l hI a i u hi hu hsafe l2 _ hr fb hoff
                (fun hp0 => hconf (by rw [← hprev]; exact hp0)), fun he => ?_⟩
              obtain ⟨u2, hu2, huu, hi2, hbal, _, hver⟩ :=
                rolled_head_facts env hs rank N l l2 hI a i u hi hu hr
              have hIl2 := hf he
              obtain ⟨hblk, hep2, _⟩ := unlinked_fields u2 u huu
              have hprev2 : u2.block.previous = b.previous := by
                rw [hblk]
                exact hprev
              have hp : popped env l2
                  { store := store, rep_weights := l2.rep_weights,
                    check_bootstrap_weights := l2.check_bootstrap_weights } a i.head u2 := by
                refine popped_of_parts env rank N l2 hIl2 a i u2 hi2 hu2 _
                  (l2.store.pending_del { account := b.link, hash := i.head }) S2 _ _ _ _
                  hoh (by rw [hep2]; exact hoe) fb ⟨?_, ?_, ?_⟩ (by rw [hprev2]; exact hcl)
                  ⟨f0, f1, fc⟩ ?_ ?_
                · simp only [Store.pending_del_accounts_v0]
                · simp only [Store.pending_del_accounts_v1]
                · simp only [Store.pending_del_confirmation_height]
                · intro _
                  rw [hprev2]
                  exact block_version_congr _ _ (Store.pending_del_blocks _ _) _
                · refine pending_parts_del env l2 u2 a i.head l2.store store
                    { account := b.link, hash := i.head } rfl rfl fp0 fp1 ?_ rfl
                  rw [received_from_stable env l2 l u2 u huu (by rw [hprev] at hbal ⊢; exact hbal)]
                  exact hrec env
              exact ⟨popped_chained env rank N l2 _ a i u2 hIl2 hi2 hu2 hp,
                popped_gone env l2 _ a i.head u2 hp⟩
            · exact Res.noConfusion hap
            · exact Res.noConfusion hap
          · rename_i hsend
            have hrec := state_received_from env l u b hub hsend
            split at hap
            · rename_i hlink
              simp only [Res.ok.injEq, Prod.mk.injEq] at hap
              obtain ⟨he2, hl3, _⟩ := hap
              subst he2
              subst hl3
              rw [if_pos hlink] at hrec
              simp only [Store.pending_put_blocks] at fb
              have hp : popped env l
                  { store := store, rep_weights := rw2,
                    check_bootstrap_weights := l.check_bootstrap_weights } a i.head u := by
                refine popped_of_parts env rank N l hI a i u hi hu _
                  (l.store.pending_put { account := a, hash := b.link }
                    { source := l.account b.link,
                      amount := sub128 b.balance (l.balance b.previous),
                      epoch := l.store.block_version b.link }) S2 _ _ _ _
                  hoh hoe fb ⟨?_, ?_, ?_⟩ (by rw [hprev]; exact hcl) ⟨f0, f1, fc⟩ ?_ ?_
                · simp only [Store.pending_put_accounts_v0]
                · simp only [Store.pending_put_accounts_v1]
                · simp only [Store.pending_put_confirmation_height]
                · intro _
                  rw [hprev]
                  exact block_version_congr _ _ (Store.pending_put_blocks _ _ _) _
                · exact pending_parts_put env l u a i.head l.store store
                    { account := a, hash := b.link }
                    { source := l.account b.link,
                      amount := sub128 b.balance (l.balance b.previous),
                      epoch := l.store.block_version b.link } rfl rfl fp0 fp1 hrec rfl rfl
              obtain ⟨h1, h2, h3⟩ := popped_sound env rank N l _ a i u hI hi hu hsafe hp
              exact ⟨h1, fun _ => ⟨h2, h3⟩⟩
            · rename_i hlink
              simp only [Res.ok.injEq, Prod.mk.injEq] at hap
              obtain ⟨he2, hl3, _⟩ := hap
              subst he2
              subst hl3
              rw [if_neg hlink] at hrec
              have hp : popped env l
                  { store := store, rep_weights := rw2,
                    check_bootstrap_weights := l.check_bootstrap_weights } a i.head u := by
                refine popped_of_parts env rank N l hI a i u hi hu _ l.store S2 _ _ _ _
                  hoh hoe fb ⟨rfl, rfl, rfl⟩ (by rw [hprev]; exact hcl) ⟨f0, f1, fc⟩ ?_ ?_
                · intro _
                  rw [hprev]
                · exact pending_parts_same env l u a i.head store fp0 fp1 hrec
              obtain ⟨h1, h2, h3⟩ := popped_sound env rank N l _ a i u hI hi hu hsafe hp
              exact ⟨h1, fun _ => ⟨h2, h3⟩⟩

end nano

namespace nano

/-! ## The rollback keeps the invariants and ends -/

theorem send_block_sound (env : Env) (hs : env.sound) (rank : Hash → Nat) (N n : Nat)
    (rb : ledger → Hash → List block → Res rollback_state)
    (hrb : rollback_sound env rank N n rb) (l : ledger) (hI : ledger_chained env rank N l)
    (a : Account) (i : account_info) (u : block_row)
    (hi : l.store.account_get a = some i) (hu : l.store.blocks.get i.head = some u)
    (b : send_block) (hub : u.block = .send b)
    (hsafe : ∀ ch, l.store.confirmation_height.get a = some ch → ch < u.sideband.height)
    (list : List block) :
    (∀ e l1 list1, rollback_visitor.send_block env rb n l list b = .ok (e, l1, list1) →
      rolled rank (rank i.head) l l1 ∧
        (e = false → ledger_chained env rank N l1 ∧ l1.store.blocks.get i.head = none)) ∧
    (rollback_visitor.send_block env rb n l list b = .out_of_fuel →
      n < l.store.block_count + (N - rank i.head)) := by
  have hkey : env.hash (.send b) = i.head := by
    have := hI.keyed i.head u hu
    rw [hub] at this
    exact this
  have hd : l.sent_to u = some b.destination := by
    unfold ledger.sent_to
    rw [hub]
  obtain ⟨g1, g2⟩ := send_loop_sound env hs rank N n rb hrb a i b.destination n l list u
    hI hi hu hd
  cases hloop : rollback_visitor.send_loop rb { account := b.destination, hash := i.head }
      b.destination n l list with
  | fault =>
    unfold rollback_visitor.send_block
    dsimp only
    rw [hkey, hloop]
    exact ⟨fun _ _ _ h => Res.noConfusion h, fun h => Res.noConfusion h⟩
  | out_of_fuel =>
    unfold rollback_visitor.send_block
    dsimp only
    rw [hkey, hloop]
    refine ⟨fun _ _ _ h => Res.noConfusion h, fun _ => ?_⟩
    rcases g2 hloop with h3 | h3
    · exact Nat.lt_of_lt_of_le h3 (Nat.le_add_right _ _)
    · exact h3
  | ok v =>
    obtain ⟨e2, l2, list2, p⟩ := v
    obtain ⟨hr, hf⟩ := g1 e2 l2 list2 p hloop
    have hr0 := rolled_mono rank _ (rank i.head) l l2 (Nat.le_succ _) hr
    have herr : ∀ (e0 : Bool) (q : Option pending_info), (e0 = true ∨ q = none) →
        rollback_visitor.send_loop rb { account := b.destination, hash := i.head }
          b.destination n l list = .ok (e0, l2, list2, q) →
        rollback_visitor.send_block env rb n l list b = .ok (true, l2, list2) := by
      intro e0 q hq hl
      unfold rollback_visitor.send_block
      dsimp only
      rw [hkey, hl]
      cases e0 <;> cases q <;> first
        | rfl
        | (rcases hq with hq | hq
           · exact Bool.noConfusion hq
           · exact Option.noConfusion hq)
    have hdone : rollback_visitor.send_block env rb n l list b = .ok (true, l2, list2) →
        (∀ e l1 list1, rollback_visitor.send_block env rb n l list b = .ok (e, l1, list1) →
          rolled rank (rank i.head) l l1 ∧
            (e = false → ledger_chained env rank N l1 ∧ l1.store.blocks.get i.head = none)) ∧
        (rollback_visitor.send_block env rb n l list b = .out_of_fuel →
          n < l.store.block_count + (N - rank i.head)) := by
      intro hsb
      rw [hsb]
      refine ⟨?_, fun h => Res.noConfusion h⟩
      intro e l1 list1 h
      simp only [Res.ok.injEq, Prod.mk.injEq] at h
      obtain ⟨he, hl, _⟩ := h
      subst he
      subst hl
      exact ⟨hr0, fun hk => Bool.noConfusion hk⟩
    cases p with
    | none => exact hdone (herr e2 none (Or.inr rfl) hloop)
    | some pending =>
      cases e2 with
      | true => exact hdone (herr true _ (Or.inl rfl) hloop)
      | false =>
        obtain ⟨hI2, hpend, _⟩ := hf rfl
        obtain ⟨u2, hu2, huu, hi2, _, hconf, _⟩ :=
          rolled_head_facts env hs rank N l l2 hI a i u hi hu hr
        obtain ⟨hblk, _, _, hh, _⟩ := unlinked_fields u2 u huu
        rw [← hkey] at hloop hpend
        obtain ⟨q1, q2⟩ := send_block_popped env rank N rb n l list l2 hI2 a i u2 hi2 hu2 b
          (hblk.trans hub) list2 pending hloop hpend
        refine ⟨?_, fun h => absurd h q2⟩
        intro e l1 list1 h
        obtain ⟨he, hp⟩ := q1 e l1 list1 h
        obtain ⟨h1, h2, h3⟩ := popped_sound env rank N l2 l1 a i u2 hI2 hi2 hu2
          (by rw [hconf, hh]; exact hsafe) hp
        exact ⟨rolled_trans rank _ l l2 l1 hr0 h1, fun _ => ⟨h2, h3⟩⟩

theorem visit_sound (env : Env) (hs : env.sound) (rank : Hash → Nat) (N n : Nat)
    (rb : ledger → Hash → List block → Res rollback_state)
    (hrb : rollback_sound env rank N n rb) (l : ledger) (hI : ledger_chained env rank N l)
    (a : Account) (i : account_info) (u : block_row)
    (hi : l.store.account_get a = some i) (hu : l.store.blocks.get i.head = some u)
    (hsafe : ∀ ch, l.store.confirmation_height.get a = some ch → ch < u.sideband.height)
    (list : List block) :
    (∀ e l1 list1, rollback_visitor.visit env rb n l list u.block = .ok (e, l1, list1) →
      rolled rank (rank i.head) l l1 ∧
        (e = false → ledger_chained env rank N l1 ∧ l1.store.blocks.get i.head = none)) ∧
    (rollback_visitor.visit env rb n l list u.block = .out_of_fuel →
      n < l.store.block_count + (N - rank i.head)) := by
  cases hub : u.block with
  | send b =>
    exact send_block_sound env hs rank N n rb hrb l hI a i u hi hu b hub hsafe list
  | receive b =>
    obtain ⟨q1, q2⟩ := receive_block_popped env rank N l hI a i u hi hu b hub list
    refine ⟨?_, fun h => absurd h q2⟩
    intro e l1 list1 h
    obtain ⟨_, hp⟩ := q1 e l1 list1 h
    obtain ⟨h1, h2, h3⟩ := popped_sound env rank N l l1 a i u hI hi hu hsafe hp
    exact ⟨h1, fun _ => ⟨h2, h3⟩⟩
  | open_ b =>
    obtain ⟨q1, q2⟩ := open_block_popped env rank N l hI a i u hi hu b hub list
    refine ⟨?_, fun h => absurd h q2⟩
    intro e l1 list1 h
    obtain ⟨_, hp⟩ := q1 e l1 list1 h
    obtain ⟨h1, h2, h3⟩ := popped_sound env rank N l l1 a i u hI hi hu hsafe hp
    exact ⟨h1, fun _ => ⟨h2, h3⟩⟩
  | change b =>
    obtain ⟨q1, q2⟩ := change_block_popped env hs rank N l hI a i u hi hu b hub list
    refine ⟨?_, fun h => absurd h q2⟩
    intro e l1 list1 h
    obtain ⟨_, hp⟩ := q1 e l1 list1 h
    obtain ⟨h1, h2, h3⟩ := popped_sound env rank N l l1 a i u hI hi hu hsafe hp
    exact ⟨h1, fun _ => ⟨h2, h3⟩⟩
  | state b =>
    exact state_block_sound env hs rank N n rb hrb l hI a i u hi hu b hub hsafe list _ rfl

theorem rollback_while_eq (visit : ledger → List block → block → Res rollback_state)
    (block_a : Hash) (account_l : Account) (block_account_height : Nat) (fuel : Nat)
    (l : ledger) (list : List block) (info : account_info) :
    ledger.rollback_while visit block_a account_l block_account_height fuel l list info
      = if ¬ l.store.block_exists block_a then .ok (false, l, list) else
        match fuel with
        | 0 => .out_of_fuel
        | n + 1 =>
          match l.store.confirmation_height_get account_l with
          | none => .fault
          | some confirmation_height =>
            if block_account_height > confirmation_height then
              match l.store.block_get ((l.store.account_get account_l).getD info).head with
              | none => .fault
              | some row =>
                match visit l (list ++ [row.block]) row.block with
                | .ok (true, l1, list1) => .ok (true, l1, list1)
                | .ok (false, l1, list1) =>
                  ledger.rollback_while visit block_a account_l block_account_height n l1 list1
                    ((l.store.account_get account_l).getD info)
                | .fault => .fault
                | .out_of_fuel => .out_of_fuel
            else .ok (true, l, list) := by
  cases fuel with
  | zero =>
    conv_lhs => rw [ledger.rollback_while.eq_def]
  | succ n =>
    conv_lhs => rw [ledger.rollback_while.eq_def]

theorem rollback_while_sound (env : Env) (hs : env.sound) (rank : Hash → Nat) (N n : Nat)
    (rb : ledger → Hash → List block → Res rollback_state)
    (hrb : rollback_sound env rank N n rb) (t : Hash) (a : Account) (H : Nat) :
    ∀ (m : Nat) (l : ledger) (list : List block) (info : account_info),
      ledger_chained env rank N l →
      (∀ r, l.store.blocks.get t = some r → r.sideband.account = a ∧ r.sideband.height = H) →
      (∀ e l1 list1,
        ledger.rollback_while (rollback_visitor.visit env rb n) t a H m l list info
          = .ok (e, l1, list1) →
        rolled rank (rank t) l l1 ∧
          (e = false → ledger_chained env rank N l1 ∧ l1.store.blocks.get t = none)) ∧
      (ledger.rollback_while (rollback_visitor.visit env rb n) t a H m l list info
          = .out_of_fuel →
        m < l.store.block_count ∨ n < l.store.block_count + (N - rank t)) := by
  intro m
  induction m with
  | zero =>
    intro l list info hI ht
    rw [rollback_while_eq]
    by_cases hex : l.store.block_exists t = true
    · rw [if_neg (not_not.mpr hex)]
      dsimp only
      refine ⟨fun _ _ _ h => Res.noConfusion h, fun _ => Or.inl ?_⟩
      unfold Store.block_exists Store.block_get at hex
      cases hg : l.store.blocks.get t with
      | none =>
        rw [hg] at hex
        exact absurd hex Bool.false_ne_true
      | some r => exact block_count_pos l t r hg
    · rw [if_pos hex]
      refine ⟨?_, fun h => Res.noConfusion h⟩
      intro e l1 list1 h
      simp only [Res.ok.injEq, Prod.mk.injEq] at h
      obtain ⟨_, hl, _⟩ := h
      subst hl
      refine ⟨rolled_refl _ _ _, fun _ => ⟨hI, ?_⟩⟩
      unfold Store.block_exists Store.block_get at hex
      cases hg : l.store.blocks.get t with
      | none => rfl
      | some r =>
        rw [hg] at hex
        exact absurd rfl hex
  | succ m ih =>
    intro l list info hI ht
    rw [rollback_while_eq]
    by_cases hex : l.store.block_exists t = true
    · rw [if_neg (not_not.mpr hex)]
      dsimp only
      unfold Store.block_exists Store.block_get at hex
      cases hg : l.store.blocks.get t with
      | none =>
        rw [hg] at hex
        exact absurd hex Bool.false_ne_true
      | some rt =>
        obtain ⟨hta, hth⟩ := ht rt hg
        cases hch : l.store.confirmation_height_get a with
        | none =>
          dsimp only
          exact ⟨fun _ _ _ h => Res.noConfusion h, fun h => Res.noConfusion h⟩
        | some ch =>
          dsimp only
          by_cases hgt : H > ch
          · rw [if_pos hgt]
            obtain ⟨i, u, hi, hu, hle⟩ := hI.top t rt hg
            rw [hta] at hi
            rw [hi]
            simp only [Option.getD_some]
            unfold Store.block_get
            rw [hu]
            dsimp only
            have hua := chained_head_account env rank N l hI a i u hi hu
            have hrk := hI.rank_chain t i.head rt u hg hu (hta.trans hua.symm) hle
            have hsafe : ∀ c, l.store.confirmation_height.get a = some c →
                c < u.sideband.height := by
              intro c hc
              unfold Store.confirmation_height_get at hch
              rw [hch, Option.some.injEq] at hc
              omega
            obtain ⟨v1, v2⟩ := visit_sound env hs rank N n rb hrb l hI a i u hi hu hsafe
              (list ++ [u.block])
            cases hv : rollback_visitor.visit env rb n l (list ++ [u.block]) u.block with
            | fault =>
              dsimp only
              exact ⟨fun _ _ _ h => Res.noConfusion h, fun h => Res.noConfusion h⟩
            | out_of_fuel =>
              dsimp only
              refine ⟨fun _ _ _ h => Res.noConfusion h, fun _ => Or.inr ?_⟩
              have := v2 hv
              omega
            | ok v =>
              obtain ⟨e2, l2, list2⟩ := v
              obtain ⟨hr, hf⟩ := v1 e2 l2 list2 hv
              have hr0 := rolled_mono rank _ (rank t) l l2 hrk hr
              cases e2 with
              | true =>
                dsimp only
                refine ⟨?_, fun h => Res.noConfusion h⟩
                intro e l1 list1 h
                simp only [Res.ok.injEq, Prod.mk.injEq] at h
                obtain ⟨he, hl, _⟩ := h
                subst he
                subst hl
                exact ⟨hr0, fun hk => Bool.noConfusion hk⟩
              | false =>
                dsimp only
                obtain ⟨hI2, hgone⟩ := hf rfl
                have hcount : l2.store.block_count < l.store.block_count :=
                  block_count_lt l l2 (rolled_isSome rank _ l l2 hr) i.head
                    (by rw [hu]; rfl) hgone
                have ht2 : ∀ r, l2.store.blocks.get t = some r →
                    r.sideband.account = a ∧ r.sideband.height = H := by
                  intro r hr2
                  obtain ⟨r0, hr0g, huu⟩ := rolled_stored rank _ l l2 hr t r hr2
                  rw [hg, Option.some.injEq] at hr0g
                  subst hr0g
                  obtain ⟨_, _, h3, h4, _⟩ := unlinked_fields r rt huu
                  exact ⟨h3.trans hta, h4.trans hth⟩
                obtain ⟨w1, w2⟩ := ih l2 list2 i hI2 ht2
                constructor
                · intro e l1 list1 h
                  obtain ⟨hr2, hf2⟩ := w1 e l1 list1 h
                  exact ⟨rolled_trans rank _ l l2 l1 hr0 hr2, hf2⟩
                · intro h
                  rcases w2 h with h3 | h3
                  · left
                    omega
                  · right
                    omega
          · rw [if_neg hgt]
            refine ⟨?_, fun h => Res.noConfusion h⟩
            intro e l1 list1 h
            simp only [Res.ok.injEq, Prod.mk.injEq] at h
            obtain ⟨he, hl, _⟩ := h
            subst he
            subst hl
            exact ⟨rolled_refl _ _ _, fun hk => Bool.noConfusion hk⟩
    · rw [if_pos hex]
      refine ⟨?_, fun h => Res.noConfusion h⟩
      intro e l1 list1 h
      simp only [Res.ok.injEq, Prod.mk.injEq] at h
      obtain ⟨_, hl, _⟩ := h
      subst hl
      refine ⟨rolled_refl _ _ _, fun _ => ⟨hI, ?_⟩⟩
      unfold Store.block_exists Store.block_get at hex
      cases hg : l.store.blocks.get t with
      | none => rfl
      | some r =>
        rw [hg] at hex
        exact absurd rfl hex

/-- From a ledger that satisfies the invariants, `ledger::rollback` with any
budget gives a ledger rolled back from the target on, and runs out of budget
only when the budget is not above the number of stored blocks plus the
distance of the target from the top of the causal order. -/
theorem rollback_is_sound (env : Env) (hs : env.sound) (rank : Hash → Nat) (N : Nat) :
    ∀ n, rollback_sound env rank N n (ledger.rollback env n) := by
  intro n
  induction n with
  | zero =>
    intro l t list _
    unfold ledger.rollback
    exact ⟨fun _ _ _ h => Res.noConfusion h, fun _ => Nat.zero_le _⟩
  | succ n ih =>
    intro l t list hI
    unfold ledger.rollback
    dsimp only
    have ht : ∀ r, l.store.blocks.get t = some r →
        r.sideband.account = l.account t ∧
          r.sideband.height = l.store.block_account_height t := by
      intro r hr
      unfold ledger.account Store.block_account Store.block_account_height Store.block_get
      rw [hr]
      exact ⟨rfl, rfl⟩
    obtain ⟨w1, w2⟩ := rollback_while_sound env hs rank N n (ledger.rollback env n) ih t
      (l.account t) (l.store.block_account_height t) n l list account_info.default hI ht
    refine ⟨w1, fun h => ?_⟩
    rcases w2 h with h3 | h3
    · omega
    · omega

end nano

namespace nano

/-! ## Checking the rollback invariants on a given ledger -/

theorem Map.mem_of_get {K V : Type} [DecidableEq K] (m : Map K V) (k : K) (v : V)
    (h : m.get k = some v) : (k, v) ∈ m := by
  induction m with
  | nil =>
    simp only [Map.get] at h
    exact Option.noConfusion h
  | cons p m ih =>
    obtain ⟨k1, v1⟩ := p
    rw [Map.get] at h
    by_cases hk : k1 = k
    · rw [if_pos hk, Option.some.injEq] at h
      rw [hk, h]
      exact List.mem_cons_self _ _
    · rw [if_neg hk] at h
      exact List.mem_cons_of_mem _ (ih h)

theorem chained_of_check (env : Env) (rank : Hash → Nat) (N : Nat) (l : ledger)
    (h : chained_check env rank N l = true) : ledger_chained env rank N l := by
  unfold chained_check at h
  simp only [Bool.and_eq_true, List.all_eq_true] at h
  obtain ⟨⟨⟨⟨hb, h0⟩, h1⟩, hp0⟩, hp1⟩ := h
  have hblock : ∀ x r, l.store.blocks.get x = some r →
      check_block env rank N l (x, r) = true :=
    fun x r hr => (hb (x, r) (Map.mem_of_get _ _ _ hr)).1
  have hpair : ∀ x y r q, l.store.blocks.get x = some r → l.store.blocks.get y = some q →
      check_pair rank (x, r) (y, q) = true :=
    fun x y r q hr hq => (hb (x, r) (Map.mem_of_get _ _ _ hr)).2 (y, q)
      (Map.mem_of_get _ _ _ hq)
  have hacc0 : ∀ a i, l.store.accounts_v0.get a = some i →
      l.store.accounts_v1.get a = none ∧ i.head ≠ 0 ∧
        ∃ u, l.store.blocks.get i.head = some u ∧ u.sideband.account = a ∧
          u.epoch = .epoch_0 := by
    intro a i hi
    have hc := h0 (a, i) (Map.mem_of_get _ _ _ hi)
    unfold check_account at hc
    simp only [Bool.and_eq_true, Bool.false_eq_true, if_false, decide_eq_true_eq,
      Option.isNone_iff_eq_none] at hc
    obtain ⟨⟨g1, g2⟩, g3⟩ := hc
    cases hu : l.store.blocks.get i.head with
    | none =>
      rw [hu] at g3
      exact absurd g3 Bool.false_ne_true
    | some u =>
      rw [hu] at g3
      simp only [Bool.and_eq_true, decide_eq_true_eq] at g3
      exact ⟨g1, g2, u, rfl, g3.1, g3.2⟩
  have hacc1 : ∀ a i, l.store.accounts_v1.get a = some i →
      l.store.accounts_v0.get a = none ∧ i.head ≠ 0 ∧
        ∃ u, l.store.blocks.get i.head = some u ∧ u.sideband.account = a ∧
          u.epoch ≠ .epoch_0 := by
    intro a i hi
    have hc := h1 (a, i) (Map.mem_of_get _ _ _ hi)
    unfold check_account at hc
    simp only [Bool.and_eq_true, if_true, decide_eq_true_eq,
      Option.isNone_iff_eq_none] at hc
    obtain ⟨⟨g1, g2⟩, g3⟩ := hc
    cases hu : l.store.blocks.get i.head with
    | none =>
      rw [hu] at g3
      exact absurd g3 Bool.false_ne_true
    | some u =>
      rw [hu] at g3
      simp only [Bool.and_eq_true, decide_eq_true_eq] at g3
      exact ⟨g1, g2, u, rfl, g3.1, g3.2⟩
  refine ⟨?_, ?_, ?_, ?_, ?_, ?_, ?_, ?_, ?_, ?_, ?_, ?_, ?_, ?_⟩
  · -- keyed
    intro x r hr
    have hc := hblock x r hr
    unfold check_block at hc
    simp only [Bool.and_eq_true, decide_eq_true_eq] at hc
    exact hc.1.1.1.1.1.1
  · -- acc0
    intro a i hi
    obtain ⟨g1, g2, u, hu, _, he⟩ := hacc0 a i hi
    exact ⟨g1, g2, by rw [hu, Option.map_some', he]⟩
  · -- acc1
    intro a i hi
    obtain ⟨g1, g2, u, hu, _, he⟩ := hacc1 a i hi
    exact ⟨g1, g2, u.epoch, by rw [hu, Option.map_some'], he⟩
  · -- owner
    intro a i hi
    rw [account_get_of_tables] at hi
    cases hv1 : l.store.accounts_v1.get a with
    | some j =>
      rw [hv1] at hi
      simp only [Option.some.injEq] at hi
      subst hi
      obtain ⟨_, _, u, hu, hua, _⟩ := hacc1 a j hv1
      rw [hu, Option.map_some', hua]
    | none =>
      rw [hv1] at hi
      obtain ⟨_, _, u, hu, hua, _⟩ := hacc0 a i hi
      rw [hu, Option.map_some', hua]
  · -- top
    intro x r hr
    have hc := hblock x r hr
    unfold check_block at hc
    simp only [Bool.and_eq_true, decide_eq_true_eq] at hc
    have ht := hc.1.1.1.1.1.2
    cases hi : l.store.account_get r.sideband.account with
    | none =>
      rw [hi] at ht
      exact absurd ht Bool.false_ne_true
    | some i =>
      rw [hi] at ht
      dsimp only at ht
      cases hu : l.store.blocks.get i.head with
      | none =>
        rw [hu] at ht
        exact absurd ht Bool.false_ne_true
      | some u =>
        rw [hu] at ht
        exact ⟨i, u, rfl, hu, of_decide_eq_true ht⟩
  · -- inj
    intro x y r q hr hq ha hh
    have hc := hpair x y r q hr hq
    unfold check_pair at hc
    simp only [Bool.and_eq_true, Bool.or_eq_true, Bool.not_eq_true', Bool.and_eq_false_imp,
      decide_eq_true_eq, decide_eq_false_iff_not] at hc
    rcases hc.1 with h3 | h3
    · exact absurd hh (h3 ha)
    · exact h3
  · -- prev
    intro x r hr hp
    have hc := hblock x r hr
    unfold check_block at hc
    simp only [Bool.and_eq_true, decide_eq_true_eq] at hc
    have ht := hc.1.1.1.1.2
    rw [if_neg hp] at ht
    cases hq : l.store.blocks.get r.block.previous with
    | none =>
      rw [hq] at ht
      exact absurd ht Bool.false_ne_true
    | some q =>
      rw [hq] at ht
      simp only [Bool.and_eq_true, Bool.or_eq_true, Bool.not_eq_true', decide_eq_true_eq] at ht
      refine ⟨q, rfl, ht.1.1, ht.1.2, fun hv => ?_⟩
      rcases ht.2 with h3 | h3
      · rw [hv] at h3
        exact Bool.noConfusion h3
      · exact h3
  · -- first
    intro x r hr hp
    have hc := hblock x r hr
    unfold check_block at hc
    simp only [Bool.and_eq_true, decide_eq_true_eq] at hc
    have ht := hc.1.1.1.1.2
    rw [if_pos hp] at ht
    exact of_decide_eq_true ht
  · -- legacy
    intro x r hr hv
    have hc := hblock x r hr
    unfold check_block at hc
    simp only [Bool.and_eq_true, decide_eq_true_eq, Bool.or_eq_true, Bool.not_eq_true'] at hc
    rcases hc.1.1.1.2 with h3 | h3
    · rw [hv] at h3
      exact Bool.noConfusion h3
    · exact h3
  · -- state_account
    intro x r b hr hb2
    have hc := hblock x r hr
    unfold check_block at hc
    simp only [Bool.and_eq_true, decide_eq_true_eq] at hc
    have ht := hc.1.1.2
    rw [hb2] at ht
    exact of_decide_eq_true ht
  · -- pending_src
    intro t k row r hrow hr
    have hc : check_pending l (k, row) = true := by
      cases t
      · exact hp0 (k, row) (Map.mem_of_get _ _ _ hrow)
      · exact hp1 (k, row) (Map.mem_of_get _ _ _ hrow)
    unfold check_pending at hc
    dsimp only at hc
    rw [hr] at hc
    exact of_decide_eq_true hc
  · -- received
    intro x r d hr hd hpend
    have hc := hblock x r hr
    unfold check_block at hc
    simp only [Bool.and_eq_true, decide_eq_true_eq] at hc
    have ht := hc.1.2
    rw [hd] at ht
    dsimp only at ht
    rw [hpend] at ht
    simp only [Option.isSome_none, Bool.false_or, List.any_eq_true, Bool.and_eq_true,
      decide_eq_true_eq] at ht
    obtain ⟨q, _, ⟨⟨hq1, hq2⟩, hq3⟩, hq4⟩ := ht
    exact ⟨q.1, q.2, hq1, hq2, hq3, hq4⟩
  · -- rank_chain
    intro x y r q hr hq ha hh
    have hc := hpair x y r q hr hq
    unfold check_pair at hc
    simp only [Bool.and_eq_true, Bool.or_eq_true, Bool.not_eq_true', Bool.and_eq_false_imp,
      decide_eq_true_eq, decide_eq_false_iff_not] at hc
    rcases hc.2 with h3 | h3
    · exact absurd hh (h3 ha)
    · exact h3
  · -- bound
    intro x r hr
    have hc := hblock x r hr
    unfold check_block at hc
    simp only [Bool.and_eq_true, decide_eq_true_eq] at hc
    exact hc.2

end nano

namespace nano

/-! ## C34 and C37: the rollback spares cemented blocks and ends -/

theorem cemented_opened_chained :
    ledger_chained example_net.env example_net.order 2 example_net.cemented_opened_ledger :=
  chained_of_check _ _ _ _ (by decide)

/-- C34: in every state that satisfies the ledger invariants `ledger_chained`,
among them that block heights increase by one from 1 along each account chain,
a rollback that returns, with or without error, nested rollbacks of
destination accounts included, leaves every block whose height is at or below
the confirmation height of its account in the block table (with its row
unchanged but for the successor link), and leaves no block that was not
stored before; and when it returns no error the target is no longer stored. -/
theorem rollback_spares_cemented_blocks (env : Env) (hs : env.sound) (rank : Hash → Nat)
    (N : Nat) (l : ledger) (hI : ledger_chained env rank N l) (t : Hash) (list : List block)
    (fuel : Nat) (e : Bool) (l1 : ledger) (list1 : List block)
    (h : ledger.rollback env fuel l t list = .ok (e, l1, list1)) :
    (∀ x r ch, l.store.blocks.get x = some r →
      l.store.confirmation_height.get r.sideband.account = some ch →
      r.sideband.height ≤ ch →
      ∃ r1, l1.store.blocks.get x = some r1 ∧ r1.unlinked = r.unlinked) ∧
    (∀ x, (l1.store.blocks.get x).isSome = true → (l.store.blocks.get x).isSome = true) ∧
    (e = false → l1.store.block_exists t = false) := by
  obtain ⟨hr, hf⟩ := (rollback_is_sound env hs rank N fuel l t list hI).1 e l1 list1 h
  refine ⟨?_, rolled_isSome rank _ l l1 hr, ?_⟩
  · intro x r ch hr0 hch hle
    cases hg : l1.store.blocks.get x with
    | none =>
      have := hr.spared x r ch hr0 hg hch
      omega
    | some r1 =>
      obtain ⟨r0, hr1, hu⟩ := rolled_stored rank _ l l1 hr x r1 hg
      rw [hr0, Option.some.injEq] at hr1
      subst hr1
      exact ⟨r1, rfl, hu⟩
  · intro he
    unfold Store.block_exists Store.block_get
    rw [(hf he).2]
    rfl

theorem rollback_spares_cemented_blocks_witness :
    ledger.rollback example_net.env 8 example_net.cemented_opened_ledger
        (example_net.hash (.send example_net.send_1)) []
      = .ok (false,
          example_net.after_rollback example_net.cemented_opened_ledger
            (example_net.hash (.send example_net.send_1)),
          example_net.rolled_back_list example_net.cemented_opened_ledger
            (example_net.hash (.send example_net.send_1))) ∧
    ((∀ x r ch, example_net.cemented_opened_ledger.store.blocks.get x = some r →
        example_net.cemented_opened_ledger.store.confirmation_height.get r.sideband.account
          = some ch →
        r.sideband.height ≤ ch →
        ∃ r1, (example_net.after_rollback example_net.cemented_opened_ledger
            (example_net.hash (.send example_net.send_1))).store.blocks.get x = some r1 ∧
          r1.unlinked = r.unlinked) ∧
      (∀ x, ((example_net.after_rollback example_net.cemented_opened_ledger
            (example_net.hash (.send example_net.send_1))).store.blocks.get x).isSome = true →
        (example_net.cemented_opened_ledger.store.blocks.get x).isSome = true) ∧
      (false = false →
        (example_net.after_rollback example_net.cemented_opened_ledger
          (example_net.hash (.send example_net.send_1))).store.block_exists
            (example_net.hash (.send example_net.send_1)) = false)) :=
  ⟨by decide,
    rollback_spares_cemented_blocks example_net.env example_net_sound example_net.order 2
      example_net.cemented_opened_ledger cemented_opened_chained
      (example_net.hash (.send example_net.send_1)) [] 8 false
      (example_net.after_rollback example_net.cemented_opened_ledger
        (example_net.hash (.send example_net.send_1)))
      (example_net.rolled_back_list example_net.cemented_opened_ledger
        (example_net.hash (.send example_net.send_1))) (by decide)⟩

/-- C37: for every ledger that satisfies the ledger invariants
`ledger_chained` (with a causal order of the stored blocks bounded by `N`) and
every stored target, `ledger::rollback` ends: with a budget above the number of
stored blocks plus `N` it never runs out of budget, in the loop over the
account of the target or in the nested loops over the destination of a send,
so it returns or stops at a failed assertion; and when it returns, the number
of stored blocks has not grown and has dropped when there is no error. -/
theorem rollback_terminates (env : Env) (hs : env.sound) (rank : Hash → Nat) (N : Nat)
    (l : ledger) (hI : ledger_chained env rank N l) (t : Hash)
    (ht : l.store.block_exists t = true) (list : List block) (fuel : Nat)
    (hfuel : l.store.block_count + N < fuel) :
    ((∃ e l1 list1, ledger.rollback env fuel l t list = .ok (e, l1, list1)) ∨
      ledger.rollback env fuel l t list = .fault) ∧
    (∀ e l1 list1, ledger.rollback env fuel l t list = .ok (e, l1, list1) →
      l1.store.block_count ≤ l.store.block_count ∧
        (e = false → l1.store.block_count < l.store.block_count)) := by
  obtain ⟨g1, g2⟩ := rollback_is_sound env hs rank N fuel l t list hI
  constructor
  · cases hres : ledger.rollback env fuel l t list with
    | ok v =>
      obtain ⟨e, l1, list1⟩ := v
      exact Or.inl ⟨e, l1, list1, rfl⟩
    | fault => exact Or.inr rfl
    | out_of_fuel =>
      have := g2 hres
      omega
  · intro e l1 list1 h
    obtain ⟨hr, hf⟩ := g1 e l1 list1 h
    refine ⟨block_count_le l l1 (rolled_isSome rank _ l l1 hr), fun he => ?_⟩
    unfold Store.block_exists Store.block_get at ht
    exact block_count_lt l l1 (rolled_isSome rank _ l l1 hr) t ht (hf he).2

theorem rollback_terminates_witness :
    example_net.cemented_opened_ledger.store.block_exists
        (example_net.hash (.open_ example_net.open_2)) = true ∧
    example_net.cemented_opened_ledger.store.block_count + 2 < 8 ∧
    (((∃ e l1 list1, ledger.rollback example_net.env 8 example_net.cemented_opened_ledger
          (example_net.hash (.open_ example_net.open_2)) [] = .ok (e, l1, list1)) ∨
        ledger.rollback example_net.env 8 example_net.cemented_opened_ledger
          (example_net.hash (.open_ example_net.open_2)) [] = .fault) ∧
      (∀ e l1 list1, ledger.rollback example_net.env 8 example_net.cemented_opened_ledger
          (example_net.hash (.open_ example_net.open_2)) [] = .ok (e, l1, list1) →
        l1.store.block_count ≤ example_net.cemented_opened_ledger.store.block_count ∧
          (e = false →
            l1.store.block_count < example_net.cemented_opened_ledger.store.block_count))) :=
  ⟨by decide, by decide,
    rollback_terminates example_net.env example_net_sound example_net.order 2
      example_net.cemented_opened_ledger cemented_opened_chained
      (example_net.hash (.open_ example_net.open_2)) (by decide) [] 8 (by decide)⟩

end nano

namespace nano

/-! ## The rollback invariants on the example ledgers -/

theorem received_ledger_chained :
    ledger_chained example_net.env example_net.order_received 4 example_net.received_ledger :=
  chained_of_check _ _ _ _ (by decide)

theorem state_opened_ledger_chained :
    ledger_chained example_net.env example_net.order_state 2
      example_net.state_opened_ledger :=
  chained_of_check _ _ _ _ (by decide)

theorem cemented_3_ledger_chained :
    ledger_chained example_net.env example_net.order_state 2 example_net.cemented_3_ledger :=
  chained_of_check _ _ _ _ (by decide)

theorem upgraded_ledger_chained :
    ledger_chained example_net.env example_net.order_upgraded 1 example_net.upgraded_ledger :=
  chained_of_check _ _ _ _ (by decide)

/-- The ledger with the epoch block of account 9 on top of a block of genesis
does not satisfy the invariants, whatever the causal order: the previous block
of that epoch block belongs to another account. -/
theorem stray_ledger_not_chained (rank : Hash → Nat) (N : Nat) :
    ¬ ledger_chained example_net.env rank N example_net.stray_ledger := by
  intro hI
  cases hg : example_net.stray_ledger.store.blocks.get
      (example_net.hash (.state example_net.epoch_first_9)) with
  | none => exact absurd hg (by decide)
  | some r =>
    have hr : r.block = .state example_net.epoch_first_9 ∧ r.sideband.account = 9 := by
      have h2 : example_net.stray_ledger.store.blocks.get
          (example_net.hash (.state example_net.epoch_first_9))
          = some (block_row.mk (.state example_net.epoch_first_9)
              (block_sideband.mk .state 9 0 0 1 0) .epoch_1) := by decide
      rw [h2, Option.some.injEq] at hg
      rw [← hg]
      exact ⟨rfl, rfl⟩
    obtain ⟨p, hp, hpa, _⟩ := hI.prev _ r hg (by rw [hr.1]; decide)
    rw [hr.1] at hp
    have h3 : (example_net.stray_ledger.store.blocks.get
        (block.state example_net.epoch_first_9).previous).map (fun q => q.sideband.account)
        = some 1 := by decide
    rw [hp, Option.map_some', Option.some.injEq, hpa, hr.2] at h3
    exact absurd h3 (by decide)

end nano
